import Mathlib

/-!
# Graph library: data model and edge operations

A shallow embedding of `graph.hpp` / `Graph.cpp` / `MinHeap.hpp` / `Algorithms.cpp`.

Conventions of the embedding

* A `Vertex*` is modelled by the index of the vertex in `adjList`; this index is also the
  value of the vertex's `data` field (set once by the constructor and never written again),
  so `p->data` for a pointer `p` is the index itself and pointer equality is index equality.
* A singly linked list (`Edge::next`) is a `List`, head first.
* `numVertices` is the length of `adjList` (the array is allocated with exactly that many
  entries and never resized).
* A member function that can throw returns the pair of what it returned (or the exception)
  and the state of the receiver when control leaves the function, so that mutations made
  before a `throw` remain visible.
-/

set_option autoImplicit false

namespace graph

/-- The exception classes thrown by the library. -/
inductive Err where
  | invalid_argument
  | out_of_range
  | runtime_error
  | overflow_error
  deriving DecidableEq, Repr

deriving instance DecidableEq for Except

/-- Graph edge node (`struct Edge`); `next` is the tail of the list holding the record. -/
structure Edge where
  weight : Int
  src : Nat
  dest : Nat
  deriving DecidableEq, Repr

/-- Graph vertex node (`struct Vertex`); the unused `next` pointer is left out. -/
structure Vertex where
  data : Int
  edges : List Edge
  father : Option Nat
  distance : Int
  deriving DecidableEq, Repr

/-- `Vertex(int val)`. -/
def Vertex.new (val : Int) : Vertex :=
  { data := val, edges := [], father := none, distance := 0 }

/-- Undirected weighted graph (`class Graph`). -/
structure Graph where
  adjList : List Vertex
  deriving DecidableEq, Repr

namespace Graph

/-- The public field `numVertices`. -/
def numVertices (g : Graph) : Int := g.adjList.length

/-- `Graph::Graph(int vertices)`. -/
def new (vertices : Int) : Except Err Graph :=
  if vertices < 0 then .error .invalid_argument
  else .ok ⟨(List.range vertices.toNat).map fun (i : Nat) => Vertex.new (i : Int)⟩

/-- The adjacency list `adjList[i]->edges` (empty when there is no such vertex). -/
def edgesOf (g : Graph) (i : Nat) : List Edge :=
  match g.adjList[i]? with
  | some v => v.edges
  | none => []

/-- Overwrite `adjList[i]->edges`. -/
def setEdges (g : Graph) (i : Nat) (es : List Edge) : Graph :=
  match g.adjList[i]? with
  | some v => ⟨g.adjList.set i { v with edges := es }⟩
  | none => g

/-- `Graph::addDirectedEdge`. -/
def addDirectedEdge (g : Graph) (frm toV weight : Int) : Except Err Unit × Graph :=
  if frm < 0 ∨ frm ≥ g.numVertices ∨ toV < 0 ∨ toV ≥ g.numVertices then
    (.error .out_of_range, g)
  else
    (.ok (), g.setEdges frm.toNat (⟨weight, frm.toNat, toV.toNat⟩ :: g.edgesOf frm.toNat))

/-- `Graph::addEdge`. -/
def addEdge (g : Graph) (indU indV weight1 : Int) : Except Err Unit × Graph :=
  if indU < 0 ∨ indU ≥ g.numVertices ∨ indV < 0 ∨ indV ≥ g.numVertices then
    (.error .out_of_range, g)
  else if weight1 ≤ 0 then
    (.error .invalid_argument, g)
  else
    match g.addDirectedEdge indU indV weight1 with
    | (.error e, g1) => (.error e, g1)
    | (.ok (), g1) => g1.addDirectedEdge indV indU weight1

/-- One scan-and-unlink loop of `removeEdge`: walks the list until the first record whose
destination is `v`, unlinks it and stops. Returns the `found` flag and the list afterwards. -/
def unlinkFirst (v : Nat) : List Edge → Bool × List Edge
  | [] => (false, [])
  | current :: rest =>
    if current.dest = v then (true, rest)
    else
      let r := unlinkFirst v rest
      (r.1, current :: r.2)

/-- `Graph::removeEdge`. -/
def removeEdge (g : Graph) (u v : Int) : Except Err Unit × Graph :=
  if u < 0 ∨ u ≥ g.numVertices ∨ v < 0 ∨ v ≥ g.numVertices then
    (.error .out_of_range, g)
  else
    let r1 := unlinkFirst v.toNat (g.edgesOf u.toNat)
    let g1 := g.setEdges u.toNat r1.2
    let r2 := unlinkFirst u.toNat (g1.edgesOf v.toNat)
    let g2 := g1.setEdges v.toNat r2.2
    if !r1.1 || !r2.1 then (.error .runtime_error, g2) else (.ok (), g2)

/-- The weights of the records `u -> v` in `u`'s adjacency list, in list order. -/
def weightsTo (g : Graph) (u v : Nat) : List Int :=
  ((g.edgesOf u).filter fun e => e.dest = v).map Edge.weight

/-- The graphs obtained from a constructor call by `addEdge` and `removeEdge` calls, whether
the calls return or throw. -/
inductive Built : Graph → Prop
  | new (n : Int) (g : Graph) : Graph.new n = .ok g → Built g
  | addEdge (g : Graph) (u v w : Int) : Built g → Built (g.addEdge u v w).2
  | removeEdge (g : Graph) (u v : Int) : Built g → Built (g.removeEdge u v).2

/-- The symmetry invariant: the weights of the records `u -> v` and of the records `v -> u`
agree as sequences. -/
def Symmetric (g : Graph) : Prop := ∀ u v : Nat, g.weightsTo u v = g.weightsTo v u

/-- The field `adjList[i]->distance` (0 when there is no such vertex). -/
def distanceOf (g : Graph) (i : Nat) : Int :=
  match g.adjList[i]? with
  | some v => v.distance
  | none => 0

/-- The field `adjList[i]->father` (null when there is no such vertex). -/
def fatherOf (g : Graph) (i : Nat) : Option Nat :=
  match g.adjList[i]? with
  | some v => v.father
  | none => none

/-- Overwrite `adjList[i]->distance`. -/
def setDistance (g : Graph) (i : Nat) (d : Int) : Graph :=
  match g.adjList[i]? with
  | some v => ⟨g.adjList.set i { v with distance := d }⟩
  | none => g

/-- Overwrite `adjList[i]->father`. -/
def setFather (g : Graph) (i : Nat) (f : Option Nat) : Graph :=
  match g.adjList[i]? with
  | some v => ⟨g.adjList.set i { v with father := f }⟩
  | none => g

/-- `Graph::find`, with the depth of the recursion bounded by `fuel`; `none` when the bound
is hit. Returns the representative and the graph after path compression. -/
def findAux : Nat → Graph → Nat → Option (Nat × Graph)
  | 0, _, _ => none
  | fuel + 1, g, v =>
    let g1 := if g.fatherOf v = none then g.setFather v (some v) else g
    match g1.fatherOf v with
    | none => none
    | some f =>
      if f ≠ v then
        match findAux fuel g1 f with
        | none => none
        | some (r, g2) => some (r, g2.setFather v (some r))
      else some (f, g1)

/-- `Graph::find`. A chain of distinct father links visits at most `numVertices` vertices, so
the recursion is given that depth (plus one); `none` stands for a recursion that does not
return (the father links form a cycle). -/
def find (g : Graph) (v : Nat) : Option (Nat × Graph) :=
  findAux (g.adjList.length + 1) g v

/-- `Graph::unionSets`. -/
def unionSets (g : Graph) (u v : Nat) : Option (Bool × Graph) :=
  match g.find u with
  | none => none
  | some (ru, g1) =>
    match g1.find v with
    | none => none
    | some (rv, g2) =>
      if ru = rv then some (false, g2)
      else some (true, g2.setFather ru (some rv))

/-- `countEdges` of `graph.hpp`: the records whose source index is smaller than their
destination index. -/
def countEdges (g : Graph) : Nat :=
  ((List.range g.adjList.length).map fun u =>
    ((g.edgesOf u).filter fun e => decide (u < e.dest)).length).sum

end Graph

/-! ## MinHeap -/

/-- `MinHeap<T, Compare>`: `data_` holds the `size_` constructed slots of the buffer, root
first; the comparator is passed to each operation (a `VertexCompare` reads the live
`distance` fields). -/
structure MinHeap (T : Type) where
  data_ : List T
  capacity_ : Nat
  deriving Repr

namespace MinHeap

variable {T : Type}

/-- `MinHeap()`. -/
def empty : MinHeap T := ⟨[], 0⟩

/-- `size()`. -/
def size (h : MinHeap T) : Nat := h.data_.length

/-- `isEmpty()`. -/
def isEmpty (h : MinHeap T) : Bool := h.size == 0

/-- `isFull()`. -/
def isFull (h : MinHeap T) : Bool := h.size == h.capacity_

/-- `swapVals(data_[i], data_[j])`. -/
def swapVals (d : List T) (i j : Nat) : List T :=
  match d[i]?, d[j]? with
  | some a, some b => (d.set i b).set j a
  | _, _ => d

/-- `grow()`. -/
def grow (h : MinHeap T) : MinHeap T :=
  { h with capacity_ := if h.capacity_ = 0 then 1 else h.capacity_ * 2 }

/-- The loop of `siftUp`, at most `fuel` iterations. -/
def siftUpAux (cmp : T → T → Bool) : Nat → List T → Nat → List T
  | 0, d, _ => d
  | fuel + 1, d, i =>
    if 0 < i then
      match d[i]?, d[(i - 1) / 2]? with
      | some x, some y =>
        if cmp x y then siftUpAux cmp fuel (swapVals d i ((i - 1) / 2)) ((i - 1) / 2) else d
      | _, _ => d
    else d

/-- `siftUp(i)`: the index at least halves at each iteration, so `i` iterations suffice. -/
def siftUp (cmp : T → T → Bool) (d : List T) (i : Nat) : List T :=
  siftUpAux cmp i d i

/-- One statement `if (c < size_ && cmp_(data_[c], data_[best])) best = c;` of `siftDown`:
the new value of `best`. -/
def smaller (cmp : T → T → Bool) (d : List T) (c best : Nat) : Nat :=
  match d[c]?, d[best]? with
  | some x, some y => if cmp x y then c else best
  | _, _ => best

/-- The index `best` computed by one iteration of `siftDown`. -/
def bestChild (cmp : T → T → Bool) (d : List T) (i : Nat) : Nat :=
  smaller cmp d (2 * i + 1 + 1) (smaller cmp d (2 * i + 1) i)

/-- The loop of `siftDown`, at most `fuel` iterations. -/
def siftDownAux (cmp : T → T → Bool) : Nat → List T → Nat → List T
  | 0, d, _ => d
  | fuel + 1, d, i =>
    if bestChild cmp d i = i then d
    else siftDownAux cmp fuel (swapVals d i (bestChild cmp d i)) (bestChild cmp d i)

/-- `siftDown(i)`: the index grows at each iteration and stays below `size_`. -/
def siftDown (cmp : T → T → Bool) (d : List T) (i : Nat) : List T :=
  siftDownAux cmp d.length d i

/-- `insert(v)`. -/
def insert (cmp : T → T → Bool) (h : MinHeap T) (v : T) : MinHeap T :=
  let h1 := if h.size = h.capacity_ then h.grow else h
  { h1 with data_ := siftUp cmp (h1.data_ ++ [v]) h1.data_.length }

/-- `extractMin()`. -/
def extractMin (cmp : T → T → Bool) (h : MinHeap T) : Except Err T × MinHeap T :=
  match h.data_ with
  | [] => (.error .runtime_error, h)
  | root :: rest =>
    match rest.getLast? with
    | none => (.ok root, { h with data_ := [] })
    | some last => (.ok root, { h with data_ := siftDown cmp (last :: rest.dropLast) 0 })

/-- `peek()`. -/
def peek (h : MinHeap T) : Except Err T :=
  match h.data_ with
  | [] => .error .runtime_error
  | root :: _ => .ok root

/-- `contains(v)`. -/
def contains [DecidableEq T] (h : MinHeap T) (v : T) : Bool :=
  decide (h.data_.indexOf v < h.size)

/-- `decreaseKey(val)`: `indexOf` is the first index holding a value equal to `val`. -/
def decreaseKey [DecidableEq T] (cmp : T → T → Bool) (h : MinHeap T) (val : T) :
    Except Err Unit × MinHeap T :=
  if h.data_.indexOf val < h.size then
    (.ok (), { h with data_ := siftUp cmp h.data_ (h.data_.indexOf val) })
  else (.error .runtime_error, h)

/-- Heap order of the array `d` under the comparator `cmp`: no element compares smaller than
the element at its parent index `(j - 1) / 2`. -/
def HeapOrdered (cmp : T → T → Bool) (d : List T) : Prop :=
  ∀ j x y, 0 < j → d[j]? = some x → d[(j - 1) / 2]? = some y → cmp x y = false

/-- Slot `j` of `d` is in order with its parent slot, for the key `key`. -/
def OrdAt (key : T → Int) (d : List T) (j : Nat) : Prop :=
  ∀ x y, d[j]? = some x → d[(j - 1) / 2]? = some y → key y ≤ key x

/-- The state of the array during `siftUp(i)`: every slot but `i` is in order with its
parent, and the children of `i` are in order with the parent of `i`. -/
def AlmostUp (key : T → Int) (d : List T) (i : Nat) : Prop :=
  (∀ j, 0 < j → j ≠ i → OrdAt key d j) ∧
  (∀ c x y, 0 < i → (c - 1) / 2 = i → 0 < c → d[c]? = some x → d[(i - 1) / 2]? = some y →
    key y ≤ key x)

/-- The state of the array during `siftDown(i)`: every slot whose parent is not `i` is in
order with its parent, and the children of `i` are in order with the parent of `i`. -/
def AlmostDown (key : T → Int) (d : List T) (i : Nat) : Prop :=
  (∀ j, 0 < j → (j - 1) / 2 ≠ i → OrdAt key d j) ∧
  (∀ c x y, 0 < i → (c - 1) / 2 = i → 0 < c → d[c]? = some x → d[(i - 1) / 2]? = some y →
    key y ≤ key x)

end MinHeap

/-- `edgeheap::HeapEdge`. -/
structure HeapEdge where
  frm : Nat
  toV : Nat
  weight : Int
  deriving DecidableEq, Repr

/-- `edgeheap::EdgeCompare`. -/
def EdgeCompare (a b : HeapEdge) : Bool := decide (a.weight < b.weight)

/-- `vertexheap::VertexCompare`, reading the `distance` fields of the graph `g`. -/
def VertexCompare (g : Graph) (a b : Nat) : Bool := decide (g.distanceOf a < g.distanceOf b)

/-- `INT_MAX` for the 32-bit `int`. -/
def INT_MAX : Int := 2147483647

/-- The value of an `int` expression whose mathematical value is `x`, with two's-complement
wrap-around on 32 bits. -/
def wrapInt (x : Int) : Int := (x + 2147483648) % 4294967296 - 2147483648

/-! ## Paths and shortest distances -/

namespace Graph

/-- A path of `g` from `a` to `b`, as the list of the edge records it follows: each record
lies in the adjacency list of the vertex at which the previous one ends. -/
def IsPath (g : Graph) : Nat → Nat → List Edge → Prop
  | a, b, [] => a = b
  | a, b, e :: p => e ∈ g.edgesOf a ∧ IsPath g e.dest b p

/-- Every record points to a vertex of the graph. -/
def WellFormed (g : Graph) : Prop :=
  ∀ v ∈ g.adjList, ∀ e ∈ v.edges, e.dest < g.adjList.length

/-- Every record has a non-negative weight. -/
def NonNegative (g : Graph) : Prop :=
  ∀ v ∈ g.adjList, ∀ e ∈ v.edges, 0 ≤ e.weight

end Graph

/-- The total weight of a path. -/
def pathWeight (p : List Edge) : Int := (p.map Edge.weight).sum

/-- The value `d` is the minimum total weight of a path of `g` from `s` to `v`. -/
def IsMinDist (g : Graph) (s v : Nat) (d : Int) : Prop :=
  (∃ p, g.IsPath s v p ∧ pathWeight p = d) ∧ ∀ p, g.IsPath s v p → d ≤ pathWeight p

/-- No relaxation sum reaches `INT_MAX`: a minimum-weight path from `s` followed by one more
record, back edges included, weighs less than `INT_MAX` (these are the sums `dijkstra`
computes). -/
def NoOverflow (g : Graph) (s : Nat) : Prop :=
  ∀ u d, IsMinDist g s u d → ∀ e ∈ g.edgesOf u, d + e.weight < INT_MAX

/-- The state of `dijkstra` on the input graph `g0` with source `s`: `g` carries the scratch
fields, `heap` is the heap array, `u` is the vertex extracted last and `pending` the records
of `u` not yet relaxed. -/
structure DInv (g0 : Graph) (s : Nat) (g : Graph) (heap : List Nat) (visited : List Bool)
    (u : Nat) (pending : List Edge) : Prop where
  len : g.adjList.length = g0.adjList.length
  edges : ∀ i, g.edgesOf i = g0.edgesOf i
  vlen : visited.length = g0.adjList.length
  nodup : heap.Nodup
  mem : ∀ v, v ∈ heap ↔ (v < g0.adjList.length ∧ visited.getD v false = false)
  ord : MinHeap.HeapOrdered (VertexCompare g) heap
  src : g.distanceOf s = 0
  reach : ∀ v, v < g0.adjList.length →
    g.distanceOf v = INT_MAX ∨ ∃ p, g0.IsPath s v p ∧ pathWeight p = g.distanceOf v
  done : ∀ x, visited.getD x false = true → IsMinDist g0 s x (g.distanceOf x)
  relaxed : ∀ x, visited.getD x false = true → ∀ e ∈ g0.edgesOf x, (x = u → e ∉ pending) →
    g.distanceOf e.dest ≤ g.distanceOf x + e.weight
  mono : ∀ x y, visited.getD x false = true → y < g0.adjList.length →
    visited.getD y false = false → g.distanceOf x ≤ g.distanceOf y
  last : ∀ x, visited.getD x false = true → g.distanceOf x ≤ g.distanceOf u
  father : ∀ v p, g.fatherOf v = some p → p < g0.adjList.length

/-! ## Algorithms -/

/-- `relaxEdge(u, e, heap)`. -/
def relaxEdge (g : Graph) (heap : MinHeap Nat) (u : Nat) (e : Edge) :
    Except Err Unit × Graph × MinHeap Nat :=
  let v := e.dest
  let alt := wrapInt (g.distanceOf u + e.weight)
  if alt < g.distanceOf v then
    let g1 := (g.setDistance v alt).setFather v (some u)
    let r := heap.decreaseKey (VertexCompare g1) v
    (r.1, g1, r.2)
  else (.ok (), g, heap)

/-- The loop `for (Edge* e = u->edges; e; e = e->next) relaxEdge(u, e, heap);` over the
remaining records `es`. -/
def relaxAll (u : Nat) : List Edge → Graph → MinHeap Nat → Except Err Unit × Graph × MinHeap Nat
  | [], g, heap => (.ok (), g, heap)
  | e :: es, g, heap =>
    match relaxEdge g heap u e with
    | (.error err, g1, h1) => (.error err, g1, h1)
    | (.ok (), g1, h1) => relaxAll u es g1 h1

/-- The initialisation loop of `dijkstra` and `prim` over the vertices `is`. -/
def resetScratch (g : Graph) (is : List Nat) : Graph :=
  is.foldl (fun g i => (g.setDistance i INT_MAX).setFather i none) g

/-- The loop `for (i...) heap.insert(g.adjList[i]);`. -/
def insertAll (g : Graph) (is : List Nat) (heap : MinHeap Nat) : MinHeap Nat :=
  is.foldl (fun h i => h.insert (VertexCompare g) i) heap

/-- The main loop of `dijkstra`, at most `fuel` iterations (`none` when `fuel` runs out). -/
def dijkstraLoop : Nat → Graph → MinHeap Nat → List Bool → Option (Except Err Unit × Graph)
  | 0, _, _, _ => none
  | fuel + 1, g, heap, visited =>
    if heap.isEmpty then some (.ok (), g)
    else
      match heap.extractMin (VertexCompare g) with
      | (.error err, _) => some (.error err, g)
      | (.ok u, h1) =>
        if visited.getD u false then dijkstraLoop fuel g h1 visited
        else
          match relaxAll u (g.edgesOf u) g h1 with
          | (.error err, g1, _) => some (.error err, g1)
          | (.ok (), g1, h2) => dijkstraLoop fuel g1 h2 (visited.set u true)

/-- The loop of `dijkstra` that builds the result graph from the father pointers. -/
def buildTree (g : Graph) : List Nat → Graph → Except Err Unit × Graph
  | [], result => (.ok (), result)
  | i :: is, result =>
    match g.fatherOf i with
    | some p =>
      match result.addDirectedEdge p i (wrapInt (g.distanceOf i - g.distanceOf p)) with
      | (.error err, r1) => (.error err, r1)
      | (.ok (), r1) => buildTree g is r1
    | none => buildTree g is result

/-- `dijkstra(g, source)`: what is returned or thrown, and the input graph afterwards (its
scratch fields are written in place). Each iteration of the main loop extracts one of the
`n` heap entries, so `n + 1` iterations are allowed. -/
def dijkstra (g : Graph) (source : Int) : Option (Except Err Graph × Graph) :=
  let n := g.adjList.length
  if source < 0 ∨ source ≥ g.numVertices then some (.error .out_of_range, g)
  else
    let g1 := resetScratch g (List.range n)
    let heap := insertAll g1 (List.range n) MinHeap.empty
    let g2 := g1.setDistance source.toNat 0
    match heap.decreaseKey (VertexCompare g2) source.toNat with
    | (.error err, _) => some (.error err, g2)
    | (.ok (), heap1) =>
      match dijkstraLoop (n + 1) g2 heap1 (List.replicate n false) with
      | none => none
      | some (.error err, g3) => some (.error err, g3)
      | some (.ok (), g3) =>
        match Graph.new n with
        | .error err => some (.error err, g3)
        | .ok result =>
          match buildTree g3 (List.range n) result with
          | (.error err, _) => some (.error err, g3)
          | (.ok (), r) => some (.ok r, g3)

/-- The relaxation loop of `prim` over the remaining records `es` of the vertex `u`. -/
def primRelax (u : Nat) (inMST : List Bool) :
    List Edge → Graph → MinHeap Nat → Except Err Unit × Graph × MinHeap Nat
  | [], g, heap => (.ok (), g, heap)
  | e :: es, g, heap =>
    let v := e.dest
    let w := e.weight
    if !inMST.getD v false && decide (w < g.distanceOf v) then
      let g1 := (g.setDistance v w).setFather v (some u)
      match heap.decreaseKey (VertexCompare g1) v with
      | (.error err, h1) => (.error err, g1, h1)
      | (.ok (), h1) => primRelax u inMST es g1 h1
    else primRelax u inMST es g heap

/-- The main loop of `prim`, at most `fuel` iterations (`none` when `fuel` runs out). Returns
what was thrown if anything, the input graph and the result graph. -/
def primLoop : Nat → Graph → MinHeap Nat → List Bool → Graph →
    Option (Except Err Unit × Graph × Graph)
  | 0, _, _, _, _ => none
  | fuel + 1, g, heap, inMST, result =>
    if heap.isEmpty then some (.ok (), g, result)
    else
      match heap.extractMin (VertexCompare g) with
      | (.error err, _) => some (.error err, g, result)
      | (.ok u, h1) =>
        if inMST.getD u false then primLoop fuel g h1 inMST result
        else
          let inMST1 := inMST.set u true
          let r :=
            match g.fatherOf u with
            | some f => result.addEdge f u (g.distanceOf u)
            | none => (.ok (), result)
          match r with
          | (.error err, r1) => some (.error err, g, r1)
          | (.ok (), r1) =>
            match primRelax u inMST1 (g.edgesOf u) g h1 with
            | (.error err, g1, _) => some (.error err, g1, r1)
            | (.ok (), g1, h2) => primLoop fuel g1 h2 inMST1 r1

/-- `prim(g)`. -/
def prim (g : Graph) : Option (Except Err Graph × Graph) :=
  let n := g.adjList.length
  if n = 0 then some (.error .invalid_argument, g)
  else
    let g1 := resetScratch g (List.range n)
    let heap := insertAll g1 (List.range n) MinHeap.empty
    let g2 := g1.setDistance 0 0
    match heap.decreaseKey (VertexCompare g2) 0 with
    | (.error err, _) => some (.error err, g2)
    | (.ok (), heap1) =>
      match Graph.new n with
      | .error err => some (.error err, g2)
      | .ok result =>
        match primLoop (n + 1) g2 heap1 (List.replicate n false) result with
        | none => none
        | some (.error err, g3, _) => some (.error err, g3)
        | some (.ok (), g3, r) => some (.ok r, g3)

/-- The inner loop of the edge collection of `kruskal` over the remaining records `es` of
the vertex `u`. -/
def collectEdges (u : Nat) : List Edge → MinHeap HeapEdge → MinHeap HeapEdge
  | [], heap => heap
  | e :: es, heap =>
    if u < e.dest then collectEdges u es (heap.insert EdgeCompare ⟨u, e.dest, e.weight⟩)
    else collectEdges u es heap

/-- The edge collection of `kruskal` over the vertices `us`. -/
def collectAll (g : Graph) (us : List Nat) (heap : MinHeap HeapEdge) : MinHeap HeapEdge :=
  us.foldl (fun h u => collectEdges u (g.edgesOf u) h) heap

/-- The main loop of `kruskal`, at most `fuel` iterations (`none` when `fuel` runs out or a
`find` does not return). Returns what was thrown if anything, the input graph and the result
graph. -/
def kruskalLoop (n : Nat) : Nat → Graph → MinHeap HeapEdge → Graph → Nat →
    Option (Except Err Unit × Graph × Graph)
  | 0, _, _, _, _ => none
  | fuel + 1, g, heap, result, used =>
    if !heap.isEmpty && decide (used < n - 1) then
      match heap.extractMin EdgeCompare with
      | (.error err, _) => some (.error err, g, result)
      | (.ok minE, h1) =>
        match g.unionSets minE.frm minE.toV with
        | none => none
        | some (true, g1) =>
          match result.addEdge minE.frm minE.toV minE.weight with
          | (.error err, r1) => some (.error err, g1, r1)
          | (.ok (), r1) => kruskalLoop n fuel g1 h1 r1 (used + 1)
        | some (false, g1) => kruskalLoop n fuel g1 h1 result used
    else some (.ok (), g, result)

/-- The loop of `kruskal` that clears the father pointers of the vertices `is`. -/
def resetFathers (g : Graph) (is : List Nat) : Graph :=
  is.foldl (fun g i => g.setFather i none) g

/-- `kruskal(g)`. The test `n < 0` of the source cannot succeed on a constructed graph. Each
iteration of the main loop extracts one heap entry, so one more iteration than there are
entries is allowed. -/
def kruskal (g : Graph) : Option (Except Err Graph × Graph) :=
  let n := g.adjList.length
  if n ≤ 1 then
    match Graph.new n with
    | .error err => some (.error err, g)
    | .ok result => some (.ok result, g)
  else
    let g1 := resetFathers g (List.range n)
    let heap := collectAll g1 (List.range n) MinHeap.empty
    match Graph.new n with
    | .error err => some (.error err, g1)
    | .ok result =>
      match kruskalLoop n (heap.size + 1) g1 heap result 0 with
      | none => none
      | some (.error err, g2, _) => some (.error err, g2)
      | some (.ok (), g2, r) => some (.ok r, g2)

/-- The graph of the test case "Dijkstra correctness" of `GraphTest.cpp`: `Graph g(4)` after
`addEdge(0,1,2)`, `addEdge(1,2,2)`, `addEdge(0,2,10)`, `addEdge(2,3,1)`. -/
def dijkstraTestGraph : Graph :=
  ⟨[⟨0, [⟨10, 0, 2⟩, ⟨2, 0, 1⟩], none, 0⟩,
    ⟨1, [⟨2, 1, 2⟩, ⟨2, 1, 0⟩], none, 0⟩,
    ⟨2, [⟨1, 2, 3⟩, ⟨10, 2, 0⟩, ⟨2, 2, 1⟩], none, 0⟩,
    ⟨3, [⟨1, 3, 2⟩], none, 0⟩]⟩

end graph

namespace graph

/-! ## Undirected edges, connectivity and spanning trees -/

/-- The undirected edges that `kruskal` collects from the records `es` of the vertex `u`:
those whose destination index is larger than `u`. -/
def halfEdges (u : Nat) (es : List Edge) : List HeapEdge :=
  (es.filter fun e => decide (u < e.dest)).map fun e => ⟨u, e.dest, e.weight⟩

/-- The undirected edges of a graph: one entry `(u, v, w)` for each record `u -> v` of weight
`w` with `u < v` (the records counted by `countEdges`). -/
def Graph.undirectedEdges (g : Graph) : List HeapEdge :=
  (List.range g.adjList.length).flatMap fun u => halfEdges u (g.edgesOf u)

/-- Every record has a positive weight. -/
def Graph.Positive (g : Graph) : Prop :=
  ∀ v ∈ g.adjList, ∀ e ∈ v.edges, 0 < e.weight

/-- A connected graph: it has a vertex, and any two vertices are joined by a path. -/
def Graph.Connected (g : Graph) : Prop :=
  0 < g.adjList.length ∧
    ∀ a b, a < g.adjList.length → b < g.adjList.length → ∃ p, g.IsPath a b p

/-- Some edge of `es` joins `a` and `b` (in either direction). -/
def Adj (es : List HeapEdge) (a b : Nat) : Prop :=
  ∃ e ∈ es, (e.frm = a ∧ e.toV = b) ∨ (e.frm = b ∧ e.toV = a)

/-- The vertices `a` and `b` are joined by a path made of edges of `es`. -/
def Conn (es : List HeapEdge) (a b : Nat) : Prop := Relation.ReflTransGen (Adj es) a b

/-- The edge list `es` contains no cycle: no edge joins two vertices that the other edges of
the list already connect (a cycle through an edge is a path between its endpoints that avoids
it; a second copy of an edge and a self-loop are cycles). -/
def Acyclic (es : List HeapEdge) : Prop :=
  ∀ e ∈ es, ¬ Conn (es.erase e) e.frm e.toV

/-- The edge list grows edge by edge without ever closing a cycle. -/
def SeqForest : List HeapEdge → Prop
  | [] => True
  | e :: es => ¬ Conn es e.frm e.toV ∧ SeqForest es

/-- The total weight of a list of edges. -/
def totalWeight (es : List HeapEdge) : Int := (es.map HeapEdge.weight).sum

/-- The undirected edge `e` is an edge of `g` with its weight: `g` has a record
`e.frm -> e.toV` of weight `e.weight`. -/
def IsEdgeOf (g : Graph) (e : HeapEdge) : Prop :=
  ∃ r ∈ g.edgesOf e.frm, r.dest = e.toV ∧ r.weight = e.weight

/-- The edge list `t` is a spanning tree of `g`: its edges are edges of `g`, they connect all
the vertices, and they contain no cycle. -/
def IsSpanningTree (g : Graph) (t : List HeapEdge) : Prop :=
  (∀ e ∈ t, IsEdgeOf g e) ∧
  (∀ a b, a < g.adjList.length → b < g.adjList.length → Conn t a b) ∧
  Acyclic t

/-- The set `S` holds exactly one vertex of each class of `Conn es` on the vertices below
`n`. -/
def IsTransversal (n : Nat) (es : List HeapEdge) (S : Finset Nat) : Prop :=
  (∀ r ∈ S, r < n) ∧ (∀ v, v < n → ∃ r ∈ S, Conn es r v) ∧
  (∀ r ∈ S, ∀ r' ∈ S, Conn es r r' → r = r')

/-- The endpoints of every edge are vertices below `n`. -/
def EndsBelow (n : Nat) (es : List HeapEdge) : Prop :=
  ∀ e ∈ es, e.frm < n ∧ e.toV < n

/-- The graphs obtained from a constructor call by `addEdge` calls. -/
inductive Graph.AddEdgeBuilt : Graph → Prop
  | new (n : Int) (g : Graph) : Graph.new n = .ok g → Graph.AddEdgeBuilt g
  | addEdge (g : Graph) (u v w : Int) :
      Graph.AddEdgeBuilt g → Graph.AddEdgeBuilt (g.addEdge u v w).2

/-- The graph of the test cases "Prim correctness" and "Kruskal correctness" of
`GraphTest.cpp`: `Graph g(4)` after `addEdge(0,1,4)`, `addEdge(0,2,3)`, `addEdge(1,2,1)`,
`addEdge(1,3,2)`. -/
def mstTestGraph : Graph :=
  ⟨[⟨0, [⟨3, 0, 2⟩, ⟨4, 0, 1⟩], none, 0⟩,
    ⟨1, [⟨2, 1, 3⟩, ⟨1, 1, 2⟩, ⟨4, 1, 0⟩], none, 0⟩,
    ⟨2, [⟨1, 2, 1⟩, ⟨3, 2, 0⟩], none, 0⟩,
    ⟨3, [⟨2, 3, 1⟩], none, 0⟩]⟩

/-! ## Union-find state -/

/-- The vertex `v` is a representative: its father pointer is null or points to itself. -/
def Graph.IsRoot (g : Graph) (v : Nat) : Prop :=
  g.fatherOf v = none ∨ g.fatherOf v = some v

/-- Following the father pointers from `v` ends at the representative `r`. -/
inductive Graph.RootOf (g : Graph) : Nat → Nat → Prop
  | root (v : Nat) : g.IsRoot v → Graph.RootOf g v v
  | step (v f r : Nat) : g.fatherOf v = some f → f ≠ v → Graph.RootOf g f r →
      Graph.RootOf g v r

/-- The father pointers form a forest: `rank` records when a vertex stopped being a
representative (before time `t`), and grows along father pointers between vertices that are
not representatives. -/
def UFInv (g : Graph) (n t : Nat) (rank : Nat → Nat) : Prop :=
  g.adjList.length = n ∧
  ∀ v f, g.fatherOf v = some f → f ≠ v →
    f < n ∧ rank v < t ∧ (g.IsRoot f ∨ rank v < rank f)

/-- The state of the main loop of `kruskal` on the input graph `g0` with `n` vertices: `g`
carries the father pointers, `heap` is the heap array, `result` the graph being built, `F` the
edges accepted so far (latest first) and `used` their number. -/
structure KInv (g0 : Graph) (n : Nat) (g : Graph) (heap : List HeapEdge) (result : Graph)
    (F : List HeapEdge) (used : Nat) : Prop where
  uf : ∃ rank, UFInv g n used rank
  rlen : result.adjList.length = n
  rperm : result.undirectedEdges.Perm F
  rbuilt : result.Built
  flen : F.length = used
  forest : SeqForest F
  fedge : ∀ e ∈ F, e ∈ g0.undirectedEdges
  hedge : ∀ e ∈ heap, e ∈ g0.undirectedEdges
  ord : MinHeap.HeapOrdered EdgeCompare heap
  sorted : ∀ e ∈ F, ∀ x ∈ heap, e.weight ≤ x.weight
  part : ∀ x y rx ry, x < n → y < n → g.RootOf x rx → g.RootOf y ry →
    (rx = ry ↔ Conn F x y)
  processed : ∀ x ∈ g0.undirectedEdges,
    x ∈ heap ∨ Conn (F.filter fun e => decide (e.weight ≤ x.weight)) x.frm x.toV

end graph

namespace graph

/-! ## Heap operation sequences -/

/-- One call made on a heap by a client: `insert(v)` or `extractMin()`. -/
inductive HeapOp (T : Type) where
  | insert (v : T)
  | extractMin
  deriving Repr

namespace MinHeap

variable {T : Type}

/-- The heap states reached from the empty heap by `insert` and `extractMin` calls. -/
inductive Reached (cmp : T → T → Bool) : MinHeap T → Prop
  | empty : Reached cmp MinHeap.empty
  | insert (h : MinHeap T) (v : T) : Reached cmp h → Reached cmp (h.insert cmp v)
  | extractMin (h : MinHeap T) : Reached cmp h → Reached cmp (h.extractMin cmp).2

/-- The loop `for (v : vs) h.insert(v);`. -/
def insertList (cmp : T → T → Bool) (vs : List T) (h : MinHeap T) : MinHeap T :=
  vs.foldl (fun h v => h.insert cmp v) h

/-- The loop `while (!h.isEmpty()) out.push_back(h.extractMin());`, at most `fuel` iterations
(`none` when `fuel` runs out): the values extracted, in order, or the exception thrown. -/
def drain (cmp : T → T → Bool) : Nat → MinHeap T → Option (Except Err (List T))
  | 0, _ => none
  | fuel + 1, h =>
    if h.isEmpty then some (.ok [])
    else
      match h.extractMin cmp with
      | (.error err, _) => some (.error err)
      | (.ok x, h1) =>
        match drain cmp fuel h1 with
        | none => none
        | some (.error err) => some (.error err)
        | some (.ok out) => some (.ok (x :: out))

/-- A sequence of calls run on the heap `h`: the values returned by the `extractMin` calls, in
order, or the exception that ends the run. -/
def runOps (cmp : T → T → Bool) : List (HeapOp T) → MinHeap T → Except Err (List T)
  | [], _ => .ok []
  | .insert v :: ops, h => runOps cmp ops (h.insert cmp v)
  | .extractMin :: ops, h =>
    match h.extractMin cmp with
    | (.error err, _) => .error err
    | (.ok x, h1) =>
      match runOps cmp ops h1 with
      | .error err => .error err
      | .ok out => .ok (x :: out)

end MinHeap

/-- The graph of the test case "VertexMinHeap operations" of `GraphTest.cpp`: `Graph g(4)`
with the distances 7, 3, 5, 1 written into the vertices 0..3. -/
def heapTestGraph : Graph :=
  ⟨[⟨0, [], none, 7⟩, ⟨1, [], none, 3⟩, ⟨2, [], none, 5⟩, ⟨3, [], none, 1⟩]⟩

/-! ## Union-find call sequences -/

/-- The test `find(x) == find(y)`: the two calls run one after the other (`none` when one of
them does not return). -/
def Graph.sameSet (g : Graph) (x y : Nat) : Option Bool :=
  match g.find x with
  | none => none
  | some (rx, g1) =>
    match g1.find y with
    | none => none
    | some (ry, _) => some (decide (rx = ry))

/-- The states of the union-find structure: a graph whose father pointers are all null, after
any sequence of `find` and `unionSets` calls on its vertices. -/
inductive Graph.UFReached : Graph → Prop
  | init (g : Graph) : (∀ v, g.fatherOf v = none) → Graph.UFReached g
  | find (g g' : Graph) (v r : Nat) : Graph.UFReached g → v < g.adjList.length →
      g.find v = some (r, g') → Graph.UFReached g'
  | unionSets (g g' : Graph) (u v : Nat) (b : Bool) : Graph.UFReached g →
      u < g.adjList.length → v < g.adjList.length →
      g.unionSets u v = some (b, g') → Graph.UFReached g'

/-! ## The FIFO queue `QForAlg` -/

/-- `QForAlg::QForAlg`: the linked nodes from `front` to `rear` are the list `items`. -/
structure QForAlg where
  items : List Nat
  size : Int
  capacity : Int
  deriving DecidableEq, Repr

namespace QForAlg

/-- `QForAlg(int cap)`. -/
def new (cap : Int) : QForAlg := ⟨[], 0, cap⟩

/-- `is_empty()`. -/
def is_empty (q : QForAlg) : Bool := q.items.isEmpty

/-- `is_full()`. -/
def is_full (q : QForAlg) : Bool := decide (q.size = q.capacity)

/-- `enqueue(vertex)`. -/
def enqueue (q : QForAlg) (vertex : Nat) : Except Err Unit × QForAlg :=
  if q.is_full then (.error .overflow_error, q)
  else (.ok (), { q with items := q.items ++ [vertex], size := q.size + 1 })

/-- `dequeue()`. -/
def dequeue (q : QForAlg) : Except Err Nat × QForAlg :=
  match q.items with
  | [] => (.error .out_of_range, q)
  | v :: rest => (.ok v, { q with items := rest, size := q.size - 1 })

end QForAlg

/-! ## Traversals -/

/-- The state of the loops of `bfs`: the queue, the `visited` array and the result graph. -/
structure BfsState where
  queue : QForAlg
  visited : List Bool
  result : Graph
  deriving DecidableEq, Repr

/-- The loop `for (Edge* e = u->edges; e; e = e->next)` of `bfs` over the remaining records
`es` of the dequeued vertex `u`. -/
def bfsScan (u : Nat) : List Edge → BfsState → Except Err Unit × BfsState
  | [], st => (.ok (), st)
  | e :: es, st =>
    let v := e.dest
    if !st.visited.getD v false then
      let visited1 := st.visited.set v true
      match st.queue.enqueue v with
      | (.error err, q1) => (.error err, ⟨q1, visited1, st.result⟩)
      | (.ok (), q1) =>
        match st.result.addDirectedEdge u v e.weight with
        | (.error err, r1) => (.error err, ⟨q1, visited1, r1⟩)
        | (.ok (), r1) => bfsScan u es ⟨q1, visited1, r1⟩
    else bfsScan u es st

/-- The loop `while (!queue.is_empty())` of `bfs`, at most `fuel` iterations (`none` when
`fuel` runs out). -/
def bfsLoop (g : Graph) : Nat → BfsState → Option (Except Err Unit × BfsState)
  | 0, _ => none
  | fuel + 1, st =>
    if st.queue.is_empty then some (.ok (), st)
    else
      match st.queue.dequeue with
      | (.error err, q1) => some (.error err, { st with queue := q1 })
      | (.ok u, q1) =>
        match bfsScan u (g.edgesOf u) { st with queue := q1 } with
        | (.error err, st1) => some (.error err, st1)
        | (.ok (), st1) => bfsLoop g fuel st1

/-- `bfs(g, source)`: the input graph is not written to. Each iteration of the main loop
dequeues one vertex and a vertex is enqueued only when its `visited` flag is set, so `n + 1`
iterations are allowed. -/
def bfs (g : Graph) (source : Int) : Option (Except Err Graph) :=
  let n := g.adjList.length
  if source < 0 ∨ source ≥ g.numVertices then some (.error .out_of_range)
  else
    match Graph.new n with
    | .error err => some (.error err)
    | .ok result =>
      let visited := (List.replicate n false).set source.toNat true
      match (QForAlg.new n).enqueue source.toNat with
      | (.error err, _) => some (.error err)
      | (.ok (), q1) =>
        match bfsLoop g (n + 1) ⟨q1, visited, result⟩ with
        | none => none
        | some (.error err, _) => some (.error err)
        | some (.ok (), st) => some (.ok st.result)

/-- The state of `DFSVisit`: the `vis` array and the result graph `res`. -/
structure DfsState where
  vis : List Bool
  res : Graph
  deriving DecidableEq, Repr

/-- The loop `for (Edge* e = v->edges; e; e = e->next)` of `DFSVisit` over the remaining
records `es` of the vertex `v`; `visit` is the recursive call `DFSVisit(e->dest, vis, res)`. -/
def dfsScan (visit : Nat → DfsState → Option (Except Err Unit × DfsState)) (v : Nat) :
    List Edge → DfsState → Option (Except Err Unit × DfsState)
  | [], st => some (.ok (), st)
  | e :: es, st =>
    if !st.vis.getD e.dest false then
      match st.res.addEdge v e.dest e.weight with
      | (.error err, r1) => some (.error err, { st with res := r1 })
      | (.ok (), r1) =>
        match visit e.dest { st with res := r1 } with
        | none => none
        | some (.error err, st1) => some (.error err, st1)
        | some (.ok (), st1) => dfsScan visit v es st1
    else dfsScan visit v es st

/-- `DFSVisit(v, vis, res)` on the graph `g`, with the depth of the recursion bounded by
`fuel` (`none` when the bound is hit). -/
def DFSVisit (g : Graph) : Nat → Nat → DfsState → Option (Except Err Unit × DfsState)
  | 0, _, _ => none
  | fuel + 1, v, st =>
    dfsScan (fun w st1 => DFSVisit g fuel w st1) v (g.edgesOf v)
      { st with vis := st.vis.set v true }

/-- The loop `for (int i = 0; i < n; ++i) if (!visited[i]) DFSVisit(...)` of `dfs` over the
remaining indices `is`. -/
def dfsRest (g : Graph) (fuel : Nat) : List Nat → DfsState → Option (Except Err Unit × DfsState)
  | [], st => some (.ok (), st)
  | i :: is, st =>
    if !st.vis.getD i false then
      match DFSVisit g fuel i st with
      | none => none
      | some (.error err, st1) => some (.error err, st1)
      | some (.ok (), st1) => dfsRest g fuel is st1
    else dfsRest g fuel is st

/-- `dfs(g, source)`: the input graph is not written to. Every call of `DFSVisit` is made on
a vertex whose flag is clear and sets it, so the recursion is at most `n` deep. -/
def dfs (g : Graph) (source : Int) : Option (Except Err Graph) :=
  let n := g.adjList.length
  if source < 0 ∨ source ≥ g.numVertices then some (.error .out_of_range)
  else
    match Graph.new n with
    | .error err => some (.error err)
    | .ok result =>
      match DFSVisit g n source.toNat ⟨List.replicate n false, result⟩ with
      | none => none
      | some (.error err, _) => some (.error err)
      | some (.ok (), st) =>
        match dfsRest g n (List.range n) st with
        | none => none
        | some (.error err, _) => some (.error err)
        | some (.ok (), st1) => some (.ok st1.res)

/-- The graph of the test cases "BFS correctness" and "DFS correctness" of `GraphTest.cpp`:
`Graph g(5)` after `addEdge(i, i+1, 1)` for `i = 0..3`. -/
def pathTestGraph : Graph :=
  ⟨[⟨0, [⟨1, 0, 1⟩], none, 0⟩,
    ⟨1, [⟨1, 1, 2⟩, ⟨1, 1, 0⟩], none, 0⟩,
    ⟨2, [⟨1, 2, 3⟩, ⟨1, 2, 1⟩], none, 0⟩,
    ⟨3, [⟨1, 3, 4⟩, ⟨1, 3, 2⟩], none, 0⟩,
    ⟨4, [⟨1, 4, 3⟩], none, 0⟩]⟩

/-- All the records of a graph, vertex by vertex. -/
def Graph.records (g : Graph) : List Edge :=
  (List.range g.adjList.length).flatMap fun u => g.edgesOf u

/-- The state of `bfs` on the input graph `g` with source `s`: `st` holds the queue, the
flags and the tree; `u` is the vertex dequeued last and `pending` the records of `u` not yet
scanned; `V` is the set of the vertices whose flag is set. -/
structure BInv (g : Graph) (s : Nat) (st : BfsState) (u : Nat) (pending : List Edge)
    (V : Finset Nat) : Prop where
  rlen : st.result.adjList.length = g.adjList.length
  vlen : st.visited.length = g.adjList.length
  qcap : st.queue.capacity = g.adjList.length
  qsize : st.queue.size = st.queue.items.length
  qle : st.queue.items.length ≤ V.card
  vset : ∀ v, v ∈ V ↔ st.visited.getD v false = true
  qvis : ∀ x ∈ st.queue.items, x ∈ V
  src : s ∈ V
  cur : u ∈ V
  pend : ∀ e ∈ pending, e ∈ g.edgesOf u
  recs : ∀ a, ∀ e ∈ st.result.edgesOf a, e.src = a ∧ a ∈ V ∧ e.dest ∈ V ∧ e.dest ≠ s ∧
    ∃ e' ∈ g.edgesOf a, e'.dest = e.dest ∧ e'.weight = e.weight
  uniq : ∀ v ∈ V, v ≠ s →
    ∃ e, st.result.records.filter (fun e => decide (e.dest = v)) = [e]
  cnt : st.result.records.length + 1 = V.card
  tree : ∀ v ∈ V, ∃ q, st.result.IsPath s v q
  reach : ∀ v ∈ V, ∃ p, g.IsPath s v p
  closed : ∀ x ∈ V, x ∉ st.queue.items → ∀ e ∈ g.edgesOf x, (x = u → e ∉ pending) →
    e.dest ∈ V

/-- The state of `dfs` on the input graph `g` from the source `s`: `V` is the set of the
vertices whose flag is set, `W` the set of the vertices that are flagged or about to be (the
argument of a pending call of `DFSVisit`), and `F` the tree edges added so far, latest
first. -/
structure DfsInv (g : Graph) (s : Nat) (st : DfsState) (V W : Finset Nat)
    (F : List HeapEdge) : Prop where
  rlen : st.res.adjList.length = g.adjList.length
  vlen : st.vis.length = g.adjList.length
  vset : ∀ v, v ∈ V ↔ st.vis.getD v false = true
  wlt : ∀ v ∈ W, v < g.adjList.length
  rperm : st.res.undirectedEdges.Perm F
  rbuilt : st.res.AddEdgeBuilt
  rcount : st.res.records.length = 2 * F.length
  forest : SeqForest F
  fedge : ∀ e ∈ F, e ∈ g.undirectedEdges
  fends : ∀ e ∈ F, e.frm ∈ W ∧ e.toV ∈ W
  fconn : ∀ a ∈ W, Conn F s a
  fcard : F.length + 1 = W.card

end graph

namespace graph

/-! ## Queue and heap call sequences -/

/-- One call made on a queue by a client: `enqueue(v)` or `dequeue()`. -/
inductive QOp where
  | enqueue (v : Nat)
  | dequeue
  deriving DecidableEq, Repr

namespace QForAlg

/-- The queue states reached from `QForAlg(c)` by `enqueue` and `dequeue` calls, whether the
calls return or throw. -/
inductive Reached (c : Int) : QForAlg → Prop
  | new : Reached c (QForAlg.new c)
  | enqueue (q : QForAlg) (v : Nat) : Reached c q → Reached c (q.enqueue v).2
  | dequeue (q : QForAlg) : Reached c q → Reached c q.dequeue.2

/-- A sequence of calls run on the queue `q`, the caller catching what is thrown: what each
call returned (`some v` for a `dequeue`) or threw, and the queue afterwards. -/
def run : List QOp → QForAlg → List (Except Err (Option Nat)) × QForAlg
  | [], q => ([], q)
  | .enqueue v :: ops, q =>
    let r := run ops (q.enqueue v).2
    ((q.enqueue v).1.map (fun _ => none) :: r.1, r.2)
  | .dequeue :: ops, q =>
    let r := run ops q.dequeue.2
    (q.dequeue.1.map some :: r.1, r.2)

end QForAlg

/-- The vertices whose `enqueue` call returned, in call order, given the calls and what they
returned or threw. -/
def accepted (ops : List QOp) (outs : List (Except Err (Option Nat))) : List Nat :=
  (ops.zip outs).filterMap fun p =>
    match p with
    | (.enqueue v, .ok _) => some v
    | _ => none

/-- The vertices returned by the `dequeue` calls, in call order. -/
def served (outs : List (Except Err (Option Nat))) : List Nat :=
  outs.filterMap fun o =>
    match o with
    | .ok (some v) => some v
    | _ => none

/-- The bounded list of the specification, of capacity `c`: `enqueue` appends the vertex at
the back when fewer than `c` vertices are stored and raises the overflow error otherwise,
leaving the list as it is. -/
def BoundedList.enqueue (c : Int) (l : List Nat) (v : Nat) : Except Err Unit × List Nat :=
  if (l.length : Int) < c then (.ok (), l ++ [v]) else (.error .overflow_error, l)

/-- The bounded list of the specification: `dequeue` removes and returns the front vertex, and
raises the empty error on the empty list. -/
def BoundedList.dequeue : List Nat → Except Err Nat × List Nat
  | [] => (.error .out_of_range, [])
  | v :: rest => (.ok v, rest)

/-- A sequence of calls run on the bounded list `l` of capacity `c`. -/
def BoundedList.run (c : Int) : List QOp → List Nat → List (Except Err (Option Nat)) × List Nat
  | [], l => ([], l)
  | .enqueue v :: ops, l =>
    let r := BoundedList.run c ops (BoundedList.enqueue c l v).2
    ((BoundedList.enqueue c l v).1.map (fun _ => none) :: r.1, r.2)
  | .dequeue :: ops, l =>
    let r := BoundedList.run c ops (BoundedList.dequeue l).2
    ((BoundedList.dequeue l).1.map some :: r.1, r.2)

namespace MinHeap

variable {T : Type}

/-- A sequence of calls run on the heap `h`, the caller catching what `extractMin` throws on
the empty heap: the heap afterwards and the number of `extractMin` calls that returned. -/
def applyOps (cmp : T → T → Bool) : List (HeapOp T) → MinHeap T → MinHeap T × Nat
  | [], h => (h, 0)
  | .insert v :: ops, h => applyOps cmp ops (h.insert cmp v)
  | .extractMin :: ops, h =>
    match h.extractMin cmp with
    | (.error _, h1) => applyOps cmp ops h1
    | (.ok _, h1) => ((applyOps cmp ops h1).1, (applyOps cmp ops h1).2 + 1)

end MinHeap

/-- The call is an `insert`. -/
def HeapOp.isInsert {T : Type} : HeapOp T → Bool
  | .insert _ => true
  | .extractMin => false

/-! ## Breadth-first search with a record of the queue -/

/-- The loop `bfsScan` with a record of the calls of `enqueue`: `log` receives, for each call,
the vertex passed and the number of vertices stored in the queue when the call ends. -/
def bfsScanLog (u : Nat) :
    List Edge → BfsState → List (Nat × Nat) → Except Err Unit × BfsState × List (Nat × Nat)
  | [], st, log => (.ok (), st, log)
  | e :: es, st, log =>
    let v := e.dest
    if !st.visited.getD v false then
      let visited1 := st.visited.set v true
      match st.queue.enqueue v with
      | (.error err, q1) =>
        (.error err, ⟨q1, visited1, st.result⟩, log ++ [(v, q1.items.length)])
      | (.ok (), q1) =>
        match st.result.addDirectedEdge u v e.weight with
        | (.error err, r1) => (.error err, ⟨q1, visited1, r1⟩, log ++ [(v, q1.items.length)])
        | (.ok (), r1) => bfsScanLog u es ⟨q1, visited1, r1⟩ (log ++ [(v, q1.items.length)])
    else bfsScanLog u es st log

/-- The loop `bfsLoop` with the record of the calls of `enqueue`. -/
def bfsLoopLog (g : Graph) :
    Nat → BfsState → List (Nat × Nat) → Option (Except Err Unit × BfsState × List (Nat × Nat))
  | 0, _, _ => none
  | fuel + 1, st, log =>
    if st.queue.is_empty then some (.ok (), st, log)
    else
      match st.queue.dequeue with
      | (.error err, q1) => some (.error err, { st with queue := q1 }, log)
      | (.ok u, q1) =>
        match bfsScanLog u (g.edgesOf u) { st with queue := q1 } log with
        | (.error err, st1, log1) => some (.error err, st1, log1)
        | (.ok (), st1, log1) => bfsLoopLog g fuel st1 log1

/-- The function `bfs` with the record of the calls of `enqueue`. -/
def bfsLog (g : Graph) (source : Int) : Option (Except Err Graph × List (Nat × Nat)) :=
  let n := g.adjList.length
  if source < 0 ∨ source ≥ g.numVertices then some (.error .out_of_range, [])
  else
    match Graph.new n with
    | .error err => some (.error err, [])
    | .ok result =>
      let visited := (List.replicate n false).set source.toNat true
      match (QForAlg.new n).enqueue source.toNat with
      | (.error err, q1) => some (.error err, [(source.toNat, q1.items.length)])
      | (.ok (), q1) =>
        match bfsLoopLog g (n + 1) ⟨q1, visited, result⟩ [(source.toNat, q1.items.length)] with
        | none => none
        | some (.error err, _, log) => some (.error err, log)
        | some (.ok (), st, log) => some (.ok st.result, log)

/-- The record of the calls of `enqueue` in a state of `bfs` on a graph with `n` vertices:
no vertex was passed twice, the vertices passed are those whose flag is set (the set `V`), and
the queue never held more than `n` vertices. -/
structure BLog (n : Nat) (V : Finset Nat) (log : List (Nat × Nat)) : Prop where
  nodup : (log.map Prod.fst).Nodup
  mem : ∀ p ∈ log, p.1 ∈ V
  bound : ∀ p ∈ log, p.2 ≤ n
  len : log.length = V.card

/-- The layers of `bfs`: `lvl` gives a level to each flagged vertex, the source 0 and a
vertex one more than the vertex from which it was flagged; the queue holds vertices of the
level of the vertex `u` being scanned followed by vertices of the next level. -/
structure BLvl (g : Graph) (s : Nat) (st : BfsState) (u : Nat) (pending : List Edge)
    (V : Finset Nat) (lvl : Nat → Nat) : Prop where
  src : lvl s = 0
  near : ∀ y ∈ V, lvl y ≤ lvl u + 1
  qge : ∀ x ∈ st.queue.items, lvl u ≤ lvl x
  qsorted : st.queue.items.Pairwise fun a b => lvl a ≤ lvl b
  recs : ∀ a, ∀ e ∈ st.result.edgesOf a, lvl e.dest = lvl a + 1
  edge : ∀ x ∈ V, x ∉ st.queue.items → ∀ e ∈ g.edgesOf x, (x = u → e ∉ pending) →
    lvl e.dest ≤ lvl x + 1

/-! ## The trees of `prim` and `dijkstra` -/

/-- The state of the main loop of `prim` on the input graph `g0`: `g` carries the scratch
fields, `heap` is the heap array, `inMST` the flags and `result` the graph being built. The
heap holds exactly the vertices whose flag is clear. -/
structure PInv (g0 g : Graph) (heap : List Nat) (inMST : List Bool) (result : Graph) :
    Prop where
  len : g.adjList.length = g0.adjList.length
  edges : ∀ i, g.edgesOf i = g0.edgesOf i
  mlen : inMST.length = g0.adjList.length
  rlen : result.adjList.length = g0.adjList.length
  nodup : heap.Nodup
  mem : ∀ v, v ∈ heap ↔ (v < g0.adjList.length ∧ inMST.getD v false = false)
  father : ∀ v p, g.fatherOf v = some p → p < g0.adjList.length
  fpos : g0.Positive → ∀ v p, g.fatherOf v = some p → 0 < g.distanceOf v

/-- The father pointers during `dijkstra` on the input graph `g0` with source `s`: a father
is a vertex already extracted, joined to its child by a record whose weight is the
difference of the two distances; the source has no father, and every other vertex whose
distance is no longer `INT_MAX` has one. -/
structure FInv (g0 : Graph) (s : Nat) (g : Graph) (visited : List Bool) : Prop where
  link : ∀ v p, g.fatherOf v = some p → visited.getD p false = true ∧
    ∃ e ∈ g0.edgesOf p, e.dest = v ∧ g.distanceOf v = g.distanceOf p + e.weight
  src : g.fatherOf s = none
  has : ∀ v, v < g0.adjList.length → v ≠ s → g.distanceOf v ≠ INT_MAX →
    ∃ p, g.fatherOf v = some p

/-- The record that the last loop of `dijkstra` adds for the vertex `i`, if any: from the
father of `i` to `i`, with the difference of their distances as weight. -/
def treeRecord (g : Graph) (i : Nat) : Option Edge :=
  (g.fatherOf i).map fun p => ⟨wrapInt (g.distanceOf i - g.distanceOf p), p, i⟩

end graph

namespace graph
namespace Graph

theorem length_setEdges (g : Graph) (i : Nat) (es : List Edge) :
    (g.setEdges i es).adjList.length = g.adjList.length := by
  unfold setEdges
  split <;> simp

theorem numVertices_setEdges (g : Graph) (i : Nat) (es : List Edge) :
    (g.setEdges i es).numVertices = g.numVertices := by
  simp [numVertices, length_setEdges]

theorem edgesOf_setEdges_self (g : Graph) (i : Nat) (es : List Edge)
    (h : i < g.adjList.length) : (g.setEdges i es).edgesOf i = es := by
  unfold setEdges edgesOf
  rw [List.getElem?_eq_getElem h]
  simp [h]

theorem edgesOf_setEdges_ne (g : Graph) (i j : Nat) (es : List Edge) (h : j ≠ i) :
    (g.setEdges i es).edgesOf j = g.edgesOf j := by
  unfold setEdges edgesOf
  cases g.adjList[i]? with
  | none => rfl
  | some v => simp [List.getElem?_set, Ne.symm h]

theorem edgesOf_of_le (g : Graph) (i : Nat) (h : g.adjList.length ≤ i) : g.edgesOf i = [] := by
  unfold edgesOf
  rw [List.getElem?_eq_none h]

theorem setEdges_edgesOf (g : Graph) (i : Nat) : g.setEdges i (g.edgesOf i) = g := by
  unfold setEdges edgesOf
  cases h : g.adjList[i]? with
  | none => rfl
  | some v =>
    cases g with
    | mk l =>
      simp only at h ⊢
      congr 1
      apply List.ext_getElem? 
      intro j
      rw [List.getElem?_set]
      split
      · subst_vars
        have hj : j < l.length := by
          by_contra hc
          rw [List.getElem?_eq_none (by omega)] at h
          exact absurd h (by simp)
        simp [h, hj]
      · rfl

theorem setEdges_setEdges (g : Graph) (i : Nat) (es es' : List Edge) :
    (g.setEdges i es).setEdges i es' = g.setEdges i es' := by
  unfold setEdges
  cases h : g.adjList[i]? with
  | none => simp [h]
  | some v =>
    have hi : i < g.adjList.length := by
      by_contra hc
      rw [List.getElem?_eq_none (by omega)] at h
      exact absurd h (by simp)
    simp [hi]

theorem unlinkFirst_eq_of_not_mem (v : Nat) (l : List Edge) (h : ∀ e ∈ l, e.dest ≠ v) :
    unlinkFirst v l = (false, l) := by
  induction l with
  | nil => rfl
  | cons a t ih =>
    have ha : a.dest ≠ v := h a (List.mem_cons_self _ _)
    simp [unlinkFirst, ha, ih (fun e he => h e (List.mem_cons_of_mem _ he))]

theorem unlinkFirst_split (v : Nat) (l : List Edge) (h : ∃ e ∈ l, e.dest = v) :
    ∃ l1 e l2, l = l1 ++ e :: l2 ∧ e.dest = v ∧ (∀ x ∈ l1, x.dest ≠ v) ∧
      unlinkFirst v l = (true, l1 ++ l2) := by
  induction l with
  | nil => simp at h
  | cons a t ih =>
    by_cases ha : a.dest = v
    · exact ⟨[], a, t, rfl, ha, by simp, by simp [unlinkFirst, ha]⟩
    · have ht : ∃ e ∈ t, e.dest = v := by
        obtain ⟨e, he, hev⟩ := h
        rcases List.mem_cons.1 he with rfl | he'
        · exact absurd hev ha
        · exact ⟨e, he', hev⟩
      obtain ⟨l1, e, l2, hl, hev, hl1, hu⟩ := ih ht
      refine ⟨a :: l1, e, l2, by simp [hl], hev, ?_, by simp [unlinkFirst, ha, hu]⟩
      intro x hx
      rcases List.mem_cons.1 hx with rfl | hx'
      · exact ha
      · exact hl1 x hx'

theorem unlinkFirst_fst (v : Nat) (l : List Edge) :
    (unlinkFirst v l).1 = true ↔ ∃ e ∈ l, e.dest = v := by
  constructor
  · intro h
    by_contra hc
    rw [unlinkFirst_eq_of_not_mem v l (fun e he hev => hc ⟨e, he, hev⟩)] at h
    exact absurd h (by simp)
  · intro h
    obtain ⟨_, _, _, _, _, _, hu⟩ := unlinkFirst_split v l h
    rw [hu]

theorem unlinkFirst_cons_self (v : Nat) (e : Edge) (l : List Edge) (h : e.dest = v) :
    unlinkFirst v (e :: l) = (true, l) := by
  simp [unlinkFirst, h]

end Graph
end graph

namespace graph
namespace Graph

theorem toNat_lt_length (g : Graph) (u : Int) (h0 : 0 ≤ u) (h : u < g.numVertices) :
    u.toNat < g.adjList.length := by
  unfold numVertices at h
  omega

theorem toNat_ne_toNat (u v : Int) (hu : 0 ≤ u) (hv : 0 ≤ v) (h : u ≠ v) : u.toNat ≠ v.toNat := by
  omega

theorem addDirectedEdge_ok (g : Graph) (u v w : Int)
    (hu0 : 0 ≤ u) (hu : u < g.numVertices) (hv0 : 0 ≤ v) (hv : v < g.numVertices) :
    g.addDirectedEdge u v w =
      (.ok (), g.setEdges u.toNat (⟨w, u.toNat, v.toNat⟩ :: g.edgesOf u.toNat)) := by
  unfold addDirectedEdge
  rw [if_neg (by omega)]

theorem addEdge_ok (g : Graph) (u v w : Int)
    (hu0 : 0 ≤ u) (hu : u < g.numVertices) (hv0 : 0 ≤ v) (hv : v < g.numVertices)
    (hw : 0 < w) :
    g.addEdge u v w =
      (.ok (), (g.setEdges u.toNat (⟨w, u.toNat, v.toNat⟩ :: g.edgesOf u.toNat)).setEdges v.toNat
        (⟨w, v.toNat, u.toNat⟩ ::
          (g.setEdges u.toNat (⟨w, u.toNat, v.toNat⟩ :: g.edgesOf u.toNat)).edgesOf v.toNat)) := by
  unfold addEdge
  rw [if_neg (by omega), if_neg (by omega), addDirectedEdge_ok g u v w hu0 hu hv0 hv]
  simp only
  rw [addDirectedEdge_ok _ v u w hv0 (by rw [numVertices_setEdges]; exact hv) hu0
    (by rw [numVertices_setEdges]; exact hu)]

theorem edgesOf_addEdge (g : Graph) (u v w : Int)
    (hu0 : 0 ≤ u) (hu : u < g.numVertices) (hv0 : 0 ≤ v) (hv : v < g.numVertices)
    (hw : 0 < w) (x : Nat) :
    (g.addEdge u v w).2.edgesOf x =
      (if x = v.toNat then [(⟨w, v.toNat, u.toNat⟩ : Edge)] else []) ++
      ((if x = u.toNat then [(⟨w, u.toNat, v.toNat⟩ : Edge)] else []) ++ g.edgesOf x) := by
  have hul := toNat_lt_length g u hu0 hu
  have hvl := toNat_lt_length g v hv0 hv
  rw [addEdge_ok g u v w hu0 hu hv0 hv hw]
  by_cases hxv : x = v.toNat
  · subst hxv
    rw [edgesOf_setEdges_self _ _ _ (by rw [length_setEdges]; exact hvl), if_pos rfl]
    by_cases hvu : v.toNat = u.toNat
    · rw [if_pos hvu, ← hvu, edgesOf_setEdges_self _ _ _ hvl]
      rfl
    · rw [if_neg hvu, edgesOf_setEdges_ne _ _ _ _ hvu]
      rfl
  · rw [edgesOf_setEdges_ne _ _ _ _ hxv, if_neg hxv]
    by_cases hxu : x = u.toNat
    · subst hxu
      rw [edgesOf_setEdges_self _ _ _ hul, if_pos rfl]
      rfl
    · rw [edgesOf_setEdges_ne _ _ _ _ hxu, if_neg hxu]
      rfl

theorem length_addEdge (g : Graph) (u v w : Int) :
    (g.addEdge u v w).2.adjList.length = g.adjList.length := by
  by_cases hr : u < 0 ∨ g.numVertices ≤ u ∨ v < 0 ∨ g.numVertices ≤ v
  · unfold addEdge
    rw [if_pos (by omega)]
  · by_cases hw : w ≤ 0
    · unfold addEdge
      rw [if_neg (by omega), if_pos hw]
    · rw [addEdge_ok g u v w (by omega) (by omega) (by omega) (by omega) (by omega)]
      simp only [length_setEdges]

theorem addEdge_out_of_range (g : Graph) (u v w : Int)
    (h : u < 0 ∨ g.numVertices ≤ u ∨ v < 0 ∨ g.numVertices ≤ v) :
    g.addEdge u v w = (.error .out_of_range, g) := by
  unfold addEdge
  rw [if_pos (by omega)]

theorem addEdge_bad_weight (g : Graph) (u v w : Int)
    (hu0 : 0 ≤ u) (hu : u < g.numVertices) (hv0 : 0 ≤ v) (hv : v < g.numVertices)
    (hw : w ≤ 0) : g.addEdge u v w = (.error .invalid_argument, g) := by
  unfold addEdge
  rw [if_neg (by omega), if_pos hw]

/-- C5 (as amended): for in-range `u`, `v` and `w > 0`, `addEdge` returns normally and leaves
the vertex count alone; when `u ≠ v` the record `u -> v` of weight `w` is the new head of `u`'s
list and the record `v -> u` of weight `w` the new head of `v`'s list, the rest of both lists
being as before; when `u = v` the list of `u` has two new records `u -> u` of weight `w` at
its head; the list of every other vertex is unchanged. -/
theorem addEdge_adjacency (g : Graph) (u v w : Int)
    (hu0 : 0 ≤ u) (hu : u < g.numVertices) (hv0 : 0 ≤ v) (hv : v < g.numVertices)
    (hw : 0 < w) :
    (g.addEdge u v w).1 = .ok () ∧
    (g.addEdge u v w).2.numVertices = g.numVertices ∧
    (u ≠ v →
      (g.addEdge u v w).2.edgesOf u.toNat = ⟨w, u.toNat, v.toNat⟩ :: g.edgesOf u.toNat ∧
      (g.addEdge u v w).2.edgesOf v.toNat = ⟨w, v.toNat, u.toNat⟩ :: g.edgesOf v.toNat) ∧
    (u = v →
      (g.addEdge u v w).2.edgesOf u.toNat =
        ⟨w, u.toNat, u.toNat⟩ :: ⟨w, u.toNat, u.toNat⟩ :: g.edgesOf u.toNat) ∧
    (∀ x : Nat, x ≠ u.toNat → x ≠ v.toNat → (g.addEdge u v w).2.edgesOf x = g.edgesOf x) := by
  have hE := edgesOf_addEdge g u v w hu0 hu hv0 hv hw
  refine ⟨?_, ?_, ?_, ?_, ?_⟩
  · rw [addEdge_ok g u v w hu0 hu hv0 hv hw]
  · unfold numVertices
    rw [length_addEdge]
  · intro hne
    have hne' := toNat_ne_toNat u v hu0 hv0 hne
    constructor
    · rw [hE, if_neg hne', if_pos rfl]
      rfl
    · rw [hE, if_pos rfl, if_neg (Ne.symm hne')]
      rfl
  · intro he
    subst he
    rw [hE]
    simp
  · intro x hxu hxv
    rw [hE, if_neg hxv, if_neg hxu]
    rfl

/-- Witness for C5 (as amended): the edge `0 - 1` of weight 3 added to the two-vertex graph. -/
theorem addEdge_adjacency_witness :
    (((Graph.mk [Vertex.new 0, Vertex.new 1]).addEdge 0 1 3).2.edgesOf 0 = [⟨3, 0, 1⟩]) ∧
    (((Graph.mk [Vertex.new 0, Vertex.new 1]).addEdge 0 1 3).2.edgesOf 1 = [⟨3, 1, 0⟩]) :=
  (addEdge_adjacency (Graph.mk [Vertex.new 0, Vertex.new 1]) 0 1 3
    (by decide) (by decide) (by decide) (by decide) (by decide)).2.2.1 (by decide)

/-- C5 (counterexample): on the one-vertex graph `addEdge(0, 0, 5)` returns normally but the
adjacency list of vertex 0 grows by two records, not by one. -/
theorem addEdge_self_loop_two_records :
    ((Graph.mk [Vertex.new 0]).addEdge 0 0 5).1 = .ok () ∧
    (((Graph.mk [Vertex.new 0]).addEdge 0 0 5).2.edgesOf 0).length =
      ((Graph.mk [Vertex.new 0]).edgesOf 0).length + 2 ∧
    ¬ (((Graph.mk [Vertex.new 0]).addEdge 0 0 5).2.edgesOf 0).length =
      ((Graph.mk [Vertex.new 0]).edgesOf 0).length + 1 := by
  decide

/-- C6: `addEdge` with an index outside `[0, n)` throws `out_of_range` whatever the weight;
with valid indices and `w ≤ 0` it throws `invalid_argument`; in both cases the graph (hence
every adjacency list) is exactly the graph before the call. -/
theorem addEdge_rejects (g : Graph) (u v w : Int) :
    ((u < 0 ∨ g.numVertices ≤ u ∨ v < 0 ∨ g.numVertices ≤ v) →
      g.addEdge u v w = (.error .out_of_range, g)) ∧
    (0 ≤ u → u < g.numVertices → 0 ≤ v → v < g.numVertices → w ≤ 0 →
      g.addEdge u v w = (.error .invalid_argument, g)) := by
  constructor
  · intro h
    unfold addEdge
    rw [if_pos (by omega)]
  · intro hu0 hu hv0 hv hw
    unfold addEdge
    rw [if_neg (by omega), if_pos hw]

/-- Witness for C6: on a two-vertex graph, `addEdge(0, 2, 7)` and `addEdge(0, 1, 0)`. -/
theorem addEdge_rejects_witness :
    (Graph.mk [Vertex.new 0, Vertex.new 1]).addEdge 0 2 7 =
      (.error .out_of_range, Graph.mk [Vertex.new 0, Vertex.new 1]) ∧
    (Graph.mk [Vertex.new 0, Vertex.new 1]).addEdge 0 1 0 =
      (.error .invalid_argument, Graph.mk [Vertex.new 0, Vertex.new 1]) :=
  ⟨(addEdge_rejects (Graph.mk [Vertex.new 0, Vertex.new 1]) 0 2 7).1 (by decide),
   (addEdge_rejects (Graph.mk [Vertex.new 0, Vertex.new 1]) 0 1 0).2
     (by decide) (by decide) (by decide) (by decide) (by decide)⟩

theorem getElem?_setEdges (g : Graph) (i j : Nat) (es : List Edge) :
    (g.setEdges i es).adjList[j]? =
      if j = i then (g.adjList[i]?).map (fun v => { v with edges := es }) else g.adjList[j]? := by
  unfold setEdges
  cases h : g.adjList[i]? with
  | none =>
    by_cases hji : j = i
    · subst hji; simp [h]
    · simp [hji]
  | some x =>
    have hi : i < g.adjList.length := by
      by_contra hc
      rw [List.getElem?_eq_none (by omega)] at h
      exact absurd h (by simp)
    by_cases hji : j = i
    · subst hji; simp [hi]
    · simp [hji, List.getElem?_set, Ne.symm hji]

theorem ext_getElem? (g h : Graph) (H : ∀ i : Nat, g.adjList[i]? = h.adjList[i]?) : g = h := by
  cases g; cases h
  congr 1
  exact List.ext_getElem? H

theorem setEdges_comm (g : Graph) (i j : Nat) (a b : List Edge) (h : i ≠ j) :
    (g.setEdges i a).setEdges j b = (g.setEdges j b).setEdges i a := by
  apply ext_getElem?
  intro k
  simp only [getElem?_setEdges]
  by_cases hki : k = i
  · subst hki; simp [h, Ne.symm h]
  · by_cases hkj : k = j
    · subst hkj; simp [h, Ne.symm h]
    · simp [hki, hkj]

theorem unlinkFirst_cons_mk (v s : Nat) (w : Int) (l : List Edge) :
    unlinkFirst v (⟨w, s, v⟩ :: l) = (true, l) := by
  simp [unlinkFirst]

theorem removeEdge_eq (g : Graph) (u v : Int)
    (hu0 : 0 ≤ u) (hu : u < g.numVertices) (hv0 : 0 ≤ v) (hv : v < g.numVertices) :
    g.removeEdge u v =
      (if (!(unlinkFirst v.toNat (g.edgesOf u.toNat)).1 ||
            !(unlinkFirst u.toNat ((g.setEdges u.toNat
                (unlinkFirst v.toNat (g.edgesOf u.toNat)).2).edgesOf v.toNat)).1) = true
        then .error .runtime_error else .ok (),
       (g.setEdges u.toNat (unlinkFirst v.toNat (g.edgesOf u.toNat)).2).setEdges v.toNat
          (unlinkFirst u.toNat ((g.setEdges u.toNat
                (unlinkFirst v.toNat (g.edgesOf u.toNat)).2).edgesOf v.toNat)).2) := by
  unfold removeEdge
  rw [if_neg (by omega)]
  simp only
  split <;> rfl

/-- C7: for in-range `u`, `v` (possibly equal) and `w > 0`, on any graph (whatever edges it
already has), `addEdge(u, v, w)` followed by `removeEdge(u, v)` returns normally and the graph
is exactly the graph before the `addEdge`: every adjacency list has the same records in the
same order. -/
theorem addEdge_removeEdge_roundtrip (g : Graph) (u v w : Int)
    (hu0 : 0 ≤ u) (hu : u < g.numVertices) (hv0 : 0 ≤ v) (hv : v < g.numVertices)
    (hw : 0 < w) :
    (g.addEdge u v w).1 = .ok () ∧ (g.addEdge u v w).2.removeEdge u v = (.ok (), g) := by
  have hul := toNat_lt_length g u hu0 hu
  have hvl := toNat_lt_length g v hv0 hv
  have hE := edgesOf_addEdge g u v w hu0 hu hv0 hv hw
  have hn : (g.addEdge u v w).2.numVertices = g.numVertices := by
    unfold numVertices
    rw [length_addEdge]
  refine ⟨by rw [addEdge_ok g u v w hu0 hu hv0 hv hw], ?_⟩
  rw [removeEdge_eq _ u v hu0 (by rw [hn]; exact hu) hv0 (by rw [hn]; exact hv)]
  by_cases huv : u = v
  · subst huv
    have heq : (g.addEdge u u w).2.edgesOf u.toNat =
        ⟨w, u.toNat, u.toNat⟩ :: ⟨w, u.toNat, u.toNat⟩ :: g.edgesOf u.toNat := by
      rw [hE]
      simp
    rw [heq, unlinkFirst_cons_mk]
    simp only
    rw [edgesOf_setEdges_self _ _ _ (by rw [length_addEdge]; exact hul), unlinkFirst_cons_mk]
    simp only [Bool.not_true, Bool.or_self, Bool.false_eq_true, if_false, setEdges_setEdges]
    rw [addEdge_ok g u u w hu0 hu hu0 hu hw]
    simp only [setEdges_setEdges, setEdges_edgesOf]
  · have hne' := toNat_ne_toNat u v hu0 hv0 huv
    have h1 : (g.addEdge u v w).2.edgesOf u.toNat =
        ⟨w, u.toNat, v.toNat⟩ :: g.edgesOf u.toNat := by
      rw [hE, if_neg hne', if_pos rfl]
      rfl
    have h2 : (g.addEdge u v w).2.edgesOf v.toNat =
        ⟨w, v.toNat, u.toNat⟩ :: g.edgesOf v.toNat := by
      rw [hE, if_pos rfl, if_neg (Ne.symm hne')]
      rfl
    rw [h1, unlinkFirst_cons_mk]
    simp only
    rw [edgesOf_setEdges_ne _ _ _ _ (Ne.symm hne'), h2, unlinkFirst_cons_mk]
    simp only [Bool.not_true, Bool.or_self, Bool.false_eq_true, if_false]
    rw [addEdge_ok g u v w hu0 hu hv0 hv hw, edgesOf_setEdges_ne _ _ _ _ (Ne.symm hne')]
    rw [setEdges_comm (g.setEdges u.toNat _) v.toNat u.toNat _ _ (Ne.symm hne')]
    simp only [setEdges_setEdges, setEdges_edgesOf]

/-- Witness for C7: a parallel edge `0 - 1` added to a graph that already has one, then
removed. -/
theorem addEdge_removeEdge_roundtrip_witness :
    ((Graph.mk [⟨0, [⟨4, 0, 1⟩], none, 0⟩, ⟨1, [⟨4, 1, 0⟩], none, 0⟩]).addEdge 0 1 9).1 = .ok () ∧
    ((Graph.mk [⟨0, [⟨4, 0, 1⟩], none, 0⟩, ⟨1, [⟨4, 1, 0⟩], none, 0⟩]).addEdge 0 1 9).2.removeEdge
        0 1 = (.ok (), Graph.mk [⟨0, [⟨4, 0, 1⟩], none, 0⟩, ⟨1, [⟨4, 1, 0⟩], none, 0⟩]) :=
  addEdge_removeEdge_roundtrip (Graph.mk [⟨0, [⟨4, 0, 1⟩], none, 0⟩, ⟨1, [⟨4, 1, 0⟩], none, 0⟩])
    0 1 9 (by decide) (by decide) (by decide) (by decide) (by decide)

end Graph
end graph

namespace graph
namespace Graph

theorem unlinkFirst_append (v : Nat) (l1 l2 : List Edge) (h : ∀ x ∈ l1, x.dest ≠ v) :
    unlinkFirst v (l1 ++ l2) = ((unlinkFirst v l2).1, l1 ++ (unlinkFirst v l2).2) := by
  induction l1 with
  | nil => simp
  | cons a t ih =>
    have ha : a.dest ≠ v := h a (List.mem_cons_self _ _)
    simp [unlinkFirst, ha, ih (fun x hx => h x (List.mem_cons_of_mem _ hx))]

theorem countP_dest_eq_zero (v : Nat) (l : List Edge) (h : ∀ x ∈ l, x.dest ≠ v) :
    l.countP (fun e => decide (e.dest = v)) = 0 := by
  rw [List.countP_eq_zero]
  intro a ha
  simpa using h a ha

theorem countP_dest_pos (v : Nat) (l : List Edge) (h : ∃ x ∈ l, x.dest = v) :
    0 < l.countP (fun e => decide (e.dest = v)) := by
  rw [List.countP_pos_iff]
  obtain ⟨x, hx, hxv⟩ := h
  exact ⟨x, hx, by simpa using hxv⟩

/-- C8 (as amended): for in-range `u`, `v`, `removeEdge(u, v)` either throws the not-found
`runtime_error` or returns normally. For `u ≠ v` it throws iff `u`'s list has no record to `v`
or `v`'s list has no record to `u`, and otherwise removes exactly the first record `u -> v`
of `u`'s list and the first record `v -> u` of `v`'s list. For `u = v` it throws iff `u`'s
list holds fewer than two records `u -> u`, and otherwise removes exactly the first two of
them. -/
theorem removeEdge_not_found_iff (g : Graph) (u v : Int)
    (hu0 : 0 ≤ u) (hu : u < g.numVertices) (hv0 : 0 ≤ v) (hv : v < g.numVertices) :
    ((g.removeEdge u v).1 = .error .runtime_error ↔
      (u ≠ v ∧ ((∀ e ∈ g.edgesOf u.toNat, e.dest ≠ v.toNat) ∨
                (∀ e ∈ g.edgesOf v.toNat, e.dest ≠ u.toNat))) ∨
      (u = v ∧ (g.edgesOf u.toNat).countP (fun e => decide (e.dest = u.toNat)) < 2)) ∧
    ((g.removeEdge u v).1 ≠ .error .runtime_error →
      (g.removeEdge u v).1 = .ok () ∧
      (u ≠ v → ∃ l1 e l2 m1 f m2,
        g.edgesOf u.toNat = l1 ++ e :: l2 ∧ e.dest = v.toNat ∧ (∀ x ∈ l1, x.dest ≠ v.toNat) ∧
        g.edgesOf v.toNat = m1 ++ f :: m2 ∧ f.dest = u.toNat ∧ (∀ x ∈ m1, x.dest ≠ u.toNat) ∧
        (g.removeEdge u v).2 = (g.setEdges u.toNat (l1 ++ l2)).setEdges v.toNat (m1 ++ m2)) ∧
      (u = v → ∃ l1 e l2 f l3,
        g.edgesOf u.toNat = l1 ++ e :: (l2 ++ f :: l3) ∧ e.dest = u.toNat ∧ f.dest = u.toNat ∧
        (∀ x ∈ l1, x.dest ≠ u.toNat) ∧ (∀ x ∈ l2, x.dest ≠ u.toNat) ∧
        (g.removeEdge u v).2 = g.setEdges u.toNat (l1 ++ (l2 ++ l3)))) := by
  have hul := toNat_lt_length g u hu0 hu
  have hvl := toNat_lt_length g v hv0 hv
  rw [removeEdge_eq g u v hu0 hu hv0 hv]
  by_cases h1 : ∃ e ∈ g.edgesOf u.toNat, e.dest = v.toNat
  · obtain ⟨l1, e, l2, hl, hev, hl1, hun⟩ := unlinkFirst_split _ _ h1
    rw [hun]
    by_cases huv : u = v
    · subst huv
      simp only [edgesOf_setEdges_self _ _ _ hul, unlinkFirst_append _ _ _ hl1,
        setEdges_setEdges]
      by_cases h2 : ∃ f ∈ l2, f.dest = u.toNat
      · obtain ⟨k1, f, k2, hk, hfu, hk1, hun2⟩ := unlinkFirst_split _ _ h2
        rw [hun2]
        have hc : ¬ (g.edgesOf u.toNat).countP (fun e => decide (e.dest = u.toNat)) < 2 := by
          rw [hl, hk]
          simp only [List.countP_append, List.countP_cons, hev, hfu, decide_True, if_true]
          omega
        simp only [Bool.not_true, Bool.or_self, Bool.false_eq_true, if_false]
        refine ⟨⟨fun h => by simp at h, fun h => ?_⟩, fun _ => ⟨trivial, fun h => absurd rfl h, ?_⟩⟩
        · rcases h with ⟨h, -⟩ | ⟨-, h⟩
          · exact absurd rfl h
          · exact absurd h hc
        · intro _
          exact ⟨l1, e, k1, f, k2, by rw [hl, hk], hev, hfu, hl1, hk1, rfl⟩
      · have hno : ∀ x ∈ l2, x.dest ≠ u.toNat := fun x hx hxu => h2 ⟨x, hx, hxu⟩
        rw [unlinkFirst_eq_of_not_mem _ _ hno]
        simp only [Bool.not_true, Bool.not_false, Bool.or_true, if_true]
        refine ⟨⟨fun _ => Or.inr ⟨trivial, ?_⟩, fun _ => trivial⟩, fun h => absurd rfl h⟩
        rw [hl]
        simp only [List.countP_append, List.countP_cons, hev, decide_True, if_true,
          countP_dest_eq_zero _ _ hl1, countP_dest_eq_zero _ _ hno]
        omega
    · have hne' := toNat_ne_toNat u v hu0 hv0 huv
      simp only [edgesOf_setEdges_ne _ _ _ _ (Ne.symm hne')]
      by_cases h2 : ∃ f ∈ g.edgesOf v.toNat, f.dest = u.toNat
      · obtain ⟨m1, f, m2, hm, hfu, hm1, hun2⟩ := unlinkFirst_split _ _ h2
        rw [hun2]
        simp only [Bool.not_true, Bool.or_self, Bool.false_eq_true, if_false]
        refine ⟨⟨fun h => by simp at h, fun h => ?_⟩, fun _ => ⟨trivial, ?_, fun h => absurd h huv⟩⟩
        · rcases h with ⟨-, h | h⟩ | ⟨h, -⟩
          · obtain ⟨x, hx, hxv⟩ := h1
            exact absurd hxv (h x hx)
          · obtain ⟨x, hx, hxv⟩ := h2
            exact absurd hxv (h x hx)
          · exact absurd h huv
        · intro _
          exact ⟨l1, e, l2, m1, f, m2, hl, hev, hl1, hm, hfu, hm1, rfl⟩
      · have hno : ∀ x ∈ g.edgesOf v.toNat, x.dest ≠ u.toNat := fun x hx hxu => h2 ⟨x, hx, hxu⟩
        rw [unlinkFirst_eq_of_not_mem _ _ hno]
        simp only [Bool.not_true, Bool.not_false, Bool.or_true, if_true]
        exact ⟨⟨fun _ => Or.inl ⟨huv, Or.inr hno⟩, fun _ => trivial⟩, fun h => absurd rfl h⟩
  · have hno : ∀ x ∈ g.edgesOf u.toNat, x.dest ≠ v.toNat := fun x hx hxv => h1 ⟨x, hx, hxv⟩
    rw [unlinkFirst_eq_of_not_mem _ _ hno]
    simp only [Bool.not_false, Bool.true_or, if_true]
    refine ⟨⟨fun _ => ?_, fun _ => trivial⟩, fun h => absurd rfl h⟩
    by_cases huv : u = v
    · subst huv
      exact Or.inr ⟨rfl, by rw [countP_dest_eq_zero _ _ hno]; omega⟩
    · exact Or.inl ⟨huv, Or.inl hno⟩

/-- Witness for C8 (as amended): removing the edge `0 - 1` from a two-vertex graph holding
exactly that edge. -/
theorem removeEdge_not_found_iff_witness :
    ((Graph.mk [⟨0, [⟨4, 0, 1⟩], none, 0⟩, ⟨1, [⟨4, 1, 0⟩], none, 0⟩]).removeEdge 0 1).1 =
      .ok () :=
  ((removeEdge_not_found_iff (Graph.mk [⟨0, [⟨4, 0, 1⟩], none, 0⟩, ⟨1, [⟨4, 1, 0⟩], none, 0⟩])
    0 1 (by decide) (by decide) (by decide) (by decide)).2 (by decide)).1

/-- C8 (counterexample): a one-vertex graph whose vertex 0 holds a single record `0 -> 0`
(as left by `addDirectedEdge(0, 0, 1)`). With `u = v = 0`, `u`'s list has a record to `v` and
`v`'s list has a record to `u`, yet `removeEdge(0, 0)` throws the not-found error. -/
theorem removeEdge_single_self_loop_throws :
    ((Graph.mk [Vertex.new 0]).addDirectedEdge 0 0 1).2 = Graph.mk [⟨0, [⟨1, 0, 0⟩], none, 0⟩] ∧
    (∃ e ∈ (Graph.mk [⟨0, [⟨1, 0, 0⟩], none, 0⟩]).edgesOf 0, e.dest = 0) ∧
    ((Graph.mk [⟨0, [⟨1, 0, 0⟩], none, 0⟩]).removeEdge 0 0).1 = .error .runtime_error := by
  decide

theorem setEdges_ne_self (g : Graph) (i : Nat) (es : List Edge) (hi : i < g.adjList.length)
    (h : es ≠ g.edgesOf i) : g.setEdges i es ≠ g := by
  intro hc
  have := edgesOf_setEdges_self g i es hi
  rw [hc] at this
  exact h this.symm

/-- C9: `removeEdge` is not atomic. For distinct in-range `u`, `v`: if `u`'s list has a record
to `v` but `v`'s list has none to `u`, the call throws the not-found error and the graph
afterwards is the graph before with the first record `u -> v` removed from `u`'s list (so it
is not the graph before); symmetrically when only the half `v -> u` exists. When neither half
exists the call throws and the graph is unchanged. -/
theorem removeEdge_not_atomic (g : Graph) (u v : Int)
    (hu0 : 0 ≤ u) (hu : u < g.numVertices) (hv0 : 0 ≤ v) (hv : v < g.numVertices) :
    (u ≠ v → (∃ e ∈ g.edgesOf u.toNat, e.dest = v.toNat) →
        (∀ e ∈ g.edgesOf v.toNat, e.dest ≠ u.toNat) →
      (g.removeEdge u v).1 = .error .runtime_error ∧ (g.removeEdge u v).2 ≠ g ∧
      ∃ l1 e l2, g.edgesOf u.toNat = l1 ++ e :: l2 ∧ e.dest = v.toNat ∧
        (∀ x ∈ l1, x.dest ≠ v.toNat) ∧ (g.removeEdge u v).2 = g.setEdges u.toNat (l1 ++ l2)) ∧
    (u ≠ v → (∀ e ∈ g.edgesOf u.toNat, e.dest ≠ v.toNat) →
        (∃ e ∈ g.edgesOf v.toNat, e.dest = u.toNat) →
      (g.removeEdge u v).1 = .error .runtime_error ∧ (g.removeEdge u v).2 ≠ g ∧
      ∃ m1 f m2, g.edgesOf v.toNat = m1 ++ f :: m2 ∧ f.dest = u.toNat ∧
        (∀ x ∈ m1, x.dest ≠ u.toNat) ∧ (g.removeEdge u v).2 = g.setEdges v.toNat (m1 ++ m2)) ∧
    ((∀ e ∈ g.edgesOf u.toNat, e.dest ≠ v.toNat) → (∀ e ∈ g.edgesOf v.toNat, e.dest ≠ u.toNat) →
      g.removeEdge u v = (.error .runtime_error, g)) := by
  have hul := toNat_lt_length g u hu0 hu
  have hvl := toNat_lt_length g v hv0 hv
  rw [removeEdge_eq g u v hu0 hu hv0 hv]
  refine ⟨?_, ?_, ?_⟩
  · intro huv h1 h2
    have hne' := toNat_ne_toNat u v hu0 hv0 huv
    obtain ⟨l1, e, l2, hl, hev, hl1, hun⟩ := unlinkFirst_split _ _ h1
    rw [hun]
    simp only [edgesOf_setEdges_ne _ _ _ _ (Ne.symm hne'), unlinkFirst_eq_of_not_mem _ _ h2,
      setEdges_edgesOf]
    refine ⟨by simp, ?_, l1, e, l2, hl, hev, hl1, ?_⟩
    · rw [← edgesOf_setEdges_ne g u.toNat v.toNat (l1 ++ l2) (Ne.symm hne'), setEdges_edgesOf]
      apply setEdges_ne_self _ _ _ hul
      rw [hl]
      intro hc
      have := congrArg List.length hc
      simp at this
    · rw [← edgesOf_setEdges_ne g u.toNat v.toNat (l1 ++ l2) (Ne.symm hne'), setEdges_edgesOf]
  · intro huv h1 h2
    have hne' := toNat_ne_toNat u v hu0 hv0 huv
    obtain ⟨m1, f, m2, hm, hfu, hm1, hun⟩ := unlinkFirst_split _ _ h2
    simp only [unlinkFirst_eq_of_not_mem _ _ h1, setEdges_edgesOf, hun]
    refine ⟨by simp, ?_, m1, f, m2, hm, hfu, hm1, rfl⟩
    apply setEdges_ne_self _ _ _ hvl
    rw [hm]
    intro hc
    have := congrArg List.length hc
    simp at this
  · intro h1 h2
    simp only [unlinkFirst_eq_of_not_mem _ _ h1, setEdges_edgesOf,
      unlinkFirst_eq_of_not_mem _ _ h2]
    simp

/-- Witness for C9: vertex 0 holds a record `0 -> 1` (as left by `addDirectedEdge(0, 1, 4)`)
and vertex 1 holds nothing; `removeEdge(0, 1)` throws and the record is gone. -/
theorem removeEdge_not_atomic_witness :
    ((Graph.mk [⟨0, [⟨4, 0, 1⟩], none, 0⟩, Vertex.new 1]).removeEdge 0 1).1 =
      .error .runtime_error ∧
    ((Graph.mk [⟨0, [⟨4, 0, 1⟩], none, 0⟩, Vertex.new 1]).removeEdge 0 1).2 ≠
      Graph.mk [⟨0, [⟨4, 0, 1⟩], none, 0⟩, Vertex.new 1] :=
  have h := (removeEdge_not_atomic (Graph.mk [⟨0, [⟨4, 0, 1⟩], none, 0⟩, Vertex.new 1]) 0 1
    (by decide) (by decide) (by decide) (by decide)).1 (by decide) (by decide) (by decide)
  ⟨h.1, h.2.1⟩

end Graph
end graph

namespace graph
namespace Graph

theorem filter_unlinkFirst (v y : Nat) (l : List Edge) :
    (unlinkFirst v l).2.filter (fun e => decide (e.dest = y)) =
      (l.filter (fun e => decide (e.dest = y))).drop (if y = v then 1 else 0) := by
  induction l with
  | nil => simp [unlinkFirst]
  | cons a t ih =>
    unfold unlinkFirst
    by_cases ha : a.dest = v
    · by_cases hy : y = v
      · subst hy; simp [ha]
      · have : ¬ a.dest = y := fun h => hy (h ▸ ha)
        rw [if_pos ha, if_neg hy, List.drop_zero, List.filter_cons_of_neg (by simpa using this)]
    · simp only [ha, if_false]
      by_cases hy : y = v
      · subst hy
        simp only [ha, decide_False, List.filter_cons_of_neg, Bool.false_eq_true,
          not_false_eq_true, if_true] at ih ⊢
        exact ih
      · simp only [hy, if_false, List.drop_zero] at ih ⊢
        simp only [List.filter_cons, ih]

theorem weightsTo_setEdges (g : Graph) (i : Nat) (es : List Edge) (x y : Nat)
    (hi : i < g.adjList.length) :
    (g.setEdges i es).weightsTo x y =
      if x = i then (es.filter fun e => decide (e.dest = y)).map Edge.weight
      else g.weightsTo x y := by
  unfold weightsTo
  by_cases hx : x = i
  · subst hx; simp [edgesOf_setEdges_self _ _ _ hi]
  · simp [hx, edgesOf_setEdges_ne _ _ _ _ hx]

theorem weightsTo_addEdge (g : Graph) (u v w : Int)
    (hu0 : 0 ≤ u) (hu : u < g.numVertices) (hv0 : 0 ≤ v) (hv : v < g.numVertices)
    (hw : 0 < w) (x y : Nat) :
    (g.addEdge u v w).2.weightsTo x y =
      (if x = v.toNat ∧ y = u.toNat then [w] else []) ++
      ((if x = u.toNat ∧ y = v.toNat then [w] else []) ++ g.weightsTo x y) := by
  have hul := toNat_lt_length g u hu0 hu
  have hvl := toNat_lt_length g v hv0 hv
  rw [addEdge_ok g u v w hu0 hu hv0 hv hw,
    weightsTo_setEdges _ _ _ _ _ (by rw [length_setEdges]; exact hvl)]
  by_cases hxv : x = v.toNat
  · subst hxv
    simp only [if_true, true_and]
    unfold weightsTo
    by_cases huv : u.toNat = v.toNat
    · rw [huv, edgesOf_setEdges_self _ _ _ hvl]
      by_cases hy : y = v.toNat
      · subst hy; simp
      · simp [hy, Ne.symm hy]
    · rw [edgesOf_setEdges_ne _ _ _ _ (Ne.symm huv)]
      by_cases hy : y = u.toNat
      · subst hy; simp [Ne.symm huv]
      · simp [hy, Ne.symm hy, Ne.symm huv]
  · simp only [hxv, if_false, false_and, List.nil_append]
    rw [weightsTo_setEdges _ _ _ _ _ hul]
    by_cases hxu : x = u.toNat
    · subst hxu
      unfold weightsTo
      by_cases hy : y = v.toNat
      · subst hy; simp
      · simp [hy, Ne.symm hy]
    · simp [hxu]

theorem weightsTo_removeEdge (g : Graph) (u v : Int)
    (hu0 : 0 ≤ u) (hu : u < g.numVertices) (hv0 : 0 ≤ v) (hv : v < g.numVertices)
    (x y : Nat) :
    (g.removeEdge u v).2.weightsTo x y =
      ((g.weightsTo x y).drop (if x = u.toNat ∧ y = v.toNat then 1 else 0)).drop
        (if x = v.toNat ∧ y = u.toNat then 1 else 0) := by
  have hul := toNat_lt_length g u hu0 hu
  have hvl := toNat_lt_length g v hv0 hv
  rw [removeEdge_eq g u v hu0 hu hv0 hv]
  simp only
  rw [weightsTo_setEdges _ _ _ _ _ (by rw [length_setEdges]; exact hvl)]
  by_cases hxv : x = v.toNat
  · subst hxv
    simp only [if_true, true_and, filter_unlinkFirst, List.map_drop]
    by_cases huv : u.toNat = v.toNat
    · rw [huv, edgesOf_setEdges_self _ _ _ hvl]
      simp only [filter_unlinkFirst, List.map_drop, weightsTo, true_and]
    · rw [edgesOf_setEdges_ne _ _ _ _ (Ne.symm huv)]
      simp [Ne.symm huv, weightsTo]
  · simp only [hxv, if_false, false_and, List.drop_zero]
    rw [weightsTo_setEdges _ _ _ _ _ hul]
    by_cases hxu : x = u.toNat
    · subst hxu
      simp only [if_true, true_and, filter_unlinkFirst, List.map_drop, weightsTo]
    · simp [hxu]

theorem symmetric_new (n : Int) (g : Graph) (h : Graph.new n = .ok g) : g.Symmetric := by
  unfold Graph.new at h
  split at h
  · exact absurd h (by simp)
  · injection h with h
    subst h
    have hE : ∀ i : Nat,
        (Graph.mk ((List.range n.toNat).map fun (i : Nat) => Vertex.new (i : Int))).edgesOf i
        = [] := by
      intro i
      unfold edgesOf
      simp only [List.getElem?_map]
      cases (List.range n.toNat)[i]? <;> simp [Vertex.new]
    intro u v
    simp [weightsTo, hE]

theorem symmetric_addEdge (g : Graph) (u v w : Int) (h : g.Symmetric) :
    (g.addEdge u v w).2.Symmetric := by
  by_cases hr : u < 0 ∨ g.numVertices ≤ u ∨ v < 0 ∨ g.numVertices ≤ v
  · rw [addEdge_out_of_range g u v w hr]; exact h
  · by_cases hw : w ≤ 0
    · rw [addEdge_bad_weight g u v w (by omega) (by omega) (by omega) (by omega) hw]; exact h
    · intro x y
      rw [weightsTo_addEdge g u v w (by omega) (by omega) (by omega) (by omega) (by omega),
        weightsTo_addEdge g u v w (by omega) (by omega) (by omega) (by omega) (by omega), h x y]
      have e1 : (y = v.toNat ∧ x = u.toNat) = (x = u.toNat ∧ y = v.toNat) := propext and_comm
      have e2 : (y = u.toNat ∧ x = v.toNat) = (x = v.toNat ∧ y = u.toNat) := propext and_comm
      simp only [e1, e2]
      split_ifs <;> simp

theorem symmetric_removeEdge (g : Graph) (u v : Int) (h : g.Symmetric) :
    (g.removeEdge u v).2.Symmetric := by
  by_cases hr : u < 0 ∨ g.numVertices ≤ u ∨ v < 0 ∨ g.numVertices ≤ v
  · have : g.removeEdge u v = (.error .out_of_range, g) := by
      unfold removeEdge
      rw [if_pos (by omega)]
    rw [this]; exact h
  · intro x y
    rw [weightsTo_removeEdge g u v (by omega) (by omega) (by omega) (by omega),
      weightsTo_removeEdge g u v (by omega) (by omega) (by omega) (by omega), h x y]
    have e1 : (y = v.toNat ∧ x = u.toNat) = (x = u.toNat ∧ y = v.toNat) := propext and_comm
    have e2 : (y = u.toNat ∧ x = v.toNat) = (x = v.toNat ∧ y = u.toNat) := propext and_comm
    simp only [e1, e2]
    split_ifs <;> simp [List.drop_drop]

theorem symmetric_of_built (g : Graph) (h : g.Built) : g.Symmetric := by
  induction h with
  | new n g hg => exact symmetric_new n g hg
  | addEdge g a b w _ ih => exact symmetric_addEdge g a b w ih
  | removeEdge g a b _ ih => exact symmetric_removeEdge g a b ih

/-- C10: symmetry invariant. In every graph obtained from a constructor call by `addEdge` and
`removeEdge` calls (returning or throwing), for all vertices `u`, `v` the sequence of weights
of the records `u -> v` in `u`'s list equals the sequence of weights of the records `v -> u`
in `v`'s list; in particular a record `u -> v` of weight `w` exists iff a record `v -> u` of
weight `w` does. -/
theorem built_symmetric (g : Graph) (h : g.Built) (u v : Nat) :
    g.weightsTo u v = g.weightsTo v u ∧
    ∀ w : Int, (∃ e ∈ g.edgesOf u, e.dest = v ∧ e.weight = w) ↔
      (∃ e ∈ g.edgesOf v, e.dest = u ∧ e.weight = w) := by
  have hs : g.Symmetric := symmetric_of_built g h
  refine ⟨hs u v, fun w => ?_⟩
  have key : ∀ a b : Nat, (∃ e ∈ g.edgesOf a, e.dest = b ∧ e.weight = w) ↔
      w ∈ g.weightsTo a b := by
    intro a b
    simp only [weightsTo, List.mem_map, List.mem_filter, decide_eq_true_eq]
    constructor
    · rintro ⟨e, he, hd, hw⟩; exact ⟨e, ⟨he, hd⟩, hw⟩
    · rintro ⟨e, ⟨he, hd⟩, hw⟩; exact ⟨e, he, hd, hw⟩
  rw [key u v, key v u, hs u v]

/-- Witness for C10: the graph left by `Graph(2)`, `addEdge(0,1,4)`, `addEdge(0,1,9)`,
`removeEdge(0,1)`, `removeEdge(1,1)` (the last one throws). -/
theorem built_symmetric_witness :
    ((((((Graph.mk [Vertex.new 0, Vertex.new 1]).addEdge 0 1 4).2.addEdge 0 1 9).2.removeEdge
        0 1).2.removeEdge 1 1).2.weightsTo 0 1 = [4]) ∧
    ((((((Graph.mk [Vertex.new 0, Vertex.new 1]).addEdge 0 1 4).2.addEdge 0 1 9).2.removeEdge
        0 1).2.removeEdge 1 1).2.weightsTo 1 0 = [4]) :=
  have h := (built_symmetric _ (Built.removeEdge _ 1 1 (Built.removeEdge _ 0 1
    (Built.addEdge _ 0 1 9 (Built.addEdge _ 0 1 4
      (Built.new 2 (Graph.mk [Vertex.new 0, Vertex.new 1]) (by decide)))))) 0 1).1
  ⟨by decide, h ▸ by decide⟩

end Graph
end graph

namespace graph

set_option maxRecDepth 100000 in
/-- C2 (failing input): the connected two-vertex graph built by `addEdge(0, 1, 2147483647)`
(the weight is `INT_MAX`, a positive `int`). `prim` returns a graph without any edge, since
the test `w < v->distance` compares `INT_MAX` with the initial distance `INT_MAX`; `kruskal`
returns the one-edge spanning tree. -/
theorem prim_drops_int_max_edge :
    ((Graph.mk [Vertex.new 0, Vertex.new 1]).addEdge 0 1 2147483647) =
      (.ok (), Graph.mk [⟨0, [⟨2147483647, 0, 1⟩], none, 0⟩,
                          ⟨1, [⟨2147483647, 1, 0⟩], none, 0⟩]) ∧
    (prim (Graph.mk [⟨0, [⟨2147483647, 0, 1⟩], none, 0⟩,
                     ⟨1, [⟨2147483647, 1, 0⟩], none, 0⟩])).map (fun r => r.1) =
      some (.ok (Graph.mk [Vertex.new 0, Vertex.new 1])) ∧
    (kruskal (Graph.mk [⟨0, [⟨2147483647, 0, 1⟩], none, 0⟩,
                        ⟨1, [⟨2147483647, 1, 0⟩], none, 0⟩])).map
        (fun r => r.1.map Graph.countEdges) = some (.ok 1) := by
  decide

set_option maxRecDepth 100000 in
/-- C4 (failing input): the three-vertex graph built by `addEdge(1, 2, 1)`, source 0; the
vertices 1 and 2 are not reachable from 0. With 32-bit wrap-around `INT_MAX + 1` is negative,
so the relaxation from vertex 2 gives vertex 1 the father 2, the relaxation from vertex 1
gives vertex 2 the father 1, and `decreaseKey` is then called for vertex 2, which has left
the heap: `dijkstra` throws `runtime_error` instead of returning a graph. -/
theorem dijkstra_unreachable_edge_throws :
    ((Graph.mk [Vertex.new 0, Vertex.new 1, Vertex.new 2]).addEdge 1 2 1) =
      (.ok (), Graph.mk [⟨0, [], none, 0⟩, ⟨1, [⟨1, 1, 2⟩], none, 0⟩,
                          ⟨2, [⟨1, 2, 1⟩], none, 0⟩]) ∧
    (dijkstra (Graph.mk [⟨0, [], none, 0⟩, ⟨1, [⟨1, 1, 2⟩], none, 0⟩,
                         ⟨2, [⟨1, 2, 1⟩], none, 0⟩]) 0).map
        (fun r => (r.1, r.2.fatherOf 1, r.2.fatherOf 2, r.2.distanceOf 1)) =
      some (.error .runtime_error, some 2, some 1, -2147483648) := by
  decide

end graph

namespace graph
namespace MinHeap

variable {T : Type}

theorem length_swapVals (d : List T) (i j : Nat) : (swapVals d i j).length = d.length := by
  unfold swapVals
  split <;> simp

theorem getElem?_swapVals (d : List T) (i j k : Nat) (hi : i < d.length) (hj : j < d.length) :
    (swapVals d i j)[k]? = if k = j then d[i]? else if k = i then d[j]? else d[k]? := by
  unfold swapVals
  rw [List.getElem?_eq_getElem hi, List.getElem?_eq_getElem hj]
  simp only [List.getElem?_set, List.length_set]
  by_cases hkj : k = j
  · subst hkj; simp [hj]
  · by_cases hki : k = i
    · subst hki; simp [hkj, Ne.symm hkj, hi]
    · simp [hkj, hki, Ne.symm hkj, Ne.symm hki]

theorem swapVals_perm (d : List T) (i j : Nat) : (swapVals d i j).Perm d := by
  classical
  unfold swapVals
  cases hi : d[i]? with
  | none => exact List.Perm.refl _
  | some a =>
    cases hj : d[j]? with
    | none => exact List.Perm.refl _
    | some b =>
      simp only
      obtain ⟨hil, hia⟩ := List.getElem?_eq_some_iff.1 hi
      obtain ⟨hjl, hjb⟩ := List.getElem?_eq_some_iff.1 hj
      rw [List.perm_iff_count]
      intro c
      have hjl2 : j < (d.set i b).length := by simpa using hjl
      rw [List.count_set _ _ _ _ hjl2, List.count_set _ _ _ _ hil]
      have hsj : (d.set i b)[j] = b := by
        rw [List.getElem_set]
        split
        · rfl
        · exact hjb
      rw [hsj, hia]
      have ha : a ∈ d := hia ▸ List.getElem_mem hil
      have hpos : ∀ x, x ∈ d → x = c → 0 < List.count c d := by
        intro x hx hxc
        subst hxc
        exact List.count_pos_iff.2 hx
      by_cases hac : a = c <;> by_cases hbc : b = c
      · have := hpos a ha hac
        simp [hac, hbc]
        omega
      · have := hpos a ha hac
        simp [hac, hbc]
        omega
      · simp [hac, hbc]
      · simp [hac, hbc]

theorem siftUpAux_perm (cmp : T → T → Bool) (fuel : Nat) (d : List T) (i : Nat) :
    (siftUpAux cmp fuel d i).Perm d := by
  induction fuel generalizing d i with
  | zero => exact List.Perm.refl _
  | succ f ih =>
    unfold siftUpAux
    split
    · split
      · split
        · exact (ih _ _).trans (swapVals_perm _ _ _)
        · exact List.Perm.refl _
      · exact List.Perm.refl _
    · exact List.Perm.refl _

theorem siftUp_perm (cmp : T → T → Bool) (d : List T) (i : Nat) : (siftUp cmp d i).Perm d :=
  siftUpAux_perm cmp i d i

theorem almostUp_swap (key : T → Int) (d : List T) (i : Nat) (x y : T)
    (hi0 : 0 < i) (hi : i < d.length) (hx : d[i]? = some x) (hy : d[(i - 1) / 2]? = some y)
    (hlt : key x < key y) (h : AlmostUp key d i) :
    AlmostUp key (swapVals d i ((i - 1) / 2)) ((i - 1) / 2) := by
  have hp : (i - 1) / 2 < i := by omega
  have hpl : (i - 1) / 2 < d.length := by omega
  constructor
  · intro j hj hjp a b ha hb
    rw [getElem?_swapVals d i _ _ hi hpl] at ha hb
    rw [if_neg hjp] at ha
    by_cases hji : j = i
    · subst hji
      rw [if_pos rfl, hy] at ha
      rw [if_pos rfl, hx] at hb
      injection ha with ha
      injection hb with hb
      subst ha hb
      exact le_of_lt hlt
    · rw [if_neg hji] at ha
      by_cases hq : (j - 1) / 2 = (i - 1) / 2
      · rw [if_pos hq, hx] at hb
        injection hb with hb
        subst hb
        have := h.1 j hj hji a y ha (hq ▸ hy)
        omega
      · rw [if_neg hq] at hb
        by_cases hqi : (j - 1) / 2 = i
        · rw [if_pos hqi, hy] at hb
          injection hb with hb
          subst hb
          exact h.2 j a _ hi0 hqi hj ha hy
        · rw [if_neg hqi] at hb
          exact h.1 j hj hji a b ha hb
  · intro c a b hp0 hcp hc0 ha hb
    rw [getElem?_swapVals d i _ _ hi hpl] at ha hb
    have hq1 : ¬ ((i - 1) / 2 - 1) / 2 = (i - 1) / 2 := by omega
    have hq2 : ¬ ((i - 1) / 2 - 1) / 2 = i := by omega
    rw [if_neg hq1, if_neg hq2] at hb
    have hby : key b ≤ key y := h.1 _ hp0 (by omega) y b hy hb
    have hcp' : ¬ c = (i - 1) / 2 := by omega
    rw [if_neg hcp'] at ha
    by_cases hci : c = i
    · rw [if_pos hci, hy] at ha
      injection ha with ha
      subst ha
      exact hby
    · rw [if_neg hci] at ha
      have := h.1 c hc0 hci a y ha (hcp ▸ hy)
      omega

theorem siftUpAux_ordered (key : T → Int) (cmp : T → T → Bool)
    (hc : ∀ a b, cmp a b = decide (key a < key b))
    (fuel : Nat) (d : List T) (i : Nat) (hf : i ≤ fuel) (hi : i < d.length)
    (h : AlmostUp key d i) :
    ∀ j, 0 < j → OrdAt key (siftUpAux cmp fuel d i) j := by
  induction fuel generalizing d i with
  | zero =>
    intro j hj
    have : i = 0 := by omega
    subst this
    exact h.1 j hj (by omega)
  | succ f ih =>
    unfold siftUpAux
    by_cases hi0 : 0 < i
    · have hp : (i - 1) / 2 < i := by omega
      have hpl : (i - 1) / 2 < d.length := by omega
      have hx := List.getElem?_eq_getElem hi
      have hy := List.getElem?_eq_getElem hpl
      rw [if_pos hi0, hx, hy]
      simp only
      by_cases hcmp : cmp d[i] d[(i - 1) / 2] = true
      · rw [if_pos hcmp]
        rw [hc] at hcmp
        have hlt : key d[i] < key d[(i - 1) / 2] := by simpa using hcmp
        exact ih _ _ (by omega) (by rw [length_swapVals]; exact hpl)
          (almostUp_swap key d i _ _ hi0 hi hx hy hlt h)
      · rw [if_neg hcmp]
        rw [hc] at hcmp
        have hle : key d[(i - 1) / 2] ≤ key d[i] := by simpa using hcmp
        intro j hj
        by_cases hji : j = i
        · subst hji
          intro a b ha hb
          rw [hx] at ha
          rw [hy] at hb
          injection ha with ha
          injection hb with hb
          subst ha hb
          exact hle
        · exact h.1 j hj hji
    · rw [if_neg hi0]
      have : i = 0 := by omega
      subst this
      intro j hj
      exact h.1 j hj (by omega)

theorem heapOrdered_iff_ordAt (key : T → Int) (cmp : T → T → Bool)
    (hc : ∀ a b, cmp a b = decide (key a < key b)) (d : List T) :
    HeapOrdered cmp d ↔ ∀ j, 0 < j → OrdAt key d j := by
  constructor
  · intro h j hj x y hx hy
    have := h j x y hj hx hy
    rw [hc] at this
    simpa using this
  · intro h j x y hj hx hy
    rw [hc]
    simpa using h j hj x y hx hy

theorem siftUp_heapOrdered (key : T → Int) (cmp : T → T → Bool)
    (hc : ∀ a b, cmp a b = decide (key a < key b)) (d : List T) (i : Nat)
    (hi : i < d.length) (h : AlmostUp key d i) : HeapOrdered cmp (siftUp cmp d i) :=
  (heapOrdered_iff_ordAt key cmp hc _).2
    (siftUpAux_ordered key cmp hc i d i (Nat.le_refl _) hi h)

end MinHeap
end graph

namespace graph
namespace MinHeap

variable {T : Type}

theorem smaller_spec (key : T → Int) (cmp : T → T → Bool)
    (hc : ∀ a b, cmp a b = decide (key a < key b)) (d : List T) (c best : Nat) (y : T)
    (hy : d[best]? = some y) :
    ∃ z, d[smaller cmp d c best]? = some z ∧
      (smaller cmp d c best = best ∨ smaller cmp d c best = c) ∧
      key z ≤ key y ∧ (∀ a, d[c]? = some a → key z ≤ key a) := by
  unfold smaller
  cases hcx : d[c]? with
  | none => exact ⟨y, by simpa using hy, Or.inl (by simp), le_refl _, by simp⟩
  | some x =>
    simp only [hy]
    by_cases hlt : key x < key y
    · have : cmp x y = true := by rw [hc]; simpa using hlt
      rw [if_pos this]
      refine ⟨x, hcx, Or.inr rfl, le_of_lt hlt, ?_⟩
      intro a ha
      injection ha with ha
      rw [ha]
    · have : ¬ cmp x y = true := by rw [hc]; simpa using hlt
      rw [if_neg this]
      refine ⟨y, hy, Or.inl rfl, le_refl _, ?_⟩
      intro a ha
      injection ha with ha
      rw [← ha]
      omega

theorem bestChild_spec (key : T → Int) (cmp : T → T → Bool)
    (hc : ∀ a b, cmp a b = decide (key a < key b)) (d : List T) (i : Nat) (x : T)
    (hx : d[i]? = some x) :
    ∃ z, d[bestChild cmp d i]? = some z ∧
      (bestChild cmp d i = i ∨ bestChild cmp d i = 2 * i + 1 ∨
        bestChild cmp d i = 2 * i + 1 + 1) ∧
      key z ≤ key x ∧ (∀ a, d[2 * i + 1]? = some a → key z ≤ key a) ∧
      (∀ a, d[2 * i + 1 + 1]? = some a → key z ≤ key a) := by
  obtain ⟨z1, hz1, ho1, hle1, hl1⟩ := smaller_spec key cmp hc d (2 * i + 1) i x hx
  obtain ⟨z2, hz2, ho2, hle2, hl2⟩ :=
    smaller_spec key cmp hc d (2 * i + 1 + 1) (smaller cmp d (2 * i + 1) i) z1 hz1
  refine ⟨z2, hz2, ?_, by omega, ?_, hl2⟩
  · unfold bestChild
    rcases ho2 with h | h
    · rw [h]
      rcases ho1 with h' | h'
      · exact Or.inl h'
      · exact Or.inr (Or.inl h')
    · exact Or.inr (Or.inr h)
  · intro a ha
    have := hl1 a ha
    omega

theorem almostDown_swap (key : T → Int) (d : List T) (i c : Nat) (x z : T)
    (hx : d[i]? = some x) (hz : d[c]? = some z)
    (hci : c = 2 * i + 1 ∨ c = 2 * i + 1 + 1) (hzx : key z ≤ key x)
    (hl : ∀ a, d[2 * i + 1]? = some a → key z ≤ key a)
    (hr : ∀ a, d[2 * i + 1 + 1]? = some a → key z ≤ key a)
    (h : AlmostDown key d i) : AlmostDown key (swapVals d i c) c := by
  obtain ⟨hil, -⟩ := List.getElem?_eq_some_iff.1 hx
  obtain ⟨hcl, -⟩ := List.getElem?_eq_some_iff.1 hz
  have hpc : (c - 1) / 2 = i := by omega
  have hc0 : 0 < c := by omega
  constructor
  · intro j hj hjq a b ha hb
    rw [getElem?_swapVals d i c _ hil hcl] at ha hb
    rw [if_neg hjq] at hb
    by_cases hjc : j = c
    · subst hjc
      rw [if_pos rfl, hx] at ha
      rw [if_pos hpc, hz] at hb
      injection ha with ha
      injection hb with hb
      subst ha hb
      exact hzx
    · rw [if_neg hjc] at ha
      by_cases hji : j = i
      · subst hji
        rw [if_pos rfl, hz] at ha
        injection ha with ha
        subst ha
        rw [if_neg (by omega)] at hb
        exact h.2 c _ b hj hpc hc0 hz hb
      · rw [if_neg hji] at ha
        by_cases hq : (j - 1) / 2 = i
        · rw [if_pos hq, hz] at hb
          injection hb with hb
          subst hb
          have hjlr : j = 2 * i + 1 ∨ j = 2 * i + 1 + 1 := by omega
          rcases hjlr with e | e
          · exact hl a (e ▸ ha)
          · exact hr a (e ▸ ha)
        · rw [if_neg hq] at hb
          exact h.1 j hj hq a b ha hb
  · intro g a b _ hgc hg0 ha hb
    rw [getElem?_swapVals d i c _ hil hcl] at ha hb
    rw [if_neg (by omega), if_pos hpc, hz] at hb
    injection hb with hb
    subst hb
    rw [if_neg (by omega), if_neg (by omega)] at ha
    exact h.1 g hg0 (by omega) a _ ha (hgc ▸ hz)

theorem siftDownAux_perm (cmp : T → T → Bool) (fuel : Nat) (d : List T) (i : Nat) :
    (siftDownAux cmp fuel d i).Perm d := by
  induction fuel generalizing d i with
  | zero => exact List.Perm.refl _
  | succ f ih =>
    unfold siftDownAux
    split
    · exact List.Perm.refl _
    · exact (ih _ _).trans (swapVals_perm _ _ _)

theorem siftDown_perm (cmp : T → T → Bool) (d : List T) (i : Nat) :
    (siftDown cmp d i).Perm d :=
  siftDownAux_perm cmp _ d i

theorem siftDownAux_ordered (key : T → Int) (cmp : T → T → Bool)
    (hc : ∀ a b, cmp a b = decide (key a < key b))
    (fuel : Nat) (d : List T) (i : Nat) (hf : d.length ≤ fuel + i) (hi : i < d.length)
    (h : AlmostDown key d i) :
    ∀ j, 0 < j → OrdAt key (siftDownAux cmp fuel d i) j := by
  induction fuel generalizing d i with
  | zero => omega
  | succ f ih =>
    have hx := List.getElem?_eq_getElem hi
    obtain ⟨z, hz, ho, hzx, hl, hr⟩ := bestChild_spec key cmp hc d i _ hx
    unfold siftDownAux
    by_cases hb : bestChild cmp d i = i
    · rw [if_pos hb]
      rw [hb, hx] at hz
      injection hz with hz
      subst hz
      intro j hj
      by_cases hq : (j - 1) / 2 = i
      · intro a b ha hb'
        rw [hq, hx] at hb'
        injection hb' with hb'
        subst hb'
        have hjlr : j = 2 * i + 1 ∨ j = 2 * i + 1 + 1 := by omega
        rcases hjlr with e | e
        · exact hl a (e ▸ ha)
        · exact hr a (e ▸ ha)
      · exact h.1 j hj hq
    · rw [if_neg hb]
      have hci : bestChild cmp d i = 2 * i + 1 ∨ bestChild cmp d i = 2 * i + 1 + 1 := by
        rcases ho with e | e
        · exact absurd e hb
        · exact e
      obtain ⟨hcl, -⟩ := List.getElem?_eq_some_iff.1 hz
      exact ih _ _ (by rw [length_swapVals]; omega) (by rw [length_swapVals]; exact hcl)
        (almostDown_swap key d i _ _ z hx hz hci hzx hl hr h)

theorem siftDown_heapOrdered (key : T → Int) (cmp : T → T → Bool)
    (hc : ∀ a b, cmp a b = decide (key a < key b)) (d : List T) (i : Nat)
    (hi : i < d.length) (h : AlmostDown key d i) : HeapOrdered cmp (siftDown cmp d i) :=
  (heapOrdered_iff_ordAt key cmp hc _).2
    (siftDownAux_ordered key cmp hc _ d i (by omega) hi h)

theorem root_le_of_ordAt (key : T → Int) (d : List T) (h : ∀ j, 0 < j → OrdAt key d j)
    (r : T) (hr : d[0]? = some r) : ∀ (j : Nat) (x : T), d[j]? = some x → key r ≤ key x := by
  intro j
  induction j using Nat.strong_induction_on with
  | _ j ih =>
    intro x hx
    by_cases hj : j = 0
    · subst hj
      rw [hr] at hx
      injection hx with hx
      rw [hx]
    · obtain ⟨hjl, -⟩ := List.getElem?_eq_some_iff.1 hx
      have hpl : (j - 1) / 2 < d.length := by omega
      have hy := List.getElem?_eq_getElem hpl
      have h1 := ih ((j - 1) / 2) (by omega) _ hy
      have h2 := h j (by omega) x _ hx hy
      omega

end MinHeap
end graph

namespace graph
namespace MinHeap

variable {T : Type}

theorem insert_data (cmp : T → T → Bool) (h : MinHeap T) (v : T) :
    (h.insert cmp v).data_ = siftUp cmp (h.data_ ++ [v]) h.data_.length := by
  unfold insert grow
  split <;> rfl

theorem insert_perm (cmp : T → T → Bool) (h : MinHeap T) (v : T) :
    (h.insert cmp v).data_.Perm (v :: h.data_) := by
  rw [insert_data]
  exact (siftUp_perm _ _ _).trans (List.perm_append_singleton v h.data_)

theorem almostUp_append (key : T → Int) (d : List T) (v : T)
    (h : ∀ j, 0 < j → OrdAt key d j) : AlmostUp key (d ++ [v]) d.length := by
  constructor
  · intro j hj hjl a b ha hb
    by_cases hlt : j < d.length
    · rw [List.getElem?_append_left hlt] at ha
      rw [List.getElem?_append_left (by omega)] at hb
      exact h j hj a b ha hb
    · rw [List.getElem?_eq_none (by simp; omega)] at ha
      exact absurd ha (by simp)
  · intro c a b _ hcp _ ha _
    rw [List.getElem?_eq_none (by simp; omega)] at ha
    exact absurd ha (by simp)

theorem insert_heapOrdered (key : T → Int) (cmp : T → T → Bool)
    (hc : ∀ a b, cmp a b = decide (key a < key b)) (h : MinHeap T) (v : T)
    (ho : HeapOrdered cmp h.data_) : HeapOrdered cmp (h.insert cmp v).data_ := by
  rw [insert_data]
  exact siftUp_heapOrdered key cmp hc _ _ (by simp)
    (almostUp_append key _ v ((heapOrdered_iff_ordAt key cmp hc _).1 ho))

theorem extractMin_nil (cmp : T → T → Bool) (h : MinHeap T) (hd : h.data_ = []) :
    h.extractMin cmp = (.error .runtime_error, h) := by
  unfold extractMin
  rw [hd]

theorem almostDown_extract (key : T → Int) (root last : T) (rest : List T)
    (h : ∀ j, 0 < j → OrdAt key (root :: rest) j) :
    AlmostDown key (last :: rest.dropLast) 0 := by
  have key1 : ∀ j a, 0 < j → (last :: rest.dropLast)[j]? = some a →
      (root :: rest)[j]? = some a := by
    intro j a hj ha
    obtain ⟨k, rfl⟩ : ∃ k, j = k + 1 := ⟨j - 1, by omega⟩
    rw [List.getElem?_cons_succ] at ha ⊢
    rw [List.getElem?_dropLast] at ha
    split at ha
    · exact ha
    · exact absurd ha (by simp)
  constructor
  · intro j hj hq a b ha hb
    exact h j hj a b (key1 j a hj ha) (key1 _ b (by omega) hb)
  · intro c a b h0
    omega

theorem extractMin_cons (key : T → Int) (cmp : T → T → Bool)
    (hc : ∀ a b, cmp a b = decide (key a < key b)) (h : MinHeap T) (root : T) (rest : List T)
    (hd : h.data_ = root :: rest) :
    (h.extractMin cmp).1 = .ok root ∧ (h.extractMin cmp).2.data_.Perm rest ∧
    (h.extractMin cmp).2.capacity_ = h.capacity_ ∧
    (HeapOrdered cmp h.data_ →
      HeapOrdered cmp (h.extractMin cmp).2.data_ ∧ ∀ x ∈ h.data_, key root ≤ key x) := by
  unfold extractMin
  rw [hd]
  simp only
  cases hl : rest.getLast? with
  | none =>
    have hr : rest = [] := List.getLast?_eq_none_iff.1 hl
    subst hr
    refine ⟨rfl, List.Perm.refl _, rfl, fun _ => ⟨?_, ?_⟩⟩
    · intro j x y _ hx
      exact absurd hx (by simp)
    · intro x hx
      simp at hx
      rw [hx]
  | some last =>
    simp only
    have hperm : (last :: rest.dropLast).Perm rest := by
      have e : rest.dropLast ++ [last] = rest :=
        List.dropLast_append_getLast? last (by simpa using hl)
      exact (List.perm_append_singleton last rest.dropLast).symm.trans (by rw [e])
    refine ⟨trivial, (siftDown_perm _ _ _).trans hperm, trivial, fun ho => ⟨?_, ?_⟩⟩
    · have ho' := (heapOrdered_iff_ordAt key cmp hc _).1 ho
      exact siftDown_heapOrdered key cmp hc _ 0 (by simp) (almostDown_extract key root last rest ho')
    · intro x hx
      have ho' := (heapOrdered_iff_ordAt key cmp hc _).1 ho
      obtain ⟨j, hj⟩ := List.getElem?_of_mem hx
      exact root_le_of_ordAt key (root :: rest) ho' root (by simp) j x hj

theorem decreaseKey_of_mem [DecidableEq T] (cmp : T → T → Bool) (h : MinHeap T) (val : T)
    (hm : val ∈ h.data_) :
    h.decreaseKey cmp val =
      (.ok (), { h with data_ := siftUp cmp h.data_ (h.data_.indexOf val) }) := by
  unfold decreaseKey size
  rw [if_pos (List.indexOf_lt_length.2 hm)]

theorem decreaseKey_of_not_mem [DecidableEq T] (cmp : T → T → Bool) (h : MinHeap T) (val : T)
    (hm : val ∉ h.data_) : h.decreaseKey cmp val = (.error .runtime_error, h) := by
  unfold decreaseKey size
  rw [if_neg (by rw [List.indexOf_lt_length]; exact hm)]

theorem almostUp_of_key_decrease [DecidableEq T] (key key' : T → Int) (d : List T) (v : T)
    (hnd : d.Nodup) (hv : v ∈ d) (hk : ∀ x, x ≠ v → key' x = key x) (hkv : key' v ≤ key v)
    (h : ∀ j, 0 < j → OrdAt key d j) : AlmostUp key' d (d.indexOf v) := by
  have hil : d.indexOf v < d.length := List.indexOf_lt_length.2 hv
  have hiv : d[d.indexOf v]? = some v := by
    rw [List.getElem?_eq_getElem hil, List.getElem_indexOf hil]
  have huniq : ∀ j a, d[j]? = some a → j ≠ d.indexOf v → a ≠ v := by
    intro j a ha hj hav
    subst hav
    obtain ⟨hjl, hja⟩ := List.getElem?_eq_some_iff.1 ha
    apply hj
    have := List.indexOf_getElem hnd j hjl
    rw [hja] at this
    exact this.symm
  have hle : ∀ x, key' x ≤ key x := by
    intro x
    by_cases hx : x = v
    · subst hx; exact hkv
    · rw [hk x hx]
  constructor
  · intro j hj hji a b ha hb
    have h1 := h j hj a b ha hb
    have h2 := hk a (huniq j a ha hji)
    have h3 := hle b
    omega
  · intro c a b hi0 hcp hc0 ha hb
    have hci : c ≠ d.indexOf v := by omega
    have h1 := h c hc0 a v ha (hcp ▸ hiv)
    have h2 := h _ hi0 v b hiv hb
    have h3 := hk a (huniq c a ha hci)
    have h4 := hle b
    omega

end MinHeap
end graph

namespace graph
namespace Graph

theorem getElem?_setDistance (g : Graph) (i j : Nat) (d : Int) :
    (g.setDistance i d).adjList[j]? =
      if j = i then (g.adjList[i]?).map (fun v => { v with distance := d })
      else g.adjList[j]? := by
  unfold setDistance
  cases h : g.adjList[i]? with
  | none =>
    by_cases hji : j = i
    · subst hji; simp [h]
    · simp [hji]
  | some x =>
    obtain ⟨hi, -⟩ := List.getElem?_eq_some_iff.1 h
    by_cases hji : j = i
    · subst hji; simp [hi]
    · simp [hji, List.getElem?_set, Ne.symm hji]

theorem getElem?_setFather (g : Graph) (i j : Nat) (f : Option Nat) :
    (g.setFather i f).adjList[j]? =
      if j = i then (g.adjList[i]?).map (fun v => { v with father := f })
      else g.adjList[j]? := by
  unfold setFather
  cases h : g.adjList[i]? with
  | none =>
    by_cases hji : j = i
    · subst hji; simp [h]
    · simp [hji]
  | some x =>
    obtain ⟨hi, -⟩ := List.getElem?_eq_some_iff.1 h
    by_cases hji : j = i
    · subst hji; simp [hi]
    · simp [hji, List.getElem?_set, Ne.symm hji]

theorem length_setDistance (g : Graph) (i : Nat) (d : Int) :
    (g.setDistance i d).adjList.length = g.adjList.length := by
  unfold setDistance
  split <;> simp

theorem length_setFather (g : Graph) (i : Nat) (f : Option Nat) :
    (g.setFather i f).adjList.length = g.adjList.length := by
  unfold setFather
  split <;> simp

theorem edgesOf_setDistance (g : Graph) (i j : Nat) (d : Int) :
    (g.setDistance i d).edgesOf j = g.edgesOf j := by
  unfold edgesOf
  rw [getElem?_setDistance]
  by_cases hji : j = i
  · subst hji
    rw [if_pos rfl]
    cases g.adjList[j]? <;> rfl
  · rw [if_neg hji]

theorem edgesOf_setFather (g : Graph) (i j : Nat) (f : Option Nat) :
    (g.setFather i f).edgesOf j = g.edgesOf j := by
  unfold edgesOf
  rw [getElem?_setFather]
  by_cases hji : j = i
  · subst hji
    rw [if_pos rfl]
    cases g.adjList[j]? <;> rfl
  · rw [if_neg hji]

theorem distanceOf_setFather (g : Graph) (i j : Nat) (f : Option Nat) :
    (g.setFather i f).distanceOf j = g.distanceOf j := by
  unfold distanceOf
  rw [getElem?_setFather]
  by_cases hji : j = i
  · subst hji
    rw [if_pos rfl]
    cases g.adjList[j]? <;> rfl
  · rw [if_neg hji]

theorem fatherOf_setDistance (g : Graph) (i j : Nat) (d : Int) :
    (g.setDistance i d).fatherOf j = g.fatherOf j := by
  unfold fatherOf
  rw [getElem?_setDistance]
  by_cases hji : j = i
  · subst hji
    rw [if_pos rfl]
    cases g.adjList[j]? <;> rfl
  · rw [if_neg hji]

theorem distanceOf_setDistance_self (g : Graph) (i : Nat) (d : Int) (h : i < g.adjList.length) :
    (g.setDistance i d).distanceOf i = d := by
  unfold distanceOf
  rw [getElem?_setDistance, if_pos rfl, List.getElem?_eq_getElem h]
  rfl

theorem distanceOf_setDistance_ne (g : Graph) (i j : Nat) (d : Int) (h : j ≠ i) :
    (g.setDistance i d).distanceOf j = g.distanceOf j := by
  unfold distanceOf
  rw [getElem?_setDistance, if_neg h]

theorem fatherOf_setFather_self (g : Graph) (i : Nat) (f : Option Nat)
    (h : i < g.adjList.length) : (g.setFather i f).fatherOf i = f := by
  unfold fatherOf
  rw [getElem?_setFather, if_pos rfl, List.getElem?_eq_getElem h]
  rfl

theorem fatherOf_setFather_ne (g : Graph) (i j : Nat) (f : Option Nat) (h : j ≠ i) :
    (g.setFather i f).fatherOf j = g.fatherOf j := by
  unfold fatherOf
  rw [getElem?_setFather, if_neg h]

theorem fatherOf_of_le (g : Graph) (i : Nat) (h : g.adjList.length ≤ i) :
    g.fatherOf i = none := by
  unfold fatherOf
  rw [List.getElem?_eq_none h]

theorem mem_edgesOf_of_wellFormed (g : Graph) (hwf : g.WellFormed) (u : Nat) (e : Edge)
    (he : e ∈ g.edgesOf u) : e.dest < g.adjList.length ∧ u < g.adjList.length := by
  unfold edgesOf at he
  cases h : g.adjList[u]? with
  | none => rw [h] at he; exact absurd he (by simp)
  | some v =>
    rw [h] at he
    obtain ⟨hu, hv⟩ := List.getElem?_eq_some_iff.1 h
    exact ⟨hwf v (hv ▸ List.getElem_mem hu) e he, hu⟩

theorem weight_nonneg_of_mem (g : Graph) (hnn : g.NonNegative) (u : Nat) (e : Edge)
    (he : e ∈ g.edgesOf u) : 0 ≤ e.weight := by
  unfold edgesOf at he
  cases h : g.adjList[u]? with
  | none => rw [h] at he; exact absurd he (by simp)
  | some v =>
    rw [h] at he
    obtain ⟨hu, hv⟩ := List.getElem?_eq_some_iff.1 h
    exact hnn v (hv ▸ List.getElem_mem hu) e he

/-! ### Paths -/

theorem isPath_append (g : Graph) (a b c : Nat) (p q : List Edge)
    (hp : g.IsPath a b p) (hq : g.IsPath b c q) : g.IsPath a c (p ++ q) := by
  induction p generalizing a with
  | nil =>
    simp only [IsPath] at hp
    subst hp
    exact hq
  | cons e t ih =>
    simp only [IsPath, List.cons_append] at hp ⊢
    exact ⟨hp.1, ih _ hp.2⟩

theorem isPath_snoc (g : Graph) (a b : Nat) (p : List Edge) (e : Edge) :
    g.IsPath a b (p ++ [e]) ↔ ∃ m, g.IsPath a m p ∧ e ∈ g.edgesOf m ∧ e.dest = b := by
  induction p generalizing a with
  | nil =>
    simp only [IsPath, List.nil_append]
    constructor
    · rintro ⟨he, hb⟩
      exact ⟨a, rfl, he, hb⟩
    · rintro ⟨m, rfl, he, hb⟩
      exact ⟨he, hb⟩
  | cons x t ih =>
    simp only [IsPath, List.cons_append]
    constructor
    · rintro ⟨hx, ht⟩
      obtain ⟨m, hm, he, hb⟩ := (ih _).1 ht
      exact ⟨m, ⟨hx, hm⟩, he, hb⟩
    · rintro ⟨m, ⟨hx, hm⟩, he, hb⟩
      exact ⟨hx, (ih _).2 ⟨m, hm, he, hb⟩⟩

end Graph

theorem pathWeight_nil : pathWeight [] = 0 := rfl

theorem pathWeight_append (p q : List Edge) :
    pathWeight (p ++ q) = pathWeight p + pathWeight q := by
  simp [pathWeight]

theorem pathWeight_singleton (e : Edge) : pathWeight [e] = e.weight := by
  simp [pathWeight]

theorem pathWeight_nonneg (g : Graph) (hnn : g.NonNegative) (a b : Nat) (p : List Edge)
    (hp : g.IsPath a b p) : 0 ≤ pathWeight p := by
  induction p generalizing a with
  | nil => simp [pathWeight]
  | cons e t ih =>
    simp only [Graph.IsPath] at hp
    have h1 := Graph.weight_nonneg_of_mem g hnn a e hp.1
    have h2 := ih _ hp.2
    simp only [pathWeight, List.map_cons, List.sum_cons] at h2 ⊢
    omega

theorem exists_isMinDist (g : Graph) (hnn : g.NonNegative) (s v : Nat)
    (h : ∃ p, g.IsPath s v p) : ∃ d, IsMinDist g s v d := by
  classical
  have hex : ∃ k : Nat, ∃ p, g.IsPath s v p ∧ pathWeight p = (k : Int) := by
    obtain ⟨p, hp⟩ := h
    exact ⟨(pathWeight p).toNat, p, hp,
      (Int.toNat_of_nonneg (pathWeight_nonneg g hnn s v p hp)).symm⟩
  refine ⟨(Nat.find hex : Int), Nat.find_spec hex, ?_⟩
  intro p hp
  have h0 := pathWeight_nonneg g hnn s v p hp
  have : Nat.find hex ≤ (pathWeight p).toNat :=
    Nat.find_min' hex ⟨p, hp, (Int.toNat_of_nonneg h0).symm⟩
  omega

theorem exists_short_path (g : Graph) (hnn : g.NonNegative) (s v : Nat)
    (hno : NoOverflow g s) (h : ∃ p, g.IsPath s v p) :
    ∃ p, g.IsPath s v p ∧ pathWeight p < INT_MAX := by
  obtain ⟨p, hp⟩ := h
  rcases List.eq_nil_or_concat p with rfl | ⟨q, e, rfl⟩
  · exact ⟨[], hp, by simp [pathWeight, INT_MAX]⟩
  · rw [List.concat_eq_append, Graph.isPath_snoc] at hp
    obtain ⟨m, hm, he, hb⟩ := hp
    obtain ⟨d, ⟨q', hq', hw'⟩, hmin⟩ := exists_isMinDist g hnn s m ⟨q, hm⟩
    refine ⟨q' ++ [e], (Graph.isPath_snoc g s v q' e).2 ⟨m, hq', he, hb⟩, ?_⟩
    rw [pathWeight_append, pathWeight_singleton, hw']
    exact hno m d ⟨⟨q', hq', hw'⟩, hmin⟩ e he

end graph

namespace graph

theorem wrapInt_eq (x : Int) (h0 : -2147483648 ≤ x) (h1 : x ≤ 2147483647) : wrapInt x = x := by
  unfold wrapInt
  omega

theorem vertexCompare_eq (g : Graph) :
    ∀ a b, VertexCompare g a b = decide (g.distanceOf a < g.distanceOf b) :=
  fun _ _ => rfl

theorem isMinDist_nonneg (g : Graph) (hnn : g.NonNegative) (s v : Nat) (d : Int)
    (h : IsMinDist g s v d) : 0 ≤ d := by
  obtain ⟨⟨p, hp, hw⟩, -⟩ := h
  rw [← hw]
  exact pathWeight_nonneg g hnn s v p hp

theorem relaxEdge_inv (g0 : Graph) (s : Nat) (g : Graph) (heap : MinHeap Nat)
    (visited : List Bool) (u : Nat) (e : Edge) (es : List Edge)
    (hwf : g0.WellFormed) (hnn : g0.NonNegative) (hno : NoOverflow g0 s)
    (hu : visited.getD u false = true) (he : e ∈ g0.edgesOf u)
    (inv : DInv g0 s g heap.data_ visited u (e :: es)) :
    ∃ g1 h1, relaxEdge g heap u e = (.ok (), g1, h1) ∧ DInv g0 s g1 h1.data_ visited u es ∧
      h1.data_.length = heap.data_.length := by
  have hvn : e.dest < g0.adjList.length := (Graph.mem_edgesOf_of_wellFormed g0 hwf u e he).1
  have hun : u < g0.adjList.length := (Graph.mem_edgesOf_of_wellFormed g0 hwf u e he).2
  have hmin := inv.done u hu
  have hd0 := isMinDist_nonneg g0 hnn s u _ hmin
  have hw0 := Graph.weight_nonneg_of_mem g0 hnn u e he
  have hov := hno u _ hmin e he
  have halt : wrapInt (g.distanceOf u + e.weight) = g.distanceOf u + e.weight := by
    apply wrapInt_eq
    · omega
    · unfold INT_MAX at hov; omega
  unfold relaxEdge
  simp only [halt]
  by_cases hlt : g.distanceOf u + e.weight < g.distanceOf e.dest
  · rw [if_pos hlt]
    have hvis : visited.getD e.dest false = false := by
      by_contra hc
      have hc' : visited.getD e.dest false = true := by simpa using hc
      have := inv.last e.dest hc'
      omega
    have hmem : e.dest ∈ heap.data_ := (inv.mem e.dest).2 ⟨hvn, hvis⟩
    have hvl : e.dest < g.adjList.length := by rw [inv.len]; exact hvn
    have hdist : ∀ x, ((g.setDistance e.dest (g.distanceOf u + e.weight)).setFather e.dest
        (some u)).distanceOf x = if x = e.dest then g.distanceOf u + e.weight
          else g.distanceOf x := by
      intro x
      rw [Graph.distanceOf_setFather]
      by_cases hx : x = e.dest
      · rw [if_pos hx, hx, Graph.distanceOf_setDistance_self _ _ _ hvl]
      · rw [if_neg hx, Graph.distanceOf_setDistance_ne _ _ _ _ hx]
    have hdle : ∀ x, ((g.setDistance e.dest (g.distanceOf u + e.weight)).setFather e.dest
        (some u)).distanceOf x ≤ g.distanceOf x := by
      intro x
      rw [hdist]
      split
      · next hx => rw [hx]; omega
      · exact le_refl _
    have hdvis : ∀ x, visited.getD x false = true →
        ((g.setDistance e.dest (g.distanceOf u + e.weight)).setFather e.dest
          (some u)).distanceOf x = g.distanceOf x := by
      intro x hx
      rw [hdist, if_neg]
      intro hxe
      rw [hxe, hvis] at hx
      exact absurd hx (by simp)
    rw [MinHeap.decreaseKey_of_mem _ _ _ hmem]
    have hperm := MinHeap.siftUp_perm
      (VertexCompare ((g.setDistance e.dest (g.distanceOf u + e.weight)).setFather e.dest
        (some u))) heap.data_ (heap.data_.indexOf e.dest)
    refine ⟨_, _, rfl, ?_, hperm.length_eq⟩
    constructor
    · rw [Graph.length_setFather, Graph.length_setDistance, inv.len]
    · intro i
      rw [Graph.edgesOf_setFather, Graph.edgesOf_setDistance, inv.edges]
    · exact inv.vlen
    · exact hperm.nodup_iff.2 inv.nodup
    · intro x
      rw [hperm.mem_iff]
      exact inv.mem x
    · apply MinHeap.siftUp_heapOrdered _ _ (vertexCompare_eq _) _ _
        (List.indexOf_lt_length.2 hmem)
      apply MinHeap.almostUp_of_key_decrease g.distanceOf _ _ _ inv.nodup hmem
      · intro x hx
        rw [hdist, if_neg hx]
      · rw [hdist, if_pos rfl]
        omega
      · exact (MinHeap.heapOrdered_iff_ordAt _ _ (vertexCompare_eq g) _).1 inv.ord
    · rw [hdist, if_neg]
      · exact inv.src
      · intro hse
        rw [← hse, inv.src] at hlt
        omega
    · intro x hx
      rw [hdist]
      by_cases hxe : x = e.dest
      · rw [if_pos hxe]
        right
        obtain ⟨⟨p, hp, hpw⟩, -⟩ := hmin
        refine ⟨p ++ [e], (Graph.isPath_snoc g0 s x p e).2 ⟨u, hp, he, hxe.symm⟩, ?_⟩
        rw [pathWeight_append, pathWeight_singleton, hpw]
      · rw [if_neg hxe]
        exact inv.reach x hx
    · intro x hx
      rw [hdvis x hx]
      exact inv.done x hx
    · intro x hx e' he' hpend
      rw [hdvis x hx]
      by_cases hold : x = u → e' ∉ e :: es
      · have := inv.relaxed x hx e' he' hold
        have := hdle e'.dest
        omega
      · have hxu : x = u := by
          by_contra hc
          exact hold (fun h => absurd h hc)
        have hin : e' ∈ e :: es := by
          by_contra hc
          exact hold (fun _ => hc)
        have hee : e' = e := by
          rcases List.mem_cons.1 hin with h | h
          · exact h
          · exact absurd h (hpend hxu)
        rw [hee, hxu, hdist, if_pos rfl]
    · intro x y hx hy hyv
      rw [hdvis x hx, hdist]
      by_cases hye : y = e.dest
      · rw [if_pos hye]
        have := inv.last x hx
        omega
      · rw [if_neg hye]
        exact inv.mono x y hx hy hyv
    · intro x hx
      rw [hdvis x hx, hdvis u hu]
      exact inv.last x hx
    · intro x p hp
      by_cases hxe : x = e.dest
      · rw [hxe, Graph.fatherOf_setFather_self _ _ _
          (by rw [Graph.length_setDistance]; exact hvl)] at hp
        injection hp with hp
        rw [← hp]
        exact hun
      · rw [Graph.fatherOf_setFather_ne _ _ _ _ hxe, Graph.fatherOf_setDistance] at hp
        exact inv.father x p hp
  · rw [if_neg hlt]
    refine ⟨_, _, rfl, ?_, rfl⟩
    constructor
    · exact inv.len
    · exact inv.edges
    · exact inv.vlen
    · exact inv.nodup
    · exact inv.mem
    · exact inv.ord
    · exact inv.src
    · exact inv.reach
    · exact inv.done
    · intro x hx e' he' hpend
      by_cases hold : x = u → e' ∉ e :: es
      · exact inv.relaxed x hx e' he' hold
      · have hxu : x = u := by
          by_contra hc
          exact hold (fun h => absurd h hc)
        have hin : e' ∈ e :: es := by
          by_contra hc
          exact hold (fun _ => hc)
        have hee : e' = e := by
          rcases List.mem_cons.1 hin with h | h
          · exact h
          · exact absurd h (hpend hxu)
        rw [hee, hxu]
        omega
    · exact inv.mono
    · exact inv.last
    · exact inv.father

theorem relaxAll_inv (g0 : Graph) (s : Nat) (visited : List Bool) (u : Nat)
    (hwf : g0.WellFormed) (hnn : g0.NonNegative) (hno : NoOverflow g0 s)
    (hu : visited.getD u false = true) (es : List Edge) (g : Graph) (heap : MinHeap Nat)
    (hsub : ∀ e ∈ es, e ∈ g0.edgesOf u)
    (inv : DInv g0 s g heap.data_ visited u es) :
    ∃ g1 h1, relaxAll u es g heap = (.ok (), g1, h1) ∧ DInv g0 s g1 h1.data_ visited u [] ∧
      h1.data_.length = heap.data_.length := by
  induction es generalizing g heap with
  | nil => exact ⟨g, heap, rfl, inv, rfl⟩
  | cons e t ih =>
    obtain ⟨g1, h1, hr, inv1, hl1⟩ := relaxEdge_inv g0 s g heap visited u e t hwf hnn hno hu
      (hsub e (List.mem_cons_self _ _)) inv
    obtain ⟨g2, h2, hr2, inv2, hl2⟩ :=
      ih g1 h1 (fun x hx => hsub x (List.mem_cons_of_mem _ hx)) inv1
    refine ⟨g2, h2, ?_, inv2, hl2.trans hl1⟩
    unfold relaxAll
    rw [hr]
    exact hr2

end graph

namespace graph

theorem getD_set_true (l : List Bool) (u x : Nat) (hu : u < l.length) :
    (l.set u true).getD x false = if x = u then true else l.getD x false := by
  simp only [List.getD_eq_getElem?_getD, List.getElem?_set]
  by_cases hx : x = u
  · subst hx; simp [hu]
  · simp [hx, Ne.symm hx]

theorem frontier (g0 : Graph) (s : Nat) (g : Graph) (heap : List Nat) (visited : List Bool)
    (u0 : Nat) (hwf : g0.WellFormed) (hnn : g0.NonNegative) (hs : s < g0.adjList.length)
    (inv : DInv g0 s g heap visited u0 []) (u : Nat)
    (hmin : ∀ y ∈ heap, g.distanceOf u ≤ g.distanceOf y) :
    ∀ (p : List Edge) (b : Nat), g0.IsPath s b p →
      visited.getD b false = true ∨ g.distanceOf u ≤ pathWeight p := by
  intro p
  induction p using List.reverseRecOn with
  | nil =>
    intro b hp
    simp only [Graph.IsPath] at hp
    subst hp
    by_cases hv : visited.getD s false = true
    · exact Or.inl hv
    · right
      have hv' : visited.getD s false = false := by simpa using hv
      have := hmin s ((inv.mem s).2 ⟨hs, hv'⟩)
      rw [inv.src] at this
      simpa [pathWeight] using this
  | append_singleton q e ih =>
    intro b hp
    rw [Graph.isPath_snoc] at hp
    obtain ⟨m, hm, he, hb⟩ := hp
    have hw0 := Graph.weight_nonneg_of_mem g0 hnn m e he
    rw [pathWeight_append, pathWeight_singleton]
    rcases ih m hm with hmv | hle
    · by_cases hv : visited.getD b false = true
      · exact Or.inl hv
      · right
        have hv' : visited.getD b false = false := by simpa using hv
        have hbn : b < g0.adjList.length :=
          hb ▸ (Graph.mem_edgesOf_of_wellFormed g0 hwf m e he).1
        have h1 := hmin b ((inv.mem b).2 ⟨hbn, hv'⟩)
        have h2 := inv.relaxed m hmv e he (fun _ => by simp)
        have h3 := (inv.done m hmv).2 q hm
        rw [hb] at h2
        omega
    · right
      omega

theorem dijkstraLoop_inv (g0 : Graph) (s : Nat)
    (hwf : g0.WellFormed) (hnn : g0.NonNegative) (hno : NoOverflow g0 s)
    (hs : s < g0.adjList.length)
    (hreach : ∀ v, v < g0.adjList.length → ∃ p, g0.IsPath s v p)
    (fuel : Nat) (g : Graph) (heap : MinHeap Nat) (visited : List Bool) (u0 : Nat)
    (hf : heap.data_.length < fuel) (inv : DInv g0 s g heap.data_ visited u0 []) :
    ∃ g', dijkstraLoop fuel g heap visited = some (.ok (), g') ∧
      (∀ v, v < g0.adjList.length → IsMinDist g0 s v (g'.distanceOf v)) ∧
      g'.adjList.length = g0.adjList.length ∧
      (∀ v p, g'.fatherOf v = some p → p < g0.adjList.length) := by
  induction fuel generalizing g heap visited u0 with
  | zero => omega
  | succ f ih =>
    unfold dijkstraLoop
    cases hd : heap.data_ with
    | nil =>
      have he : heap.isEmpty = true := by simp [MinHeap.isEmpty, MinHeap.size, hd]
      rw [if_pos he]
      refine ⟨g, rfl, ?_, inv.len, inv.father⟩
      intro v hv
      apply inv.done
      by_contra hc
      have hc' : visited.getD v false = false := by simpa using hc
      have := (inv.mem v).2 ⟨hv, hc'⟩
      rw [hd] at this
      exact absurd this (by simp)
    | cons root rest =>
      have he : ¬ heap.isEmpty = true := by simp [MinHeap.isEmpty, MinHeap.size, hd]
      rw [if_neg he]
      obtain ⟨hx1, hperm, -, hx2⟩ :=
        MinHeap.extractMin_cons g.distanceOf (VertexCompare g) (vertexCompare_eq g) heap root
          rest hd
      obtain ⟨hord1, hrootmin⟩ := hx2 inv.ord
      have hrootmem : root ∈ heap.data_ := by rw [hd]; exact List.mem_cons_self _ _
      obtain ⟨hrn, hrv⟩ := (inv.mem root).1 hrootmem
      have hnd : (root :: rest).Nodup := hd ▸ inv.nodup
      have hfr := frontier g0 s g heap.data_ visited u0 hwf hnn hs inv root hrootmin
      have hle : ∀ p, g0.IsPath s root p → g.distanceOf root ≤ pathWeight p := by
        intro p hp
        rcases hfr p root hp with h | h
        · rw [hrv] at h; exact absurd h (by simp)
        · exact h
      have hmd : IsMinDist g0 s root (g.distanceOf root) := by
        refine ⟨?_, hle⟩
        rcases inv.reach root hrn with h | h
        · obtain ⟨p, hp, hlt⟩ := exists_short_path g0 hnn s root hno (hreach root hrn)
          have := hle p hp
          omega
        · exact h
      have hvl : root < visited.length := by rw [inv.vlen]; exact hrn
      have inv1 : DInv g0 s g (heap.extractMin (VertexCompare g)).2.data_
          (visited.set root true) root (g0.edgesOf root) := by
        constructor
        · exact inv.len
        · exact inv.edges
        · rw [List.length_set]; exact inv.vlen
        · exact hperm.nodup_iff.2 (List.nodup_cons.1 hnd).2
        · intro x
          rw [hperm.mem_iff, getD_set_true _ _ _ hvl]
          have hm := inv.mem x
          rw [hd] at hm
          constructor
          · intro hx
            have hxr : x ≠ root := by
              intro h
              rw [h] at hx
              exact (List.nodup_cons.1 hnd).1 hx
            have := hm.1 (List.mem_cons_of_mem _ hx)
            rw [if_neg hxr]
            exact this
          · rintro ⟨hxn, hxv⟩
            by_cases hxr : x = root
            · rw [if_pos hxr] at hxv
              exact absurd hxv (by simp)
            · rw [if_neg hxr] at hxv
              rcases List.mem_cons.1 (hm.2 ⟨hxn, hxv⟩) with h | h
              · exact absurd h hxr
              · exact h
        · exact hord1
        · exact inv.src
        · exact inv.reach
        · intro x hx
          rw [getD_set_true _ _ _ hvl] at hx
          by_cases hxr : x = root
          · rw [hxr]; exact hmd
          · rw [if_neg hxr] at hx
            exact inv.done x hx
        · intro x hx e he' hpend
          rw [getD_set_true _ _ _ hvl] at hx
          by_cases hxr : x = root
          · rw [hxr] at he'
            exact absurd he' (hpend hxr)
          · rw [if_neg hxr] at hx
            exact inv.relaxed x hx e he' (fun _ => by simp)
        · intro x y hx hy hyv
          rw [getD_set_true _ _ _ hvl] at hx hyv
          by_cases hyr : y = root
          · rw [if_pos hyr] at hyv
            exact absurd hyv (by simp)
          · rw [if_neg hyr] at hyv
            by_cases hxr : x = root
            · rw [hxr]
              exact hrootmin y ((inv.mem y).2 ⟨hy, hyv⟩)
            · rw [if_neg hxr] at hx
              exact inv.mono x y hx hy hyv
        · intro x hx
          rw [getD_set_true _ _ _ hvl] at hx
          by_cases hxr : x = root
          · rw [hxr]
          · rw [if_neg hxr] at hx
            exact inv.mono x root hx hrn hrv
        · exact inv.father
      have hu1 : (visited.set root true).getD root false = true := by
        rw [getD_set_true _ _ _ hvl, if_pos rfl]
      obtain ⟨g1, h2, hr, inv2, hl2⟩ :=
        relaxAll_inv g0 s (visited.set root true) root hwf hnn hno hu1 (g0.edgesOf root) g
          (heap.extractMin (VertexCompare g)).2 (fun _ h => h) inv1
      have hlen : h2.data_.length < f := by
        rw [hl2, hperm.length_eq]
        rw [hd] at hf
        simp at hf
        omega
      obtain ⟨g', hg', hres⟩ := ih g1 h2 (visited.set root true) root hlen inv2
      refine ⟨g', ?_, hres⟩
      have hsplit : heap.extractMin (VertexCompare g) =
          (.ok root, (heap.extractMin (VertexCompare g)).2) := by
        rw [← hx1]
      rw [hsplit]
      simp only
      rw [hrv, inv.edges root]
      simp only [Bool.false_eq_true, if_false]
      rw [hr]
      exact hg'

end graph

namespace graph

theorem getD_replicate_false (n x : Nat) : (List.replicate n false).getD x false = false := by
  simp only [List.getD_eq_getElem?_getD, List.getElem?_replicate]
  split <;> rfl

theorem resetScratch_spec (is : List Nat) (g : Graph) :
    (resetScratch g is).adjList.length = g.adjList.length ∧
    (∀ i, (resetScratch g is).edgesOf i = g.edgesOf i) ∧
    (∀ v, v < g.adjList.length → v ∈ is → (resetScratch g is).distanceOf v = INT_MAX) ∧
    (∀ v, v ∈ is → (resetScratch g is).fatherOf v = none) := by
  induction is generalizing g with
  | nil => exact ⟨rfl, fun _ => rfl, fun _ _ h => absurd h (by simp), fun _ h => absurd h (by simp)⟩
  | cons i t ih =>
    obtain ⟨h1, h2, h3, h4⟩ := ih ((g.setDistance i INT_MAX).setFather i none)
    have hlen : ((g.setDistance i INT_MAX).setFather i none).adjList.length = g.adjList.length := by
      rw [Graph.length_setFather, Graph.length_setDistance]
    have hstep : resetScratch g (i :: t) =
        resetScratch ((g.setDistance i INT_MAX).setFather i none) t := rfl
    rw [hstep]
    refine ⟨h1.trans hlen, ?_, ?_, ?_⟩
    · intro j
      rw [h2, Graph.edgesOf_setFather, Graph.edgesOf_setDistance]
    · intro v hv hm
      by_cases hvt : v ∈ t
      · exact h3 v (by rw [hlen]; exact hv) hvt
      · have hvi : v = i := by
          rcases List.mem_cons.1 hm with h | h
          · exact h
          · exact absurd h hvt
        subst hvi
        have keep : ∀ (l : List Nat) (g' : Graph), v ∉ l →
            (resetScratch g' l).distanceOf v = g'.distanceOf v := by
          intro l
          induction l with
          | nil => intro g' _; rfl
          | cons a l ihl =>
            intro g' hl
            have hva : v ≠ a := fun h => hl (h ▸ List.mem_cons_self _ _)
            have : resetScratch g' (a :: l) =
                resetScratch ((g'.setDistance a INT_MAX).setFather a none) l := rfl
            rw [this, ihl _ (fun h => hl (List.mem_cons_of_mem _ h)),
              Graph.distanceOf_setFather, Graph.distanceOf_setDistance_ne _ _ _ _ hva]
        rw [keep t _ hvt, Graph.distanceOf_setFather,
          Graph.distanceOf_setDistance_self _ _ _ hv]
    · intro v hm
      by_cases hvt : v ∈ t
      · exact h4 v hvt
      · have hvi : v = i := by
          rcases List.mem_cons.1 hm with h | h
          · exact h
          · exact absurd h hvt
        subst hvi
        have keep : ∀ (l : List Nat) (g' : Graph), v ∉ l →
            (resetScratch g' l).fatherOf v = g'.fatherOf v := by
          intro l
          induction l with
          | nil => intro g' _; rfl
          | cons a l ihl =>
            intro g' hl
            have hva : v ≠ a := fun h => hl (h ▸ List.mem_cons_self _ _)
            have : resetScratch g' (a :: l) =
                resetScratch ((g'.setDistance a INT_MAX).setFather a none) l := rfl
            rw [this, ihl _ (fun h => hl (List.mem_cons_of_mem _ h)),
              Graph.fatherOf_setFather_ne _ _ _ _ hva, Graph.fatherOf_setDistance]
        rw [keep t _ hvt]
        by_cases hv : v < g.adjList.length
        · rw [Graph.fatherOf_setFather_self _ _ _ (by rw [Graph.length_setDistance]; exact hv)]
        · rw [Graph.fatherOf_of_le _ _ (by rw [hlen]; omega)]

theorem insertAll_spec (g : Graph) (is : List Nat) (h : MinHeap Nat)
    (ho : MinHeap.HeapOrdered (VertexCompare g) h.data_) :
    (insertAll g is h).data_.Perm (is ++ h.data_) ∧
    MinHeap.HeapOrdered (VertexCompare g) (insertAll g is h).data_ := by
  induction is generalizing h with
  | nil => exact ⟨List.Perm.refl _, ho⟩
  | cons i t ih =>
    have hstep : insertAll g (i :: t) h = insertAll g t (h.insert (VertexCompare g) i) := rfl
    rw [hstep]
    obtain ⟨h1, h2⟩ := ih (h.insert (VertexCompare g) i)
      (MinHeap.insert_heapOrdered g.distanceOf _ (vertexCompare_eq g) h i ho)
    refine ⟨?_, h2⟩
    refine h1.trans ?_
    refine (List.Perm.append_left t (MinHeap.insert_perm (VertexCompare g) h i)).trans ?_
    exact List.perm_middle

theorem new_ofNat (n : Nat) :
    Graph.new (n : Int) = .ok ⟨(List.range n).map fun (i : Nat) => Vertex.new (i : Int)⟩ := by
  unfold Graph.new
  rw [if_neg (by omega)]
  simp

theorem buildTree_ok (g : Graph) (n : Nat) (hf : ∀ v p, g.fatherOf v = some p → p < n)
    (is : List Nat) (result : Graph) (his : ∀ i ∈ is, i < n)
    (hr : result.adjList.length = n) :
    ∃ r, buildTree g is result = (.ok (), r) ∧ r.adjList.length = n := by
  induction is generalizing result with
  | nil => exact ⟨result, rfl, hr⟩
  | cons i t ih =>
    unfold buildTree
    cases hfi : g.fatherOf i with
    | none =>
      simp only
      exact ih result (fun x hx => his x (List.mem_cons_of_mem _ hx)) hr
    | some p =>
      simp only
      have hp := hf i p hfi
      have hi := his i (List.mem_cons_self _ _)
      rw [Graph.addDirectedEdge_ok result p i _ (by omega)
        (by unfold Graph.numVertices; omega) (by omega) (by unfold Graph.numVertices; omega)]
      simp only
      exact ih _ (fun x hx => his x (List.mem_cons_of_mem _ hx))
        (by rw [Graph.length_setEdges]; exact hr)

/-- The distances of `dijkstra` when no relaxation sum overflows: on a graph whose records
point to vertices of the graph and have non-negative weights, in which every vertex is
reachable from the source and `NoOverflow` holds (the minimum path weight of a vertex plus the
weight of any record that leaves it, back edges included, is below `INT_MAX`),
`dijkstra(g, source)` with a valid source returns a graph, and afterwards the `distance` field
of every vertex is the minimum total weight of a path of `g` from the source to that
vertex. -/
theorem dijkstra_distances (g : Graph) (source : Int)
    (hs0 : 0 ≤ source) (hs : source < g.numVertices)
    (hwf : g.WellFormed) (hnn : g.NonNegative)
    (hreach : ∀ v, v < g.adjList.length → ∃ p, g.IsPath source.toNat v p)
    (hno : NoOverflow g source.toNat) :
    ∃ r g', dijkstra g source = some (.ok r, g') ∧
      ∀ v, v < g.adjList.length → IsMinDist g source.toNat v (g'.distanceOf v) := by
  have hsl := Graph.toNat_lt_length g source hs0 hs
  obtain ⟨hl1, he1, hd1, hf1⟩ := resetScratch_spec (List.range g.adjList.length) g
  have hord0 : MinHeap.HeapOrdered (VertexCompare (resetScratch g (List.range g.adjList.length)))
      (MinHeap.empty : MinHeap Nat).data_ := by
    intro j x y _ hx
    exact absurd hx (by simp [MinHeap.empty])
  obtain ⟨hp2, ho2⟩ := insertAll_spec (resetScratch g (List.range g.adjList.length))
    (List.range g.adjList.length) MinHeap.empty hord0
  have hp2' : (insertAll (resetScratch g (List.range g.adjList.length))
      (List.range g.adjList.length) MinHeap.empty).data_.Perm (List.range g.adjList.length) := by
    simpa [MinHeap.empty] using hp2
  have hmem : source.toNat ∈ (insertAll (resetScratch g (List.range g.adjList.length))
      (List.range g.adjList.length) MinHeap.empty).data_ := by
    rw [hp2'.mem_iff, List.mem_range]
    exact hsl
  have hnd : (insertAll (resetScratch g (List.range g.adjList.length))
      (List.range g.adjList.length) MinHeap.empty).data_.Nodup :=
    hp2'.nodup_iff.2 (List.nodup_range _)
  have hsl1 : source.toNat < (resetScratch g (List.range g.adjList.length)).adjList.length := by
    rw [hl1]; exact hsl
  have hperm3 := MinHeap.siftUp_perm
    (VertexCompare ((resetScratch g (List.range g.adjList.length)).setDistance source.toNat 0))
    (insertAll (resetScratch g (List.range g.adjList.length))
      (List.range g.adjList.length) MinHeap.empty).data_
    ((insertAll (resetScratch g (List.range g.adjList.length))
      (List.range g.adjList.length) MinHeap.empty).data_.indexOf source.toNat)
  have inv : DInv g source.toNat
      ((resetScratch g (List.range g.adjList.length)).setDistance source.toNat 0)
      ((insertAll (resetScratch g (List.range g.adjList.length))
        (List.range g.adjList.length) MinHeap.empty).decreaseKey
        (VertexCompare ((resetScratch g (List.range g.adjList.length)).setDistance
          source.toNat 0)) source.toNat).2.data_
      (List.replicate g.adjList.length false) 0 [] := by
    rw [MinHeap.decreaseKey_of_mem _ _ _ hmem]
    constructor
    · rw [Graph.length_setDistance, hl1]
    · intro i
      rw [Graph.edgesOf_setDistance, he1]
    · simp
    · exact hperm3.nodup_iff.2 hnd
    · intro v
      simp only
      rw [hperm3.mem_iff, hp2'.mem_iff, List.mem_range, getD_replicate_false]
      simp
    · apply MinHeap.siftUp_heapOrdered _ _ (vertexCompare_eq _) _ _
        (List.indexOf_lt_length.2 hmem)
      apply MinHeap.almostUp_of_key_decrease
        (resetScratch g (List.range g.adjList.length)).distanceOf _ _ _ hnd hmem
      · intro x hx
        rw [Graph.distanceOf_setDistance_ne _ _ _ _ hx]
      · rw [Graph.distanceOf_setDistance_self _ _ _ hsl1,
          hd1 _ hsl (List.mem_range.2 hsl)]
        decide
      · exact (MinHeap.heapOrdered_iff_ordAt _ _ (vertexCompare_eq _) _).1 ho2
    · exact Graph.distanceOf_setDistance_self _ _ _ hsl1
    · intro v hv
      by_cases hvs : v = source.toNat
      · right
        refine ⟨[], by simp [Graph.IsPath, hvs], ?_⟩
        rw [hvs, Graph.distanceOf_setDistance_self _ _ _ hsl1]
        rfl
      · left
        rw [Graph.distanceOf_setDistance_ne _ _ _ _ hvs]
        exact hd1 v hv (List.mem_range.2 hv)
    · intro x hx
      rw [getD_replicate_false] at hx
      exact absurd hx (by simp)
    · intro x hx
      rw [getD_replicate_false] at hx
      exact absurd hx (by simp)
    · intro x y hx
      rw [getD_replicate_false] at hx
      exact absurd hx (by simp)
    · intro x hx
      rw [getD_replicate_false] at hx
      exact absurd hx (by simp)
    · intro v p hp
      rw [Graph.fatherOf_setDistance] at hp
      by_cases hv : v < g.adjList.length
      · rw [hf1 v (List.mem_range.2 hv)] at hp
        exact absurd hp (by simp)
      · rw [Graph.fatherOf_of_le _ _ (by rw [hl1]; omega)] at hp
        exact absurd hp (by simp)
  have hflen : ((insertAll (resetScratch g (List.range g.adjList.length))
        (List.range g.adjList.length) MinHeap.empty).decreaseKey
        (VertexCompare ((resetScratch g (List.range g.adjList.length)).setDistance
          source.toNat 0)) source.toNat).2.data_.length < g.adjList.length + 1 := by
    rw [MinHeap.decreaseKey_of_mem _ _ _ hmem]
    simp only
    rw [hperm3.length_eq, hp2'.length_eq, List.length_range]
    omega
  obtain ⟨g3, hloop, hmin, hlen3, hfa3⟩ :=
    dijkstraLoop_inv g source.toNat hwf hnn hno hsl hreach (g.adjList.length + 1) _ _ _ 0
      hflen inv
  obtain ⟨r, hbt, -⟩ := buildTree_ok g3 g.adjList.length hfa3 (List.range g.adjList.length)
    ⟨(List.range g.adjList.length).map fun (i : Nat) => Vertex.new (i : Int)⟩
    (fun i hi => List.mem_range.1 hi) (by simp)
  refine ⟨r, g3, ?_, hmin⟩
  unfold dijkstra
  rw [if_neg (by omega)]
  simp only
  have hdk : (insertAll (resetScratch g (List.range g.adjList.length))
        (List.range g.adjList.length) MinHeap.empty).decreaseKey
        (VertexCompare ((resetScratch g (List.range g.adjList.length)).setDistance
          source.toNat 0)) source.toNat = (.ok (),
      ((insertAll (resetScratch g (List.range g.adjList.length))
        (List.range g.adjList.length) MinHeap.empty).decreaseKey
        (VertexCompare ((resetScratch g (List.range g.adjList.length)).setDistance
          source.toNat 0)) source.toNat).2) := by
    rw [MinHeap.decreaseKey_of_mem _ _ _ hmem]
  rw [hdk]
  simp only
  rw [hloop]
  simp only
  rw [new_ofNat]
  simp only
  rw [hbt]

end graph

namespace graph

theorem noOverflow_of_bound (g : Graph) (s : Nat) (W D : Int)
    (hW : ∀ v ∈ g.adjList, ∀ e ∈ v.edges, e.weight ≤ W)
    (hD : ∀ u, u < g.adjList.length → ∃ p, g.IsPath s u p ∧ pathWeight p ≤ D)
    (hb : D + W < INT_MAX) : NoOverflow g s := by
  intro u d hmd e he
  have hu : u < g.adjList.length := by
    by_contra hc
    rw [Graph.edgesOf_of_le g u (by omega)] at he
    exact absurd he (by simp)
  obtain ⟨p, hp, hpw⟩ := hD u hu
  have h1 := hmd.2 p hp
  have h2 : e.weight ≤ W := by
    unfold Graph.edgesOf at he
    rw [List.getElem?_eq_getElem hu] at he
    exact hW _ (List.getElem_mem hu) e he
  omega

set_option maxRecDepth 100000 in
/-- The graph of the test case "Dijkstra correctness" (edges `(0,1,2)`,
`(1,2,2)`, `(0,2,10)`, `(2,3,1)`), source 0; the distances come out as 0, 2, 4, 5. -/
theorem dijkstra_distances_witness :
    (∃ r g', dijkstra dijkstraTestGraph 0 = some (.ok r, g') ∧
      ∀ v, v < dijkstraTestGraph.adjList.length →
        IsMinDist dijkstraTestGraph (0 : Int).toNat v (g'.distanceOf v)) ∧
    (dijkstra dijkstraTestGraph 0).map (fun r => r.2.adjList.map Vertex.distance) =
      some [0, 2, 4, 5] :=
  ⟨dijkstra_distances dijkstraTestGraph 0 (by decide) (by decide)
    (by unfold Graph.WellFormed; decide) (by unfold Graph.NonNegative; decide)
    (by
      intro v hv
      have hv' : v < 4 := hv
      interval_cases v
      · exact ⟨[], rfl⟩
      · exact ⟨[⟨2, 0, 1⟩], by simp [Graph.IsPath, Graph.edgesOf, dijkstraTestGraph]⟩
      · exact ⟨[⟨10, 0, 2⟩], by simp [Graph.IsPath, Graph.edgesOf, dijkstraTestGraph]⟩
      · exact ⟨[⟨10, 0, 2⟩, ⟨1, 2, 3⟩],
          by simp [Graph.IsPath, Graph.edgesOf, dijkstraTestGraph]⟩)
    (noOverflow_of_bound dijkstraTestGraph _ 10 11 (by decide)
      (by
        intro v hv
        have hv' : v < 4 := hv
        interval_cases v
        · exact ⟨[], rfl, by decide⟩
        · exact ⟨[⟨2, 0, 1⟩], by simp [Graph.IsPath, Graph.edgesOf, dijkstraTestGraph],
            by decide⟩
        · exact ⟨[⟨10, 0, 2⟩], by simp [Graph.IsPath, Graph.edgesOf, dijkstraTestGraph],
            by decide⟩
        · exact ⟨[⟨10, 0, 2⟩, ⟨1, 2, 3⟩],
            by simp [Graph.IsPath, Graph.edgesOf, dijkstraTestGraph], by decide⟩)
      (by decide)),
   by decide⟩

end graph

namespace graph

theorem adj_symm (es : List HeapEdge) (a b : Nat) (h : Adj es a b) : Adj es b a := by
  obtain ⟨e, he, h1 | h1⟩ := h
  · exact ⟨e, he, Or.inr h1⟩
  · exact ⟨e, he, Or.inl h1⟩

theorem conn_refl (es : List HeapEdge) (a : Nat) : Conn es a a := Relation.ReflTransGen.refl

theorem conn_symm (es : List HeapEdge) (a b : Nat) (h : Conn es a b) : Conn es b a :=
  Relation.ReflTransGen.symmetric (fun x y hxy => adj_symm es x y hxy) h

theorem conn_trans (es : List HeapEdge) (a b c : Nat) (h1 : Conn es a b) (h2 : Conn es b c) :
    Conn es a c := Relation.ReflTransGen.trans h1 h2

theorem conn_of_mem (es : List HeapEdge) (e : HeapEdge) (he : e ∈ es) :
    Conn es e.frm e.toV :=
  Relation.ReflTransGen.single ⟨e, he, Or.inl ⟨rfl, rfl⟩⟩

theorem conn_mono (es es' : List HeapEdge) (h : ∀ e ∈ es, e ∈ es') (a b : Nat)
    (hc : Conn es a b) : Conn es' a b := by
  induction hc with
  | refl => exact Relation.ReflTransGen.refl
  | tail _ hadj ih =>
    obtain ⟨e, he, hor⟩ := hadj
    exact Relation.ReflTransGen.tail ih ⟨e, h e he, hor⟩

theorem conn_of_edges (es es' : List HeapEdge) (h : ∀ e ∈ es, Conn es' e.frm e.toV) (a b : Nat)
    (hc : Conn es a b) : Conn es' a b := by
  induction hc with
  | refl => exact Relation.ReflTransGen.refl
  | tail _ hadj ih =>
    obtain ⟨e, he, ⟨h1, h2⟩ | ⟨h1, h2⟩⟩ := hadj
    · exact conn_trans _ _ _ _ ih (h1 ▸ h2 ▸ h e he)
    · exact conn_trans _ _ _ _ ih (h1 ▸ h2 ▸ conn_symm _ _ _ (h e he))

theorem conn_nil (a b : Nat) (h : Conn [] a b) : a = b := by
  induction h with
  | refl => rfl
  | tail _ hadj _ =>
    obtain ⟨e, he, _⟩ := hadj
    exact absurd he (by simp)

theorem conn_cons (e : HeapEdge) (es : List HeapEdge) (x y : Nat) :
    Conn (e :: es) x y ↔
      Conn es x y ∨ (Conn es x e.frm ∧ Conn es e.toV y) ∨ (Conn es x e.toV ∧ Conn es e.frm y) := by
  constructor
  · intro h
    induction h with
    | refl => exact Or.inl (conn_refl _ _)
    | @tail z y _ hadj ih =>
      have hstep : Conn es z y ∨ (z = e.frm ∧ y = e.toV) ∨ (z = e.toV ∧ y = e.frm) := by
        obtain ⟨e', he', hor⟩ := hadj
        rcases List.mem_cons.1 he' with rfl | hmem
        · rcases hor with ⟨h1, h2⟩ | ⟨h1, h2⟩
          · exact Or.inr (Or.inl ⟨h1.symm, h2.symm⟩)
          · exact Or.inr (Or.inr ⟨h2.symm, h1.symm⟩)
        · exact Or.inl (Relation.ReflTransGen.single ⟨e', hmem, hor⟩)
      rcases ih with h1 | ⟨h1, h2⟩ | ⟨h1, h2⟩
      · rcases hstep with s | ⟨rfl, rfl⟩ | ⟨rfl, rfl⟩
        · exact Or.inl (conn_trans _ _ _ _ h1 s)
        · exact Or.inr (Or.inl ⟨h1, conn_refl _ _⟩)
        · exact Or.inr (Or.inr ⟨h1, conn_refl _ _⟩)
      · rcases hstep with s | ⟨rfl, rfl⟩ | ⟨rfl, rfl⟩
        · exact Or.inr (Or.inl ⟨h1, conn_trans _ _ _ _ h2 s⟩)
        · exact Or.inr (Or.inl ⟨h1, conn_refl _ _⟩)
        · exact Or.inl h1
      · rcases hstep with s | ⟨rfl, rfl⟩ | ⟨rfl, rfl⟩
        · exact Or.inr (Or.inr ⟨h1, conn_trans _ _ _ _ h2 s⟩)
        · exact Or.inl h1
        · exact Or.inr (Or.inr ⟨h1, conn_refl _ _⟩)
  · have hm : ∀ a b, Conn es a b → Conn (e :: es) a b :=
      conn_mono es (e :: es) (fun x hx => List.mem_cons_of_mem _ hx)
    have he : Conn (e :: es) e.frm e.toV := conn_of_mem _ e (List.mem_cons_self _ _)
    rintro (h | ⟨h1, h2⟩ | ⟨h1, h2⟩)
    · exact hm _ _ h
    · exact conn_trans _ _ _ _ (hm _ _ h1) (conn_trans _ _ _ _ he (hm _ _ h2))
    · exact conn_trans _ _ _ _ (hm _ _ h1) (conn_trans _ _ _ _ (conn_symm _ _ _ he) (hm _ _ h2))

theorem conn_perm (es es' : List HeapEdge) (h : es.Perm es') (a b : Nat) :
    Conn es a b ↔ Conn es' a b :=
  ⟨conn_mono _ _ (fun _ he => h.mem_iff.1 he) a b, conn_mono _ _ (fun _ he => h.mem_iff.2 he) a b⟩

/-! ### Forests -/

theorem seqForest_of_acyclic (es : List HeapEdge) (h : Acyclic es) : SeqForest es := by
  induction es with
  | nil => trivial
  | cons e t ih =>
    refine ⟨?_, ih ?_⟩
    · have := h e (List.mem_cons_self _ _)
      rwa [List.erase_cons_head] at this
    · intro x hx hc
      apply h x (List.mem_cons_of_mem _ hx)
      refine conn_mono _ _ ?_ _ _ hc
      intro y hy
      by_cases hxe : e = x
      · subst hxe
        rw [List.erase_cons_head]
        exact List.mem_of_mem_erase hy
      · rw [List.erase_cons_tail (by simpa using hxe)]
        exact List.mem_cons_of_mem _ hy

theorem acyclic_of_seqForest (es : List HeapEdge) (h : SeqForest es) : Acyclic es := by
  induction es with
  | nil => intro e he; exact absurd he (by simp)
  | cons e t ih =>
    obtain ⟨hne, ht⟩ := h
    have iht := ih ht
    intro x hx hc
    by_cases hxe : e = x
    · subst hxe
      rw [List.erase_cons_head] at hc
      exact hne hc
    · have hxt : x ∈ t := by
        rcases List.mem_cons.1 hx with h | h
        · exact absurd h.symm hxe
        · exact h
      rw [List.erase_cons_tail (by simpa using hxe)] at hc
      have hsub : ∀ a b, Conn (t.erase x) a b → Conn t a b :=
        conn_mono _ _ (fun _ hy => List.mem_of_mem_erase hy)
      have hx' : Conn t x.frm x.toV := conn_of_mem t x hxt
      rcases (conn_cons e (t.erase x) x.frm x.toV).1 hc with h1 | ⟨h1, h2⟩ | ⟨h1, h2⟩
      · exact iht x hxt h1
      · apply hne
        exact conn_trans _ _ _ _ (conn_symm _ _ _ (hsub _ _ h1))
          (conn_trans _ _ _ _ hx' (conn_symm _ _ _ (hsub _ _ h2)))
      · apply hne
        exact conn_trans _ _ _ _ (hsub _ _ h2)
          (conn_trans _ _ _ _ (conn_symm _ _ _ hx') (hsub _ _ h1))

theorem seqForest_filter (p : HeapEdge → Bool) (es : List HeapEdge) (h : SeqForest es) :
    SeqForest (es.filter p) := by
  induction es with
  | nil => trivial
  | cons e t ih =>
    obtain ⟨hne, ht⟩ := h
    by_cases hp : p e = true
    · rw [List.filter_cons_of_pos hp]
      exact ⟨fun hc => hne (conn_mono _ _ (fun _ hy => List.mem_of_mem_filter hy) _ _ hc), ih ht⟩
    · rw [List.filter_cons_of_neg hp]
      exact ih ht

theorem acyclic_perm (es es' : List HeapEdge) (h : es.Perm es') (ha : Acyclic es) :
    Acyclic es' := by
  intro e he hc
  exact ha e (h.mem_iff.2 he) ((conn_perm _ _ (h.erase e) _ _).2 hc)

end graph

namespace graph

theorem transversal_nil (n : Nat) : IsTransversal n [] (Finset.range n) :=
  ⟨fun _ hr => Finset.mem_range.1 hr,
   fun v hv => ⟨v, Finset.mem_range.2 hv, conn_refl _ _⟩,
   fun _ _ _ _ h => conn_nil _ _ h⟩

theorem transversal_cons_same (n : Nat) (e : HeapEdge) (es : List HeapEdge) (S : Finset Nat)
    (hS : IsTransversal n es S) (hc : Conn es e.frm e.toV) : IsTransversal n (e :: es) S := by
  have hiff : ∀ x y, Conn (e :: es) x y → Conn es x y := by
    intro x y h
    rcases (conn_cons e es x y).1 h with h1 | ⟨h1, h2⟩ | ⟨h1, h2⟩
    · exact h1
    · exact conn_trans _ _ _ _ h1 (conn_trans _ _ _ _ hc h2)
    · exact conn_trans _ _ _ _ h1 (conn_trans _ _ _ _ (conn_symm _ _ _ hc) h2)
  refine ⟨hS.1, ?_, ?_⟩
  · intro v hv
    obtain ⟨r, hr, hrv⟩ := hS.2.1 v hv
    exact ⟨r, hr, conn_mono _ _ (fun _ hx => List.mem_cons_of_mem _ hx) _ _ hrv⟩
  · intro r hr r' hr' h
    exact hS.2.2 r hr r' hr' (hiff _ _ h)

theorem transversal_cons_new (n : Nat) (e : HeapEdge) (es : List HeapEdge) (S : Finset Nat)
    (hS : IsTransversal n es S) (he : e.frm < n ∧ e.toV < n) (hc : ¬ Conn es e.frm e.toV) :
    ∃ S', IsTransversal n (e :: es) S' ∧ S'.card + 1 = S.card := by
  obtain ⟨ru, hru, hcu⟩ := hS.2.1 e.frm he.1
  obtain ⟨rv, hrv, hcv⟩ := hS.2.1 e.toV he.2
  have hne : rv ≠ ru := by
    intro h
    subst h
    exact hc (conn_trans _ _ _ _ (conn_symm _ _ _ hcu) hcv)
  have hm : ∀ a b, Conn es a b → Conn (e :: es) a b :=
    conn_mono es (e :: es) (fun x hx => List.mem_cons_of_mem _ hx)
  have hee : Conn (e :: es) e.frm e.toV := conn_of_mem _ e (List.mem_cons_self _ _)
  refine ⟨S.erase ru, ⟨?_, ?_, ?_⟩, ?_⟩
  · intro r hr
    exact hS.1 r (Finset.mem_of_mem_erase hr)
  · intro v hv
    obtain ⟨r, hr, hrc⟩ := hS.2.1 v hv
    by_cases hrr : r = ru
    · subst hrr
      refine ⟨rv, Finset.mem_erase.2 ⟨hne, hrv⟩, ?_⟩
      exact conn_trans _ _ _ _ (hm _ _ hcv) (conn_trans _ _ _ _ (conn_symm _ _ _ hee)
        (conn_trans _ _ _ _ (conn_symm _ _ _ (hm _ _ hcu)) (hm _ _ hrc)))
    · exact ⟨r, Finset.mem_erase.2 ⟨hrr, hr⟩, hm _ _ hrc⟩
  · intro r hr r' hr' h
    obtain ⟨hr1, hr2⟩ := Finset.mem_erase.1 hr
    obtain ⟨hr1', hr2'⟩ := Finset.mem_erase.1 hr'
    rcases (conn_cons e es r r').1 h with h1 | ⟨h1, _⟩ | ⟨_, h2⟩
    · exact hS.2.2 r hr2 r' hr2' h1
    · exact absurd (hS.2.2 r hr2 ru hru (conn_trans _ _ _ _ h1 (conn_symm _ _ _ hcu))) hr1
    · exact absurd (hS.2.2 ru hru r' hr2' (conn_trans _ _ _ _ hcu h2)).symm hr1'
  · rw [Finset.card_erase_of_mem hru]
    have := Finset.card_pos.2 ⟨ru, hru⟩
    omega

theorem endsBelow_tail (n : Nat) (e : HeapEdge) (es : List HeapEdge)
    (h : EndsBelow n (e :: es)) : EndsBelow n es :=
  fun x hx => h x (List.mem_cons_of_mem _ hx)

theorem transversal_of_seqForest (n : Nat) (es : List HeapEdge) (hf : SeqForest es)
    (hn : EndsBelow n es) : ∃ S, IsTransversal n es S ∧ S.card + es.length = n := by
  induction es with
  | nil => exact ⟨Finset.range n, transversal_nil n, by simp⟩
  | cons e t ih =>
    obtain ⟨S, hS, hcard⟩ := ih hf.2 (endsBelow_tail n e t hn)
    obtain ⟨S', hS', hcard'⟩ :=
      transversal_cons_new n e t S hS (hn e (List.mem_cons_self _ _)) hf.1
    refine ⟨S', hS', ?_⟩
    simp only [List.length_cons]
    omega

theorem transversal_exists (n : Nat) (es : List HeapEdge) (hn : EndsBelow n es) :
    ∃ S, IsTransversal n es S ∧ n ≤ S.card + es.length := by
  induction es with
  | nil => exact ⟨Finset.range n, transversal_nil n, by simp⟩
  | cons e t ih =>
    obtain ⟨S, hS, hcard⟩ := ih (endsBelow_tail n e t hn)
    by_cases hc : Conn t e.frm e.toV
    · refine ⟨S, transversal_cons_same n e t S hS hc, ?_⟩
      simp only [List.length_cons]
      omega
    · obtain ⟨S', hS', hcard'⟩ :=
        transversal_cons_new n e t S hS (hn e (List.mem_cons_self _ _)) hc
      refine ⟨S', hS', ?_⟩
      simp only [List.length_cons]
      omega

theorem transversal_card_le (n : Nat) (A B : List HeapEdge) (SA SB : Finset Nat)
    (hA : IsTransversal n A SA) (hB : IsTransversal n B SB)
    (hsub : ∀ x y, Conn A x y → Conn B x y) : SB.card ≤ SA.card := by
  classical
  have hex : ∀ r', ∃ r, r' ∈ SB → r ∈ SA ∧ Conn A r r' := by
    intro r'
    by_cases h : r' ∈ SB
    · obtain ⟨r, hr, hc⟩ := hA.2.1 r' (hB.1 r' h)
      exact ⟨r, fun _ => ⟨hr, hc⟩⟩
    · exact ⟨0, fun h' => absurd h' h⟩
  choose f hf using hex
  apply Finset.card_le_card_of_injOn f
  · intro r' hr'
    exact (hf r' hr').1
  · intro r1 hr1 r2 hr2 heq
    have h1 := (hf r1 hr1).2
    have h2 := (hf r2 hr2).2
    rw [heq] at h1
    exact hB.2.2 r1 hr1 r2 hr2 (hsub _ _ (conn_trans _ _ _ _ (conn_symm _ _ _ h1) h2))

theorem forest_length_le (n : Nat) (A B : List HeapEdge) (hA : SeqForest A)
    (hAn : EndsBelow n A) (hBn : EndsBelow n B) (h : ∀ e ∈ A, Conn B e.frm e.toV) :
    A.length ≤ B.length := by
  obtain ⟨SA, hSA, hcA⟩ := transversal_of_seqForest n A hA hAn
  obtain ⟨SB, hSB, hcB⟩ := transversal_exists n B hBn
  have := transversal_card_le n A B SA SB hSA hSB (conn_of_edges A B h)
  omega

theorem forest_spanning_iff (n : Nat) (F : List HeapEdge) (hn : 0 < n) (hF : SeqForest F)
    (hFn : EndsBelow n F) :
    F.length + 1 = n ↔ ∀ a b, a < n → b < n → Conn F a b := by
  obtain ⟨S, hS, hcard⟩ := transversal_of_seqForest n F hF hFn
  constructor
  · intro hlen a b ha hb
    have h1 : S.card = 1 := by omega
    obtain ⟨r, hr⟩ := Finset.card_eq_one.1 h1
    obtain ⟨ra, hra, hca⟩ := hS.2.1 a ha
    obtain ⟨rb, hrb, hcb⟩ := hS.2.1 b hb
    rw [hr, Finset.mem_singleton] at hra hrb
    subst hra hrb
    exact conn_trans _ _ _ _ (conn_symm _ _ _ hca) hcb
  · intro hall
    have h1 : S.card ≤ 1 := by
      rw [Finset.card_le_one]
      intro a ha b hb
      exact hS.2.2 a ha b hb (hall a b (hS.1 a ha) (hS.1 b hb))
    obtain ⟨r, hr, _⟩ := hS.2.1 0 hn
    have h2 := Finset.card_pos.2 ⟨r, hr⟩
    omega

end graph

namespace graph

theorem sum_range_indicator (w : Int) (hw : 0 ≤ w) (W : Nat) :
    (∑ t in Finset.range W, (if (t : Int) < w then (1 : Int) else 0)) = min w (W : Int) := by
  induction W with
  | zero => simp [hw]
  | succ W ih =>
    rw [Finset.sum_range_succ, ih]
    split
    · push_cast
      omega
    · push_cast
      omega

theorem totalWeight_cons (e : HeapEdge) (es : List HeapEdge) :
    totalWeight (e :: es) = e.weight + totalWeight es := by
  simp [totalWeight]

theorem totalWeight_eq_sum (W : Nat) (X : List HeapEdge)
    (hX : ∀ e ∈ X, 0 ≤ e.weight ∧ e.weight ≤ (W : Int)) :
    totalWeight X =
      ∑ t in Finset.range W, ((X.countP fun e => decide ((t : Int) < e.weight) : Nat) : Int) := by
  induction X with
  | nil => simp [totalWeight]
  | cons e X ih =>
    rw [totalWeight_cons, ih (fun x hx => hX x (List.mem_cons_of_mem _ hx))]
    obtain ⟨h0, h1⟩ := hX e (List.mem_cons_self _ _)
    have hs := sum_range_indicator e.weight h0 W
    rw [min_eq_left h1] at hs
    rw [← hs, ← Finset.sum_add_distrib]
    apply Finset.sum_congr rfl
    intro t _
    rw [List.countP_cons]
    split
    · simp_all
      omega
    · simp_all

theorem exists_weight_bound (X : List HeapEdge) : ∃ W : Nat, ∀ e ∈ X, e.weight ≤ (W : Int) := by
  induction X with
  | nil => exact ⟨0, fun e he => absurd he (by simp)⟩
  | cons e X ih =>
    obtain ⟨W, hW⟩ := ih
    refine ⟨W + e.weight.toNat, ?_⟩
    intro x hx
    rcases List.mem_cons.1 hx with rfl | h
    · push_cast
      omega
    · have := hW x h
      push_cast
      omega

theorem countP_gt_eq (X : List HeapEdge) (t : Int) :
    (X.countP fun e => decide (t < e.weight)) + (X.filter fun e => decide (e.weight < t + 1)).length
      = X.length := by
  rw [← List.countP_eq_length_filter]
  rw [List.length_eq_countP_add_countP (fun e => decide (t < e.weight)) X]
  congr 1
  apply List.countP_congr
  intro e _
  simp only [decide_eq_true_eq, Bool.not_eq_true', decide_eq_false_iff_not]
  omega

theorem totalWeight_le_of_filter (K T : List HeapEdge)
    (hK : ∀ e ∈ K, 0 < e.weight) (hT : ∀ e ∈ T, 0 < e.weight)
    (hlen : K.length = T.length)
    (h : ∀ t : Int, (T.filter fun e => decide (e.weight < t)).length ≤
      (K.filter fun e => decide (e.weight < t)).length) :
    totalWeight K ≤ totalWeight T := by
  obtain ⟨W1, hW1⟩ := exists_weight_bound K
  obtain ⟨W2, hW2⟩ := exists_weight_bound T
  rw [totalWeight_eq_sum (W1 + W2) K (fun e he => ⟨le_of_lt (hK e he), by
        have := hW1 e he
        push_cast
        omega⟩),
    totalWeight_eq_sum (W1 + W2) T (fun e he => ⟨le_of_lt (hT e he), by
        have := hW2 e he
        push_cast
        omega⟩)]
  apply Finset.sum_le_sum
  intro t _
  have h1 := countP_gt_eq K (t : Int)
  have h2 := countP_gt_eq T (t : Int)
  have h3 := h ((t : Int) + 1)
  have : (K.countP fun e => decide ((t : Int) < e.weight)) ≤
      (T.countP fun e => decide ((t : Int) < e.weight)) := by omega
  exact_mod_cast this

end graph

namespace graph
namespace Graph

theorem isRoot_iff (g : Graph) (v : Nat) :
    g.IsRoot v ↔ ∀ f, g.fatherOf v = some f → f = v := by
  unfold IsRoot
  constructor
  · rintro (h | h) f hf
    · rw [h] at hf; exact absurd hf (by simp)
    · rw [h] at hf; injection hf with hf; exact hf.symm
  · intro h
    cases hf : g.fatherOf v with
    | none => exact Or.inl rfl
    | some f => exact Or.inr (by rw [h f hf])

theorem rootOf_isRoot (g : Graph) (v r : Nat) (h : g.RootOf v r) : g.IsRoot r := by
  induction h with
  | root v hv => exact hv
  | step _ _ _ _ _ _ ih => exact ih

theorem rootOf_unique (g : Graph) (v r r' : Nat) (h : g.RootOf v r) (h' : g.RootOf v r') :
    r = r' := by
  induction h generalizing r' with
  | root v hv =>
    cases h' with
    | root _ _ => rfl
    | step _ f _ hf hne _ => exact absurd ((isRoot_iff g v).1 hv f hf) hne
  | step v f r hf hne _ ih =>
    cases h' with
    | root _ hv => exact absurd ((isRoot_iff g v).1 hv f hf) hne
    | step _ f' _ hf' _ hr' =>
      rw [hf] at hf'
      injection hf' with hf'
      subst hf'
      exact ih r' hr'

theorem rootOf_congr (g g' : Graph)
    (h : ∀ x f, f ≠ x → (g'.fatherOf x = some f ↔ g.fatherOf x = some f))
    (x r : Nat) : g'.RootOf x r ↔ g.RootOf x r := by
  have hroot : ∀ y, g'.IsRoot y ↔ g.IsRoot y := by
    intro y
    rw [isRoot_iff, isRoot_iff]
    constructor
    · intro hy f hf
      by_contra hne
      exact hne (hy f ((h y f hne).2 hf))
    · intro hy f hf
      by_contra hne
      exact hne (hy f ((h y f hne).1 hf))
  constructor
  · intro hr
    induction hr with
    | root v hv => exact RootOf.root v ((hroot v).1 hv)
    | step v f r hf hne _ ih => exact RootOf.step v f r ((h v f hne).1 hf) hne ih
  · intro hr
    induction hr with
    | root v hv => exact RootOf.root v ((hroot v).2 hv)
    | step v f r hf hne _ ih => exact RootOf.step v f r ((h v f hne).2 hf) hne ih

theorem fatherOf_setFather (g : Graph) (i x : Nat) (f : Option Nat) (hi : i < g.adjList.length) :
    (g.setFather i f).fatherOf x = if x = i then f else g.fatherOf x := by
  by_cases hx : x = i
  · rw [if_pos hx, hx, fatherOf_setFather_self _ _ _ hi]
  · rw [if_neg hx, fatherOf_setFather_ne _ _ _ _ hx]

theorem fatherOf_lt (g : Graph) (v f : Nat) (h : g.fatherOf v = some f) :
    v < g.adjList.length := by
  by_contra hc
  rw [fatherOf_of_le g v (by omega)] at h
  exact absurd h (by simp)

end Graph

theorem rootOf_exists (g : Graph) (n t : Nat) (rank : Nat → Nat) (hinv : UFInv g n t rank) :
    ∀ v, ∃ r, g.RootOf v r := by
  have key : ∀ k v, (¬ g.IsRoot v → t - rank v ≤ k) → ∃ r, g.RootOf v r := by
    intro k
    induction k with
    | zero =>
      intro v hv
      by_cases hr : g.IsRoot v
      · exact ⟨v, Graph.RootOf.root v hr⟩
      · exfalso
        have h0 := hv hr
        rw [Graph.isRoot_iff] at hr
        push_neg at hr
        obtain ⟨f, hf, hne⟩ := hr
        have := (hinv.2 v f hf hne).2.1
        omega
    | succ k ih =>
      intro v hv
      by_cases hr : g.IsRoot v
      · exact ⟨v, Graph.RootOf.root v hr⟩
      · have hk := hv hr
        rw [Graph.isRoot_iff] at hr
        push_neg at hr
        obtain ⟨f, hf, hne⟩ := hr
        obtain ⟨_, h2, h3⟩ := hinv.2 v f hf hne
        obtain ⟨r, hr⟩ := ih f (by
          intro hnr
          rcases h3 with h | h
          · exact absurd h hnr
          · omega)
        exact ⟨r, Graph.RootOf.step v f r hf hne hr⟩
  intro v
  exact key (t - rank v) v (fun _ => le_refl _)

theorem rootOf_lt (g : Graph) (n t : Nat) (rank : Nat → Nat) (hinv : UFInv g n t rank)
    (v r : Nat) (hv : v < n) (h : g.RootOf v r) : r < n := by
  induction h with
  | root v _ => exact hv
  | step v f r hf hne _ ih => exact ih (hinv.2 v f hf hne).1

theorem lazyInit_spec (g : Graph) (n t : Nat) (rank : Nat → Nat) (hinv : UFInv g n t rank)
    (v : Nat) (hv : v < n) (hnone : g.fatherOf v = none) :
    UFInv (g.setFather v (some v)) n t rank ∧
    (∀ x r, (g.setFather v (some v)).RootOf x r ↔ g.RootOf x r) ∧
    (g.setFather v (some v)).fatherOf v = some v := by
  have hvl : v < g.adjList.length := by rw [hinv.1]; exact hv
  have hfa : ∀ x f, f ≠ x →
      ((g.setFather v (some v)).fatherOf x = some f ↔ g.fatherOf x = some f) := by
    intro x f hne
    rw [Graph.fatherOf_setFather _ _ _ _ hvl]
    by_cases hx : x = v
    · subst hx
      rw [if_pos rfl, hnone]
      constructor
      · intro h; injection h with h; exact absurd h.symm hne
      · intro h; exact absurd h (by simp)
    · rw [if_neg hx]
  have hroot : ∀ y, (g.setFather v (some v)).IsRoot y ↔ g.IsRoot y := by
    intro y
    rw [Graph.isRoot_iff, Graph.isRoot_iff]
    constructor
    · intro hy f hf
      by_contra hne
      exact hne (hy f ((hfa y f hne).2 hf))
    · intro hy f hf
      by_contra hne
      exact hne (hy f ((hfa y f hne).1 hf))
  refine ⟨⟨by rw [Graph.length_setFather]; exact hinv.1, ?_⟩, Graph.rootOf_congr g _ hfa,
    Graph.fatherOf_setFather_self _ _ _ hvl⟩
  intro x f hf hne
  obtain ⟨h1, h2, h3⟩ := hinv.2 x f ((hfa x f hne).1 hf) hne
  exact ⟨h1, h2, h3.imp (hroot f).2 id⟩

theorem compress_spec (g : Graph) (n t : Nat) (rank : Nat → Nat) (hinv : UFInv g n t rank)
    (v r : Nat) (hv : v < n) (hvr : g.RootOf v r) (hne : v ≠ r) (hrk : rank v < t)
    (hr : r < n) :
    UFInv (g.setFather v (some r)) n t rank ∧
    (∀ x r', (g.setFather v (some r)).RootOf x r' ↔ g.RootOf x r') := by
  have hvl : v < g.adjList.length := by rw [hinv.1]; exact hv
  have hrroot : g.IsRoot r := Graph.rootOf_isRoot g v r hvr
  have hvnot : ¬ g.IsRoot v := by
    intro h
    exact hne (Graph.rootOf_unique g v v r (Graph.RootOf.root v h) hvr)
  have hfa : ∀ x, (g.setFather v (some r)).fatherOf x = if x = v then some r else g.fatherOf x :=
    fun x => Graph.fatherOf_setFather g v x _ hvl
  have hroot : ∀ y, y ≠ v → ((g.setFather v (some r)).IsRoot y ↔ g.IsRoot y) := by
    intro y hy
    unfold Graph.IsRoot
    rw [hfa, if_neg hy]
  have hrroot' : (g.setFather v (some r)).IsRoot r := (hroot r (Ne.symm hne)).2 hrroot
  constructor
  · refine ⟨by rw [Graph.length_setFather]; exact hinv.1, ?_⟩
    intro x f hf hfx
    rw [hfa] at hf
    by_cases hx : x = v
    · rw [if_pos hx] at hf
      injection hf with hf
      subst hf
      rw [hx]
      exact ⟨hr, hrk, Or.inl hrroot'⟩
    · rw [if_neg hx] at hf
      obtain ⟨h1, h2, h3⟩ := hinv.2 x f hf hfx
      refine ⟨h1, h2, ?_⟩
      rcases h3 with h | h
      · left
        have hfv : f ≠ v := fun e => hvnot (e ▸ h)
        exact (hroot f hfv).2 h
      · exact Or.inr h
  · intro x r'
    constructor
    · intro h
      induction h with
      | root y hy =>
        have hyv : y ≠ v := by
          intro e
          subst e
          have := (Graph.isRoot_iff _ _).1 hy r (by rw [hfa, if_pos rfl])
          exact hne this.symm
        exact Graph.RootOf.root y ((hroot y hyv).1 hy)
      | step y f r'' hf hfy _ ih =>
        rw [hfa] at hf
        by_cases hy : y = v
        · rw [if_pos hy] at hf
          injection hf with hf
          subst hf
          have : r'' = r := (Graph.rootOf_unique g r r r'' (Graph.RootOf.root r hrroot) ih).symm
          rw [this, hy]
          exact hvr
        · rw [if_neg hy] at hf
          exact Graph.RootOf.step y f r'' hf hfy ih
    · intro h
      induction h with
      | root y hy =>
        have hyv : y ≠ v := fun e => hvnot (e ▸ hy)
        exact Graph.RootOf.root y ((hroot y hyv).2 hy)
      | step y f r'' hf hfy hfr ih =>
        by_cases hy : y = v
        · have hr'' : r'' = r := by
            apply Graph.rootOf_unique g v r'' r _ hvr
            rw [← hy]
            exact Graph.RootOf.step y f r'' hf hfy hfr
          rw [hr'', hy]
          exact Graph.RootOf.step v r r (by rw [hfa, if_pos rfl]) (Ne.symm hne)
            (Graph.RootOf.root r hrroot')
        · exact Graph.RootOf.step y f r'' (by rw [hfa, if_neg hy]; exact hf) hfy ih

end graph

namespace graph

theorem findAux_spec (n t : Nat) (rank : Nat → Nat) :
    ∀ (fuel : Nat) (g : Graph) (v : Nat), UFInv g n t rank → v < n →
      (¬ g.IsRoot v → t - rank v < fuel) → 0 < fuel →
      ∃ r g', Graph.findAux fuel g v = some (r, g') ∧ g.RootOf v r ∧ UFInv g' n t rank ∧
        (∀ x r', g'.RootOf x r' ↔ g.RootOf x r') ∧ (∀ i, g'.edgesOf i = g.edgesOf i) := by
  intro fuel
  induction fuel with
  | zero => intro g v _ _ _ h0; omega
  | succ k ih =>
    intro g v hinv hv hfuel _
    unfold Graph.findAux
    by_cases hnone : g.fatherOf v = none
    · obtain ⟨hinv1, hroot1, hfa1⟩ := lazyInit_spec g n t rank hinv v hv hnone
      simp only [hnone, if_true]
      simp only [hfa1, ne_eq, not_true_eq_false, if_false]
      exact ⟨v, _, rfl, Graph.RootOf.root v (Or.inl hnone), hinv1, hroot1,
        fun i => Graph.edgesOf_setFather _ _ _ _⟩
    · obtain ⟨f, hf⟩ : ∃ f, g.fatherOf v = some f := by
        cases h : g.fatherOf v with
        | none => exact absurd h hnone
        | some f => exact ⟨f, rfl⟩
      simp only [hnone, if_false]
      simp only [hf]
      by_cases hfv : f = v
      · subst hfv
        simp only [ne_eq, not_true_eq_false, if_false]
        exact ⟨f, g, rfl, Graph.RootOf.root f (Or.inr hf), hinv, fun _ _ => Iff.rfl,
          fun _ => rfl⟩
      · simp only [ne_eq, hfv, not_false_eq_true, if_true]
        obtain ⟨hfn, hrk, hor⟩ := hinv.2 v f hf hfv
        have hvnot : ¬ g.IsRoot v := by
          intro h
          exact hfv ((Graph.isRoot_iff g v).1 h f hf)
        have hk := hfuel hvnot
        obtain ⟨r, g2, hfind, hroot, hinv2, hiff2, hedges2⟩ := ih g f hinv hfn (by
          intro hnr
          rcases hor with h | h
          · exact absurd h hnr
          · omega) (by omega)
        rw [hfind]
        simp only
        have hvr : g.RootOf v r := Graph.RootOf.step v f r hf hfv hroot
        have hne : v ≠ r := by
          intro e
          exact hvnot (e ▸ Graph.rootOf_isRoot g f r hroot)
        obtain ⟨hinv3, hiff3⟩ := compress_spec g2 n t rank hinv2 v r hv ((hiff2 v r).2 hvr) hne
          hrk (rootOf_lt g n t rank hinv f r hfn hroot)
        refine ⟨r, _, rfl, hvr, hinv3, ?_, ?_⟩
        · intro x r'
          rw [hiff3, hiff2]
        · intro i
          rw [Graph.edgesOf_setFather, hedges2]

theorem find_spec (g : Graph) (n t : Nat) (rank : Nat → Nat) (hinv : UFInv g n t rank)
    (ht : t ≤ n) (v : Nat) (hv : v < n) :
    ∃ r g', g.find v = some (r, g') ∧ g.RootOf v r ∧ UFInv g' n t rank ∧
      (∀ x r', g'.RootOf x r' ↔ g.RootOf x r') ∧ (∀ i, g'.edgesOf i = g.edgesOf i) := by
  unfold Graph.find
  apply findAux_spec n t rank _ g v hinv hv
  · intro _
    rw [hinv.1]
    omega
  · omega

theorem link_spec (g : Graph) (n t : Nat) (rank : Nat → Nat) (hinv : UFInv g n t rank)
    (ru rv : Nat) (hru : ru < n) (hrv : rv < n) (hRu : g.IsRoot ru) (hRv : g.IsRoot rv)
    (hne : ru ≠ rv) :
    UFInv (g.setFather ru (some rv)) n (t + 1) (Function.update rank ru t) ∧
    (∀ x r', (g.setFather ru (some rv)).RootOf x r' ↔
      (g.RootOf x r' ∧ r' ≠ ru) ∨ (g.RootOf x ru ∧ r' = rv)) := by
  have hul : ru < g.adjList.length := by rw [hinv.1]; exact hru
  have hfa : ∀ x, (g.setFather ru (some rv)).fatherOf x =
      if x = ru then some rv else g.fatherOf x :=
    fun x => Graph.fatherOf_setFather g ru x _ hul
  have hroot : ∀ y, y ≠ ru → ((g.setFather ru (some rv)).IsRoot y ↔ g.IsRoot y) := by
    intro y hy
    unfold Graph.IsRoot
    rw [hfa, if_neg hy]
  have hRv' : (g.setFather ru (some rv)).IsRoot rv := (hroot rv (Ne.symm hne)).2 hRv
  have hnotroot : ∀ x f, g.fatherOf x = some f → f ≠ x → x ≠ ru := by
    intro x f hf hfx e
    subst e
    exact hfx ((Graph.isRoot_iff g x).1 hRu f hf)
  constructor
  · refine ⟨by rw [Graph.length_setFather]; exact hinv.1, ?_⟩
    intro x f hf hfx
    rw [hfa] at hf
    by_cases hx : x = ru
    · rw [if_pos hx] at hf
      injection hf with hf
      subst hf
      rw [hx]
      refine ⟨hrv, ?_, Or.inl hRv'⟩
      rw [Function.update_same]
      omega
    · rw [if_neg hx] at hf
      obtain ⟨h1, h2, h3⟩ := hinv.2 x f hf hfx
      rw [Function.update_noteq hx]
      refine ⟨h1, by omega, ?_⟩
      by_cases hfr : f = ru
      · right
        rw [hfr, Function.update_same]
        exact h2
      · rw [Function.update_noteq hfr]
        exact h3.imp (hroot f hfr).2 id
  · have key : ∀ y z, g.RootOf y z → z = ru → (g.setFather ru (some rv)).RootOf y rv := by
      intro y z hz
      induction hz with
      | root y _ =>
        intro e
        subst e
        exact Graph.RootOf.step y rv rv (by rw [hfa, if_pos rfl]) (Ne.symm hne)
          (Graph.RootOf.root rv hRv')
      | step y f r'' hf hfy _ ih =>
        intro e
        exact Graph.RootOf.step y f rv (by
          rw [hfa, if_neg (hnotroot y f hf hfy)]; exact hf) hfy (ih e)
    intro x r'
    constructor
    · intro h
      induction h with
      | root y hy =>
        have hyu : y ≠ ru := by
          intro e
          subst e
          have := (Graph.isRoot_iff _ _).1 hy rv (by rw [hfa, if_pos rfl])
          exact hne this.symm
        exact Or.inl ⟨Graph.RootOf.root y ((hroot y hyu).1 hy), hyu⟩
      | step y f r'' hf hfy _ ih =>
        rw [hfa] at hf
        by_cases hy : y = ru
        · rw [if_pos hy] at hf
          injection hf with hf
          subst hf
          right
          rcases ih with ⟨h1, _⟩ | ⟨h1, _⟩
          · rw [hy]
            exact ⟨Graph.RootOf.root ru hRu,
              (Graph.rootOf_unique g _ _ _ (Graph.RootOf.root _ hRv) h1).symm⟩
          · exact absurd (Graph.rootOf_unique g _ _ _ (Graph.RootOf.root _ hRv) h1).symm hne
        · rw [if_neg hy] at hf
          rcases ih with ⟨h1, h2⟩ | ⟨h1, h2⟩
          · exact Or.inl ⟨Graph.RootOf.step y f r'' hf hfy h1, h2⟩
          · exact Or.inr ⟨Graph.RootOf.step y f ru hf hfy h1, h2⟩
    · rintro (⟨h1, h2⟩ | ⟨h1, h2⟩)
      · induction h1 with
        | root y hy => exact Graph.RootOf.root y ((hroot y h2).2 hy)
        | step y f r'' hf hfy _ ih =>
          exact Graph.RootOf.step y f r'' (by
            rw [hfa, if_neg (hnotroot y f hf hfy)]; exact hf) hfy (ih h2)
      · subst h2
        exact key x ru h1 rfl

theorem unionSets_spec (g : Graph) (n t : Nat) (rank : Nat → Nat) (hinv : UFInv g n t rank)
    (ht : t ≤ n) (u v : Nat) (hu : u < n) (hv : v < n) :
    ∃ ru rv b g', g.unionSets u v = some (b, g') ∧ g.RootOf u ru ∧ g.RootOf v rv ∧
      (∀ i, g'.edgesOf i = g.edgesOf i) ∧
      ((ru = rv ∧ b = false ∧ UFInv g' n t rank ∧ ∀ x r', g'.RootOf x r' ↔ g.RootOf x r') ∨
       (ru ≠ rv ∧ b = true ∧ (∃ rank', UFInv g' n (t + 1) rank') ∧
        ∀ x r', g'.RootOf x r' ↔ (g.RootOf x r' ∧ r' ≠ ru) ∨ (g.RootOf x ru ∧ r' = rv))) := by
  obtain ⟨ru, g1, hf1, hr1, hinv1, hiff1, he1⟩ := find_spec g n t rank hinv ht u hu
  obtain ⟨rv, g2, hf2, hr2, hinv2, hiff2, he2⟩ := find_spec g1 n t rank hinv1 ht v hv
  have hr2' : g.RootOf v rv := (hiff1 v rv).1 hr2
  have hiff : ∀ x r', g2.RootOf x r' ↔ g.RootOf x r' := fun x r' => by rw [hiff2, hiff1]
  unfold Graph.unionSets
  rw [hf1]
  simp only
  rw [hf2]
  simp only
  by_cases he : ru = rv
  · rw [if_pos he]
    exact ⟨ru, rv, false, g2, rfl, hr1, hr2', fun i => by rw [he2, he1],
      Or.inl ⟨he, rfl, hinv2, hiff⟩⟩
  · rw [if_neg he]
    have hRu : g2.IsRoot ru := Graph.rootOf_isRoot g2 u ru ((hiff u ru).2 hr1)
    have hRv : g2.IsRoot rv := Graph.rootOf_isRoot g2 v rv ((hiff2 v rv).2 hr2)
    obtain ⟨hinv3, hiff3⟩ := link_spec g2 n t rank hinv2 ru rv
      (rootOf_lt g n t rank hinv u ru hu hr1) (rootOf_lt g n t rank hinv v rv hv hr2')
      hRu hRv he
    refine ⟨ru, rv, true, _, rfl, hr1, hr2', ?_, Or.inr ⟨he, rfl, ⟨_, hinv3⟩, ?_⟩⟩
    · intro i
      rw [Graph.edgesOf_setFather, he2, he1]
    · intro x r'
      rw [hiff3, hiff, hiff]

end graph

namespace graph

theorem mem_halfEdges (u : Nat) (es : List Edge) (x : HeapEdge) :
    x ∈ halfEdges u es ↔ ∃ e ∈ es, u < e.dest ∧ x = ⟨u, e.dest, e.weight⟩ := by
  unfold halfEdges
  simp only [List.mem_map, List.mem_filter, decide_eq_true_eq]
  constructor
  · rintro ⟨e, ⟨he, hlt⟩, rfl⟩
    exact ⟨e, he, hlt, rfl⟩
  · rintro ⟨e, he, hlt, rfl⟩
    exact ⟨e, ⟨he, hlt⟩, rfl⟩

theorem mem_undirectedEdges (g : Graph) (x : HeapEdge) :
    x ∈ g.undirectedEdges ↔
      x.frm < x.toV ∧ ∃ r ∈ g.edgesOf x.frm, r.dest = x.toV ∧ r.weight = x.weight := by
  unfold Graph.undirectedEdges
  simp only [List.mem_flatMap, List.mem_range, mem_halfEdges]
  constructor
  · rintro ⟨u, _, e, he, hlt, rfl⟩
    exact ⟨hlt, e, he, rfl, rfl⟩
  · rintro ⟨hlt, r, hr, hd, hw⟩
    have hu : x.frm < g.adjList.length := by
      by_contra hc
      rw [Graph.edgesOf_of_le g _ (by omega)] at hr
      exact absurd hr (by simp)
    refine ⟨x.frm, hu, r, hr, by rw [hd]; exact hlt, ?_⟩
    cases x
    simp only at hd hw ⊢
    rw [hd, hw]

theorem mem_edgesOf_mem_adjList (g : Graph) (u : Nat) (e : Edge) (he : e ∈ g.edgesOf u) :
    ∃ v ∈ g.adjList, e ∈ v.edges := by
  unfold Graph.edgesOf at he
  cases h : g.adjList[u]? with
  | none => rw [h] at he; exact absurd he (by simp)
  | some v =>
    rw [h] at he
    obtain ⟨hu, hv⟩ := List.getElem?_eq_some_iff.1 h
    exact ⟨v, hv ▸ List.getElem_mem hu, he⟩

theorem undirectedEdges_facts (g : Graph) (hwf : g.WellFormed) (hpos : g.Positive)
    (x : HeapEdge) (hx : x ∈ g.undirectedEdges) :
    x.frm < x.toV ∧ x.frm < g.adjList.length ∧ x.toV < g.adjList.length ∧ 0 < x.weight ∧
      IsEdgeOf g x := by
  obtain ⟨hlt, r, hr, hd, hw⟩ := (mem_undirectedEdges g x).1 hx
  obtain ⟨h1, h2⟩ := Graph.mem_edgesOf_of_wellFormed g hwf x.frm r hr
  obtain ⟨v, hv, hrv⟩ := mem_edgesOf_mem_adjList g x.frm r hr
  exact ⟨hlt, h2, hd ▸ h1, hw ▸ hpos v hv r hrv, r, hr, hd, hw⟩

theorem flatMap_perm_of_update {β : Type} (f f' : Nat → List β) (u : Nat) (a : β)
    (hu : f' u = a :: f u) (hne : ∀ x, x ≠ u → f' x = f x) :
    ∀ l : List Nat, l.Nodup → u ∈ l → (l.flatMap f').Perm (a :: l.flatMap f) := by
  intro l
  induction l with
  | nil => intro _ h; exact absurd h (by simp)
  | cons x t ih =>
    intro hnd hm
    rw [List.flatMap_cons, List.flatMap_cons]
    obtain ⟨hxt, hndt⟩ := List.nodup_cons.1 hnd
    by_cases hxu : x = u
    · subst hxu
      have hsame : t.flatMap f' = t.flatMap f := by
        have : ∀ y ∈ t, f' y = f y := fun y hy => hne y (fun e => hxt (e ▸ hy))
        clear ih hnd hm hndt hxt
        induction t with
        | nil => rfl
        | cons y t iht =>
          rw [List.flatMap_cons, List.flatMap_cons, this y (List.mem_cons_self _ _),
            iht (fun z hz => this z (List.mem_cons_of_mem _ hz))]
      rw [hsame, hu]
      exact List.Perm.refl _
    · have hut : u ∈ t := by
        rcases List.mem_cons.1 hm with h | h
        · exact absurd h.symm hxu
        · exact h
      rw [hne x hxu]
      exact (List.Perm.append_left (f x) (ih hndt hut)).trans List.perm_middle

theorem undirectedEdges_addEdge (g : Graph) (u v : Nat) (w : Int)
    (huv : u < v) (hv : v < g.adjList.length) (hw : 0 < w) :
    (g.addEdge (u : Int) (v : Int) w).1 = .ok () ∧
    (g.addEdge (u : Int) (v : Int) w).2.undirectedEdges.Perm (⟨u, v, w⟩ :: g.undirectedEdges) := by
  have hu0 : (0 : Int) ≤ (u : Int) := by omega
  have hv0 : (0 : Int) ≤ (v : Int) := by omega
  have hun : (u : Int) < g.numVertices := by unfold Graph.numVertices; omega
  have hvn : (v : Int) < g.numVertices := by unfold Graph.numVertices; omega
  refine ⟨by rw [Graph.addEdge_ok g _ _ w hu0 hun hv0 hvn hw], ?_⟩
  unfold Graph.undirectedEdges
  rw [Graph.length_addEdge]
  apply flatMap_perm_of_update _ _ u
  · rw [Graph.edgesOf_addEdge g _ _ w hu0 hun hv0 hvn hw]
    simp only [Int.toNat_ofNat]
    have hne : ¬ u = v := by omega
    simp [halfEdges, huv, hne]
  · intro x hx
    rw [Graph.edgesOf_addEdge g _ _ w hu0 hun hv0 hvn hw]
    simp only [Int.toNat_ofNat]
    rw [if_neg hx]
    by_cases hxv : x = v
    · subst hxv
      rw [if_pos rfl]
      have : ¬ x < u := by omega
      simp [halfEdges, this]
    · rw [if_neg hxv]
      rfl
  · exact List.nodup_range _
  · exact List.mem_range.2 (by omega)

theorem undirectedEdges_new (n : Nat) :
    (Graph.mk ((List.range n).map fun (i : Nat) => Vertex.new (i : Int))).undirectedEdges = [] := by
  have hE : ∀ i : Nat,
      (Graph.mk ((List.range n).map fun (i : Nat) => Vertex.new (i : Int))).edgesOf i = [] := by
    intro i
    unfold Graph.edgesOf
    simp only [List.getElem?_map]
    cases (List.range n)[i]? <;> simp [Vertex.new]
  unfold Graph.undirectedEdges
  simp only [hE, halfEdges, List.filter_nil, List.map_nil]
  induction (List.range (Graph.mk ((List.range n).map fun (i : Nat) =>
      Vertex.new (i : Int))).adjList.length) with
  | nil => rfl
  | cons a t ih => rw [List.flatMap_cons, ih]; rfl

theorem countEdges_eq (g : Graph) : g.countEdges = g.undirectedEdges.length := by
  unfold Graph.countEdges Graph.undirectedEdges
  induction (List.range g.adjList.length) with
  | nil => rfl
  | cons a t ih =>
    rw [List.map_cons, List.sum_cons, List.flatMap_cons, List.length_append, ih]
    simp [halfEdges]

theorem edgeCompare_eq : ∀ a b, EdgeCompare a b = decide (a.weight < b.weight) :=
  fun _ _ => rfl

theorem collectEdges_spec (u : Nat) (es : List Edge) (h : MinHeap HeapEdge)
    (ho : MinHeap.HeapOrdered EdgeCompare h.data_) :
    (collectEdges u es h).data_.Perm (halfEdges u es ++ h.data_) ∧
    MinHeap.HeapOrdered EdgeCompare (collectEdges u es h).data_ := by
  induction es generalizing h with
  | nil => exact ⟨List.Perm.refl _, ho⟩
  | cons e t ih =>
    unfold collectEdges
    by_cases hlt : u < e.dest
    · rw [if_pos hlt]
      obtain ⟨h1, h2⟩ := ih (h.insert EdgeCompare ⟨u, e.dest, e.weight⟩)
        (MinHeap.insert_heapOrdered HeapEdge.weight _ edgeCompare_eq h _ ho)
      refine ⟨?_, h2⟩
      have he : halfEdges u (e :: t) = ⟨u, e.dest, e.weight⟩ :: halfEdges u t := by
        simp [halfEdges, hlt]
      rw [he]
      refine h1.trans ?_
      refine (List.Perm.append_left _ (MinHeap.insert_perm EdgeCompare h _)).trans ?_
      exact List.perm_middle
    · rw [if_neg hlt]
      have he : halfEdges u (e :: t) = halfEdges u t := by
        simp [halfEdges, hlt]
      rw [he]
      exact ih h ho

theorem collectAll_spec (g : Graph) (us : List Nat) (h : MinHeap HeapEdge)
    (ho : MinHeap.HeapOrdered EdgeCompare h.data_) :
    (collectAll g us h).data_.Perm ((us.flatMap fun u => halfEdges u (g.edgesOf u)) ++ h.data_) ∧
    MinHeap.HeapOrdered EdgeCompare (collectAll g us h).data_ := by
  induction us generalizing h with
  | nil => exact ⟨List.Perm.refl _, ho⟩
  | cons u t ih =>
    have hstep : collectAll g (u :: t) h = collectAll g t (collectEdges u (g.edgesOf u) h) := rfl
    rw [hstep]
    obtain ⟨h1, h2⟩ := collectEdges_spec u (g.edgesOf u) h ho
    obtain ⟨h3, h4⟩ := ih _ h2
    refine ⟨?_, h4⟩
    rw [List.flatMap_cons]
    refine h3.trans ?_
    refine (List.Perm.append_left _ h1).trans ?_
    rw [← List.append_assoc]
    exact List.Perm.append_right _ List.perm_append_comm

theorem resetFathers_spec (is : List Nat) (g : Graph) :
    (resetFathers g is).adjList.length = g.adjList.length ∧
    (∀ i, (resetFathers g is).edgesOf i = g.edgesOf i) ∧
    (∀ v, v ∈ is → (resetFathers g is).fatherOf v = none) := by
  induction is generalizing g with
  | nil => exact ⟨rfl, fun _ => rfl, fun _ h => absurd h (by simp)⟩
  | cons i t ih =>
    obtain ⟨h1, h2, h3⟩ := ih (g.setFather i none)
    have hstep : resetFathers g (i :: t) = resetFathers (g.setFather i none) t := rfl
    rw [hstep]
    refine ⟨h1.trans (Graph.length_setFather _ _ _), ?_, ?_⟩
    · intro j
      rw [h2, Graph.edgesOf_setFather]
    · intro v hm
      by_cases hvt : v ∈ t
      · exact h3 v hvt
      · have hvi : v = i := by
          rcases List.mem_cons.1 hm with h | h
          · exact h
          · exact absurd h hvt
        subst hvi
        have keep : ∀ (l : List Nat) (g' : Graph), v ∉ l →
            (resetFathers g' l).fatherOf v = g'.fatherOf v := by
          intro l
          induction l with
          | nil => intro g' _; rfl
          | cons a l ihl =>
            intro g' hl
            have hva : v ≠ a := fun h => hl (h ▸ List.mem_cons_self _ _)
            have : resetFathers g' (a :: l) = resetFathers (g'.setFather a none) l := rfl
            rw [this, ihl _ (fun h => hl (List.mem_cons_of_mem _ h)),
              Graph.fatherOf_setFather_ne _ _ _ _ hva]
        rw [keep t _ hvt]
        by_cases hv : v < g.adjList.length
        · rw [Graph.fatherOf_setFather_self _ _ _ hv]
        · rw [Graph.fatherOf_of_le _ _ (by rw [Graph.length_setFather]; omega)]

end graph

namespace graph

theorem endsBelow_of_subset (g0 : Graph) (hwf : g0.WellFormed) (hpos : g0.Positive)
    (F : List HeapEdge) (h : ∀ e ∈ F, e ∈ g0.undirectedEdges) :
    EndsBelow g0.adjList.length F := by
  intro e he
  obtain ⟨_, h2, h3, _, _⟩ := undirectedEdges_facts g0 hwf hpos e (h e he)
  exact ⟨h2, h3⟩

theorem forest_length_lt (n : Nat) (F : List HeapEdge) (hn : 0 < n) (hF : SeqForest F)
    (hFn : EndsBelow n F) : F.length < n := by
  obtain ⟨S, hS, hcard⟩ := transversal_of_seqForest n F hF hFn
  obtain ⟨r, hr, _⟩ := hS.2.1 0 hn
  have := Finset.card_pos.2 ⟨r, hr⟩
  omega

theorem kruskalLoop_inv (g0 : Graph) (hwf : g0.WellFormed) (hpos : g0.Positive)
    (hn : 2 ≤ g0.adjList.length) :
    ∀ (fuel : Nat) (g : Graph) (heap : MinHeap HeapEdge) (result : Graph) (F : List HeapEdge)
      (used : Nat), heap.data_.length < fuel →
      KInv g0 g0.adjList.length g heap.data_ result F used →
      ∃ g' r F', kruskalLoop g0.adjList.length fuel g heap result used = some (.ok (), g', r) ∧
        r.adjList.length = g0.adjList.length ∧ r.undirectedEdges.Perm F' ∧ r.Built ∧
        SeqForest F' ∧ (∀ e ∈ F', e ∈ g0.undirectedEdges) ∧
        (∀ x ∈ g0.undirectedEdges,
          Conn (F'.filter fun e => decide (e.weight ≤ x.weight)) x.frm x.toV) := by
  intro fuel
  induction fuel with
  | zero => intro g heap result F used hf; omega
  | succ k ih =>
    intro g heap result F used hf inv
    have hFn := endsBelow_of_subset g0 hwf hpos F inv.fedge
    have hFlt := forest_length_lt g0.adjList.length F (by omega) inv.forest hFn
    unfold kruskalLoop
    by_cases hcond : (!heap.isEmpty && decide (used < g0.adjList.length - 1)) = true
    · rw [if_pos hcond]
      simp only [Bool.and_eq_true, Bool.not_eq_true', decide_eq_true_eq] at hcond
      obtain ⟨hne, hused⟩ := hcond
      obtain ⟨root, rest, hd⟩ : ∃ root rest, heap.data_ = root :: rest := by
        cases hd : heap.data_ with
        | nil => simp [MinHeap.isEmpty, MinHeap.size, hd] at hne
        | cons a t => exact ⟨a, t, rfl⟩
      obtain ⟨hx1, hperm, -, hx2⟩ :=
        MinHeap.extractMin_cons HeapEdge.weight EdgeCompare edgeCompare_eq heap root rest hd
      obtain ⟨hord1, hrootmin⟩ := hx2 inv.ord
      have hrootmem : root ∈ heap.data_ := by rw [hd]; exact List.mem_cons_self _ _
      obtain ⟨hlt, hfn, htn, hw, _⟩ :=
        undirectedEdges_facts g0 hwf hpos root (inv.hedge root hrootmem)
      obtain ⟨rank, huf⟩ := inv.uf
      obtain ⟨ru, rv, b, g1, hunion, hRu, hRv, _, hcase⟩ :=
        unionSets_spec g g0.adjList.length used rank huf (by omega) root.frm root.toV hfn htn
      have hsplit : heap.extractMin EdgeCompare = (.ok root, (heap.extractMin EdgeCompare).2) := by
        rw [← hx1]
      have hsub : ∀ x ∈ (heap.extractMin EdgeCompare).2.data_, x ∈ heap.data_ := by
        intro x hx
        rw [hd]
        exact List.mem_cons_of_mem _ (hperm.mem_iff.1 hx)
      have hlen1 : (heap.extractMin EdgeCompare).2.data_.length < k := by
        rw [hperm.length_eq]
        rw [hd] at hf
        simp at hf
        omega
      have hheap : ∀ x, x ∈ heap.data_ →
          x = root ∨ x ∈ (heap.extractMin EdgeCompare).2.data_ := by
        intro x hx
        rw [hd] at hx
        rcases List.mem_cons.1 hx with h | h
        · exact Or.inl h
        · exact Or.inr (hperm.mem_iff.2 h)
      have hFle : ∀ e ∈ F, e.weight ≤ root.weight := fun e he => inv.sorted e he root hrootmem
      rw [hsplit]
      simp only
      rw [hunion]
      rcases hcase with ⟨heq, hb, huf1, hiff⟩ | ⟨hneq, hb, huf1, hiff⟩
      · subst hb
        simp only
        have hconn : Conn F root.frm root.toV :=
          (inv.part root.frm root.toV ru rv hfn htn hRu hRv).1 heq
        apply ih g1 _ result F used hlen1
        constructor
        · exact ⟨rank, huf1⟩
        · exact inv.rlen
        · exact inv.rperm
        · exact inv.rbuilt
        · exact inv.flen
        · exact inv.forest
        · exact inv.fedge
        · exact fun e he => inv.hedge e (hsub e he)
        · exact hord1
        · exact fun e he x hx => inv.sorted e he x (hsub x hx)
        · intro x y rx ry hx hy hrx hry
          exact inv.part x y rx ry hx hy ((hiff x rx).1 hrx) ((hiff y ry).1 hry)
        · intro x hx
          rcases inv.processed x hx with h | h
          · rcases hheap x h with h' | h'
            · right
              rw [h']
              have : (F.filter fun e => decide (e.weight ≤ root.weight)) = F := by
                rw [List.filter_eq_self]
                intro e he
                simpa using hFle e he
              rw [this]
              exact hconn
            · exact Or.inl h'
          · exact Or.inr h
      · subst hb
        simp only
        have hnconn : ¬ Conn F root.frm root.toV := fun hc =>
          hneq ((inv.part root.frm root.toV ru rv hfn htn hRu hRv).2 hc)
        obtain ⟨hok, hrp⟩ := undirectedEdges_addEdge result root.frm root.toV root.weight hlt
          (by rw [inv.rlen]; exact htn) hw
        have hsplit2 : result.addEdge (root.frm : Int) (root.toV : Int) root.weight =
            (.ok (), (result.addEdge (root.frm : Int) (root.toV : Int) root.weight).2) := by
          rw [← hok]
        rw [hsplit2]
        simp only
        apply ih g1 _ _ (root :: F) (used + 1) hlen1
        constructor
        · exact huf1
        · rw [Graph.length_addEdge]; exact inv.rlen
        · exact hrp.trans (List.Perm.cons _ inv.rperm)
        · exact Graph.Built.addEdge _ _ _ _ inv.rbuilt
        · simp [inv.flen]
        · exact ⟨hnconn, inv.forest⟩
        · intro e he
          rcases List.mem_cons.1 he with h | h
          · rw [h]; exact inv.hedge root hrootmem
          · exact inv.fedge e h
        · exact fun e he => inv.hedge e (hsub e he)
        · exact hord1
        · intro e he x hx
          rcases List.mem_cons.1 he with h | h
          · rw [h]; exact hrootmin x (hsub x hx)
          · exact inv.sorted e h x (hsub x hx)
        · intro x y rx ry hx hy hrx hry
          rw [conn_cons]
          obtain ⟨rx0, hrx0⟩ := rootOf_exists g _ _ rank huf x
          obtain ⟨ry0, hry0⟩ := rootOf_exists g _ _ rank huf y
          have pxu : rx0 = ru ↔ Conn F x root.frm := inv.part x root.frm rx0 ru hx hfn hrx0 hRu
          have pxv : rx0 = rv ↔ Conn F x root.toV := inv.part x root.toV rx0 rv hx htn hrx0 hRv
          have puy : ru = ry0 ↔ Conn F root.frm y := inv.part root.frm y ru ry0 hfn hy hRu hry0
          have pvy : rv = ry0 ↔ Conn F root.toV y := inv.part root.toV y rv ry0 htn hy hRv hry0
          have pxy : rx0 = ry0 ↔ Conn F x y := inv.part x y rx0 ry0 hx hy hrx0 hry0
          rw [← pxu, ← pxv, ← puy, ← pvy, ← pxy]
          have hx' := (hiff x rx).1 hrx
          have hy' := (hiff y ry).1 hry
          have ex : (rx = rx0 ∧ rx0 ≠ ru) ∨ (rx0 = ru ∧ rx = rv) := by
            rcases hx' with ⟨h1, h2⟩ | ⟨h1, h2⟩
            · have := Graph.rootOf_unique g x _ _ h1 hrx0
              exact Or.inl ⟨this, this ▸ h2⟩
            · exact Or.inr ⟨Graph.rootOf_unique g x _ _ hrx0 h1, h2⟩
          have ey : (ry = ry0 ∧ ry0 ≠ ru) ∨ (ry0 = ru ∧ ry = rv) := by
            rcases hy' with ⟨h1, h2⟩ | ⟨h1, h2⟩
            · have := Graph.rootOf_unique g y _ _ h1 hry0
              exact Or.inl ⟨this, this ▸ h2⟩
            · exact Or.inr ⟨Graph.rootOf_unique g y _ _ hry0 h1, h2⟩
          rcases ex with ⟨e1, e2⟩ | ⟨e1, e2⟩ <;> rcases ey with ⟨e3, e4⟩ | ⟨e3, e4⟩
          · subst e1 e3
            constructor
            · intro h; exact Or.inl h
            · rintro (h | ⟨h, _⟩ | ⟨_, h⟩)
              · exact h
              · exact absurd h e2
              · exact absurd h.symm e4
          · subst e1 e3 e4
            constructor
            · intro h; exact Or.inr (Or.inr ⟨h, rfl⟩)
            · rintro (h | ⟨h, _⟩ | ⟨h, _⟩)
              · exact absurd h e2
              · exact absurd h e2
              · exact h
          · subst e1 e2 e3
            constructor
            · intro h; exact Or.inr (Or.inl ⟨rfl, h⟩)
            · rintro (h | ⟨_, h⟩ | ⟨_, h⟩)
              · exact absurd h.symm e4
              · exact h
              · exact absurd h.symm e4
          · subst e1 e2 e3 e4
            constructor
            · intro _; exact Or.inl rfl
            · intro _; rfl
        · intro x hx
          rcases inv.processed x hx with h | h
          · rcases hheap x h with h' | h'
            · right
              rw [h']
              apply conn_of_mem
              simp
            · exact Or.inl h'
          · right
            refine conn_mono _ _ ?_ _ _ h
            intro e he
            rw [List.mem_filter] at he ⊢
            exact ⟨List.mem_cons_of_mem _ he.1, he.2⟩
    · rw [if_neg hcond]
      refine ⟨g, result, F, rfl, inv.rlen, inv.rperm, inv.rbuilt, inv.forest, inv.fedge, ?_⟩
      simp only [Bool.and_eq_true, Bool.not_eq_true', decide_eq_true_eq, not_and, not_lt] at hcond
      intro x hx
      rcases inv.processed x hx with h | h
      · have hne : heap.isEmpty = false := by
          cases hd : heap.data_ with
          | nil => rw [hd] at h; exact absurd h (by simp)
          | cons a t => simp [MinHeap.isEmpty, MinHeap.size, hd]
        have hused := hcond hne
        have hlen : F.length + 1 = g0.adjList.length := by
          have := inv.flen
          omega
        have hall := (forest_spanning_iff g0.adjList.length F (by omega) inv.forest hFn).1 hlen
        obtain ⟨_, hfn, htn, _, _⟩ := undirectedEdges_facts g0 hwf hpos x hx
        have : (F.filter fun e => decide (e.weight ≤ x.weight)) = F := by
          rw [List.filter_eq_self]
          intro e he
          simpa using inv.sorted e he x h
        rw [this]
        exact hall _ _ hfn htn
      · exact h

end graph

namespace graph

theorem mirror_of_symmetric (g : Graph) (hsym : g.Symmetric) (a : Nat) (e : Edge)
    (he : e ∈ g.edgesOf a) : ∃ e' ∈ g.edgesOf e.dest, e'.dest = a ∧ e'.weight = e.weight := by
  have h1 : e.weight ∈ g.weightsTo a e.dest := by
    unfold Graph.weightsTo
    rw [List.mem_map]
    exact ⟨e, List.mem_filter.2 ⟨he, by simp⟩, rfl⟩
  rw [hsym a e.dest] at h1
  unfold Graph.weightsTo at h1
  rw [List.mem_map] at h1
  obtain ⟨e', he', hw⟩ := h1
  rw [List.mem_filter] at he'
  exact ⟨e', he'.1, by simpa using he'.2, hw⟩

theorem conn_of_record (g : Graph) (hsym : g.Symmetric) (F : List HeapEdge)
    (hF : ∀ x ∈ g.undirectedEdges,
      Conn (F.filter fun e => decide (e.weight ≤ x.weight)) x.frm x.toV)
    (a : Nat) (e : Edge) (he : e ∈ g.edgesOf a) :
    Conn (F.filter fun x => decide (x.weight ≤ e.weight)) a e.dest := by
  rcases Nat.lt_trichotomy a e.dest with hlt | heq | hgt
  · exact hF ⟨a, e.dest, e.weight⟩ ((mem_undirectedEdges g _).2 ⟨hlt, e, he, rfl, rfl⟩)
  · rw [← heq]
    exact conn_refl _ _
  · obtain ⟨e', he', hd, hw⟩ := mirror_of_symmetric g hsym a e he
    have := hF ⟨e.dest, a, e.weight⟩ ((mem_undirectedEdges g _).2 ⟨hgt, e', he', hd, hw⟩)
    exact conn_symm _ _ _ this

theorem conn_of_isPath (g : Graph) (F : List HeapEdge)
    (hF : ∀ a (e : Edge), e ∈ g.edgesOf a → Conn F a e.dest) (a b : Nat) (p : List Edge)
    (hp : g.IsPath a b p) : Conn F a b := by
  induction p generalizing a with
  | nil =>
    simp only [Graph.IsPath] at hp
    rw [hp]
    exact conn_refl _ _
  | cons e t ih =>
    simp only [Graph.IsPath] at hp
    exact conn_trans _ _ _ _ (hF a e hp.1) (ih _ hp.2)

theorem isEdgeOf_facts (g : Graph) (hwf : g.WellFormed) (hpos : g.Positive) (e : HeapEdge)
    (he : IsEdgeOf g e) :
    e.frm < g.adjList.length ∧ e.toV < g.adjList.length ∧ 0 < e.weight := by
  obtain ⟨r, hr, hd, hw⟩ := he
  obtain ⟨h1, h2⟩ := Graph.mem_edgesOf_of_wellFormed g hwf e.frm r hr
  obtain ⟨v, hv, hrv⟩ := mem_edgesOf_mem_adjList g e.frm r hr
  exact ⟨h2, hd ▸ h1, hw ▸ hpos v hv r hrv⟩

theorem totalWeight_nonneg (T : List HeapEdge) (h : ∀ e ∈ T, 0 < e.weight) :
    0 ≤ totalWeight T := by
  induction T with
  | nil => simp [totalWeight]
  | cons e t ih =>
    rw [totalWeight_cons]
    have := h e (List.mem_cons_self _ _)
    have := ih (fun x hx => h x (List.mem_cons_of_mem _ hx))
    omega

/-- What the final state of the main loop yields: the accepted edges form a minimum spanning
tree. -/
theorem spanning_tree_of_final (g : Graph) (hwf : g.WellFormed) (hpos : g.Positive)
    (hsym : g.Symmetric) (hconn : g.Connected) (K F : List HeapEdge) (hKF : K.Perm F)
    (hforest : SeqForest F) (hsub : ∀ e ∈ F, e ∈ g.undirectedEdges)
    (hfin : ∀ x ∈ g.undirectedEdges,
      Conn (F.filter fun e => decide (e.weight ≤ x.weight)) x.frm x.toV) :
    K.length + 1 = g.adjList.length ∧ IsSpanningTree g K ∧
    ∀ T, IsSpanningTree g T → totalWeight K ≤ totalWeight T := by
  have hFn := endsBelow_of_subset g hwf hpos F hsub
  have hrec := conn_of_record g hsym F hfin
  have hrecF : ∀ a (e : Edge), e ∈ g.edgesOf a → Conn F a e.dest := by
    intro a e he
    exact conn_mono _ _ (fun _ hx => List.mem_of_mem_filter hx) _ _ (hrec a e he)
  have hall : ∀ a b, a < g.adjList.length → b < g.adjList.length → Conn F a b := by
    intro a b ha hb
    obtain ⟨p, hp⟩ := hconn.2 a b ha hb
    exact conn_of_isPath g F hrecF a b p hp
  have hlenF : F.length + 1 = g.adjList.length :=
    (forest_spanning_iff _ F hconn.1 hforest hFn).2 hall
  have hKpos : ∀ e ∈ K, 0 < e.weight := by
    intro e he
    exact (undirectedEdges_facts g hwf hpos e (hsub e (hKF.mem_iff.1 he))).2.2.2.1
  refine ⟨by rw [hKF.length_eq]; exact hlenF, ⟨?_, ?_, ?_⟩, ?_⟩
  · intro e he
    exact (undirectedEdges_facts g hwf hpos e (hsub e (hKF.mem_iff.1 he))).2.2.2.2
  · intro a b ha hb
    exact (conn_perm K F hKF a b).2 (hall a b ha hb)
  · exact acyclic_perm F K hKF.symm (acyclic_of_seqForest F hforest)
  · intro T hT
    obtain ⟨hTe, hTc, hTa⟩ := hT
    have hTs := seqForest_of_acyclic T hTa
    have hTn : EndsBelow g.adjList.length T := by
      intro e he
      obtain ⟨h1, h2, _⟩ := isEdgeOf_facts g hwf hpos e (hTe e he)
      exact ⟨h1, h2⟩
    have hlenT : T.length + 1 = g.adjList.length :=
      (forest_spanning_iff _ T hconn.1 hTs hTn).2 hTc
    apply totalWeight_le_of_filter K T hKpos
      (fun e he => (isEdgeOf_facts g hwf hpos e (hTe e he)).2.2)
      (by rw [hKF.length_eq]; omega)
    intro t
    apply forest_length_le g.adjList.length _ _ (seqForest_filter _ T hTs)
    · intro e he
      exact hTn e (List.mem_of_mem_filter he)
    · intro e he
      exact hFn e (hKF.mem_iff.1 (List.mem_of_mem_filter he))
    · intro e he
      rw [List.mem_filter] at he
      obtain ⟨heT, hlt⟩ := he
      have hlt' : e.weight < t := by simpa using hlt
      obtain ⟨r, hr, hd, hw⟩ := hTe e heT
      have h1 := hrec e.frm r hr
      rw [hd] at h1
      rw [conn_perm _ _ (hKF.filter _)]
      refine conn_mono _ _ ?_ _ _ h1
      intro x hx
      rw [List.mem_filter] at hx ⊢
      refine ⟨hx.1, ?_⟩
      have : x.weight ≤ r.weight := by simpa using hx.2
      simp only [decide_eq_true_eq]
      omega

end graph

namespace graph

theorem wellFormed_of_edgesOf (g : Graph)
    (h : ∀ u, ∀ e ∈ g.edgesOf u, e.dest < g.adjList.length) : g.WellFormed := by
  intro v hv e he
  obtain ⟨u, hu⟩ := List.getElem?_of_mem hv
  apply h u e
  unfold Graph.edgesOf
  rw [hu]
  exact he

theorem positive_of_edgesOf (g : Graph) (h : ∀ u, ∀ e ∈ g.edgesOf u, 0 < e.weight) :
    g.Positive := by
  intro v hv e he
  obtain ⟨u, hu⟩ := List.getElem?_of_mem hv
  apply h u e
  unfold Graph.edgesOf
  rw [hu]
  exact he

theorem edgesOf_new (n : Int) (g : Graph) (h : Graph.new n = .ok g) (i : Nat) :
    g.edgesOf i = [] := by
  unfold Graph.new at h
  split at h
  · exact absurd h (by simp)
  · injection h with h
    subst h
    unfold Graph.edgesOf
    simp only [List.getElem?_map]
    cases (List.range n.toNat)[i]? <;> simp [Vertex.new]

theorem addEdgeBuilt_facts (g : Graph) (h : g.AddEdgeBuilt) :
    g.WellFormed ∧ g.Positive ∧ g.Symmetric := by
  have key : (∀ u, ∀ e ∈ g.edgesOf u, e.dest < g.adjList.length ∧ 0 < e.weight) ∧
      g.Symmetric := by
    induction h with
    | new n g hg =>
      refine ⟨?_, Graph.symmetric_new n g hg⟩
      intro u e he
      rw [edgesOf_new n g hg u] at he
      exact absurd he (by simp)
    | addEdge g u v w _ ih =>
      refine ⟨?_, Graph.symmetric_addEdge g u v w ih.2⟩
      by_cases hr : u < 0 ∨ g.numVertices ≤ u ∨ v < 0 ∨ g.numVertices ≤ v
      · rw [Graph.addEdge_out_of_range g u v w hr]
        exact ih.1
      · by_cases hw : w ≤ 0
        · rw [Graph.addEdge_bad_weight g u v w (by omega) (by omega) (by omega) (by omega) hw]
          exact ih.1
        · intro x e he
          rw [Graph.length_addEdge]
          rw [Graph.edgesOf_addEdge g u v w (by omega) (by omega) (by omega) (by omega)
            (by omega)] at he
          unfold Graph.numVertices at hr
          simp only [List.mem_append] at he
          rcases he with he | he | he
          · split at he
            · simp only [List.mem_singleton] at he
              subst he
              exact ⟨by simp only; omega, by simp only; omega⟩
            · exact absurd he (by simp)
          · split at he
            · simp only [List.mem_singleton] at he
              subst he
              exact ⟨by simp only; omega, by simp only; omega⟩
            · exact absurd he (by simp)
          · exact ih.1 x e he
  exact ⟨wellFormed_of_edgesOf g (fun u e he => (key.1 u e he).1),
    positive_of_edgesOf g (fun u e he => (key.1 u e he).2), key.2⟩

theorem isPath_reverse (g : Graph) (hsym : g.Symmetric) (a b : Nat) (p : List Edge)
    (hp : g.IsPath a b p) : ∃ q, g.IsPath b a q := by
  induction p generalizing a with
  | nil =>
    simp only [Graph.IsPath] at hp
    exact ⟨[], by simp [Graph.IsPath, hp]⟩
  | cons e t ih =>
    simp only [Graph.IsPath] at hp
    obtain ⟨q, hq⟩ := ih _ hp.2
    obtain ⟨e', he', hd, _⟩ := mirror_of_symmetric g hsym a e hp.1
    exact ⟨q ++ [e'], (Graph.isPath_snoc g b a q e').2 ⟨e.dest, hq, he', hd⟩⟩

theorem connected_of_reach (g : Graph) (hsym : g.Symmetric) (s : Nat)
    (hs : s < g.adjList.length)
    (h : ∀ b, b < g.adjList.length → ∃ p, g.IsPath s b p) : g.Connected := by
  refine ⟨by omega, ?_⟩
  intro a b ha hb
  obtain ⟨p, hp⟩ := h a ha
  obtain ⟨q, hq⟩ := isPath_reverse g hsym s a p hp
  obtain ⟨p', hp'⟩ := h b hb
  exact ⟨q ++ p', Graph.isPath_append g a s b q p' hq hp'⟩

theorem rootOf_of_no_father (g : Graph) (h : ∀ v, g.fatherOf v = none) (x r : Nat)
    (hr : g.RootOf x r) : r = x := by
  cases hr with
  | root _ _ => rfl
  | step _ f _ hf _ _ =>
    rw [h x] at hf
    exact absurd hf (by simp)

/-- C1: on a connected undirected graph with `n` vertices and positive weights (records in
range, mirrored in both adjacency lists, as `addEdge` builds them), `kruskal` returns a graph
with `n` vertices whose undirected edges form a spanning tree of the input: there are exactly
`n - 1` of them (also as counted by `countEdges`), each is an edge of the input with its
weight, they connect all the vertices and contain no cycle; and their total weight is at most
the total weight of any spanning tree of the input. -/
theorem kruskal_minimum_spanning_tree (g : Graph) (hwf : g.WellFormed) (hpos : g.Positive)
    (hsym : g.Symmetric) (hconn : g.Connected) :
    ∃ r g', kruskal g = some (.ok r, g') ∧
      r.adjList.length = g.adjList.length ∧ r.Symmetric ∧
      r.undirectedEdges.length + 1 = g.adjList.length ∧
      r.countEdges + 1 = g.adjList.length ∧
      IsSpanningTree g r.undirectedEdges ∧
      ∀ T, IsSpanningTree g T → totalWeight r.undirectedEdges ≤ totalWeight T := by
  by_cases hn : g.adjList.length ≤ 1
  · have hn1 : g.adjList.length = 1 := by have := hconn.1; omega
    have hnew := new_ofNat g.adjList.length
    have hK := undirectedEdges_new g.adjList.length
    obtain ⟨h1, h2, h3⟩ := spanning_tree_of_final g hwf hpos hsym hconn [] [] (List.Perm.refl _)
      trivial (fun e he => absurd he (by simp)) (by
        intro x hx
        obtain ⟨hlt, _, htn, _, _⟩ := undirectedEdges_facts g hwf hpos x hx
        omega)
    refine ⟨⟨(List.range g.adjList.length).map fun (i : Nat) => Vertex.new (i : Int)⟩, g,
      ?_, ?_, ?_, ?_, ?_, ?_, ?_⟩
    · unfold kruskal
      simp only
      rw [if_pos hn, hnew]
    · simp
    · exact Graph.symmetric_of_built _ (Graph.Built.new _ _ hnew)
    · rw [hK]; exact h1
    · rw [countEdges_eq, hK]; exact h1
    · rw [hK]; exact h2
    · rw [hK]; exact h3
  · have hnew := new_ofNat g.adjList.length
    obtain ⟨hl1, he1, hf1⟩ := resetFathers_spec (List.range g.adjList.length) g
    have hfall : ∀ v, (resetFathers g (List.range g.adjList.length)).fatherOf v = none := by
      intro v
      by_cases hv : v < g.adjList.length
      · exact hf1 v (List.mem_range.2 hv)
      · exact Graph.fatherOf_of_le _ _ (by rw [hl1]; omega)
    have hord0 : MinHeap.HeapOrdered EdgeCompare (MinHeap.empty : MinHeap HeapEdge).data_ := by
      intro j x y _ hx
      exact absurd hx (by simp [MinHeap.empty])
    obtain ⟨hp2, ho2⟩ := collectAll_spec (resetFathers g (List.range g.adjList.length))
      (List.range g.adjList.length) MinHeap.empty hord0
    have hp2' : (collectAll (resetFathers g (List.range g.adjList.length))
        (List.range g.adjList.length) MinHeap.empty).data_.Perm g.undirectedEdges := by
      have : (fun u => halfEdges u
          ((resetFathers g (List.range g.adjList.length)).edgesOf u)) =
          fun u => halfEdges u (g.edgesOf u) := by
        funext u
        rw [he1]
      rw [this] at hp2
      simpa [MinHeap.empty, Graph.undirectedEdges] using hp2
    have inv : KInv g g.adjList.length (resetFathers g (List.range g.adjList.length))
        (collectAll (resetFathers g (List.range g.adjList.length))
          (List.range g.adjList.length) MinHeap.empty).data_
        ⟨(List.range g.adjList.length).map fun (i : Nat) => Vertex.new (i : Int)⟩ [] 0 := by
      constructor
      · refine ⟨fun _ => 0, hl1, ?_⟩
        intro v f hf
        rw [hfall v] at hf
        exact absurd hf (by simp)
      · simp
      · rw [undirectedEdges_new]
      · exact Graph.Built.new _ _ hnew
      · rfl
      · trivial
      · intro e he; exact absurd he (by simp)
      · intro e he; exact hp2'.mem_iff.1 he
      · exact ho2
      · intro e he; exact absurd he (by simp)
      · intro x y rx ry _ _ hrx hry
        rw [rootOf_of_no_father _ hfall x rx hrx, rootOf_of_no_father _ hfall y ry hry]
        constructor
        · intro h; rw [h]; exact conn_refl _ _
        · intro h; exact conn_nil _ _ h
      · intro x hx
        exact Or.inl (hp2'.mem_iff.2 hx)
    obtain ⟨g', r, F', hloop, hrl, hrp, hrb, hFs, hFsub, hfin⟩ :=
      kruskalLoop_inv g hwf hpos (by omega) _ _ _ _ [] 0
        (Nat.lt_succ_self _) inv
    obtain ⟨h1, h2, h3⟩ := spanning_tree_of_final g hwf hpos hsym hconn r.undirectedEdges F' hrp
      hFs hFsub hfin
    refine ⟨r, g', ?_, hrl, Graph.symmetric_of_built r hrb, h1, by rw [countEdges_eq]; exact h1,
      h2, h3⟩
    unfold kruskal
    simp only
    rw [if_neg hn, hnew]
    simp only
    unfold MinHeap.size
    rw [hloop]

end graph

namespace graph

theorem mstTestGraph_built : mstTestGraph.AddEdgeBuilt := by
  have h : ((((Graph.mk [Vertex.new 0, Vertex.new 1, Vertex.new 2, Vertex.new 3]).addEdge
      0 1 4).2.addEdge 0 2 3).2.addEdge 1 2 1).2.addEdge 1 3 2 = (.ok (), mstTestGraph) := by
    decide
  have hb := Graph.AddEdgeBuilt.addEdge _ 1 3 2 (Graph.AddEdgeBuilt.addEdge _ 1 2 1
    (Graph.AddEdgeBuilt.addEdge _ 0 2 3 (Graph.AddEdgeBuilt.addEdge _ 0 1 4
      (Graph.AddEdgeBuilt.new 4 (Graph.mk [Vertex.new 0, Vertex.new 1, Vertex.new 2,
        Vertex.new 3]) (by decide)))))
  rw [h] at hb
  exact hb

theorem mstTestGraph_connected : mstTestGraph.Connected := by
  apply connected_of_reach mstTestGraph (addEdgeBuilt_facts _ mstTestGraph_built).2.2 0
    (by decide)
  intro v hv
  have hv' : v < 4 := hv
  interval_cases v
  · exact ⟨[], rfl⟩
  · exact ⟨[⟨4, 0, 1⟩], by simp [Graph.IsPath, Graph.edgesOf, mstTestGraph]⟩
  · exact ⟨[⟨3, 0, 2⟩], by simp [Graph.IsPath, Graph.edgesOf, mstTestGraph]⟩
  · exact ⟨[⟨4, 0, 1⟩, ⟨2, 1, 3⟩], by simp [Graph.IsPath, Graph.edgesOf, mstTestGraph]⟩

set_option maxRecDepth 100000 in
/-- Witness for C1: the graph of the test case "Kruskal correctness" (edges `(0,1,4)`,
`(0,2,3)`, `(1,2,1)`, `(1,3,2)`); the result has 3 edges of total weight 6. -/
theorem kruskal_minimum_spanning_tree_witness :
    (∃ r g', kruskal mstTestGraph = some (.ok r, g') ∧
      r.adjList.length = mstTestGraph.adjList.length ∧ r.Symmetric ∧
      r.undirectedEdges.length + 1 = mstTestGraph.adjList.length ∧
      r.countEdges + 1 = mstTestGraph.adjList.length ∧
      IsSpanningTree mstTestGraph r.undirectedEdges ∧
      ∀ T, IsSpanningTree mstTestGraph T → totalWeight r.undirectedEdges ≤ totalWeight T) ∧
    (kruskal mstTestGraph).map
        (fun r => r.1.map fun t => (t.countEdges, totalWeight t.undirectedEdges)) =
      some (.ok (3, 6)) :=
  ⟨kruskal_minimum_spanning_tree mstTestGraph
    (by unfold Graph.WellFormed; decide) (by unfold Graph.Positive; decide)
    (addEdgeBuilt_facts _ mstTestGraph_built).2.2 mstTestGraph_connected,
   by decide⟩

set_option maxRecDepth 100000 in
/-- On the graph of the test cases "Prim correctness" and "Kruskal correctness" both
algorithms return 3 edges of total weight 6. -/
theorem prim_kruskal_test_graph :
    (prim mstTestGraph).map
        (fun r => r.1.map fun t => (t.countEdges, totalWeight t.undirectedEdges)) =
      some (.ok (3, 6)) ∧
    (kruskal mstTestGraph).map
        (fun r => r.1.map fun t => (t.countEdges, totalWeight t.undirectedEdges)) =
      some (.ok (3, 6)) := by
  decide

end graph

namespace graph
namespace MinHeap

variable {T : Type}

/-- The fuel given to the loop of `siftUp` is enough: one more iteration changes nothing. -/
theorem siftUpAux_succ (cmp : T → T → Bool) (fuel : Nat) (d : List T) (i : Nat)
    (h : i ≤ fuel) : siftUpAux cmp (fuel + 1) d i = siftUpAux cmp fuel d i := by
  induction fuel generalizing d i with
  | zero =>
    have : i = 0 := by omega
    subst this
    simp [siftUpAux]
  | succ k ih =>
    conv_lhs => rw [siftUpAux]
    conv_rhs => rw [siftUpAux]
    by_cases hi : 0 < i
    · rw [if_pos hi, if_pos hi]
      cases d[i]? with
      | none => rfl
      | some x =>
        cases d[(i - 1) / 2]? with
        | none => rfl
        | some y =>
          simp only
          by_cases hc : cmp x y = true
          · rw [if_pos hc, if_pos hc]
            exact ih _ _ (by omega)
          · rw [if_neg hc, if_neg hc]
    · rw [if_neg hi, if_neg hi]

theorem smaller_cases (cmp : T → T → Bool) (d : List T) (c best : Nat) :
    smaller cmp d c best = best ∨ (smaller cmp d c best = c ∧ c < d.length) := by
  unfold smaller
  cases hc : d[c]? with
  | none => exact Or.inl rfl
  | some x =>
    cases d[best]? with
    | none => exact Or.inl rfl
    | some y =>
      simp only
      split
      · exact Or.inr ⟨rfl, (List.getElem?_eq_some_iff.1 hc).1⟩
      · exact Or.inl rfl

theorem bestChild_cases (cmp : T → T → Bool) (d : List T) (i : Nat) :
    bestChild cmp d i = i ∨ (i < bestChild cmp d i ∧ bestChild cmp d i < d.length) := by
  unfold bestChild
  rcases smaller_cases cmp d (2 * i + 1 + 1) (smaller cmp d (2 * i + 1) i) with h | ⟨h, hl⟩
  · rw [h]
    rcases smaller_cases cmp d (2 * i + 1) i with h' | ⟨h', hl'⟩
    · exact Or.inl h'
    · exact Or.inr ⟨by omega, by omega⟩
  · exact Or.inr ⟨by omega, by omega⟩

/-- The fuel given to the loop of `siftDown` is enough: one more iteration changes
nothing. -/
theorem siftDownAux_succ (cmp : T → T → Bool) (fuel : Nat) (d : List T) (i : Nat)
    (h : d.length ≤ fuel + i) : siftDownAux cmp (fuel + 1) d i = siftDownAux cmp fuel d i := by
  induction fuel generalizing d i with
  | zero =>
    conv_lhs => rw [siftDownAux]
    conv_rhs => rw [siftDownAux]
    rcases bestChild_cases cmp d i with hb | ⟨h1, h2⟩
    · rw [if_pos hb]
    · omega
  | succ k ih =>
    conv_lhs => rw [siftDownAux]
    conv_rhs => rw [siftDownAux]
    by_cases hb : bestChild cmp d i = i
    · rw [if_pos hb, if_pos hb]
    · rw [if_neg hb, if_neg hb]
      rcases bestChild_cases cmp d i with hb' | ⟨h1, _⟩
      · exact absurd hb' hb
      · exact ih _ _ (by rw [length_swapVals]; omega)

end MinHeap
end graph

namespace graph

/-! ## The constructor, `peek`, `decreaseKey` and the source checks of the traversals -/

theorem getElem?_new (n i : Nat) (hi : i < n) :
    (List.map (fun (i : Nat) => Vertex.new (i : Int)) (List.range n))[i]? =
      some (Vertex.new (i : Int)) := by
  rw [List.getElem?_map, List.getElem?_range hi]
  rfl

theorem records_new (n : Nat) :
    (Graph.mk ((List.range n).map fun (i : Nat) => Vertex.new (i : Int))).records = [] := by
  unfold Graph.records
  rw [List.flatMap_eq_nil_iff]
  intro u _
  exact edgesOf_new _ _ (new_ofNat n) u

theorem countEdges_new (n : Nat) :
    (Graph.mk ((List.range n).map fun (i : Nat) => Vertex.new (i : Int))).countEdges = 0 := by
  rw [countEdges_eq, undirectedEdges_new]
  rfl

theorem fatherOf_new (n i : Nat) :
    (Graph.mk ((List.range n).map fun (i : Nat) => Vertex.new (i : Int))).fatherOf i = none := by
  unfold Graph.fatherOf
  by_cases hi : i < n
  · simp only [getElem?_new n i hi]
    rfl
  · rw [List.getElem?_eq_none (by simp; omega)]

/-- C11: for every `n ≥ 0` the constructor returns a graph with exactly `n` vertices, the
vertex at index `i` carrying the value `i`, an empty adjacency list (so no record at all,
`countEdges` 0 and every degree 0) and a null father; for every `n < 0` it throws
`invalid_argument`. -/
theorem Graph.new_spec (n : Int) :
    (0 ≤ n → ∃ g, Graph.new n = .ok g ∧ g.numVertices = n ∧
      (∀ i, i < g.adjList.length →
        g.adjList[i]? = some ⟨(i : Int), [], none, 0⟩) ∧
      (∀ i, (g.edgesOf i).length = 0 ∧ g.fatherOf i = none) ∧
      g.records = [] ∧ g.countEdges = 0) ∧
    (n < 0 → Graph.new n = .error .invalid_argument) := by
  constructor
  · intro hn
    obtain ⟨k, rfl⟩ := Int.eq_ofNat_of_zero_le hn
    refine ⟨_, new_ofNat k, ?_, ?_, ?_, records_new k, countEdges_new k⟩
    · simp [Graph.numVertices]
    · intro i hi
      simp only [List.length_map, List.length_range] at hi
      exact getElem?_new k i hi
    · intro i
      rw [edgesOf_new _ _ (new_ofNat k) i]
      exact ⟨rfl, fatherOf_new k i⟩
  · intro hn
    unfold Graph.new
    rw [if_pos hn]

/-- Witness for C11: `Graph g(5)` of the test, and `Graph g(-1)`. -/
theorem Graph.new_spec_witness :
    (∃ g, Graph.new 5 = .ok g ∧ g.numVertices = 5 ∧
      (∀ i, i < g.adjList.length →
        g.adjList[i]? = some ⟨(i : Int), [], none, 0⟩) ∧
      (∀ i, (g.edgesOf i).length = 0 ∧ g.fatherOf i = none) ∧
      g.records = [] ∧ g.countEdges = 0) ∧
    Graph.new (-1) = .error .invalid_argument :=
  ⟨(Graph.new_spec 5).1 (by decide), (Graph.new_spec (-1)).2 (by decide)⟩

namespace MinHeap

variable {T : Type}

theorem contains_iff [DecidableEq T] (h : MinHeap T) (v : T) :
    h.contains v = true ↔ v ∈ h.data_ := by
  unfold contains size
  rw [decide_eq_true_iff, List.indexOf_lt_length]

/-- C14: `decreaseKey(v)` throws its not-found error (`runtime_error`) exactly when no stored
element equals `v`, which is exactly when `contains(v)` is false, and then the heap is
untouched; when `v` is present the call returns normally, and the stored elements (as a
multiset), the size and the capacity are unchanged. -/
theorem decreaseKey_not_found_iff [DecidableEq T] (cmp : T → T → Bool) (h : MinHeap T)
    (v : T) :
    ((h.decreaseKey cmp v).1 = .error .runtime_error ↔ v ∉ h.data_) ∧
    ((h.decreaseKey cmp v).1 = .error .runtime_error ↔ h.contains v = false) ∧
    (v ∉ h.data_ → (h.decreaseKey cmp v).2 = h) ∧
    (v ∈ h.data_ → (h.decreaseKey cmp v).1 = .ok () ∧
      (h.decreaseKey cmp v).2.data_.Perm h.data_ ∧
      (h.decreaseKey cmp v).2.size = h.size ∧
      (h.decreaseKey cmp v).2.capacity_ = h.capacity_) := by
  have hpres : v ∈ h.data_ → (h.decreaseKey cmp v).1 = .ok () ∧
      (h.decreaseKey cmp v).2.data_.Perm h.data_ ∧
      (h.decreaseKey cmp v).2.size = h.size ∧
      (h.decreaseKey cmp v).2.capacity_ = h.capacity_ := by
    intro hm
    rw [decreaseKey_of_mem cmp h v hm]
    refine ⟨rfl, siftUp_perm _ _ _, ?_, rfl⟩
    exact (siftUp_perm cmp h.data_ _).length_eq
  have hiff : (h.decreaseKey cmp v).1 = .error .runtime_error ↔ v ∉ h.data_ := by
    constructor
    · intro he hm
      rw [(hpres hm).1] at he
      exact absurd he (by simp)
    · intro hm
      rw [decreaseKey_of_not_mem cmp h v hm]
  refine ⟨hiff, ?_, ?_, hpres⟩
  · rw [hiff, ← contains_iff, Bool.not_eq_true]
  · intro hm
    rw [decreaseKey_of_not_mem cmp h v hm]

/-- Witness for C14: the heap of the vertices 3, 1, 2, 0 of the test, with a present and an
absent vertex. -/
theorem decreaseKey_not_found_iff_witness :
    ((MinHeap.mk [3, 1, 2, 0] 4).decreaseKey (VertexCompare heapTestGraph) 2).1 = .ok () ∧
    ((MinHeap.mk [3, 1, 2, 0] 4).decreaseKey (VertexCompare heapTestGraph) 7).1 =
      .error .runtime_error :=
  ⟨((decreaseKey_not_found_iff (VertexCompare heapTestGraph) (MinHeap.mk [3, 1, 2, 0] 4)
      2).2.2.2 (by decide)).1,
    (decreaseKey_not_found_iff (VertexCompare heapTestGraph) (MinHeap.mk [3, 1, 2, 0] 4)
      7).1.2 (by decide)⟩

/-- C15: on an empty heap `extractMin` and `peek` both throw the empty-structure error
(`runtime_error`) and the heap is still empty, indeed unchanged; on a non-empty heap in heap
order `peek` returns the element that `extractMin` returns, and that element is a minimum of
the heap. (`peek` is a `const` member: it writes nothing, so contents, order and size are
as before.) -/
theorem peek_extractMin_spec (key : T → Int) (cmp : T → T → Bool)
    (hc : ∀ a b, cmp a b = decide (key a < key b)) (h : MinHeap T) :
    (h.isEmpty = true →
      h.peek = .error .runtime_error ∧ h.extractMin cmp = (.error .runtime_error, h) ∧
      (h.extractMin cmp).2.isEmpty = true) ∧
    (h.isEmpty = false → HeapOrdered cmp h.data_ →
      ∃ x, h.peek = .ok x ∧ (h.extractMin cmp).1 = .ok x ∧ ∀ y ∈ h.data_, key x ≤ key y) := by
  constructor
  · intro he
    have hd : h.data_ = [] := by
      unfold isEmpty size at he
      exact List.length_eq_zero.1 (by simpa using he)
    rw [extractMin_nil cmp h hd]
    refine ⟨?_, rfl, he⟩
    unfold peek
    rw [hd]
  · intro he ho
    cases hd : h.data_ with
    | nil =>
      unfold isEmpty size at he
      rw [hd] at he
      exact absurd he (by simp)
    | cons root rest =>
      obtain ⟨h1, _, _, h4⟩ := extractMin_cons key cmp hc h root rest hd
      refine ⟨root, ?_, h1, ?_⟩
      · unfold peek
        rw [hd]
      · rw [← hd]
        exact (h4 ho).2

/-- Witness for C15: the heap of the vertices 3, 1, 2, 0 of the test. -/
theorem peek_extractMin_spec_witness :
    ∃ x, (MinHeap.mk [3, 1, 2, 0] 4).peek = .ok x ∧
      ((MinHeap.mk [3, 1, 2, 0] 4).extractMin (VertexCompare heapTestGraph)).1 = .ok x ∧
      ∀ y ∈ [3, 1, 2, 0], heapTestGraph.distanceOf x ≤ heapTestGraph.distanceOf y :=
  (peek_extractMin_spec heapTestGraph.distanceOf (VertexCompare heapTestGraph)
    (fun _ _ => rfl) (MinHeap.mk [3, 1, 2, 0] 4)).2 (by decide) (by
      intro j x y hj hx hy
      have hj4 : j < 4 := by
        by_contra hc
        rw [List.getElem?_eq_none (by simp; omega)] at hx
        exact absurd hx (by simp)
      interval_cases j <;> simp at hx hy <;> subst hx hy <;> decide)

end MinHeap

/-- C20: when `source < 0` or `source ≥ n` (always the case when `n = 0`), `bfs`, `dfs` and
`dijkstra` throw `out_of_range`; `dijkstra` has written nothing to the graph at that point
(the graph it leaves is the graph it was given), and `bfs` and `dfs` never write to their
input, so every distance, father and adjacency list is as before the call. -/
theorem traversals_source_out_of_range (g : Graph) (source : Int)
    (h : source < 0 ∨ source ≥ g.numVertices) :
    bfs g source = some (.error .out_of_range) ∧
    dfs g source = some (.error .out_of_range) ∧
    dijkstra g source = some (.error .out_of_range, g) := by
  refine ⟨?_, ?_, ?_⟩
  · unfold bfs
    simp only
    rw [if_pos h]
  · unfold dfs
    simp only
    rw [if_pos h]
  · unfold dijkstra
    simp only
    rw [if_pos h]

/-- Witness for C20: `bfs(g, 5)` and `dfs(g, 5)` of the tests on the five-vertex path. -/
theorem traversals_source_out_of_range_witness :
    bfs pathTestGraph 5 = some (.error .out_of_range) ∧
    dfs pathTestGraph 5 = some (.error .out_of_range) ∧
    dijkstra pathTestGraph 5 = some (.error .out_of_range, pathTestGraph) :=
  traversals_source_out_of_range pathTestGraph 5 (by decide)

end graph

namespace graph
namespace MinHeap

variable {T : Type}

/-! ## Sequences of heap operations -/

theorem heapOrdered_nil (cmp : T → T → Bool) : HeapOrdered cmp ([] : List T) := by
  intro j x y _ hx _
  exact absurd hx (by simp)

/-- What `extractMin` does on a non-empty heap in heap order. -/
theorem extractMin_spec (key : T → Int) (cmp : T → T → Bool)
    (hc : ∀ a b, cmp a b = decide (key a < key b)) (h : MinHeap T)
    (ho : HeapOrdered cmp h.data_) (hne : h.data_ ≠ []) :
    ∃ x h1, h.extractMin cmp = (.ok x, h1) ∧ (∀ y ∈ h.data_, key x ≤ key y) ∧
      h.data_.Perm (x :: h1.data_) ∧ HeapOrdered cmp h1.data_ := by
  cases hd : h.data_ with
  | nil => exact absurd hd hne
  | cons root rest =>
    obtain ⟨h1, h2, _, h4⟩ := extractMin_cons key cmp hc h root rest hd
    refine ⟨root, (h.extractMin cmp).2, ?_, ?_, ?_, (h4 ho).1⟩
    · rw [← h1]
    · rw [← hd]
      exact (h4 ho).2
    · exact List.Perm.cons root h2.symm

theorem reached_heapOrdered (key : T → Int) (cmp : T → T → Bool)
    (hc : ∀ a b, cmp a b = decide (key a < key b)) (h : MinHeap T) (hr : Reached cmp h) :
    HeapOrdered cmp h.data_ := by
  induction hr with
  | empty => exact heapOrdered_nil cmp
  | insert h v _ ih => exact insert_heapOrdered key cmp hc h v ih
  | extractMin h _ ih =>
    by_cases hne : h.data_ = []
    · rw [extractMin_nil cmp h hne]
      exact ih
    · obtain ⟨x, h1, he, _, _, ho⟩ := extractMin_spec key cmp hc h ih hne
      rw [he]
      exact ho

theorem insertList_spec (key : T → Int) (cmp : T → T → Bool)
    (hc : ∀ a b, cmp a b = decide (key a < key b)) (l : List T) :
    ∀ h : MinHeap T, HeapOrdered cmp h.data_ →
      (insertList cmp l h).data_.Perm (l ++ h.data_) ∧
      HeapOrdered cmp (insertList cmp l h).data_ := by
  induction l with
  | nil => intro h ho; exact ⟨List.Perm.refl _, ho⟩
  | cons v l ih =>
    intro h ho
    obtain ⟨hp, ho1⟩ := ih (h.insert cmp v) (insert_heapOrdered key cmp hc h v ho)
    refine ⟨?_, ho1⟩
    have h1 : (insertList cmp (v :: l) h) = insertList cmp l (h.insert cmp v) := rfl
    rw [h1]
    refine hp.trans ?_
    refine ((List.Perm.append_left l (insert_perm cmp h v))).trans ?_
    exact List.perm_middle

theorem drain_spec (key : T → Int) (cmp : T → T → Bool)
    (hc : ∀ a b, cmp a b = decide (key a < key b)) :
    ∀ (fuel : Nat) (h : MinHeap T), HeapOrdered cmp h.data_ → h.data_.length < fuel →
      ∃ out, drain cmp fuel h = some (.ok out) ∧ out.Perm h.data_ ∧
        out.Pairwise fun a b => key a ≤ key b := by
  intro fuel
  induction fuel with
  | zero => intro h _ hl; omega
  | succ fuel ih =>
    intro h ho hl
    by_cases hne : h.data_ = []
    · refine ⟨[], ?_, ?_, List.Pairwise.nil⟩
      · have he : h.isEmpty = true := by simp [isEmpty, size, hne]
        simp only [drain, he, if_true]
      · rw [hne]
    · obtain ⟨x, h1, he, hmin, hp, ho1⟩ := extractMin_spec key cmp hc h ho hne
      have hl1 : h1.data_.length < fuel := by
        have := hp.length_eq
        simp only [List.length_cons] at this
        omega
      obtain ⟨out, hd, hpo, hs⟩ := ih h1 ho1 hl1
      refine ⟨x :: out, ?_, ?_, ?_⟩
      · have hemp : h.isEmpty = false := by
          cases hd : h.data_ with
          | nil => exact absurd hd hne
          | cons a l => simp [isEmpty, size, hd]
        simp only [drain, hemp, he, hd]
        simp
      · exact (List.Perm.cons x hpo).trans hp.symm
      · refine List.Pairwise.cons ?_ hs
        intro y hy
        exact hmin y (hp.symm.subset (List.mem_cons_of_mem x (hpo.subset hy)))

/-- C12: on a heap reached from the empty heap by `insert` and `extractMin` calls and holding
at least one element, `extractMin` returns an element whose key is not greater than the key
of any element held, and the heap afterwards holds the previous elements minus one
occurrence of the returned one; and after inserting any list of elements, calling
`extractMin` until the heap is empty returns (within the iterations allowed) a permutation of
the list in non-decreasing key order. The key is any integer that the comparator orders by,
as the two comparators of the library do. -/
theorem extractMin_returns_minimum (key : T → Int) (cmp : T → T → Bool)
    (hc : ∀ a b, cmp a b = decide (key a < key b)) :
    (∀ h : MinHeap T, Reached cmp h → h.isEmpty = false →
      ∃ x h1, h.extractMin cmp = (.ok x, h1) ∧ (∀ y ∈ h.data_, key x ≤ key y) ∧
        h.data_.Perm (x :: h1.data_) ∧ h1.size + 1 = h.size) ∧
    (∀ (l : List T) (fuel : Nat), l.length < fuel →
      ∃ out, drain cmp fuel (insertList cmp l empty) = some (.ok out) ∧ out.Perm l ∧
        out.Pairwise fun a b => key a ≤ key b) := by
  constructor
  · intro h hr he
    have hne : h.data_ ≠ [] := by
      intro hd
      simp [isEmpty, size, hd] at he
    obtain ⟨x, h1, hx, hmin, hp, _⟩ :=
      extractMin_spec key cmp hc h (reached_heapOrdered key cmp hc h hr) hne
    refine ⟨x, h1, hx, hmin, hp, ?_⟩
    have := hp.length_eq
    simp only [List.length_cons] at this
    unfold size
    omega
  · intro l fuel hl
    obtain ⟨hp, ho⟩ := insertList_spec key cmp hc l empty (heapOrdered_nil cmp)
    have hp1 : (insertList cmp l empty).data_.Perm l := by
      have : l ++ (empty : MinHeap T).data_ = l := List.append_nil l
      rw [this] at hp
      exact hp
    obtain ⟨out, hd, hpo, hs⟩ := drain_spec key cmp hc fuel (insertList cmp l empty) ho
      (by rw [hp1.length_eq]; exact hl)
    exact ⟨out, hd, hpo.trans hp1, hs⟩

set_option maxRecDepth 100000 in
/-- Witness for C12: the test's heap of the vertices 0..3 with the distances 7, 3, 5, 1; the
vertices come out as 3, 1, 2, 0. -/
theorem extractMin_returns_minimum_witness :
    (∃ out, drain (VertexCompare heapTestGraph) 5
        (insertList (VertexCompare heapTestGraph) [0, 1, 2, 3] empty) = some (.ok out) ∧
      out.Perm [0, 1, 2, 3] ∧
      out.Pairwise fun a b => heapTestGraph.distanceOf a ≤ heapTestGraph.distanceOf b) ∧
    drain (VertexCompare heapTestGraph) 5
      (insertList (VertexCompare heapTestGraph) [0, 1, 2, 3] empty) = some (.ok [3, 1, 2, 0]) :=
  ⟨(extractMin_returns_minimum heapTestGraph.distanceOf (VertexCompare heapTestGraph)
      (fun _ _ => rfl)).2 [0, 1, 2, 3] 5 (by decide), by decide⟩

theorem runOps_sorted (key : T → Int) (cmp : T → T → Bool)
    (hc : ∀ a b, cmp a b = decide (key a < key b)) :
    ∀ (ops : List (HeapOp T)) (h : MinHeap T) (prev out : List T),
      HeapOrdered cmp h.data_ → (∀ x ∈ prev, ∀ y ∈ h.data_, key x ≤ key y) →
      runOps cmp ops h = .ok out →
      (∀ pre v post outp, ops = pre ++ HeapOp.insert v :: post →
        runOps cmp pre h = .ok outp →
        (∀ x ∈ prev, key x ≤ key v) ∧ ∀ x ∈ outp, key x ≤ key v) →
      (out.Pairwise fun a b => key a ≤ key b) ∧ ∀ x ∈ prev, ∀ y ∈ out, key x ≤ key y := by
  intro ops
  induction ops with
  | nil =>
    intro h prev out _ _ hrun _
    have : out = [] := by
      simp only [runOps] at hrun
      exact (Except.ok.inj hrun).symm
    subst this
    exact ⟨List.Pairwise.nil, fun _ _ _ hy => absurd hy (List.not_mem_nil _)⟩
  | cons op ops ih =>
    intro h prev out ho hprev hrun hmono
    cases op with
    | insert v =>
      have hv := (hmono [] v ops [] rfl rfl).1
      refine ih (h.insert cmp v) prev out (insert_heapOrdered key cmp hc h v ho) ?_ hrun ?_
      · intro x hx y hy
        rcases List.mem_cons.1 ((insert_perm cmp h v).subset hy) with rfl | hy
        · exact hv x hx
        · exact hprev x hx y hy
      · intro pre v1 post outp hsplit hpre
        exact hmono (HeapOp.insert v :: pre) v1 post outp (by rw [hsplit]; rfl) hpre
    | extractMin =>
      by_cases hne : h.data_ = []
      · simp only [runOps, extractMin_nil cmp h hne] at hrun
        exact absurd hrun (by simp)
      · obtain ⟨x, h1, he, hmin, hp, ho1⟩ := extractMin_spec key cmp hc h ho hne
        simp only [runOps, he] at hrun
        cases hr : runOps cmp ops h1 with
        | error err =>
          rw [hr] at hrun
          exact absurd hrun (by simp)
        | ok out1 =>
          rw [hr] at hrun
          have hout : out = x :: out1 := (Except.ok.inj hrun).symm
          subst hout
          have hsub : ∀ y ∈ h1.data_, y ∈ h.data_ :=
            fun y hy => hp.symm.subset (List.mem_cons_of_mem x hy)
          have hxm : x ∈ h.data_ := hp.symm.subset (List.mem_cons_self x _)
          obtain ⟨hs, hb⟩ := ih h1 (x :: prev) out1 ho1 (by
            intro a ha y hy
            rcases List.mem_cons.1 ha with rfl | ha
            · exact hmin y (hsub y hy)
            · exact hprev a ha y (hsub y hy)) hr (by
            intro pre v post outp hsplit hpre
            have := hmono (HeapOp.extractMin :: pre) v post (x :: outp)
              (by rw [hsplit]; rfl) (by simp only [runOps, he, hpre])
            refine ⟨?_, fun a ha => this.2 a (List.mem_cons_of_mem x ha)⟩
            intro a ha
            rcases List.mem_cons.1 ha with rfl | ha
            · exact this.2 a (List.mem_cons_self a _)
            · exact this.1 a ha)
          refine ⟨List.Pairwise.cons (fun y hy => hb x (List.mem_cons_self x _) y hy) hs, ?_⟩
          intro a ha y hy
          rcases List.mem_cons.1 hy with rfl | hy
          · exact hprev a ha y hxm
          · exact hb a (List.mem_cons_of_mem x ha) y hy

/-- C13 (counterexample): on the empty heap of integers, `insert(5)`, `extractMin()`,
`insert(3)`, `extractMin()` never calls `extractMin` on an empty heap and extracts 5 and
then 3, which is not a non-decreasing sequence. -/
theorem runOps_interleaved_not_sorted :
    runOps (fun a b : Int => decide (a < b))
      [HeapOp.insert 5, HeapOp.extractMin, HeapOp.insert 3, HeapOp.extractMin] empty =
      .ok [5, 3] ∧
    ¬ ([5, 3] : List Int).Pairwise (fun a b => a ≤ b) := by
  constructor
  · decide
  · decide

/-- C13 (as amended): for every sequence of `insert` and `extractMin` calls on an initially
empty heap in which `extractMin` is never called on an empty heap (the run returns) and in
which no inserted element has a key smaller than the key of an element extracted before it,
the sequence of extracted elements is non-decreasing by key. -/
theorem runOps_sorted_of_monotone (key : T → Int) (cmp : T → T → Bool)
    (hc : ∀ a b, cmp a b = decide (key a < key b)) (ops : List (HeapOp T)) (out : List T)
    (hrun : runOps cmp ops empty = .ok out)
    (hmono : ∀ pre v post outp, ops = pre ++ HeapOp.insert v :: post →
      runOps cmp pre empty = .ok outp → ∀ x ∈ outp, key x ≤ key v) :
    out.Pairwise fun a b => key a ≤ key b :=
  (runOps_sorted key cmp hc ops empty [] out (heapOrdered_nil cmp)
    (fun _ hx => absurd hx (List.not_mem_nil _)) hrun
    (fun pre v post outp hsplit hpre =>
      ⟨fun _ hx => absurd hx (List.not_mem_nil _), hmono pre v post outp hsplit hpre⟩)).1

/-- Witness for C13 (as amended): `insert(3)`, `extractMin()`, `insert(5)`, `extractMin()` on
the empty heap of integers extracts 3 and then 5. -/
theorem runOps_sorted_of_monotone_witness :
    runOps (fun a b : Int => decide (a < b))
      [HeapOp.insert 3, HeapOp.extractMin, HeapOp.insert 5, HeapOp.extractMin] empty =
      .ok [3, 5] ∧
    ([3, 5] : List Int).Pairwise (fun a b => id a ≤ id b) :=
  ⟨by decide,
    runOps_sorted_of_monotone id (fun a b : Int => decide (a < b)) (fun _ _ => rfl)
      [HeapOp.insert 3, HeapOp.extractMin, HeapOp.insert 5, HeapOp.extractMin] [3, 5]
      (by decide) (by
        intro pre v post outp hsplit hpre
        rcases pre with _ | ⟨a, _ | ⟨b, _ | ⟨c, _ | ⟨d, rest⟩⟩⟩⟩
        · simp only [runOps] at hpre
          cases hpre
          intro x hx
          exact absurd hx (List.not_mem_nil _)
        · simp at hsplit
        · simp only [List.cons_append, List.nil_append, List.cons.injEq] at hsplit
          obtain ⟨rfl, rfl, hv, _⟩ := hsplit
          cases hv
          have h3 : runOps (fun a b : Int => decide (a < b))
              [HeapOp.insert 3, HeapOp.extractMin] empty = .ok [3] := by decide
          rw [h3] at hpre
          cases hpre
          intro x hx
          rw [List.mem_singleton.1 hx]
          decide
        · simp at hsplit
        · simp at hsplit)⟩

end MinHeap
end graph

namespace graph
namespace Graph

/-! ## Union-find: any sequence of `find` and `unionSets` calls -/

theorem isRoot_iff_rootOf (g : Graph) (x : Nat) : g.IsRoot x ↔ g.RootOf x x :=
  ⟨fun h => RootOf.root x h, fun h => rootOf_isRoot g x x h⟩

/-- The invariant of a reached union-find state: the father pointers form a forest, and as
many vertices have stopped being representatives as unions have succeeded. -/
theorem ufReached_inv (g : Graph) (hr : g.UFReached) :
    ∃ (t : Nat) (rank : Nat → Nat) (N : Finset Nat), UFInv g g.adjList.length t rank ∧
      (∀ v ∈ N, v < g.adjList.length ∧ ¬ g.IsRoot v) ∧ N.card = t := by
  induction hr with
  | init g h =>
    refine ⟨0, fun _ => 0, ∅, ⟨rfl, ?_⟩, ?_, rfl⟩
    · intro v f hf
      rw [h v] at hf
      exact absurd hf (by simp)
    · intro v hv
      exact absurd hv (Finset.not_mem_empty v)
  | find g g' v r _ hv hf ih =>
    obtain ⟨t, rank, N, hinv, hN, hcard⟩ := ih
    have ht : t ≤ g.adjList.length := by
      rw [← hcard, ← Finset.card_range g.adjList.length]
      exact Finset.card_le_card fun x hx => Finset.mem_range.2 (hN x hx).1
    obtain ⟨r1, g1, hf1, _, hinv1, hroot, _⟩ := find_spec g _ t rank hinv ht v hv
    rw [hf] at hf1
    obtain ⟨rfl, rfl⟩ := Prod.mk.inj (Option.some.inj hf1)
    have hlen : g'.adjList.length = g.adjList.length := hinv1.1
    rw [hlen]
    refine ⟨t, rank, N, hinv1, ?_, hcard⟩
    intro x hx
    refine ⟨(hN x hx).1, ?_⟩
    rw [isRoot_iff_rootOf, hroot, ← isRoot_iff_rootOf]
    exact (hN x hx).2
  | unionSets g g' u v b _ hu hv hun ih =>
    obtain ⟨t, rank, N, hinv, hN, hcard⟩ := ih
    have ht : t ≤ g.adjList.length := by
      rw [← hcard, ← Finset.card_range g.adjList.length]
      exact Finset.card_le_card fun x hx => Finset.mem_range.2 (hN x hx).1
    obtain ⟨ru, rv, b1, g1, hun1, hRu, hRv, _, hcase⟩ :=
      unionSets_spec g _ t rank hinv ht u v hu hv
    rw [hun] at hun1
    obtain ⟨rfl, rfl⟩ := Prod.mk.inj (Option.some.inj hun1)
    rcases hcase with ⟨_, _, hinv1, hroot⟩ | ⟨hne, _, ⟨rank1, hinv1⟩, hroot⟩
    · have hlen : g'.adjList.length = g.adjList.length := hinv1.1
      rw [hlen]
      refine ⟨t, rank, N, hinv1, ?_, hcard⟩
      intro x hx
      refine ⟨(hN x hx).1, ?_⟩
      rw [isRoot_iff_rootOf, hroot, ← isRoot_iff_rootOf]
      exact (hN x hx).2
    · have hlen : g'.adjList.length = g.adjList.length := hinv1.1
      rw [hlen]
      have hruN : ru ∉ N := fun h => (hN ru h).2 (rootOf_isRoot g u ru hRu)
      refine ⟨t + 1, rank1, insert ru N, hinv1, ?_, ?_⟩
      · intro x hx
        have hxn : x < g.adjList.length := by
          rcases Finset.mem_insert.1 hx with rfl | hx
          · exact rootOf_lt g _ t rank hinv u _ hu hRu
          · exact (hN x hx).1
        refine ⟨hxn, ?_⟩
        rw [isRoot_iff_rootOf, hroot]
        rintro (⟨h1, h2⟩ | ⟨h1, h2⟩)
        · rcases Finset.mem_insert.1 hx with rfl | hx
          · exact h2 rfl
          · exact (hN x hx).2 ((isRoot_iff_rootOf g x).2 h1)
        · subst h2
          rcases Finset.mem_insert.1 hx with h | hx
          · exact hne h.symm
          · exact (hN x hx).2 (rootOf_isRoot g v x hRv)
      · rw [Finset.card_insert_of_not_mem hruN, hcard]

theorem ufReached_facts (g : Graph) (hr : g.UFReached) :
    ∃ (t : Nat) (rank : Nat → Nat), UFInv g g.adjList.length t rank ∧ t ≤ g.adjList.length := by
  obtain ⟨t, rank, N, hinv, hN, hcard⟩ := ufReached_inv g hr
  refine ⟨t, rank, hinv, ?_⟩
  rw [← hcard, ← Finset.card_range g.adjList.length]
  exact Finset.card_le_card fun x hx => Finset.mem_range.2 (hN x hx).1

/-- The test `find(x) == find(y)` returns, and it is true exactly when the father pointers
lead `x` and `y` to the same representative. -/
theorem sameSet_spec (g : Graph) (hr : g.UFReached) (x y : Nat) (hx : x < g.adjList.length)
    (hy : y < g.adjList.length) :
    ∃ rx ry, g.RootOf x rx ∧ g.RootOf y ry ∧ g.sameSet x y = some (decide (rx = ry)) := by
  obtain ⟨t, rank, hinv, ht⟩ := ufReached_facts g hr
  obtain ⟨rx, g1, hf1, hRx, hinv1, hroot1, _⟩ := find_spec g _ t rank hinv ht x hx
  obtain ⟨ry, g2, hf2, hRy, _, _, _⟩ := find_spec g1 _ t rank hinv1 ht y hy
  refine ⟨rx, ry, hRx, (hroot1 y ry).1 hRy, ?_⟩
  unfold sameSet
  rw [hf1]
  simp only
  rw [hf2]

theorem sameSet_iff (g : Graph) (hr : g.UFReached) (x y rx ry : Nat)
    (hx : x < g.adjList.length) (hy : y < g.adjList.length) (hRx : g.RootOf x rx)
    (hRy : g.RootOf y ry) : g.sameSet x y = some true ↔ rx = ry := by
  obtain ⟨rx1, ry1, h1, h2, h3⟩ := sameSet_spec g hr x y hx hy
  rw [h3, rootOf_unique g x _ _ hRx h1, rootOf_unique g y _ _ hRy h2]
  simp

/-- The classes after a union that links the representative `ru` below `rv`. -/
theorem rootOf_after_link (g g' : Graph) (ru rv : Nat) (hne : ru ≠ rv)
    (hchar : ∀ x r', g'.RootOf x r' ↔ (g.RootOf x r' ∧ r' ≠ ru) ∨ (g.RootOf x ru ∧ r' = rv))
    (x y rx ry : Nat) (hx : g.RootOf x rx) (hy : g.RootOf y ry) :
    (∃ r, g'.RootOf x r ∧ g'.RootOf y r) ↔
      rx = ry ∨ (rx = ru ∧ ry = rv) ∨ (rx = rv ∧ ry = ru) := by
  constructor
  · rintro ⟨r, hxr, hyr⟩
    rw [hchar] at hxr hyr
    rcases hxr with ⟨h1, h2⟩ | ⟨h1, h2⟩ <;> rcases hyr with ⟨h3, h4⟩ | ⟨h3, h4⟩
    · exact Or.inl ((rootOf_unique g x _ _ hx h1).trans (rootOf_unique g y _ _ h3 hy))
    · exact Or.inr (Or.inr ⟨(rootOf_unique g x _ _ hx h1).trans h4,
        rootOf_unique g y _ _ hy h3⟩)
    · exact Or.inr (Or.inl ⟨rootOf_unique g x _ _ hx h1,
        (rootOf_unique g y _ _ hy h3).trans h2⟩)
    · exact Or.inl ((rootOf_unique g x _ _ hx h1).trans (rootOf_unique g y _ _ h3 hy))
  · rintro (h | ⟨h1, h2⟩ | ⟨h1, h2⟩)
    · subst h
      by_cases hru : rx = ru
      · subst hru
        exact ⟨rv, (hchar x rv).2 (Or.inr ⟨hx, rfl⟩), (hchar y rv).2 (Or.inr ⟨hy, rfl⟩)⟩
      · exact ⟨rx, (hchar x rx).2 (Or.inl ⟨hx, hru⟩), (hchar y rx).2 (Or.inl ⟨hy, hru⟩)⟩
    · subst h1 h2
      exact ⟨ry, (hchar x ry).2 (Or.inr ⟨hx, rfl⟩),
        (hchar y ry).2 (Or.inl ⟨hy, fun h => hne h.symm⟩)⟩
    · subst h1 h2
      exact ⟨rx, (hchar x rx).2 (Or.inl ⟨hx, fun h => hne h.symm⟩),
        (hchar y rx).2 (Or.inr ⟨hy, rfl⟩)⟩

/-- One `unionSets` call on a reached state: it returns, it returns true exactly when the two
representatives differ, and it merges exactly the two classes. -/
theorem unionSets_partition (g : Graph) (hr : g.UFReached) (u v : Nat)
    (hu : u < g.adjList.length) (hv : v < g.adjList.length) :
    ∃ b g', g.unionSets u v = some (b, g') ∧ g'.UFReached ∧
      g'.adjList.length = g.adjList.length ∧
      (b = true ↔ g.sameSet u v = some false) ∧
      ∀ x y, x < g.adjList.length → y < g.adjList.length →
        (g'.sameSet x y = some true ↔
          g.sameSet x y = some true ∨
          (g.sameSet x u = some true ∧ g.sameSet y v = some true) ∨
          (g.sameSet x v = some true ∧ g.sameSet y u = some true)) := by
  obtain ⟨t, rank, hinv, ht⟩ := ufReached_facts g hr
  obtain ⟨ru, rv, b, g', hun, hRu, hRv, _, hcase⟩ :=
    unionSets_spec g _ t rank hinv ht u v hu hv
  have hr' : g'.UFReached := UFReached.unionSets g g' u v b hr hu hv hun
  have hlen : g'.adjList.length = g.adjList.length := by
    rcases hcase with ⟨_, _, h, _⟩ | ⟨_, _, ⟨_, h⟩, _⟩ <;> exact h.1
  have huv : g.sameSet u v = some (decide (ru = rv)) := by
    obtain ⟨a, c, h1, h2, h3⟩ := sameSet_spec g hr u v hu hv
    rw [h3, rootOf_unique g u _ _ hRu h1, rootOf_unique g v _ _ hRv h2]
  refine ⟨b, g', hun, hr', hlen, ?_, ?_⟩
  · rw [huv]
    rcases hcase with ⟨h1, h2, _⟩ | ⟨h1, h2, _⟩
    · subst h2
      simp [h1]
    · subst h2
      simp [h1]
  · intro x y hx hy
    obtain ⟨rx, hRx⟩ := rootOf_exists g _ t rank hinv x
    obtain ⟨ry, hRy⟩ := rootOf_exists g _ t rank hinv y
    rw [sameSet_iff g hr x y rx ry hx hy hRx hRy, sameSet_iff g hr x u rx ru hx hu hRx hRu,
      sameSet_iff g hr y v ry rv hy hv hRy hRv, sameSet_iff g hr x v rx rv hx hv hRx hRv,
      sameSet_iff g hr y u ry ru hy hu hRy hRu]
    obtain ⟨t', rank', hinv', _⟩ := ufReached_facts g' hr'
    obtain ⟨rx', hRx'⟩ := rootOf_exists g' _ t' rank' hinv' x
    obtain ⟨ry', hRy'⟩ := rootOf_exists g' _ t' rank' hinv' y
    rw [sameSet_iff g' hr' x y rx' ry' (by omega) (by omega) hRx' hRy']
    have hex : rx' = ry' ↔ ∃ r, g'.RootOf x r ∧ g'.RootOf y r :=
      ⟨fun h => ⟨rx', hRx', h ▸ hRy'⟩,
        fun ⟨r, h1, h2⟩ => (rootOf_unique g' x _ _ hRx' h1).trans
          (rootOf_unique g' y _ _ h2 hRy')⟩
    rw [hex]
    rcases hcase with ⟨h1, _, _, hroot⟩ | ⟨h1, _, _, hroot⟩
    · constructor
      · rintro ⟨r, h2, h3⟩
        rw [hroot] at h2 h3
        exact Or.inl ((rootOf_unique g x _ _ hRx h2).trans (rootOf_unique g y _ _ h3 hRy))
      · intro h
        have hxy : rx = ry := by
          rcases h with h | ⟨h2, h3⟩ | ⟨h2, h3⟩
          · exact h
          · rw [h2, h3, h1]
          · rw [h2, h3, h1]
        exact ⟨rx, (hroot x rx).2 hRx, (hroot y rx).2 (hxy ▸ hRy)⟩
    · exact rootOf_after_link g g' ru rv h1 hroot x y rx ry hRx hRy

theorem sameSet_self (g : Graph) (hr : g.UFReached) (x : Nat) (hx : x < g.adjList.length) :
    g.sameSet x x = some true := by
  obtain ⟨rx, ry, h1, h2, h3⟩ := sameSet_spec g hr x x hx hx
  rw [h3, rootOf_unique g x _ _ h1 h2]
  simp

/-- C16: starting from a graph whose father pointers are all null and after any sequence of
`find` and `unionSets` calls on its vertices, a call `unionSets(u, v)` returns; it returns
true exactly when `find(u) == find(v)` was false before the call; afterwards `x` and `y` have
the same representative iff they had the same representative before, or one was in `u`'s set
and the other in `v`'s set; a repeated `unionSets(u, v)` returns false; and after a further
`unionSets(v, c)` the vertices `u` and `c` have the same representative. -/
theorem unionSets_correct (g : Graph) (hr : g.UFReached) (u v : Nat)
    (hu : u < g.adjList.length) (hv : v < g.adjList.length) :
    ∃ b g', g.unionSets u v = some (b, g') ∧
      g.sameSet u v = some (!b) ∧
      (∀ x y, x < g.adjList.length → y < g.adjList.length →
        (g'.sameSet x y = some true ↔
          g.sameSet x y = some true ∨
          (g.sameSet x u = some true ∧ g.sameSet y v = some true) ∨
          (g.sameSet x v = some true ∧ g.sameSet y u = some true))) ∧
      (∃ g2, g'.unionSets u v = some (false, g2)) ∧
      ∀ c, c < g.adjList.length →
        ∃ b2 g2, g'.unionSets v c = some (b2, g2) ∧ g2.sameSet u c = some true := by
  obtain ⟨b, g', hun, hr', hlen, hb, hpart⟩ := unionSets_partition g hr u v hu hv
  have huv' : g'.sameSet u v = some true :=
    (hpart u v hu hv).2 (Or.inr (Or.inl ⟨sameSet_self g hr u hu, sameSet_self g hr v hv⟩))
  refine ⟨b, g', hun, ?_, hpart, ?_, ?_⟩
  · obtain ⟨ru, rv, _, _, h3⟩ := sameSet_spec g hr u v hu hv
    rw [h3] at hb ⊢
    cases b
    · by_cases h : ru = rv
      · simp [h]
      · exact absurd (hb.2 (by simp [h])) (by simp)
    · have := hb.1 rfl
      rw [this]
      rfl
  · obtain ⟨b2, g2, hun2, _, _, hb2, _⟩ :=
      unionSets_partition g' hr' u v (by omega) (by omega)
    cases b2
    · exact ⟨g2, hun2⟩
    · have := hb2.1 rfl
      rw [huv'] at this
      exact absurd this (by simp)
  · intro c hc
    obtain ⟨b2, g2, hun2, _, _, _, hpart2⟩ :=
      unionSets_partition g' hr' v c (by omega) (by omega)
    refine ⟨b2, g2, hun2, ?_⟩
    exact (hpart2 u c (by omega) (by omega)).2
      (Or.inr (Or.inl ⟨huv', sameSet_self g' hr' c (by omega)⟩))

set_option maxRecDepth 100000 in
/-- Witness for C16: the test's `Graph g(3)`, with `unionSets(a, b)`; the call returns true and
`find(a) == find(b)` was false. -/
theorem unionSets_correct_witness :
    (∃ b g', (Graph.mk [Vertex.new 0, Vertex.new 1, Vertex.new 2]).unionSets 0 1 =
        some (b, g') ∧
      (Graph.mk [Vertex.new 0, Vertex.new 1, Vertex.new 2]).sameSet 0 1 = some (!b) ∧
      (∀ x y, x < 3 → y < 3 →
        (g'.sameSet x y = some true ↔
          (Graph.mk [Vertex.new 0, Vertex.new 1, Vertex.new 2]).sameSet x y = some true ∨
          ((Graph.mk [Vertex.new 0, Vertex.new 1, Vertex.new 2]).sameSet x 0 = some true ∧
            (Graph.mk [Vertex.new 0, Vertex.new 1, Vertex.new 2]).sameSet y 1 = some true) ∨
          ((Graph.mk [Vertex.new 0, Vertex.new 1, Vertex.new 2]).sameSet x 1 = some true ∧
            (Graph.mk [Vertex.new 0, Vertex.new 1, Vertex.new 2]).sameSet y 0 = some true))) ∧
      (∃ g2, g'.unionSets 0 1 = some (false, g2)) ∧
      ∀ c, c < 3 → ∃ b2 g2, g'.unionSets 1 c = some (b2, g2) ∧ g2.sameSet 0 c = some true) ∧
    ((Graph.mk [Vertex.new 0, Vertex.new 1, Vertex.new 2]).unionSets 0 1).map Prod.fst =
      some true :=
  ⟨unionSets_correct (Graph.mk [Vertex.new 0, Vertex.new 1, Vertex.new 2])
    (UFReached.init _ (fun v =>
      match v with
      | 0 => rfl
      | 1 => rfl
      | 2 => rfl
      | _ + 3 => rfl)) 0 1 (by decide) (by decide), by decide⟩

end Graph
end graph

namespace graph
open Graph

/-! ## Breadth-first search: the scan of one adjacency list -/

theorem mem_records (g : Graph) (e : Edge) : e ∈ g.records ↔ ∃ a, e ∈ g.edgesOf a := by
  unfold Graph.records
  rw [List.mem_flatMap]
  constructor
  · rintro ⟨a, _, h⟩
    exact ⟨a, h⟩
  · rintro ⟨a, h⟩
    refine ⟨a, List.mem_range.2 ?_, h⟩
    by_contra hlt
    rw [edgesOf_of_le g a (by omega)] at h
    exact absurd h (List.not_mem_nil _)

theorem records_setEdges_cons (g : Graph) (u : Nat) (e : Edge) (hu : u < g.adjList.length) :
    (g.setEdges u (e :: g.edgesOf u)).records.Perm (e :: g.records) := by
  unfold Graph.records
  rw [length_setEdges]
  exact flatMap_perm_of_update g.edgesOf (g.setEdges u (e :: g.edgesOf u)).edgesOf u e
    (edgesOf_setEdges_self g u _ hu) (fun x hx => edgesOf_setEdges_ne g u x _ hx)
    (List.range g.adjList.length) (List.nodup_range _) (List.mem_range.2 hu)

theorem isPath_mono (g g' : Graph) (h : ∀ a e, e ∈ g.edgesOf a → e ∈ g'.edgesOf a) :
    ∀ (p : List Edge) (a b : Nat), g.IsPath a b p → g'.IsPath a b p := by
  intro p
  induction p with
  | nil => intro a b hp; exact hp
  | cons e p ih =>
    intro a b hp
    exact ⟨h a e hp.1, ih e.dest b hp.2⟩

theorem isPath_closed (g : Graph) (P : Nat → Prop)
    (hclosed : ∀ x, P x → ∀ e ∈ g.edgesOf x, P e.dest) :
    ∀ (p : List Edge) (a b : Nat), P a → g.IsPath a b p → P b := by
  intro p
  induction p with
  | nil =>
    intro a b ha hp
    have : a = b := hp
    exact this ▸ ha
  | cons e p ih =>
    intro a b ha hp
    exact ih e.dest b (hclosed a ha e hp.1) hp.2

theorem getD_true_lt (l : List Bool) (x : Nat) (h : l.getD x false = true) : x < l.length := by
  by_contra hlt
  rw [List.getD_eq_getElem?_getD, List.getElem?_eq_none (by omega)] at h
  exact absurd h (by simp)

theorem addDirectedEdge_nat (g : Graph) (u v : Nat) (w : Int) (hu : u < g.adjList.length)
    (hv : v < g.adjList.length) :
    g.addDirectedEdge (u : Int) (v : Int) w =
      (.ok (), g.setEdges u (⟨w, u, v⟩ :: g.edgesOf u)) := by
  have h := addDirectedEdge_ok g (u : Int) (v : Int) w (by omega)
    (by unfold Graph.numVertices; omega) (by omega) (by unfold Graph.numVertices; omega)
  simpa using h

theorem binv_below (g : Graph) (s u : Nat) (st : BfsState) (pending : List Edge)
    (V : Finset Nat) (h : BInv g s st u pending V) (x : Nat) (hx : x ∈ V) :
    x < g.adjList.length := by
  rw [← h.vlen]
  exact getD_true_lt _ _ ((h.vset x).1 hx)

/-- The scan meets a record whose destination is already flagged. -/
theorem binv_skip (g : Graph) (s u : Nat) (e : Edge) (es : List Edge) (st : BfsState)
    (V : Finset Nat) (h : BInv g s st u (e :: es) V)
    (hv : st.visited.getD e.dest false = true) : BInv g s st u es V :=
  { h with
    pend := fun e1 he1 => h.pend e1 (List.mem_cons_of_mem e he1)
    closed := by
      intro x hx hxq e1 he1 hp
      by_cases hc : x = u ∧ e1 = e
      · rw [hc.2]
        exact (h.vset e.dest).2 hv
      · refine h.closed x hx hxq e1 he1 fun hxu hmem => ?_
        rcases List.mem_cons.1 hmem with h1 | h1
        · exact hc ⟨hxu, h1⟩
        · exact hp hxu h1 }

/-- The scan meets a record whose destination is not flagged yet: the flag is set, the vertex
is enqueued and the record is added to the tree. -/
theorem binv_visit (g : Graph) (hwf : g.WellFormed) (s u : Nat) (e : Edge) (es : List Edge)
    (st : BfsState) (V : Finset Nat) (h : BInv g s st u (e :: es) V)
    (hv : st.visited.getD e.dest false = false) :
    V.card + 1 ≤ g.adjList.length ∧ e.dest ∉ V ∧
    BInv g s
      ⟨{ st.queue with items := st.queue.items ++ [e.dest], size := st.queue.size + 1 },
        st.visited.set e.dest true,
        st.result.setEdges u (⟨e.weight, u, e.dest⟩ :: st.result.edgesOf u)⟩
      u es (insert e.dest V) := by
  have hev : e ∈ g.edgesOf u := h.pend e (List.mem_cons_self e es)
  obtain ⟨hvn, hun⟩ := mem_edgesOf_of_wellFormed g hwf u e hev
  have hvV : e.dest ∉ V := by
    rw [h.vset, hv]
    simp
  have hsub : insert e.dest V ⊆ Finset.range g.adjList.length := by
    intro x hx
    rcases Finset.mem_insert.1 hx with rfl | hx
    · exact Finset.mem_range.2 hvn
    · exact Finset.mem_range.2 (binv_below g s u st _ V h x hx)
  have hcard : V.card + 1 ≤ g.adjList.length := by
    have := Finset.card_le_card hsub
    rw [Finset.card_insert_of_not_mem hvV, Finset.card_range] at this
    exact this
  have hur : u < st.result.adjList.length := by rw [h.rlen]; exact hun
  have hmono : ∀ a e1, e1 ∈ st.result.edgesOf a →
      e1 ∈ (st.result.setEdges u (⟨e.weight, u, e.dest⟩ :: st.result.edgesOf u)).edgesOf a := by
    intro a e1 he1
    by_cases hau : a = u
    · subst hau
      rw [edgesOf_setEdges_self _ _ _ hur]
      exact List.mem_cons_of_mem _ he1
    · rw [edgesOf_setEdges_ne _ _ _ _ hau]
      exact he1
  have hnew : (⟨e.weight, u, e.dest⟩ : Edge) ∈
      (st.result.setEdges u (⟨e.weight, u, e.dest⟩ :: st.result.edgesOf u)).edgesOf u := by
    rw [edgesOf_setEdges_self _ _ _ hur]
    exact List.mem_cons_self _ _
  have hperm := records_setEdges_cons st.result u ⟨e.weight, u, e.dest⟩ hur
  have hnone : ∀ e1 ∈ st.result.records, e1.dest ≠ e.dest := by
    intro e1 he1 hd
    obtain ⟨a, ha⟩ := (mem_records _ _).1 he1
    exact hvV (hd ▸ (h.recs a e1 ha).2.2.1)
  refine ⟨hcard, hvV, ?_⟩
  refine
    { rlen := by rw [← h.rlen]; exact length_setEdges _ _ _
      vlen := by rw [← h.vlen]; exact List.length_set _ _ _
      qcap := h.qcap
      qsize := by
        show st.queue.size + 1 = ((st.queue.items ++ [e.dest]).length : Int)
        rw [h.qsize]
        simp
      qle := by
        show (st.queue.items ++ [e.dest]).length ≤ (insert e.dest V).card
        rw [Finset.card_insert_of_not_mem hvV, List.length_append]
        have := h.qle
        simp only [List.length_singleton]
        omega
      vset := by
        intro x
        show x ∈ insert e.dest V ↔ (st.visited.set e.dest true).getD x false = true
        rw [getD_set_true _ _ _ (by rw [h.vlen]; exact hvn), Finset.mem_insert]
        by_cases hx : x = e.dest
        · simp [hx]
        · simp only [hx, false_or, if_false]
          exact h.vset x
      qvis := by
        intro x hx
        rcases List.mem_append.1 hx with hx | hx
        · exact Finset.mem_insert_of_mem (h.qvis x hx)
        · rw [List.mem_singleton.1 hx]
          exact Finset.mem_insert_self _ _
      src := Finset.mem_insert_of_mem h.src
      cur := Finset.mem_insert_of_mem h.cur
      pend := fun e1 he1 => h.pend e1 (List.mem_cons_of_mem e he1)
      recs := ?_
      uniq := ?_
      cnt := by
        show (st.result.setEdges u (⟨e.weight, u, e.dest⟩ :: st.result.edgesOf u)).records.length
          + 1 = (insert e.dest V).card
        rw [hperm.length_eq, Finset.card_insert_of_not_mem hvV, List.length_cons, h.cnt]
      tree := ?_
      reach := ?_
      closed := ?_ }
  · intro a e1 he1
    have hold : ∀ e2 ∈ st.result.edgesOf a, e2.src = a ∧ a ∈ insert e.dest V ∧
        e2.dest ∈ insert e.dest V ∧ e2.dest ≠ s ∧
        ∃ e' ∈ g.edgesOf a, e'.dest = e2.dest ∧ e'.weight = e2.weight := by
      intro e2 he2
      obtain ⟨h1, h2, h3, h4, h5⟩ := h.recs a e2 he2
      exact ⟨h1, Finset.mem_insert_of_mem h2, Finset.mem_insert_of_mem h3, h4, h5⟩
    change e1 ∈ (st.result.setEdges u (⟨e.weight, u, e.dest⟩ :: st.result.edgesOf u)).edgesOf a
      at he1
    by_cases hau : a = u
    · subst hau
      rw [edgesOf_setEdges_self _ _ _ hur] at he1
      rcases List.mem_cons.1 he1 with rfl | he1
      · refine ⟨rfl, Finset.mem_insert_of_mem h.cur, Finset.mem_insert_self _ _, ?_,
          e, hev, rfl, rfl⟩
        intro hs
        exact hvV (hs ▸ h.src)
      · exact hold e1 he1
    · rw [edgesOf_setEdges_ne _ _ _ _ hau] at he1
      exact hold e1 he1
  · intro x hx hxs
    show ∃ e0, (st.result.setEdges u (⟨e.weight, u, e.dest⟩ :: st.result.edgesOf u)).records.filter
      (fun e1 => decide (e1.dest = x)) = [e0]
    have hp := hperm.filter fun e1 => decide (e1.dest = x)
    rcases Finset.mem_insert.1 hx with rfl | hx
    · refine ⟨⟨e.weight, u, e.dest⟩, List.perm_singleton.1 ?_⟩
      have hnil : st.result.records.filter (fun e1 => decide (e1.dest = e.dest)) = [] := by
        rw [List.filter_eq_nil_iff]
        intro e1 he1
        simpa using hnone e1 he1
      rw [List.filter_cons_of_pos (by simp), hnil] at hp
      exact hp
    · obtain ⟨e0, he0⟩ := h.uniq x hx hxs
      refine ⟨e0, List.perm_singleton.1 ?_⟩
      have hne : e.dest ≠ x := fun hd => hvV (hd ▸ hx)
      rw [List.filter_cons_of_neg (by simpa using hne), he0] at hp
      exact hp
  · intro x hx
    show ∃ q, (st.result.setEdges u (⟨e.weight, u, e.dest⟩ :: st.result.edgesOf u)).IsPath s x q
    rcases Finset.mem_insert.1 hx with rfl | hx
    · obtain ⟨q, hq⟩ := h.tree u h.cur
      exact ⟨q ++ [⟨e.weight, u, e.dest⟩],
        (isPath_snoc _ _ _ _ _).2 ⟨u, isPath_mono _ _ hmono q s u hq, hnew, rfl⟩⟩
    · obtain ⟨q, hq⟩ := h.tree x hx
      exact ⟨q, isPath_mono _ _ hmono q s x hq⟩
  · intro x hx
    rcases Finset.mem_insert.1 hx with rfl | hx
    · obtain ⟨p, hp⟩ := h.reach u h.cur
      exact ⟨p ++ [e], (isPath_snoc _ _ _ _ _).2 ⟨u, hp, hev, rfl⟩⟩
    · exact h.reach x hx
  · intro x hx hxq e1 he1 hp
    have hxq1 : x ∉ st.queue.items ++ [e.dest] := hxq
    rw [List.mem_append, not_or, List.mem_singleton] at hxq1
    have hxV : x ∈ V := by
      rcases Finset.mem_insert.1 hx with h1 | h1
      · exact absurd h1 hxq1.2
      · exact h1
    by_cases hc : x = u ∧ e1 = e
    · rw [hc.2]
      exact Finset.mem_insert_self _ _
    · refine Finset.mem_insert_of_mem (h.closed x hxV hxq1.1 e1 he1 fun hxu hmem => ?_)
      rcases List.mem_cons.1 hmem with h1 | h1
      · exact hc ⟨hxu, h1⟩
      · exact hp hxu h1

end graph

namespace graph
open Graph

/-! ## Breadth-first search: the loops -/

theorem bfsScan_inv (g : Graph) (hwf : g.WellFormed) (s u : Nat) :
    ∀ (es : List Edge) (st : BfsState) (V : Finset Nat), BInv g s st u es V →
      ∃ st' V', bfsScan u es st = (.ok (), st') ∧ BInv g s st' u [] V' ∧
        st'.queue.items.length + (g.adjList.length - V'.card) =
          st.queue.items.length + (g.adjList.length - V.card) := by
  intro es
  induction es with
  | nil => intro st V h; exact ⟨st, V, rfl, h, rfl⟩
  | cons e es ih =>
    intro st V h
    cases hv : st.visited.getD e.dest false with
    | true =>
      obtain ⟨st', V', h1, h2, h3⟩ := ih st V (binv_skip g s u e es st V h hv)
      refine ⟨st', V', ?_, h2, h3⟩
      rw [bfsScan]
      simp only [hv, Bool.not_true]
      exact h1
    | false =>
      obtain ⟨hcard, hvV, hinv⟩ := binv_visit g hwf s u e es st V h hv
      obtain ⟨st', V', h1, h2, h3⟩ := ih _ _ hinv
      have hev : e ∈ g.edgesOf u := h.pend e (List.mem_cons_self e es)
      obtain ⟨hvn, hun⟩ := mem_edgesOf_of_wellFormed g hwf u e hev
      refine ⟨st', V', ?_, h2, ?_⟩
      · have hq : st.queue.enqueue e.dest =
            (.ok (), { st.queue with items := st.queue.items ++ [e.dest],
                                     size := st.queue.size + 1 }) := by
          unfold QForAlg.enqueue QForAlg.is_full
          rw [if_neg]
          rw [decide_eq_true_iff, h.qsize, h.qcap]
          have := h.qle
          omega
        have ha := addDirectedEdge_nat st.result u e.dest e.weight
          (by rw [h.rlen]; exact hun) (by rw [h.rlen]; exact hvn)
        rw [bfsScan]
        simp only [hv, Bool.not_false, if_true, hq, ha]
        exact h1
      · rw [h3]
        show (st.queue.items ++ [e.dest]).length + (g.adjList.length - (insert e.dest V).card) =
          st.queue.items.length + (g.adjList.length - V.card)
        rw [Finset.card_insert_of_not_mem hvV, List.length_append, List.length_singleton]
        omega

theorem bfsLoop_inv (g : Graph) (hwf : g.WellFormed) (s : Nat) :
    ∀ (fuel : Nat) (st : BfsState) (u : Nat) (V : Finset Nat), BInv g s st u [] V →
      st.queue.items.length + (g.adjList.length - V.card) < fuel →
      ∃ st' u' V', bfsLoop g fuel st = some (.ok (), st') ∧ BInv g s st' u' [] V' ∧
        st'.queue.items = [] := by
  intro fuel
  induction fuel with
  | zero => intro st u V _ hf; omega
  | succ fuel ih =>
    intro st u V h hf
    cases hitems : st.queue.items with
    | nil =>
      refine ⟨st, u, V, ?_, h, hitems⟩
      rw [bfsLoop]
      simp [QForAlg.is_empty, hitems]
    | cons u1 rest =>
      have hdq : st.queue.dequeue =
          (.ok u1, { st.queue with items := rest, size := st.queue.size - 1 }) := by
        unfold QForAlg.dequeue
        rw [hitems]
      have hu1 : u1 ∈ V := h.qvis u1 (by rw [hitems]; exact List.mem_cons_self _ _)
      have h1 : BInv g s
          { st with queue := { st.queue with items := rest, size := st.queue.size - 1 } }
          u1 (g.edgesOf u1) V :=
        { rlen := h.rlen
          vlen := h.vlen
          qcap := h.qcap
          qsize := by
            show st.queue.size - 1 = (rest.length : Int)
            rw [h.qsize, hitems]
            simp
          qle := by
            show rest.length ≤ V.card
            have := h.qle
            rw [hitems] at this
            simp only [List.length_cons] at this
            omega
          vset := h.vset
          qvis := fun x hx => h.qvis x (by rw [hitems]; exact List.mem_cons_of_mem _ hx)
          src := h.src
          cur := hu1
          pend := fun _ he => he
          recs := h.recs
          uniq := h.uniq
          cnt := h.cnt
          tree := h.tree
          reach := h.reach
          closed := by
            intro x hx hxq e he hp
            have hxq1 : x ∉ rest := hxq
            by_cases hxu : x = u1
            · exact absurd (hxu ▸ he) (hp hxu)
            · refine h.closed x hx ?_ e he (fun _ hm => absurd hm (List.not_mem_nil _))
              rw [hitems]
              intro hm
              rcases List.mem_cons.1 hm with h2 | h2
              · exact hxu h2
              · exact hxq1 h2 }
      obtain ⟨st2, V2, hs1, hs2, hs3⟩ := bfsScan_inv g hwf s u1 _ _ V h1
      have hm : st2.queue.items.length + (g.adjList.length - V2.card) < fuel := by
        rw [hs3]
        show rest.length + (g.adjList.length - V.card) < fuel
        rw [hitems] at hf
        simp only [List.length_cons] at hf
        omega
      obtain ⟨st3, u3, V3, hl1, hl2, hl3⟩ := ih st2 u1 V2 hs2 hm
      refine ⟨st3, u3, V3, ?_, hl2, hl3⟩
      rw [bfsLoop]
      simp only [QForAlg.is_empty, hitems, List.isEmpty_cons, hdq, hs1]
      simpa using hl1

/-- The state in which `bfs` enters its main loop. -/
theorem binv_init (g : Graph) (s : Nat) (hs : s < g.adjList.length) :
    BInv g s
      ⟨⟨[s], 0 + 1, (g.adjList.length : Int)⟩, (List.replicate g.adjList.length false).set s true,
        ⟨(List.range g.adjList.length).map fun (i : Nat) => Vertex.new (i : Int)⟩⟩
      s [] {s} := by
  have hnew := new_ofNat g.adjList.length
  refine
    { rlen := by simp
      vlen := by simp
      qcap := rfl
      qsize := by simp
      qle := by simp
      vset := by
        intro x
        show x ∈ ({s} : Finset Nat) ↔
          ((List.replicate g.adjList.length false).set s true).getD x false = true
        rw [getD_set_true _ _ _ (by simpa using hs), Finset.mem_singleton]
        by_cases hx : x = s
        · simp [hx]
        · simp [hx, getD_replicate_false]
      qvis := by
        intro x hx
        have hx1 : x ∈ [s] := hx
        rw [List.mem_singleton] at hx1
        exact Finset.mem_singleton.2 hx1
      src := Finset.mem_singleton_self s
      cur := Finset.mem_singleton_self s
      pend := fun e he => absurd he (List.not_mem_nil _)
      recs := by
        intro a e he
        change e ∈ (Graph.mk _).edgesOf a at he
        rw [edgesOf_new _ _ hnew a] at he
        exact absurd he (List.not_mem_nil _)
      uniq := fun v hv hvs => absurd (Finset.mem_singleton.1 hv) hvs
      cnt := by
        show (Graph.mk _).records.length + 1 = ({s} : Finset Nat).card
        rw [records_new]
        rfl
      tree := by
        intro v hv
        rw [Finset.mem_singleton.1 hv]
        exact ⟨[], rfl⟩
      reach := by
        intro v hv
        rw [Finset.mem_singleton.1 hv]
        exact ⟨[], rfl⟩
      closed := by
        intro x hx hxq
        have hxq1 : x ∉ [s] := hxq
        exact absurd (List.mem_singleton.2 (Finset.mem_singleton.1 hx)) hxq1 }

/-- The run of `bfs` from a valid source: it returns, in a state that satisfies the
invariant with an empty queue. -/
theorem bfs_final (g : Graph) (hwf : g.WellFormed) (source : Int) (hs0 : 0 ≤ source)
    (hs : source < g.numVertices) :
    ∃ st u V, bfs g source = some (.ok st.result) ∧ BInv g source.toNat st u [] V ∧
      st.queue.items = [] := by
  have hsn : source.toNat < g.adjList.length := toNat_lt_length g source hs0 hs
  have hinit := binv_init g source.toNat hsn
  obtain ⟨st, u, V, hl, hinv, hq⟩ := bfsLoop_inv g hwf source.toNat (g.adjList.length + 1)
    _ _ _ hinit (by
      show [source.toNat].length + (g.adjList.length - ({source.toNat} : Finset Nat).card)
        < g.adjList.length + 1
      rw [Finset.card_singleton, List.length_singleton]
      omega)
  refine ⟨st, u, V, ?_, hinv, hq⟩
  have henq : (QForAlg.new (g.adjList.length : Int)).enqueue source.toNat =
      (.ok (), ⟨[source.toNat], 0 + 1, (g.adjList.length : Int)⟩) := by
    unfold QForAlg.enqueue QForAlg.is_full QForAlg.new
    rw [if_neg]
    · rfl
    · rw [decide_eq_true_iff]
      show ¬ (0 : Int) = (g.adjList.length : Int)
      omega
  unfold bfs
  simp only
  rw [if_neg (by omega), new_ofNat]
  simp only [henq, hl]

end graph

namespace graph
open Graph

/-! ## Breadth-first search: the tree returned -/

/-- At the end of `bfs` the flagged vertices are exactly those reachable from the source. -/
theorem binv_final_reach (g : Graph) (s u : Nat) (st : BfsState) (V : Finset Nat)
    (h : BInv g s st u [] V) (hq : st.queue.items = []) (v : Nat) :
    v ∈ V ↔ ∃ p, g.IsPath s v p := by
  constructor
  · exact h.reach v
  · rintro ⟨p, hp⟩
    refine isPath_closed g (fun x => x ∈ V) ?_ p s v h.src hp
    intro x hx e he
    exact h.closed x hx (by rw [hq]; exact List.not_mem_nil _) e he
      (fun _ hm => absurd hm (List.not_mem_nil _))

theorem pathTestGraph_built : pathTestGraph.AddEdgeBuilt := by
  have h : ((((Graph.mk [Vertex.new 0, Vertex.new 1, Vertex.new 2, Vertex.new 3,
      Vertex.new 4]).addEdge 0 1 1).2.addEdge 1 2 1).2.addEdge 2 3 1).2.addEdge 3 4 1 =
      (.ok (), pathTestGraph) := by
    decide
  have hb := Graph.AddEdgeBuilt.addEdge _ 3 4 1 (Graph.AddEdgeBuilt.addEdge _ 2 3 1
    (Graph.AddEdgeBuilt.addEdge _ 1 2 1 (Graph.AddEdgeBuilt.addEdge _ 0 1 1
      (Graph.AddEdgeBuilt.new 5 (Graph.mk [Vertex.new 0, Vertex.new 1, Vertex.new 2,
        Vertex.new 3, Vertex.new 4]) (by decide)))))
  rw [h] at hb
  exact hb

theorem pathTestGraph_connected : pathTestGraph.Connected := by
  apply connected_of_reach pathTestGraph (addEdgeBuilt_facts _ pathTestGraph_built).2.2 0
    (by decide)
  intro v hv
  have hv' : v < 5 := hv
  interval_cases v
  · exact ⟨[], rfl⟩
  · exact ⟨[⟨1, 0, 1⟩], by simp [Graph.IsPath, Graph.edgesOf, pathTestGraph]⟩
  · exact ⟨[⟨1, 0, 1⟩, ⟨1, 1, 2⟩], by simp [Graph.IsPath, Graph.edgesOf, pathTestGraph]⟩
  · exact ⟨[⟨1, 0, 1⟩, ⟨1, 1, 2⟩, ⟨1, 2, 3⟩],
      by simp [Graph.IsPath, Graph.edgesOf, pathTestGraph]⟩
  · exact ⟨[⟨1, 0, 1⟩, ⟨1, 1, 2⟩, ⟨1, 2, 3⟩, ⟨1, 3, 4⟩],
      by simp [Graph.IsPath, Graph.edgesOf, pathTestGraph]⟩

/-- C18: for every graph `g` whose records point to vertices of the graph and every valid
source, `bfs(g, source)` returns a graph `r` on the same vertices in which no record leads to
the source; every other vertex `v` reachable from the source in `g` is the destination of
exactly one record, which lies in the list of a vertex `p` reachable from the source and has
the weight of a record `p -> v` of `g`; a vertex that is not reachable has no outgoing and no
incoming record; every reachable vertex is reached from the source by a path of `r`; and the
number of records is the number of reachable vertices minus one. -/
theorem bfs_tree (g : Graph) (source : Int) (hwf : g.WellFormed) (hs0 : 0 ≤ source)
    (hs : source < g.numVertices) :
    ∃ r, bfs g source = some (.ok r) ∧ r.adjList.length = g.adjList.length ∧
      (∀ e ∈ r.records, e.dest ≠ source.toNat) ∧
      (∀ v, v ≠ source.toNat → (∃ p, g.IsPath source.toNat v p) →
        ∃ e, r.records.filter (fun x => decide (x.dest = v)) = [e] ∧ e ∈ r.edgesOf e.src ∧
          (∃ p, g.IsPath source.toNat e.src p) ∧
          ∃ e' ∈ g.edgesOf e.src, e'.dest = v ∧ e'.weight = e.weight) ∧
      (∀ v, (¬ ∃ p, g.IsPath source.toNat v p) →
        r.edgesOf v = [] ∧ ∀ e ∈ r.records, e.dest ≠ v) ∧
      (∀ v, (∃ p, g.IsPath source.toNat v p) → ∃ q, r.IsPath source.toNat v q) ∧
      ∃ R : Finset Nat, (∀ v, v ∈ R ↔ ∃ p, g.IsPath source.toNat v p) ∧
        r.records.length + 1 = R.card := by
  obtain ⟨st, u, V, hb, hinv, hq⟩ := bfs_final g hwf source hs0 hs
  have hreach := binv_final_reach g _ u st V hinv hq
  refine ⟨st.result, hb, hinv.rlen, ?_, ?_, ?_, ?_, V, hreach, hinv.cnt⟩
  · intro e he
    obtain ⟨a, ha⟩ := (mem_records _ _).1 he
    exact (hinv.recs a e ha).2.2.2.1
  · intro v hvs hv
    obtain ⟨e, he⟩ := hinv.uniq v ((hreach v).2 hv) hvs
    have hmem : e ∈ st.result.records.filter (fun x => decide (x.dest = v)) := by
      rw [he]
      exact List.mem_singleton_self e
    obtain ⟨hrec, hdest⟩ := List.mem_filter.1 hmem
    have hdest1 : e.dest = v := by simpa using hdest
    obtain ⟨a, ha⟩ := (mem_records _ _).1 hrec
    obtain ⟨h1, h2, _, _, e1, h5, h6, h7⟩ := hinv.recs a e ha
    subst h1
    exact ⟨e, he, ha, (hreach _).1 h2, e1, h5, h6.trans hdest1, h7⟩
  · intro v hv
    have hvV : v ∉ V := fun h => hv ((hreach v).1 h)
    constructor
    · cases hed : st.result.edgesOf v with
      | nil => rfl
      | cons e l =>
        exact absurd (hinv.recs v e (by rw [hed]; exact List.mem_cons_self e l)).2.1 hvV
    · intro e he hd
      obtain ⟨a, ha⟩ := (mem_records _ _).1 he
      exact hvV (hd ▸ (hinv.recs a e ha).2.2.1)
  · intro v hv
    exact hinv.tree v ((hreach v).2 hv)

set_option maxRecDepth 100000 in
/-- Witness for C18: `Graph g(3)` with the edge `1 - 2` only, from the source 1: the tree is
the record `1 -> 2` and the vertex 0 stays isolated. -/
theorem bfs_tree_witness :
    (∃ r, bfs (Graph.mk [Vertex.new 0, ⟨1, [⟨1, 1, 2⟩], none, 0⟩,
        ⟨2, [⟨1, 2, 1⟩], none, 0⟩]) 1 = some (.ok r) ∧ r.adjList.length = 3) ∧
    bfs (Graph.mk [Vertex.new 0, ⟨1, [⟨1, 1, 2⟩], none, 0⟩, ⟨2, [⟨1, 2, 1⟩], none, 0⟩]) 1 =
      some (.ok (Graph.mk [Vertex.new 0, ⟨1, [⟨1, 1, 2⟩], none, 0⟩, Vertex.new 2])) :=
  ⟨(bfs_tree (Graph.mk [Vertex.new 0, ⟨1, [⟨1, 1, 2⟩], none, 0⟩, ⟨2, [⟨1, 2, 1⟩], none, 0⟩]) 1
      (by unfold Graph.WellFormed; decide) (by decide) (by decide)).imp
      fun _ h => ⟨h.1, h.2.1⟩,
    by decide⟩

end graph

namespace graph
open Graph

/-! ## Depth-first search: one step -/

/-- A vertex that is an endpoint of no edge is connected to itself only. -/
theorem conn_isolated (F : List HeapEdge) (d : Nat) (h : ∀ e ∈ F, e.frm ≠ d ∧ e.toV ≠ d)
    (a : Nat) (hc : Conn F a d) : a = d := by
  rcases Relation.ReflTransGen.cases_tail hc with h1 | ⟨c, _, e, he, h2 | h2⟩
  · exact h1.symm
  · exact absurd h2.2 (h e he).2
  · exact absurd h2.1 (h e he).1

theorem undirectedEdges_addEdge_rev (g : Graph) (u v : Nat) (w : Int)
    (huv : u < v) (hv : v < g.adjList.length) (hw : 0 < w) :
    (g.addEdge (v : Int) (u : Int) w).1 = .ok () ∧
    (g.addEdge (v : Int) (u : Int) w).2.undirectedEdges.Perm (⟨u, v, w⟩ :: g.undirectedEdges) := by
  have hu0 : (0 : Int) ≤ (u : Int) := by omega
  have hv0 : (0 : Int) ≤ (v : Int) := by omega
  have hun : (u : Int) < g.numVertices := by unfold Graph.numVertices; omega
  have hvn : (v : Int) < g.numVertices := by unfold Graph.numVertices; omega
  refine ⟨by rw [Graph.addEdge_ok g _ _ w hv0 hvn hu0 hun hw], ?_⟩
  unfold Graph.undirectedEdges
  rw [Graph.length_addEdge]
  apply flatMap_perm_of_update _ _ u
  · rw [Graph.edgesOf_addEdge g _ _ w hv0 hvn hu0 hun hw]
    simp only [Int.toNat_ofNat]
    have hne : ¬ u = v := by omega
    simp [halfEdges, huv, hne]
  · intro x hx
    rw [Graph.edgesOf_addEdge g _ _ w hv0 hvn hu0 hun hw]
    simp only [Int.toNat_ofNat]
    rw [if_neg hx]
    by_cases hxv : x = v
    · subst hxv
      rw [if_pos rfl]
      have : ¬ x < u := by omega
      simp [halfEdges, this]
    · rw [if_neg hxv]
      rfl
  · exact List.nodup_range _
  · exact List.mem_range.2 (by omega)

theorem records_addEdge (g : Graph) (u v : Nat) (w : Int) (hu : u < g.adjList.length)
    (hv : v < g.adjList.length) (hw : 0 < w) :
    (g.addEdge (u : Int) (v : Int) w).2.records.length = g.records.length + 2 := by
  have hu0 : (0 : Int) ≤ (u : Int) := by omega
  have hv0 : (0 : Int) ≤ (v : Int) := by omega
  have hun : (u : Int) < g.numVertices := by unfold Graph.numVertices; omega
  have hvn : (v : Int) < g.numVertices := by unfold Graph.numVertices; omega
  rw [Graph.addEdge_ok g _ _ w hu0 hun hv0 hvn hw]
  simp only [Int.toNat_ofNat]
  rw [(records_setEdges_cons _ v _ (by rw [length_setEdges]; exact hv)).length_eq,
    List.length_cons, (records_setEdges_cons g u _ hu).length_eq, List.length_cons]

theorem positive_of_mem (g : Graph) (hpos : g.Positive) (u : Nat) (e : Edge)
    (he : e ∈ g.edgesOf u) : 0 < e.weight := by
  obtain ⟨v, hv, hev⟩ := mem_edgesOf_mem_adjList g u e he
  exact hpos v hv e hev

/-- `DFSVisit` sets the flag of its argument. -/
theorem dfsInv_mark (g : Graph) (s v : Nat) (st : DfsState) (V : Finset Nat)
    (F : List HeapEdge) (h : DfsInv g s st V (insert v V) F) :
    DfsInv g s { st with vis := st.vis.set v true } (insert v V) (insert v V) F :=
  { h with
    vlen := by rw [← h.vlen]; exact List.length_set _ _ _
    vset := by
      intro x
      show x ∈ insert v V ↔ (st.vis.set v true).getD x false = true
      have hvn : v < st.vis.length := by
        rw [h.vlen]
        exact h.wlt v (Finset.mem_insert_self v V)
      rw [getD_set_true _ _ _ hvn, Finset.mem_insert]
      by_cases hx : x = v
      · simp [hx]
      · simp only [hx, false_or, if_false]
        exact h.vset x }

/-- The loop of `DFSVisit` meets a record of `v` whose destination is not flagged: the edge
is added to the result. -/
theorem dfsInv_addEdge (g : Graph) (hwf : g.WellFormed) (hpos : g.Positive)
    (hsym : g.Symmetric) (s v : Nat) (e : Edge) (st : DfsState) (V : Finset Nat)
    (F : List HeapEdge) (h : DfsInv g s st V V F) (hv : v ∈ V) (he : e ∈ g.edgesOf v)
    (hd : e.dest ∉ V) :
    ∃ r1 x, st.res.addEdge (v : Int) (e.dest : Int) e.weight = (.ok (), r1) ∧
      DfsInv g s { st with res := r1 } V (insert e.dest V) (x :: F) := by
  obtain ⟨hdn, hvn⟩ := mem_edgesOf_of_wellFormed g hwf v e he
  have hw : 0 < e.weight := positive_of_mem g hpos v e he
  have hne : v ≠ e.dest := fun hc => hd (hc ▸ hv)
  have hiso : ∀ x ∈ F, x.frm ≠ e.dest ∧ x.toV ≠ e.dest := by
    intro x hx
    exact ⟨fun hc => hd (hc ▸ (h.fends x hx).1), fun hc => hd (hc ▸ (h.fends x hx).2)⟩
  have hnc : ¬ Conn F v e.dest := fun hc => hne (conn_isolated F e.dest hiso v hc)
  have hok : (st.res.addEdge (v : Int) (e.dest : Int) e.weight).1 = .ok () := by
    rw [Graph.addEdge_ok st.res _ _ e.weight (by omega)
      (by unfold Graph.numVertices; rw [h.rlen]; omega) (by omega)
      (by unfold Graph.numVertices; rw [h.rlen]; omega) hw]
  have hpair : st.res.addEdge (v : Int) (e.dest : Int) e.weight =
      (.ok (), (st.res.addEdge (v : Int) (e.dest : Int) e.weight).2) := by
    rw [← hok]
  -- the undirected edge added, and the facts that depend on the order of its endpoints
  have key : ∃ x : HeapEdge,
      (st.res.addEdge (v : Int) (e.dest : Int) e.weight).2.undirectedEdges.Perm
        (x :: st.res.undirectedEdges) ∧
      x ∈ g.undirectedEdges ∧
      ((x.frm = v ∧ x.toV = e.dest) ∨ (x.frm = e.dest ∧ x.toV = v)) := by
    rcases Nat.lt_or_gt_of_ne hne with hlt | hgt
    · refine ⟨⟨v, e.dest, e.weight⟩,
        (undirectedEdges_addEdge st.res v e.dest e.weight hlt (by rw [h.rlen]; exact hdn)
          hw).2, ?_, Or.inl ⟨rfl, rfl⟩⟩
      exact (mem_undirectedEdges g _).2 ⟨hlt, e, he, rfl, rfl⟩
    · refine ⟨⟨e.dest, v, e.weight⟩,
        (undirectedEdges_addEdge_rev st.res e.dest v e.weight hgt (by rw [h.rlen]; exact hvn)
          hw).2, ?_, Or.inr ⟨rfl, rfl⟩⟩
      obtain ⟨e', he', h1, h2⟩ := mirror_of_symmetric g hsym v e he
      exact (mem_undirectedEdges g _).2 ⟨hgt, e', he', h1, h2⟩
  obtain ⟨x, hxperm, hxg, hxends⟩ := key
  have hconnx : Conn (x :: F) v e.dest := by
    rcases hxends with ⟨h1, h2⟩ | ⟨h1, h2⟩
    · have := conn_of_mem (x :: F) x (List.mem_cons_self x F)
      rw [h1, h2] at this
      exact this
    · have := conn_of_mem (x :: F) x (List.mem_cons_self x F)
      rw [h1, h2] at this
      exact conn_symm _ _ _ this
  refine ⟨_, x, hpair, ?_⟩
  exact
    { rlen := by rw [← h.rlen]; exact Graph.length_addEdge _ _ _ _
      vlen := h.vlen
      vset := h.vset
      wlt := by
        intro a ha
        rcases Finset.mem_insert.1 ha with rfl | ha
        · exact hdn
        · exact h.wlt a ha
      rperm := hxperm.trans (List.Perm.cons x h.rperm)
      rbuilt := Graph.AddEdgeBuilt.addEdge _ _ _ _ h.rbuilt
      rcount := by
        show (st.res.addEdge (v : Int) (e.dest : Int) e.weight).2.records.length =
          2 * (x :: F).length
        rw [records_addEdge st.res v e.dest e.weight (by rw [h.rlen]; exact hvn)
          (by rw [h.rlen]; exact hdn) hw, h.rcount, List.length_cons]
        omega
      forest := by
        refine ⟨?_, h.forest⟩
        rcases hxends with ⟨h1, h2⟩ | ⟨h1, h2⟩
        · rw [h1, h2]
          exact hnc
        · rw [h1, h2]
          exact fun hc => hnc (conn_symm _ _ _ hc)
      fedge := by
        intro y hy
        rcases List.mem_cons.1 hy with rfl | hy
        · exact hxg
        · exact h.fedge y hy
      fends := by
        intro y hy
        rcases List.mem_cons.1 hy with rfl | hy
        · rcases hxends with ⟨h1, h2⟩ | ⟨h1, h2⟩
          · rw [h1, h2]
            exact ⟨Finset.mem_insert_of_mem hv, Finset.mem_insert_self _ _⟩
          · rw [h1, h2]
            exact ⟨Finset.mem_insert_self _ _, Finset.mem_insert_of_mem hv⟩
        · exact ⟨Finset.mem_insert_of_mem (h.fends y hy).1,
            Finset.mem_insert_of_mem (h.fends y hy).2⟩
      fconn := by
        intro a ha
        have hmono : ∀ b, Conn F s b → Conn (x :: F) s b :=
          fun b hb => conn_mono F (x :: F) (fun y hy => List.mem_cons_of_mem x hy) s b hb
        rcases Finset.mem_insert.1 ha with rfl | ha
        · exact conn_trans _ _ _ _ (hmono v (h.fconn v hv)) hconnx
        · exact hmono a (h.fconn a ha)
      fcard := by
        rw [Finset.card_insert_of_not_mem hd, List.length_cons, h.fcard] }

end graph

namespace graph
open Graph

/-! ## Depth-first search: the recursion -/

/-- The loop of `DFSVisit` over the remaining records `es` of `v`, for a recursive call
`visit` that meets the specification of `DFSVisit`: `V0` is the set of the vertices flagged
before the call of `DFSVisit` on `v`. -/
theorem dfsScan_inv (g : Graph) (hwf : g.WellFormed) (hpos : g.Positive) (hsym : g.Symmetric)
    (s fuel : Nat) (visit : Nat → DfsState → Option (Except Err Unit × DfsState))
    (hvisit : ∀ (w : Nat) (st : DfsState) (V : Finset Nat) (F : List HeapEdge),
      DfsInv g s st V (insert w V) F → w ∉ V → g.adjList.length - V.card ≤ fuel →
      ∃ st' V' F', visit w st = some (.ok (), st') ∧ DfsInv g s st' V' V' F' ∧
        insert w V ⊆ V' ∧ ∀ x ∈ V', x ∉ V → ∀ e ∈ g.edgesOf x, e.dest ∈ V')
    (v : Nat) (V0 : Finset Nat) :
    ∀ (es : List Edge) (st : DfsState) (V : Finset Nat) (F : List HeapEdge),
      DfsInv g s st V V F → v ∈ V → (∀ e ∈ es, e ∈ g.edgesOf v) →
      g.adjList.length - V.card ≤ fuel →
      (∀ x ∈ V, x ∉ V0 → ∀ e ∈ g.edgesOf x, (x = v → e ∉ es) → e.dest ∈ V) →
      ∃ st' V' F', dfsScan visit v es st = some (.ok (), st') ∧ DfsInv g s st' V' V' F' ∧
        V ⊆ V' ∧ ∀ x ∈ V', x ∉ V0 → ∀ e ∈ g.edgesOf x, e.dest ∈ V' := by
  intro es
  induction es with
  | nil =>
    intro st V F h _ _ _ hcl
    exact ⟨st, V, F, rfl, h, Finset.Subset.refl V,
      fun x hx hx0 e he => hcl x hx hx0 e he (fun _ hm => absurd hm (List.not_mem_nil _))⟩
  | cons e es ih =>
    intro st V F h hv hes hfuel hcl
    have hes1 : ∀ e1 ∈ es, e1 ∈ g.edgesOf v := fun e1 he1 => hes e1 (List.mem_cons_of_mem e he1)
    cases hvis : st.vis.getD e.dest false with
    | true =>
      have hdV : e.dest ∈ V := (h.vset e.dest).2 hvis
      obtain ⟨st', V', F', h1, h2, h3, h4⟩ := ih st V F h hv hes1 hfuel (by
        intro x hx hx0 e1 he1 hp
        by_cases hc : x = v ∧ e1 = e
        · rw [hc.2]
          exact hdV
        · refine hcl x hx hx0 e1 he1 fun hxv hmem => ?_
          rcases List.mem_cons.1 hmem with h5 | h5
          · exact hc ⟨hxv, h5⟩
          · exact hp hxv h5)
      refine ⟨st', V', F', ?_, h2, h3, h4⟩
      rw [dfsScan]
      simp only [hvis, Bool.not_true]
      exact h1
    | false =>
      have hd : e.dest ∉ V := by
        rw [h.vset, hvis]
        simp
      have hev : e ∈ g.edgesOf v := hes e (List.mem_cons_self e es)
      obtain ⟨r1, x, hadd, hinv1⟩ := dfsInv_addEdge g hwf hpos hsym s v e st V F h hv hev hd
      obtain ⟨st2, V2, F2, hv2, hinv2, hsub2, hcl2⟩ :=
        hvisit e.dest { st with res := r1 } V (x :: F) hinv1 hd hfuel
      have hVV2 : V ⊆ V2 := fun a ha => hsub2 (Finset.mem_insert_of_mem ha)
      have hfuel2 : g.adjList.length - V2.card ≤ fuel := by
        have := Finset.card_le_card hVV2
        omega
      obtain ⟨st3, V3, F3, h1, h2, h3, h4⟩ := ih st2 V2 F2 hinv2 (hVV2 hv) hes1 hfuel2 (by
        intro a ha ha0 e1 he1 hp
        by_cases haV : a ∈ V
        · by_cases hc : a = v ∧ e1 = e
          · rw [hc.2]
            exact hsub2 (Finset.mem_insert_self _ _)
          · refine hVV2 (hcl a haV ha0 e1 he1 fun hav hmem => ?_)
            rcases List.mem_cons.1 hmem with h5 | h5
            · exact hc ⟨hav, h5⟩
            · exact hp hav h5
        · exact hcl2 a ha haV e1 he1)
      refine ⟨st3, V3, F3, ?_, h2, fun a ha => h3 (hVV2 ha), h4⟩
      rw [dfsScan]
      simp only [hvis, Bool.not_false, if_true, hadd, hv2]
      exact h1

/-- The specification of `DFSVisit`: called on a vertex `v` whose flag is clear, with at
least as much depth allowed as there are clear flags, it returns; the vertices flagged
during the call have all their neighbours flagged. -/
theorem DFSVisit_inv (g : Graph) (hwf : g.WellFormed) (hpos : g.Positive) (hsym : g.Symmetric)
    (s : Nat) :
    ∀ (fuel v : Nat) (st : DfsState) (V : Finset Nat) (F : List HeapEdge),
      DfsInv g s st V (insert v V) F → v ∉ V → g.adjList.length - V.card ≤ fuel →
      ∃ st' V' F', DFSVisit g fuel v st = some (.ok (), st') ∧ DfsInv g s st' V' V' F' ∧
        insert v V ⊆ V' ∧ ∀ x ∈ V', x ∉ V → ∀ e ∈ g.edgesOf x, e.dest ∈ V' := by
  intro fuel
  induction fuel with
  | zero =>
    intro v st V F h hv hfuel
    have hsub : insert v V ⊆ Finset.range g.adjList.length :=
      fun x hx => Finset.mem_range.2 (h.wlt x hx)
    have := Finset.card_le_card hsub
    rw [Finset.card_insert_of_not_mem hv, Finset.card_range] at this
    omega
  | succ fuel ih =>
    intro v st V F h hv hfuel
    have hsub : insert v V ⊆ Finset.range g.adjList.length :=
      fun x hx => Finset.mem_range.2 (h.wlt x hx)
    have hcard := Finset.card_le_card hsub
    rw [Finset.card_insert_of_not_mem hv, Finset.card_range] at hcard
    obtain ⟨st', V', F', h1, h2, h3, h4⟩ :=
      dfsScan_inv g hwf hpos hsym s fuel (fun w st1 => DFSVisit g fuel w st1) ih v V
        (g.edgesOf v) _ (insert v V) F (dfsInv_mark g s v st V F h)
        (Finset.mem_insert_self v V) (fun _ he => he)
        (by rw [Finset.card_insert_of_not_mem hv]; omega)
        (by
          intro x hx hx0 e he hp
          rcases Finset.mem_insert.1 hx with hxv | hxV
          · exact absurd (hxv ▸ he) (hp hxv)
          · exact absurd hxV hx0)
    refine ⟨st', V', F', ?_, h2, h3, h4⟩
    rw [DFSVisit]
    exact h1

theorem dfsRest_done (g : Graph) (fuel : Nat) (st : DfsState)
    (h : ∀ i, i < g.adjList.length → st.vis.getD i false = true) :
    ∀ is : List Nat, (∀ i ∈ is, i < g.adjList.length) →
      dfsRest g fuel is st = some (.ok (), st) := by
  intro is
  induction is with
  | nil => intro _; rfl
  | cons i is ih =>
    intro his
    rw [dfsRest]
    simp only [h i (his i (List.mem_cons_self i is)), Bool.not_true]
    exact ih fun j hj => his j (List.mem_cons_of_mem i hj)

/-- The state in which `dfs` calls `DFSVisit` on the source. -/
theorem dfsInv_init (g : Graph) (s : Nat) (hs : s < g.adjList.length) :
    DfsInv g s
      ⟨List.replicate g.adjList.length false,
        ⟨(List.range g.adjList.length).map fun (i : Nat) => Vertex.new (i : Int)⟩⟩
      ∅ (insert s ∅) [] :=
  { rlen := by simp
    vlen := by simp
    vset := by
      intro v
      show v ∈ (∅ : Finset Nat) ↔ (List.replicate g.adjList.length false).getD v false = true
      rw [getD_replicate_false]
      simp
    wlt := by
      intro v hv
      rcases Finset.mem_insert.1 hv with rfl | hv
      · exact hs
      · exact absurd hv (Finset.not_mem_empty v)
    rperm := by
      show (Graph.mk _).undirectedEdges.Perm []
      rw [undirectedEdges_new]
    rbuilt := Graph.AddEdgeBuilt.new _ _ (new_ofNat g.adjList.length)
    rcount := by
      show (Graph.mk _).records.length = 2 * ([] : List HeapEdge).length
      rw [records_new]
      rfl
    forest := trivial
    fedge := fun e he => absurd he (List.not_mem_nil _)
    fends := fun e he => absurd he (List.not_mem_nil _)
    fconn := by
      intro a ha
      rcases Finset.mem_insert.1 ha with rfl | ha
      · exact conn_refl [] a
      · exact absurd ha (Finset.not_mem_empty a)
    fcard := rfl }

/-- The run of `dfs` on a connected graph: it returns, with every flag set by the first call
of `DFSVisit`. -/
theorem dfs_final (g : Graph) (hwf : g.WellFormed) (hpos : g.Positive) (hsym : g.Symmetric)
    (hconn : g.Connected) (source : Int) (hs0 : 0 ≤ source) (hs : source < g.numVertices) :
    ∃ st F, dfs g source = some (.ok st.res) ∧
      DfsInv g source.toNat st (Finset.range g.adjList.length)
        (Finset.range g.adjList.length) F := by
  have hsn : source.toNat < g.adjList.length := toNat_lt_length g source hs0 hs
  obtain ⟨st, V, F, h1, h2, h3, h4⟩ := DFSVisit_inv g hwf hpos hsym source.toNat
    g.adjList.length source.toNat _ ∅ [] (dfsInv_init g source.toNat hsn)
    (Finset.not_mem_empty _) (by simp)
  have hV : V = Finset.range g.adjList.length := by
    ext v
    rw [Finset.mem_range]
    constructor
    · exact h2.wlt v
    · intro hv
      obtain ⟨p, hp⟩ := hconn.2 source.toNat v hsn hv
      refine isPath_closed g (fun x => x ∈ V) ?_ p source.toNat v
        (h3 (Finset.mem_insert_self _ _)) hp
      intro x hx e he
      exact h4 x hx (Finset.not_mem_empty x) e he
  subst hV
  refine ⟨st, F, ?_, h2⟩
  have hrest := dfsRest_done g g.adjList.length st
    (fun i hi => (h2.vset i).1 (Finset.mem_range.2 hi)) (List.range g.adjList.length)
    (fun i hi => List.mem_range.1 hi)
  unfold dfs
  simp only
  rw [if_neg (by omega), new_ofNat]
  simp only [h1, hrest]

/-- C19: for every connected graph `g` with `n` vertices whose records point to vertices of
the graph, have positive weights and are mirrored in both adjacency lists (as `addEdge`
builds them), and every valid source, `dfs(g, source)` returns a graph on the same vertices,
itself symmetric, with exactly `n - 1` undirected edges (`2(n - 1)` records, `countEdges`
`n - 1`); each of them is an edge of `g` with its weight, and together they form a spanning
tree of `g`. -/
theorem dfs_spanning_tree (g : Graph) (source : Int) (hwf : g.WellFormed) (hpos : g.Positive)
    (hsym : g.Symmetric) (hconn : g.Connected) (hs0 : 0 ≤ source)
    (hs : source < g.numVertices) :
    ∃ r, dfs g source = some (.ok r) ∧ r.adjList.length = g.adjList.length ∧ r.Symmetric ∧
      r.undirectedEdges.length + 1 = g.adjList.length ∧
      r.records.length = 2 * (g.adjList.length - 1) ∧
      r.countEdges + 1 = g.adjList.length ∧
      IsSpanningTree g r.undirectedEdges := by
  obtain ⟨st, F, hd, hinv⟩ := dfs_final g hwf hpos hsym hconn source hs0 hs
  have hsn : source.toNat < g.adjList.length := toNat_lt_length g source hs0 hs
  have hlen : st.res.undirectedEdges.length + 1 = g.adjList.length := by
    rw [hinv.rperm.length_eq, hinv.fcard, Finset.card_range]
  refine ⟨st.res, hd, hinv.rlen, (addEdgeBuilt_facts _ hinv.rbuilt).2.2, hlen, ?_, ?_, ?_, ?_, ?_⟩
  · rw [hinv.rcount, ← hinv.rperm.length_eq]
    omega
  · rw [countEdges_eq]
    exact hlen
  · intro e he
    exact (undirectedEdges_facts g hwf hpos e (hinv.fedge e (hinv.rperm.subset he))).2.2.2.2
  · intro a b ha hb
    rw [conn_perm _ _ hinv.rperm]
    exact conn_trans _ _ _ _
      (conn_symm _ _ _ (hinv.fconn a (Finset.mem_range.2 ha)))
      (hinv.fconn b (Finset.mem_range.2 hb))
  · exact acyclic_perm F _ hinv.rperm.symm (acyclic_of_seqForest F hinv.forest)

set_option maxRecDepth 100000 in
/-- Witness for C19: the five-vertex path of the test with the source 2; `countEdges` of the
result is 4. -/
theorem dfs_spanning_tree_witness :
    (∃ r, dfs pathTestGraph 2 = some (.ok r) ∧
      r.adjList.length = pathTestGraph.adjList.length ∧ r.Symmetric ∧
      r.undirectedEdges.length + 1 = pathTestGraph.adjList.length ∧
      r.records.length = 2 * (pathTestGraph.adjList.length - 1) ∧
      r.countEdges + 1 = pathTestGraph.adjList.length ∧
      IsSpanningTree pathTestGraph r.undirectedEdges) ∧
    (dfs pathTestGraph 2).map (fun r => r.map Graph.countEdges) = some (.ok 4) :=
  ⟨dfs_spanning_tree pathTestGraph 2 (addEdgeBuilt_facts _ pathTestGraph_built).1
    (addEdgeBuilt_facts _ pathTestGraph_built).2.1
    (addEdgeBuilt_facts _ pathTestGraph_built).2.2 pathTestGraph_connected
    (by decide) (by decide), by decide⟩

end graph

namespace graph
namespace QForAlg

/-! ## The FIFO queue against the bounded list -/

theorem enqueue_of_ne (q : QForAlg) (v : Nat) (h : q.size ≠ q.capacity) :
    q.enqueue v = (.ok (), { q with items := q.items ++ [v], size := q.size + 1 }) := by
  unfold enqueue is_full
  rw [if_neg (by simpa using h)]

theorem enqueue_of_eq (q : QForAlg) (v : Nat) (h : q.size = q.capacity) :
    q.enqueue v = (.error .overflow_error, q) := by
  unfold enqueue is_full
  rw [if_pos (by simpa using h)]

theorem dequeue_nil (q : QForAlg) (h : q.items = []) : q.dequeue = (.error .out_of_range, q) := by
  unfold dequeue
  rw [h]

theorem dequeue_cons (q : QForAlg) (x : Nat) (rest : List Nat) (h : q.items = x :: rest) :
    q.dequeue = (.ok x, { q with items := rest, size := q.size - 1 }) := by
  unfold dequeue
  rw [h]

/-- The invariant of the queue: `size` counts the linked nodes, and with a capacity `c ≥ 0`
never more than `c` vertices are stored. -/
theorem reached_inv (c : Int) (q : QForAlg) (h : Reached c q) :
    q.capacity = c ∧ q.size = q.items.length ∧ (0 ≤ c → (q.items.length : Int) ≤ c) := by
  induction h with
  | new => exact ⟨rfl, rfl, fun h => h⟩
  | enqueue q v _ ih =>
    obtain ⟨h1, h2, h3⟩ := ih
    by_cases hf : q.size = q.capacity
    · rw [enqueue_of_eq q v hf]
      exact ⟨h1, h2, h3⟩
    · rw [enqueue_of_ne q v hf]
      refine ⟨h1, ?_, ?_⟩
      · show q.size + 1 = ((q.items ++ [v]).length : Int)
        rw [h2]
        simp
      · intro hc
        show ((q.items ++ [v]).length : Int) ≤ c
        have := h3 hc
        rw [h2, h1] at hf
        simp only [List.length_append, List.length_singleton]
        omega
  | dequeue q _ ih =>
    obtain ⟨h1, h2, h3⟩ := ih
    cases hi : q.items with
    | nil =>
      rw [dequeue_nil q hi]
      exact ⟨h1, h2, h3⟩
    | cons x rest =>
      rw [dequeue_cons q x rest hi]
      refine ⟨h1, ?_, ?_⟩
      · show q.size - 1 = (rest.length : Int)
        rw [h2, hi]
        simp
      · intro hc
        show (rest.length : Int) ≤ c
        have := h3 hc
        rw [hi] at this
        simp only [List.length_cons] at this
        omega

/-- First in, first out: the vertices stored at the start followed by the vertices accepted
during the run are the vertices served during the run followed by those still stored. -/
theorem run_fifo : ∀ (ops : List QOp) (q : QForAlg),
    q.items ++ accepted ops (run ops q).1 = served (run ops q).1 ++ (run ops q).2.items := by
  intro ops
  induction ops with
  | nil =>
    intro q
    simp [run, accepted, served]
  | cons op ops ih =>
    intro q
    cases op with
    | enqueue v =>
      by_cases hf : q.size = q.capacity
      · have := ih q
        simp only [run, enqueue_of_eq q v hf]
        simpa [accepted, served, Except.map] using this
      · have := ih { q with items := q.items ++ [v], size := q.size + 1 }
        simp only [run, enqueue_of_ne q v hf]
        simpa [accepted, served, Except.map] using this
    | dequeue =>
      cases hi : q.items with
      | nil =>
        have := ih q
        rw [hi] at this
        simp only [run, dequeue_nil q hi]
        simpa [accepted, served, Except.map] using this
      | cons x rest =>
        have := ih { q with items := rest, size := q.size - 1 }
        simp only [run, dequeue_cons q x rest hi]
        simpa [accepted, served, Except.map] using this

/-- The queue simulates the bounded list. -/
theorem run_refines (c : Int) : ∀ (ops : List QOp) (q : QForAlg),
    q.capacity = c → q.size = q.items.length → (q.items.length : Int) ≤ c →
    (run ops q).1 = (BoundedList.run c ops q.items).1 ∧
    (run ops q).2.items = (BoundedList.run c ops q.items).2 := by
  intro ops
  induction ops with
  | nil => intro q _ _ _; exact ⟨rfl, rfl⟩
  | cons op ops ih =>
    intro q h1 h2 h3
    cases op with
    | enqueue v =>
      by_cases hf : q.size = q.capacity
      · have hb : BoundedList.enqueue c q.items v = (.error .overflow_error, q.items) := by
          unfold BoundedList.enqueue
          rw [if_neg (by rw [h2, h1] at hf; omega)]
        obtain ⟨i1, i2⟩ := ih q h1 h2 h3
        simp only [run, BoundedList.run, enqueue_of_eq q v hf, hb]
        exact ⟨by rw [i1], i2⟩
      · have hlt : (q.items.length : Int) < c := by
          rw [h2, h1] at hf
          omega
        have hb : BoundedList.enqueue c q.items v = (.ok (), q.items ++ [v]) := by
          unfold BoundedList.enqueue
          rw [if_pos hlt]
        obtain ⟨i1, i2⟩ := ih { q with items := q.items ++ [v], size := q.size + 1 } h1
          (by
            show q.size + 1 = ((q.items ++ [v]).length : Int)
            rw [h2]
            simp)
          (by
            show ((q.items ++ [v]).length : Int) ≤ c
            simp only [List.length_append, List.length_singleton]
            omega)
        simp only [run, BoundedList.run, enqueue_of_ne q v hf, hb]
        exact ⟨by rw [i1], i2⟩
    | dequeue =>
      cases hi : q.items with
      | nil =>
        obtain ⟨i1, i2⟩ := ih q h1 h2 h3
        rw [hi] at i1 i2
        simp only [run, BoundedList.run, dequeue_nil q hi, BoundedList.dequeue]
        exact ⟨by rw [i1], i2⟩
      | cons x rest =>
        obtain ⟨i1, i2⟩ := ih { q with items := rest, size := q.size - 1 } h1
          (by
            show q.size - 1 = (rest.length : Int)
            rw [h2, hi]
            simp)
          (by
            show (rest.length : Int) ≤ c
            rw [hi] at h3
            simp only [List.length_cons] at h3
            omega)
        simp only [run, BoundedList.run, dequeue_cons q x rest hi, BoundedList.dequeue]
        exact ⟨by rw [i1], i2⟩

/-- C21: for every capacity `c` and every queue state reached from `QForAlg(c)` by `enqueue`
and `dequeue` calls: `enqueue` appends the vertex at the back when fewer than `c` vertices are
stored, and throws `overflow_error` leaving the queue unchanged when exactly `c` are stored;
`dequeue` removes and returns the front vertex when the queue is non-empty and throws
`out_of_range` when it is empty. Hence on every run the vertices accepted are the vertices
served, in the same order, followed by those still stored; and for `c ≥ 0` every run returns
and stores what the bounded list of capacity `c` returns and stores. -/
theorem refines_bounded_list (c : Int) :
    (∀ q, Reached c q →
      (∀ v, (q.items.length : Int) < c →
        q.enqueue v = (.ok (), { q with items := q.items ++ [v], size := q.size + 1 })) ∧
      (∀ v, (q.items.length : Int) = c → q.enqueue v = (.error .overflow_error, q)) ∧
      (∀ x rest, q.items = x :: rest →
        q.dequeue = (.ok x, { q with items := rest, size := q.size - 1 })) ∧
      (q.items = [] → q.dequeue = (.error .out_of_range, q))) ∧
    (∀ ops, accepted ops (run ops (QForAlg.new c)).1 =
      served (run ops (QForAlg.new c)).1 ++ (run ops (QForAlg.new c)).2.items) ∧
    (0 ≤ c → ∀ ops, (run ops (QForAlg.new c)).1 = (BoundedList.run c ops []).1 ∧
      (run ops (QForAlg.new c)).2.items = (BoundedList.run c ops []).2) := by
  refine ⟨?_, ?_, ?_⟩
  · intro q hq
    obtain ⟨h1, h2, _⟩ := reached_inv c q hq
    refine ⟨?_, ?_, dequeue_cons q, dequeue_nil q⟩
    · intro v hlt
      exact enqueue_of_ne q v (by rw [h2, h1]; omega)
    · intro v heq
      exact enqueue_of_eq q v (by rw [h2, h1]; exact heq)
  · intro ops
    have := run_fifo ops (QForAlg.new c)
    simpa [QForAlg.new] using this
  · intro hc ops
    exact run_refines c ops (QForAlg.new c) rfl rfl hc

/-- Witness for C21: the test's queue of capacity 3, with a call of `dequeue` on the empty
queue, the vertices 0, 1, 2 enqueued, a fourth `enqueue` refused, and the three vertices
dequeued in the order 0, 1, 2. -/
theorem refines_bounded_list_witness :
    (run [QOp.dequeue, QOp.enqueue 0, QOp.enqueue 1, QOp.enqueue 2, QOp.enqueue 7,
        QOp.dequeue, QOp.dequeue, QOp.dequeue] (QForAlg.new 3)).1 =
      (BoundedList.run 3 [QOp.dequeue, QOp.enqueue 0, QOp.enqueue 1, QOp.enqueue 2,
        QOp.enqueue 7, QOp.dequeue, QOp.dequeue, QOp.dequeue] []).1 ∧
    (run [QOp.dequeue, QOp.enqueue 0, QOp.enqueue 1, QOp.enqueue 2, QOp.enqueue 7,
        QOp.dequeue, QOp.dequeue, QOp.dequeue] (QForAlg.new 3)).1 =
      [.error .out_of_range, .ok none, .ok none, .ok none, .error .overflow_error,
        .ok (some 0), .ok (some 1), .ok (some 2)] :=
  ⟨((refines_bounded_list 3).2.2 (by decide) _).1, by decide⟩

end QForAlg
end graph

namespace graph
namespace MinHeap

variable {T : Type}

/-! ## The heap-order invariant, and `decreaseKey` after a key decrease -/

theorem size_insert (cmp : T → T → Bool) (h : MinHeap T) (v : T) :
    (h.insert cmp v).size = h.size + 1 := by
  unfold size
  rw [(insert_perm cmp h v).length_eq, List.length_cons]

theorem applyOps_spec (key : T → Int) (cmp : T → T → Bool)
    (hc : ∀ a b, cmp a b = decide (key a < key b)) :
    ∀ (ops : List (HeapOp T)) (h : MinHeap T), HeapOrdered cmp h.data_ →
      HeapOrdered cmp (applyOps cmp ops h).1.data_ ∧
      (applyOps cmp ops h).1.size + (applyOps cmp ops h).2 =
        h.size + ops.countP HeapOp.isInsert := by
  intro ops
  induction ops with
  | nil =>
    intro h ho
    exact ⟨ho, rfl⟩
  | cons op ops ih =>
    intro h ho
    cases op with
    | insert v =>
      obtain ⟨h1, h2⟩ := ih (h.insert cmp v) (insert_heapOrdered key cmp hc h v ho)
      refine ⟨h1, ?_⟩
      have hstep : applyOps cmp (HeapOp.insert v :: ops) h = applyOps cmp ops (h.insert cmp v) :=
        rfl
      rw [hstep, h2, size_insert, List.countP_cons_of_pos _ _ (by rfl)]
      omega
    | extractMin =>
      by_cases hne : h.data_ = []
      · obtain ⟨h1, h2⟩ := ih h ho
        have hstep : applyOps cmp (HeapOp.extractMin :: ops) h = applyOps cmp ops h := by
          simp only [applyOps, extractMin_nil cmp h hne]
        rw [hstep, List.countP_cons_of_neg _ _ (by simp [HeapOp.isInsert])]
        exact ⟨h1, h2⟩
      · obtain ⟨x, h1, he, _, hp, ho1⟩ := extractMin_spec key cmp hc h ho hne
        obtain ⟨i1, i2⟩ := ih h1 ho1
        have hstep : applyOps cmp (HeapOp.extractMin :: ops) h =
            ((applyOps cmp ops h1).1, (applyOps cmp ops h1).2 + 1) := by
          simp only [applyOps, he]
        rw [hstep, List.countP_cons_of_neg _ _ (by simp [HeapOp.isInsert])]
        refine ⟨i1, ?_⟩
        have hl := hp.length_eq
        simp only [List.length_cons] at hl
        show (applyOps cmp ops h1).1.size + ((applyOps cmp ops h1).2 + 1) = _
        unfold size at i2 ⊢
        omega

/-- C27: after every finite sequence of `insert` and `extractMin` calls on an initially empty
heap (the comparator ordering by a key that does not change), the element at every index
`i > 0` of the array does not compare smaller than the element at index `(i - 1) / 2`, and
the size is the number of `insert` calls minus the number of `extractMin` calls that
returned. -/
theorem heap_order_invariant (key : T → Int) (cmp : T → T → Bool)
    (hc : ∀ a b, cmp a b = decide (key a < key b)) (ops : List (HeapOp T)) :
    (∀ i x y, 0 < i → i < (applyOps cmp ops empty).1.size →
      (applyOps cmp ops empty).1.data_[i]? = some x →
      (applyOps cmp ops empty).1.data_[(i - 1) / 2]? = some y → cmp x y = false) ∧
    (applyOps cmp ops empty).1.size + (applyOps cmp ops empty).2 =
      ops.countP HeapOp.isInsert := by
  obtain ⟨h1, h2⟩ := applyOps_spec key cmp hc ops empty (heapOrdered_nil cmp)
  refine ⟨fun i x y hi _ hx hy => h1 i x y hi hx hy, ?_⟩
  rw [h2]
  simp [size, empty]

set_option maxRecDepth 100000 in
/-- Witness for C27: `extractMin` (which throws), `insert(5)`, `insert(3)`, `extractMin`,
`insert(4)` on the empty heap of integers leaves the array `[4, 5]`. -/
theorem heap_order_invariant_witness :
    ((∀ i x y, 0 < i →
      i < (applyOps (fun a b : Int => decide (a < b))
        [HeapOp.extractMin, HeapOp.insert 5, HeapOp.insert 3, HeapOp.extractMin,
          HeapOp.insert 4] empty).1.size →
      (applyOps (fun a b : Int => decide (a < b))
        [HeapOp.extractMin, HeapOp.insert 5, HeapOp.insert 3, HeapOp.extractMin,
          HeapOp.insert 4] empty).1.data_[i]? = some x →
      (applyOps (fun a b : Int => decide (a < b))
        [HeapOp.extractMin, HeapOp.insert 5, HeapOp.insert 3, HeapOp.extractMin,
          HeapOp.insert 4] empty).1.data_[(i - 1) / 2]? = some y →
      (fun a b : Int => decide (a < b)) x y = false) ∧
    (applyOps (fun a b : Int => decide (a < b))
        [HeapOp.extractMin, HeapOp.insert 5, HeapOp.insert 3, HeapOp.extractMin,
          HeapOp.insert 4] empty).1.size +
      (applyOps (fun a b : Int => decide (a < b))
        [HeapOp.extractMin, HeapOp.insert 5, HeapOp.insert 3, HeapOp.extractMin,
          HeapOp.insert 4] empty).2 =
      [HeapOp.extractMin, HeapOp.insert 5, HeapOp.insert 3, HeapOp.extractMin,
        HeapOp.insert (4 : Int)].countP HeapOp.isInsert) ∧
    (applyOps (fun a b : Int => decide (a < b))
      [HeapOp.extractMin, HeapOp.insert 5, HeapOp.insert 3, HeapOp.extractMin,
        HeapOp.insert 4] empty).1.data_ = [4, 5] :=
  ⟨heap_order_invariant id (fun a b : Int => decide (a < b)) (fun _ _ => rfl)
    [HeapOp.extractMin, HeapOp.insert 5, HeapOp.insert 3, HeapOp.extractMin, HeapOp.insert 4],
    by decide⟩

/-- An element that occurs once occurs at its first index only. -/
theorem ne_of_count_eq_one [DecidableEq T] (d : List T) (v : T) (hcount : d.count v = 1)
    (j : Nat) (a : T) (ha : d[j]? = some a) (hj : j ≠ d.indexOf v) : a ≠ v := by
  intro hav
  subst hav
  have hmem : a ∈ d.eraseIdx (d.indexOf a) := List.mem_eraseIdx_iff_getElem?.2 ⟨j, hj, ha⟩
  rw [List.eraseIdx_indexOf_eq_erase] at hmem
  have := List.count_pos_iff.2 hmem
  rw [List.count_erase_self, hcount] at this
  omega

/-- The array after the key of `v`, which occurs once, has been decreased: in order for the
new keys everywhere but at the slot of `v`. -/
theorem almostUp_of_key_decrease_once [DecidableEq T] (key key' : T → Int) (d : List T)
    (v : T) (hcount : d.count v = 1) (hk : ∀ x, x ≠ v → key' x = key x)
    (hkv : key' v ≤ key v) (h : ∀ j, 0 < j → OrdAt key d j) :
    AlmostUp key' d (d.indexOf v) := by
  have hv : v ∈ d := List.count_pos_iff.1 (by omega)
  have hil : d.indexOf v < d.length := List.indexOf_lt_length.2 hv
  have hiv : d[d.indexOf v]? = some v := by
    rw [List.getElem?_eq_getElem hil, List.getElem_indexOf hil]
  have huniq := ne_of_count_eq_one d v hcount
  have hle : ∀ x, key' x ≤ key x := by
    intro x
    by_cases hx : x = v
    · subst hx; exact hkv
    · rw [hk x hx]
  constructor
  · intro j hj hji a b ha hb
    have h1 := h j hj a b ha hb
    have h2 := hk a (huniq j a ha hji)
    have h3 := hle b
    omega
  · intro c a b hi0 hcp hc0 ha hb
    have hci : c ≠ d.indexOf v := by omega
    have h1 := h c hc0 a v ha (hcp ▸ hiv)
    have h2 := h _ hi0 v b hiv hb
    have h3 := hk a (huniq c a ha hci)
    have h4 := hle b
    omega

/-- C24: if the array of a heap satisfies heap order for the keys `key`, and the key of one
stored element `x`, which occurs once, has since been decreased (the keys are now `key'`,
equal to `key` except that `key' x ≤ key x`), then `decreaseKey(x)` returns, and afterwards
the array satisfies heap order for the new keys at every index and holds the same elements
(as a multiset). -/
theorem decreaseKey_restores_order [DecidableEq T] (key key' : T → Int)
    (cmp cmp' : T → T → Bool) (hc : ∀ a b, cmp a b = decide (key a < key b))
    (hc' : ∀ a b, cmp' a b = decide (key' a < key' b)) (h : MinHeap T) (x : T)
    (hcount : h.data_.count x = 1) (hk : ∀ y, y ≠ x → key' y = key y)
    (hkx : key' x ≤ key x) (ho : HeapOrdered cmp h.data_) :
    (h.decreaseKey cmp' x).1 = .ok () ∧
    HeapOrdered cmp' (h.decreaseKey cmp' x).2.data_ ∧
    (h.decreaseKey cmp' x).2.data_.Perm h.data_ := by
  have hx : x ∈ h.data_ := List.count_pos_iff.1 (by omega)
  rw [decreaseKey_of_mem cmp' h x hx]
  refine ⟨rfl, ?_, siftUp_perm _ _ _⟩
  exact siftUp_heapOrdered key' cmp' hc' _ _ (List.indexOf_lt_length.2 hx)
    (almostUp_of_key_decrease_once key key' h.data_ x hcount hk hkx
      ((heapOrdered_iff_ordAt key cmp hc _).1 ho))

end MinHeap

set_option maxRecDepth 100000 in
/-- Witness for C24: the heap of the vertices 3, 1, 2, 0 of the test (distances 1, 3, 5, 7 at
the vertices 3, 1, 2, 0) after the distance of vertex 0 has been lowered from 7 to 0; vertex
0 moves to the root. -/
theorem decreaseKey_restores_order_witness :
    (((MinHeap.mk [3, 1, 2, 0] 4).decreaseKey (VertexCompare (heapTestGraph.setDistance 0 0))
        0).1 = .ok () ∧
      MinHeap.HeapOrdered (VertexCompare (heapTestGraph.setDistance 0 0))
        ((MinHeap.mk [3, 1, 2, 0] 4).decreaseKey
          (VertexCompare (heapTestGraph.setDistance 0 0)) 0).2.data_ ∧
      ((MinHeap.mk [3, 1, 2, 0] 4).decreaseKey (VertexCompare (heapTestGraph.setDistance 0 0))
        0).2.data_.Perm [3, 1, 2, 0]) ∧
    ((MinHeap.mk [3, 1, 2, 0] 4).decreaseKey (VertexCompare (heapTestGraph.setDistance 0 0))
      0).2.data_ = [0, 3, 2, 1] :=
  ⟨MinHeap.decreaseKey_restores_order heapTestGraph.distanceOf
    (heapTestGraph.setDistance 0 0).distanceOf (VertexCompare heapTestGraph)
    (VertexCompare (heapTestGraph.setDistance 0 0)) (fun _ _ => rfl) (fun _ _ => rfl)
    (MinHeap.mk [3, 1, 2, 0] 4) 0 (by decide)
    (by
      intro y hy
      exact Graph.distanceOf_setDistance_ne heapTestGraph 0 y 0 hy)
    (by decide)
    (by
      intro j x y hj hx hy
      have hj4 : j < 4 := by
        by_contra hc
        rw [List.getElem?_eq_none (by simp; omega)] at hx
        exact absurd hx (by simp)
      interval_cases j <;> simp at hx hy <;> subst hx hy <;> decide),
    by decide⟩

end graph

namespace graph
open Graph

/-! ## Breadth-first search: the record of the queue and the layers -/

/-- Dropping the record from `bfsScanLog` gives `bfsScan`. -/
theorem bfsScanLog_erase (u : Nat) : ∀ (es : List Edge) (st : BfsState) (log : List (Nat × Nat)),
    ((bfsScanLog u es st log).1, (bfsScanLog u es st log).2.1) = bfsScan u es st := by
  intro es
  induction es with
  | nil => intro st log; rfl
  | cons e es ih =>
    intro st log
    rw [bfsScanLog, bfsScan]
    cases hv : st.visited.getD e.dest false with
    | true =>
      simp only [Bool.not_true]
      exact ih st log
    | false =>
      simp only [Bool.not_false, if_true]
      rcases hq : st.queue.enqueue e.dest with ⟨_ | _, q1⟩
      · rfl
      · simp only
        rcases ha : st.result.addDirectedEdge (u : Int) (e.dest : Int) e.weight with ⟨_ | _, r1⟩
        · rfl
        · exact ih _ _

/-- Dropping the record from `bfsLoopLog` gives `bfsLoop`. -/
theorem bfsLoopLog_erase (g : Graph) :
    ∀ (fuel : Nat) (st : BfsState) (log : List (Nat × Nat)),
      (bfsLoopLog g fuel st log).map (fun r => (r.1, r.2.1)) = bfsLoop g fuel st := by
  intro fuel
  induction fuel with
  | zero => intro st log; rfl
  | succ fuel ih =>
    intro st log
    rw [bfsLoopLog, bfsLoop]
    cases he : st.queue.is_empty with
    | true => rfl
    | false =>
      simp only [Bool.false_eq_true, if_false]
      rcases hd : st.queue.dequeue with ⟨_ | u, q1⟩
      · rfl
      · simp only
        have hscan := bfsScanLog_erase u (g.edgesOf u) { st with queue := q1 } log
        rcases hs : bfsScanLog u (g.edgesOf u) { st with queue := q1 } log with ⟨_ | _, st1, log1⟩
        · rw [hs] at hscan
          rw [← hscan]
          rfl
        · rw [hs] at hscan
          rw [← hscan]
          exact ih st1 log1

/-- Dropping the record from `bfsLog` gives `bfs`. -/
theorem bfsLog_erase (g : Graph) (source : Int) :
    (bfsLog g source).map Prod.fst = bfs g source := by
  unfold bfsLog bfs
  simp only
  by_cases hs : source < 0 ∨ source ≥ g.numVertices
  · rw [if_pos hs, if_pos hs]
    rfl
  · rw [if_neg hs, if_neg hs]
    cases Graph.new (g.adjList.length : Int) with
    | error err => rfl
    | ok result =>
      simp only
      rcases hq : (QForAlg.new (g.adjList.length : Int)).enqueue source.toNat with ⟨_ | _, q1⟩
      · rfl
      · simp only
        have hl := bfsLoopLog_erase g (g.adjList.length + 1)
          ⟨q1, (List.replicate g.adjList.length false).set source.toNat true, result⟩
          [(source.toNat, q1.items.length)]
        rw [← hl]
        rcases bfsLoopLog g (g.adjList.length + 1)
          ⟨q1, (List.replicate g.adjList.length false).set source.toNat true, result⟩
          [(source.toNat, q1.items.length)] with _ | ⟨_ | _, st, log⟩
        · rfl
        · rfl
        · rfl

/-- The layers when the scan meets a record whose destination is already flagged. -/
theorem blvl_skip (g : Graph) (s u : Nat) (e : Edge) (es : List Edge) (st : BfsState)
    (V : Finset Nat) (lvl : Nat → Nat) (h : BLvl g s st u (e :: es) V lvl)
    (hv : e.dest ∈ V) : BLvl g s st u es V lvl :=
  { h with
    edge := by
      intro x hx hxq e1 he1 hp
      by_cases hc : x = u ∧ e1 = e
      · rw [hc.2, hc.1]
        exact h.near e.dest hv
      · refine h.edge x hx hxq e1 he1 fun hxu hmem => ?_
        rcases List.mem_cons.1 hmem with h1 | h1
        · exact hc ⟨hxu, h1⟩
        · exact hp hxu h1 }

/-- The layers when the scan flags a new vertex: it gets the level after that of `u`. -/
theorem blvl_visit (g : Graph) (hwf : g.WellFormed) (s u : Nat) (e : Edge) (es : List Edge)
    (st : BfsState) (V : Finset Nat) (lvl : Nat → Nat) (hb : BInv g s st u (e :: es) V)
    (h : BLvl g s st u (e :: es) V lvl) (hv : e.dest ∉ V) :
    BLvl g s
      ⟨{ st.queue with items := st.queue.items ++ [e.dest], size := st.queue.size + 1 },
        st.visited.set e.dest true,
        st.result.setEdges u (⟨e.weight, u, e.dest⟩ :: st.result.edgesOf u)⟩
      u es (insert e.dest V) (Function.update lvl e.dest (lvl u + 1)) := by
  have hev : e ∈ g.edgesOf u := hb.pend e (List.mem_cons_self e es)
  obtain ⟨_, hun⟩ := mem_edgesOf_of_wellFormed g hwf u e hev
  have hur : u < st.result.adjList.length := by rw [hb.rlen]; exact hun
  have hold : ∀ x ∈ V, Function.update lvl e.dest (lvl u + 1) x = lvl x := by
    intro x hx
    exact Function.update_noteq (fun hc => hv (by rw [← hc]; exact hx)) _ _
  have hnew : Function.update lvl e.dest (lvl u + 1) e.dest = lvl u + 1 :=
    Function.update_same _ _ _
  have hu := hold u hb.cur
  refine
    { src := by rw [hold s hb.src]; exact h.src
      near := ?_
      qge := ?_
      qsorted := ?_
      recs := ?_
      edge := ?_ }
  · intro y hy
    rcases Finset.mem_insert.1 hy with rfl | hy
    · rw [hnew, hu]
    · rw [hold y hy, hu]
      exact h.near y hy
  · intro x hx
    rcases List.mem_append.1 hx with hx | hx
    · rw [hold x (hb.qvis x hx), hu]
      exact h.qge x hx
    · rw [List.mem_singleton.1 hx, hnew, hu]
      omega
  · show (st.queue.items ++ [e.dest]).Pairwise _
    rw [List.pairwise_append]
    refine ⟨?_, List.pairwise_singleton _ _, ?_⟩
    · refine h.qsorted.imp_of_mem ?_
      intro a b ha hb' hab
      rw [hold a (hb.qvis a ha), hold b (hb.qvis b hb')]
      exact hab
    · intro a ha b hb'
      rw [List.mem_singleton.1 hb', hnew, hold a (hb.qvis a ha)]
      exact h.near a (hb.qvis a ha)
  · intro a e1 he1
    change e1 ∈ (st.result.setEdges u (⟨e.weight, u, e.dest⟩ :: st.result.edgesOf u)).edgesOf a
      at he1
    have holdrec : ∀ e2 ∈ st.result.edgesOf a,
        Function.update lvl e.dest (lvl u + 1) e2.dest =
          Function.update lvl e.dest (lvl u + 1) a + 1 := by
      intro e2 he2
      obtain ⟨_, h2, h3, _⟩ := hb.recs a e2 he2
      rw [hold _ h3, hold a h2]
      exact h.recs a e2 he2
    by_cases hau : a = u
    · subst hau
      rw [edgesOf_setEdges_self _ _ _ hur] at he1
      rcases List.mem_cons.1 he1 with rfl | he1
      · show Function.update lvl e.dest (lvl a + 1) e.dest = _
        rw [hnew, hu]
      · exact holdrec e1 he1
    · rw [edgesOf_setEdges_ne _ _ _ _ hau] at he1
      exact holdrec e1 he1
  · intro x hx hxq e1 he1 hp
    have hxq1 : x ∉ st.queue.items ++ [e.dest] := hxq
    rw [List.mem_append, not_or, List.mem_singleton] at hxq1
    have hxV : x ∈ V := by
      rcases Finset.mem_insert.1 hx with h1 | h1
      · exact absurd h1 hxq1.2
      · exact h1
    by_cases hc : x = u ∧ e1 = e
    · rw [hc.2, hc.1, hnew, hu]
    · have hp1 : x = u → e1 ∉ e :: es := by
        intro hxu hmem
        rcases List.mem_cons.1 hmem with h1 | h1
        · exact hc ⟨hxu, h1⟩
        · exact hp hxu h1
      have hdV : e1.dest ∈ V := hb.closed x hxV hxq1.1 e1 he1 hp1
      rw [hold _ hdV, hold x hxV]
      exact h.edge x hxV hxq1.1 e1 he1 hp1

/-- The record when the scan flags a new vertex and enqueues it. -/
theorem blog_visit (n : Nat) (V : Finset Nat) (log : List (Nat × Nat)) (v k : Nat)
    (h : BLog n V log) (hv : v ∉ V) (hk : k ≤ n) : BLog n (insert v V) (log ++ [(v, k)]) :=
  { nodup := by
      rw [List.map_append, List.nodup_append]
      refine ⟨h.nodup, List.nodup_singleton _, ?_⟩
      intro a ha hb
      have hav : a = v := by simpa using hb
      obtain ⟨p, hp, hpa⟩ := List.mem_map.1 ha
      exact hv (hav ▸ hpa ▸ h.mem p hp)
    mem := by
      intro p hp
      rcases List.mem_append.1 hp with hp | hp
      · exact Finset.mem_insert_of_mem (h.mem p hp)
      · rw [List.mem_singleton.1 hp]
        exact Finset.mem_insert_self _ _
    bound := by
      intro p hp
      rcases List.mem_append.1 hp with hp | hp
      · exact h.bound p hp
      · rw [List.mem_singleton.1 hp]
        exact hk
    len := by
      rw [List.length_append, List.length_singleton, Finset.card_insert_of_not_mem hv, h.len] }

end graph

namespace graph
open Graph

/-! ## Breadth-first search: the loops with the record and the layers -/

theorem bfsScanLog_inv (g : Graph) (hwf : g.WellFormed) (s u : Nat) :
    ∀ (es : List Edge) (st : BfsState) (V : Finset Nat) (lvl : Nat → Nat)
      (log : List (Nat × Nat)),
      BInv g s st u es V → BLvl g s st u es V lvl → BLog g.adjList.length V log →
      ∃ st' V' lvl' log', bfsScanLog u es st log = (.ok (), st', log') ∧
        BInv g s st' u [] V' ∧ BLvl g s st' u [] V' lvl' ∧ BLog g.adjList.length V' log' ∧
        st'.queue.items.length + (g.adjList.length - V'.card) =
          st.queue.items.length + (g.adjList.length - V.card) := by
  intro es
  induction es with
  | nil => intro st V lvl log h hl hg; exact ⟨st, V, lvl, log, rfl, h, hl, hg, rfl⟩
  | cons e es ih =>
    intro st V lvl log h hl hg
    cases hv : st.visited.getD e.dest false with
    | true =>
      obtain ⟨st', V', lvl', log', h1, h2, h3, h4, h5⟩ := ih st V lvl log
        (binv_skip g s u e es st V h hv) (blvl_skip g s u e es st V lvl hl ((h.vset _).2 hv)) hg
      refine ⟨st', V', lvl', log', ?_, h2, h3, h4, h5⟩
      rw [bfsScanLog]
      simp only [hv, Bool.not_true]
      exact h1
    | false =>
      obtain ⟨hcard, hvV, hinv⟩ := binv_visit g hwf s u e es st V h hv
      have hk : (st.queue.items ++ [e.dest]).length ≤ g.adjList.length := by
        have := hinv.qle
        have h2 : (st.queue.items ++ [e.dest]).length ≤ (insert e.dest V).card := this
        rw [Finset.card_insert_of_not_mem hvV] at h2
        omega
      obtain ⟨st', V', lvl', log', h1, h2, h3, h4, h5⟩ := ih _ _ _ _ hinv
        (blvl_visit g hwf s u e es st V lvl h hl hvV)
        (blog_visit _ V log e.dest _ hg hvV hk)
      have hev : e ∈ g.edgesOf u := h.pend e (List.mem_cons_self e es)
      obtain ⟨hvn, hun⟩ := mem_edgesOf_of_wellFormed g hwf u e hev
      refine ⟨st', V', lvl', log', ?_, h2, h3, h4, ?_⟩
      · have hq : st.queue.enqueue e.dest =
            (.ok (), { st.queue with items := st.queue.items ++ [e.dest],
                                     size := st.queue.size + 1 }) := by
          apply QForAlg.enqueue_of_ne
          rw [h.qsize, h.qcap]
          have := h.qle
          omega
        have ha := addDirectedEdge_nat st.result u e.dest e.weight
          (by rw [h.rlen]; exact hun) (by rw [h.rlen]; exact hvn)
        rw [bfsScanLog]
        simp only [hv, Bool.not_false, if_true, hq, ha]
        exact h1
      · rw [h5]
        show (st.queue.items ++ [e.dest]).length + (g.adjList.length - (insert e.dest V).card) =
          st.queue.items.length + (g.adjList.length - V.card)
        rw [Finset.card_insert_of_not_mem hvV, List.length_append, List.length_singleton]
        omega

/-- The invariant when the main loop dequeues the vertex `u1`. -/
theorem binv_dequeue (g : Graph) (s u u1 : Nat) (rest : List Nat) (st : BfsState)
    (V : Finset Nat) (h : BInv g s st u [] V) (hitems : st.queue.items = u1 :: rest) :
    BInv g s { st with queue := { st.queue with items := rest, size := st.queue.size - 1 } }
      u1 (g.edgesOf u1) V :=
  { rlen := h.rlen
    vlen := h.vlen
    qcap := h.qcap
    qsize := by
      show st.queue.size - 1 = (rest.length : Int)
      rw [h.qsize, hitems]
      simp
    qle := by
      show rest.length ≤ V.card
      have := h.qle
      rw [hitems] at this
      simp only [List.length_cons] at this
      omega
    vset := h.vset
    qvis := fun x hx => h.qvis x (by rw [hitems]; exact List.mem_cons_of_mem _ hx)
    src := h.src
    cur := h.qvis u1 (by rw [hitems]; exact List.mem_cons_self _ _)
    pend := fun _ he => he
    recs := h.recs
    uniq := h.uniq
    cnt := h.cnt
    tree := h.tree
    reach := h.reach
    closed := by
      intro x hx hxq e he hp
      have hxq1 : x ∉ rest := hxq
      by_cases hxu : x = u1
      · exact absurd (hxu ▸ he) (hp hxu)
      · refine h.closed x hx ?_ e he (fun _ hm => absurd hm (List.not_mem_nil _))
        rw [hitems]
        intro hm
        rcases List.mem_cons.1 hm with h2 | h2
        · exact hxu h2
        · exact hxq1 h2 }

/-- The layers when the main loop dequeues the vertex `u1`. -/
theorem blvl_dequeue (g : Graph) (s u u1 : Nat) (rest : List Nat) (st : BfsState)
    (V : Finset Nat) (lvl : Nat → Nat) (h : BLvl g s st u [] V lvl)
    (hitems : st.queue.items = u1 :: rest) :
    BLvl g s { st with queue := { st.queue with items := rest, size := st.queue.size - 1 } }
      u1 (g.edgesOf u1) V lvl := by
  have hu1 : lvl u ≤ lvl u1 := h.qge u1 (by rw [hitems]; exact List.mem_cons_self _ _)
  have hsorted := h.qsorted
  rw [hitems, List.pairwise_cons] at hsorted
  exact
    { src := h.src
      near := fun y hy => le_trans (h.near y hy) (by omega)
      qge := fun x hx => hsorted.1 x hx
      qsorted := hsorted.2
      recs := h.recs
      edge := by
        intro x hx hxq e he hp
        have hxq1 : x ∉ rest := hxq
        by_cases hxu : x = u1
        · exact absurd (hxu ▸ he) (hp hxu)
        · refine h.edge x hx ?_ e he (fun _ hm => absurd hm (List.not_mem_nil _))
          rw [hitems]
          intro hm
          rcases List.mem_cons.1 hm with h2 | h2
          · exact hxu h2
          · exact hxq1 h2 }

theorem bfsLoopLog_inv (g : Graph) (hwf : g.WellFormed) (s : Nat) :
    ∀ (fuel : Nat) (st : BfsState) (u : Nat) (V : Finset Nat) (lvl : Nat → Nat)
      (log : List (Nat × Nat)),
      BInv g s st u [] V → BLvl g s st u [] V lvl → BLog g.adjList.length V log →
      st.queue.items.length + (g.adjList.length - V.card) < fuel →
      ∃ st' u' V' lvl' log', bfsLoopLog g fuel st log = some (.ok (), st', log') ∧
        BInv g s st' u' [] V' ∧ BLvl g s st' u' [] V' lvl' ∧ BLog g.adjList.length V' log' ∧
        st'.queue.items = [] := by
  intro fuel
  induction fuel with
  | zero => intro st u V lvl log _ _ _ hf; omega
  | succ fuel ih =>
    intro st u V lvl log h hl hg hf
    cases hitems : st.queue.items with
    | nil =>
      refine ⟨st, u, V, lvl, log, ?_, h, hl, hg, hitems⟩
      rw [bfsLoopLog]
      simp [QForAlg.is_empty, hitems]
    | cons u1 rest =>
      have hdq := QForAlg.dequeue_cons st.queue u1 rest hitems
      obtain ⟨st2, V2, lvl2, log2, hs1, hs2, hs3, hs4, hs5⟩ :=
        bfsScanLog_inv g hwf s u1 _ _ V lvl log (binv_dequeue g s u u1 rest st V h hitems)
          (blvl_dequeue g s u u1 rest st V lvl hl hitems) hg
      have hm : st2.queue.items.length + (g.adjList.length - V2.card) < fuel := by
        rw [hs5]
        show rest.length + (g.adjList.length - V.card) < fuel
        rw [hitems] at hf
        simp only [List.length_cons] at hf
        omega
      obtain ⟨st3, u3, V3, lvl3, log3, hl1, hl2, hl3, hl4, hl5⟩ :=
        ih st2 u1 V2 lvl2 log2 hs2 hs3 hs4 hm
      refine ⟨st3, u3, V3, lvl3, log3, ?_, hl2, hl3, hl4, hl5⟩
      rw [bfsLoopLog]
      simp only [QForAlg.is_empty, hitems, List.isEmpty_cons, hdq, hs1]
      simpa using hl1

/-- The run of `bfs` from a valid source, with the record of the queue and the layers. -/
theorem bfsLog_final (g : Graph) (hwf : g.WellFormed) (source : Int) (hs0 : 0 ≤ source)
    (hs : source < g.numVertices) :
    ∃ st u V lvl log, bfsLog g source = some (.ok st.result, log) ∧
      BInv g source.toNat st u [] V ∧ BLvl g source.toNat st u [] V lvl ∧
      BLog g.adjList.length V log ∧ st.queue.items = [] := by
  have hsn : source.toNat < g.adjList.length := toNat_lt_length g source hs0 hs
  have hinit := binv_init g source.toNat hsn
  have hlinit : BLvl g source.toNat
      ⟨⟨[source.toNat], 0 + 1, (g.adjList.length : Int)⟩,
        (List.replicate g.adjList.length false).set source.toNat true,
        ⟨(List.range g.adjList.length).map fun (i : Nat) => Vertex.new (i : Int)⟩⟩
      source.toNat [] {source.toNat} (fun _ => 0) :=
    { src := rfl
      near := fun _ _ => Nat.zero_le _
      qge := fun _ _ => Nat.le_refl _
      qsorted := List.pairwise_singleton _ _
      recs := by
        intro a e he
        obtain ⟨_, _, h3, h4, _⟩ := hinit.recs a e he
        exact absurd (Finset.mem_singleton.1 h3) h4
      edge := by
        intro x hx hxq
        have hxq1 : x ∉ [source.toNat] := hxq
        exact absurd (List.mem_singleton.2 (Finset.mem_singleton.1 hx)) hxq1 }
  have hginit : BLog g.adjList.length {source.toNat} [(source.toNat, 1)] :=
    { nodup := by simp
      mem := by
        intro p hp
        rw [List.mem_singleton.1 hp]
        exact Finset.mem_singleton_self _
      bound := by
        intro p hp
        rw [List.mem_singleton.1 hp]
        show 1 ≤ g.adjList.length
        omega
      len := by simp }
  obtain ⟨st, u, V, lvl, log, hl, hinv, hlv, hlg, hq⟩ :=
    bfsLoopLog_inv g hwf source.toNat (g.adjList.length + 1) _ _ _ _ _ hinit hlinit hginit (by
      show [source.toNat].length + (g.adjList.length - ({source.toNat} : Finset Nat).card)
        < g.adjList.length + 1
      rw [Finset.card_singleton, List.length_singleton]
      omega)
  refine ⟨st, u, V, lvl, log, ?_, hinv, hlv, hlg, hq⟩
  have henq : (QForAlg.new (g.adjList.length : Int)).enqueue source.toNat =
      (.ok (), ⟨[source.toNat], 0 + 1, (g.adjList.length : Int)⟩) := by
    rw [QForAlg.enqueue_of_ne]
    · rfl
    · show ¬ (0 : Int) = (g.adjList.length : Int)
      omega
  unfold bfsLog
  simp only
  rw [if_neg (by omega), new_ofNat]
  simp only [henq]
  have hl' : bfsLoopLog g (g.adjList.length + 1)
      ⟨⟨[source.toNat], 0 + 1, (g.adjList.length : Int)⟩,
        (List.replicate g.adjList.length false).set source.toNat true,
        ⟨(List.range g.adjList.length).map fun (i : Nat) => Vertex.new (i : Int)⟩⟩
      [(source.toNat, [source.toNat].length)] = some (.ok (), st, log) := hl
  rw [hl']

end graph

namespace graph
open Graph

/-! ## Breadth-first search: the queue is never overrun, and the tree follows the layers -/

/-- C23: for every graph `g` with `n` vertices whose records point to vertices of the graph
and every valid source (so `n ≥ 1`), `bfs(g, source)` returns normally: no call of `enqueue`
throws the overflow error and `dequeue` is never reached on an empty queue (either would end
the run with that exception). In the run with the calls of `enqueue` recorded, which returns
the same graph, no vertex is passed to `enqueue` twice, every vertex passed is a vertex of the
graph, there are at most `n` calls, and after each of them the queue holds at most `n`
vertices. -/
theorem bfs_queue_safe (g : Graph) (source : Int) (hwf : g.WellFormed) (hs0 : 0 ≤ source)
    (hs : source < g.numVertices) :
    ∃ r log, bfs g source = some (.ok r) ∧ bfsLog g source = some (.ok r, log) ∧
      (log.map Prod.fst).Nodup ∧
      (∀ p ∈ log, p.1 < g.adjList.length ∧ p.2 ≤ g.adjList.length) ∧
      log.length ≤ g.adjList.length := by
  obtain ⟨st, u, V, lvl, log, hb, hinv, _, hlog, _⟩ := bfsLog_final g hwf source hs0 hs
  have hsub : V ⊆ Finset.range g.adjList.length :=
    fun x hx => Finset.mem_range.2 (binv_below g _ u st _ V hinv x hx)
  refine ⟨st.result, log, ?_, hb, hlog.nodup, ?_, ?_⟩
  · rw [← bfsLog_erase, hb]
    rfl
  · intro p hp
    exact ⟨binv_below g _ u st _ V hinv p.1 (hlog.mem p hp), hlog.bound p hp⟩
  · rw [hlog.len, ← Finset.card_range g.adjList.length]
    exact Finset.card_le_card hsub

set_option maxRecDepth 100000 in
/-- Witness for C23: the five-vertex path of the test from the source 2; the vertices are
enqueued in the order 2, 3, 1, 4, 0 and the queue never holds more than two of them. -/
theorem bfs_queue_safe_witness :
    (∃ r log, bfs pathTestGraph 2 = some (.ok r) ∧ bfsLog pathTestGraph 2 = some (.ok r, log) ∧
      (log.map Prod.fst).Nodup ∧
      (∀ p ∈ log, p.1 < pathTestGraph.adjList.length ∧ p.2 ≤ pathTestGraph.adjList.length) ∧
      log.length ≤ pathTestGraph.adjList.length) ∧
    (bfsLog pathTestGraph 2).map Prod.snd = some [(2, 1), (3, 1), (1, 2), (4, 2), (0, 2)] :=
  ⟨bfs_queue_safe pathTestGraph 2 (addEdgeBuilt_facts _ pathTestGraph_built).1 (by decide)
    (by decide), by decide⟩

/-- A path of the tree has as many records as the levels of its ends differ. -/
theorem lvl_of_tree_path (r : Graph) (lvl : Nat → Nat)
    (hrecs : ∀ a, ∀ e ∈ r.edgesOf a, lvl e.dest = lvl a + 1) :
    ∀ (q : List Edge) (a b : Nat), r.IsPath a b q → lvl b = lvl a + q.length := by
  intro q
  induction q with
  | nil =>
    intro a b hq
    have : a = b := hq
    rw [this]
    rfl
  | cons e q ih =>
    intro a b hq
    rw [ih e.dest b hq.2, hrecs a e hq.1, List.length_cons]
    omega

/-- A path of the tree is matched by a path of the graph with as many records. -/
theorem tree_path_in_graph (g r : Graph)
    (hrecs : ∀ a, ∀ e ∈ r.edgesOf a, ∃ e' ∈ g.edgesOf a, e'.dest = e.dest) :
    ∀ (q : List Edge) (a b : Nat), r.IsPath a b q →
      ∃ p, g.IsPath a b p ∧ p.length = q.length := by
  intro q
  induction q with
  | nil =>
    intro a b hq
    exact ⟨[], hq, rfl⟩
  | cons e q ih =>
    intro a b hq
    obtain ⟨e', he', hd⟩ := hrecs a e hq.1
    obtain ⟨p, hp, hl⟩ := ih e.dest b hq.2
    refine ⟨e' :: p, ⟨he', ?_⟩, by rw [List.length_cons, List.length_cons, hl]⟩
    rw [hd]
    exact hp

/-- A path of the graph from a flagged vertex raises the level by at most one per record. -/
theorem lvl_le_of_path (g : Graph) (V : Finset Nat) (lvl : Nat → Nat)
    (hedge : ∀ x ∈ V, ∀ e ∈ g.edgesOf x, e.dest ∈ V ∧ lvl e.dest ≤ lvl x + 1) :
    ∀ (p : List Edge) (a b : Nat), a ∈ V → g.IsPath a b p → lvl b ≤ lvl a + p.length := by
  intro p
  induction p with
  | nil =>
    intro a b _ hp
    have : a = b := hp
    rw [this]
    exact Nat.le_refl _
  | cons e p ih =>
    intro a b ha hp
    obtain ⟨h1, h2⟩ := hedge a ha e hp.1
    have := ih e.dest b h1 hp.2
    rw [List.length_cons]
    omega

/-- C26: for every graph `g` whose records point to vertices of the graph, every valid source
and every vertex `v` reachable from the source, the tree returned by `bfs(g, source)` has a
path from the source to `v`, and every such path of the tree has the number of edges of some
path of `g` from the source to `v` and no more edges than any path of `g` from the source to
`v`: the minimum number of edges. -/
theorem bfs_layers (g : Graph) (source : Int) (hwf : g.WellFormed) (hs0 : 0 ≤ source)
    (hs : source < g.numVertices) :
    ∃ r, bfs g source = some (.ok r) ∧
      ∀ v, (∃ p, g.IsPath source.toNat v p) →
        (∃ q, r.IsPath source.toNat v q) ∧
        ∀ q, r.IsPath source.toNat v q →
          (∃ p, g.IsPath source.toNat v p ∧ p.length = q.length) ∧
          ∀ p, g.IsPath source.toNat v p → q.length ≤ p.length := by
  obtain ⟨st, u, V, lvl, log, hb, hinv, hlvl, _, hq⟩ := bfsLog_final g hwf source hs0 hs
  have hreach := binv_final_reach g _ u st V hinv hq
  have hnq : ∀ x, x ∉ st.queue.items := by
    intro x
    rw [hq]
    exact List.not_mem_nil x
  refine ⟨st.result, ?_, ?_⟩
  · rw [← bfsLog_erase, hb]
    rfl
  · intro v hv
    refine ⟨hinv.tree v ((hreach v).2 hv), ?_⟩
    intro q hqp
    have hlen := lvl_of_tree_path st.result lvl hlvl.recs q _ v hqp
    rw [hlvl.src, Nat.zero_add] at hlen
    refine ⟨tree_path_in_graph g st.result (fun a e he => ?_) q _ v hqp, ?_⟩
    · obtain ⟨_, _, _, _, e', h1, h2, _⟩ := hinv.recs a e he
      exact ⟨e', h1, h2⟩
    · intro p hp
      have := lvl_le_of_path g V lvl (fun x hx e he =>
          ⟨hinv.closed x hx (hnq x) e he (fun _ hm => absurd hm (List.not_mem_nil _)),
            hlvl.edge x hx (hnq x) e he (fun _ hm => absurd hm (List.not_mem_nil _))⟩)
        p _ v hinv.src hp
      rw [hlvl.src, Nat.zero_add] at this
      omega

set_option maxRecDepth 100000 in
/-- Witness for C26: the graph of the test case "Dijkstra correctness" (edges `0 - 1`,
`1 - 2`, `0 - 2`, `2 - 3`) from the source 0: the tree holds `0 -> 2`, `0 -> 1` and `2 -> 3`,
so the vertex 3 is two edges away. -/
theorem bfs_layers_witness :
    (∃ r, bfs dijkstraTestGraph 0 = some (.ok r) ∧
      ∀ v, (∃ p, dijkstraTestGraph.IsPath (0 : Int).toNat v p) →
        (∃ q, r.IsPath (0 : Int).toNat v q) ∧
        ∀ q, r.IsPath (0 : Int).toNat v q →
          (∃ p, dijkstraTestGraph.IsPath (0 : Int).toNat v p ∧ p.length = q.length) ∧
          ∀ p, dijkstraTestGraph.IsPath (0 : Int).toNat v p → q.length ≤ p.length) ∧
    (bfs dijkstraTestGraph 0).map (fun r => r.map Graph.records) =
      some (.ok [⟨2, 0, 1⟩, ⟨10, 0, 2⟩, ⟨1, 2, 3⟩]) :=
  ⟨bfs_layers dijkstraTestGraph 0 (by unfold Graph.WellFormed; decide) (by decide) (by decide),
    by decide⟩

end graph

namespace graph
open Graph

/-! ## `prim`: every `decreaseKey` finds its vertex -/

theorem primRelax_inv (g0 : Graph) (hwf : g0.WellFormed) (u : Nat) (inMST : List Bool)
    (result : Graph) (hu : u < g0.adjList.length) :
    ∀ (es : List Edge) (g : Graph) (heap : MinHeap Nat), (∀ e ∈ es, e ∈ g0.edgesOf u) →
      PInv g0 g heap.data_ inMST result →
      ∃ g1 h1, primRelax u inMST es g heap = (.ok (), g1, h1) ∧
        PInv g0 g1 h1.data_ inMST result ∧ h1.data_.length = heap.data_.length := by
  intro es
  induction es with
  | nil => intro g heap _ h; exact ⟨g, heap, rfl, h, rfl⟩
  | cons e es ih =>
    intro g heap hes h
    have hes1 : ∀ e1 ∈ es, e1 ∈ g0.edgesOf u := fun e1 he1 => hes e1 (List.mem_cons_of_mem e he1)
    have hev : e ∈ g0.edgesOf u := hes e (List.mem_cons_self e es)
    obtain ⟨hvn, _⟩ := mem_edgesOf_of_wellFormed g0 hwf u e hev
    by_cases hc : (!inMST.getD e.dest false && decide (e.weight < g.distanceOf e.dest)) = true
    · have hm : inMST.getD e.dest false = false := by
        rw [Bool.and_eq_true] at hc
        simpa using hc.1
      have hmem : e.dest ∈ heap.data_ := (h.mem e.dest).2 ⟨hvn, hm⟩
      have hvg : e.dest < g.adjList.length := by rw [h.len]; exact hvn
      have hvg1 : e.dest < (g.setDistance e.dest e.weight).adjList.length := by
        rw [length_setDistance]; exact hvg
      have hperm := MinHeap.siftUp_perm
        (VertexCompare ((g.setDistance e.dest e.weight).setFather e.dest (some u)))
        heap.data_ (heap.data_.indexOf e.dest)
      have h1 : PInv g0 ((g.setDistance e.dest e.weight).setFather e.dest (some u))
          (heap.decreaseKey
            (VertexCompare ((g.setDistance e.dest e.weight).setFather e.dest (some u)))
            e.dest).2.data_ inMST result := by
        rw [MinHeap.decreaseKey_of_mem _ _ _ hmem]
        exact
          { len := by rw [length_setFather, length_setDistance]; exact h.len
            edges := by
              intro i
              rw [edgesOf_setFather, edgesOf_setDistance]
              exact h.edges i
            mlen := h.mlen
            rlen := h.rlen
            nodup := hperm.nodup_iff.2 h.nodup
            mem := by
              intro v
              show v ∈ MinHeap.siftUp _ heap.data_ _ ↔ _
              rw [hperm.mem_iff]
              exact h.mem v
            father := by
              intro v p hp
              by_cases hv : v = e.dest
              · rw [hv, fatherOf_setFather_self _ _ _ hvg1] at hp
                rw [← Option.some.inj hp]
                exact hu
              · rw [fatherOf_setFather_ne _ _ _ _ hv, fatherOf_setDistance] at hp
                exact h.father v p hp
            fpos := by
              intro hpos v p hp
              by_cases hv : v = e.dest
              · rw [hv, distanceOf_setFather, distanceOf_setDistance_self _ _ _ hvg]
                exact positive_of_mem g0 hpos u e hev
              · rw [fatherOf_setFather_ne _ _ _ _ hv, fatherOf_setDistance] at hp
                rw [distanceOf_setFather, distanceOf_setDistance_ne _ _ _ _ hv]
                exact h.fpos hpos v p hp }
      obtain ⟨g2, h2, hr, hinv, hl⟩ := ih _ _ hes1 h1
      refine ⟨g2, h2, ?_, hinv, ?_⟩
      · rw [primRelax]
        simp only [hc, if_true]
        rw [MinHeap.decreaseKey_of_mem _ _ _ hmem] at hr ⊢
        exact hr
      · rw [hl, MinHeap.decreaseKey_of_mem _ _ _ hmem]
        exact hperm.length_eq
    · obtain ⟨g2, h2, hr, hinv, hl⟩ := ih g heap hes1 h
      refine ⟨g2, h2, ?_, hinv, hl⟩
      rw [primRelax]
      simp only [hc]
      exact hr

/-- The main loop of `prim` ends, never with the error of the heap; with positive weights it
ends normally. -/
theorem primLoop_inv (g0 : Graph) (hwf : g0.WellFormed) :
    ∀ (fuel : Nat) (g : Graph) (heap : MinHeap Nat) (inMST : List Bool) (result : Graph),
      heap.data_.length < fuel → PInv g0 g heap.data_ inMST result →
      ∃ res, primLoop fuel g heap inMST result = some res ∧ res.1 ≠ .error .runtime_error ∧
        (g0.Positive → res.1 = .ok ()) := by
  intro fuel
  induction fuel with
  | zero => intro g heap inMST result hf _; omega
  | succ fuel ih =>
    intro g heap inMST result hf h
    rw [primLoop]
    cases hd : heap.data_ with
    | nil =>
      have he : heap.isEmpty = true := by simp [MinHeap.isEmpty, MinHeap.size, hd]
      rw [if_pos he]
      exact ⟨_, rfl, by simp, fun _ => rfl⟩
    | cons root rest =>
      have he : ¬ heap.isEmpty = true := by simp [MinHeap.isEmpty, MinHeap.size, hd]
      rw [if_neg he]
      obtain ⟨hx1, hperm, -, -⟩ :=
        MinHeap.extractMin_cons g.distanceOf (VertexCompare g) (vertexCompare_eq g) heap root
          rest hd
      have hsplit : heap.extractMin (VertexCompare g) =
          (.ok root, (heap.extractMin (VertexCompare g)).2) := by
        rw [← hx1]
      have hrootmem : root ∈ heap.data_ := by rw [hd]; exact List.mem_cons_self _ _
      obtain ⟨hrn, hrv⟩ := (h.mem root).1 hrootmem
      have hnd : (root :: rest).Nodup := hd ▸ h.nodup
      have hvl : root < inMST.length := by rw [h.mlen]; exact hrn
      rw [hsplit]
      simp only [hrv, Bool.false_eq_true, if_false]
      -- the state after the flag of `root` is set, for any result graph of the right size
      have hnext : ∀ r1 : Graph, r1.adjList.length = g0.adjList.length →
          PInv g0 g (heap.extractMin (VertexCompare g)).2.data_ (inMST.set root true) r1 := by
        intro r1 hr1
        exact
          { len := h.len
            edges := h.edges
            mlen := by rw [List.length_set]; exact h.mlen
            rlen := hr1
            nodup := hperm.nodup_iff.2 (List.nodup_cons.1 hnd).2
            mem := by
              intro x
              rw [hperm.mem_iff, getD_set_true _ _ _ hvl]
              have hm := h.mem x
              rw [hd] at hm
              constructor
              · intro hx
                have hxr : x ≠ root := by
                  intro hc
                  rw [hc] at hx
                  exact (List.nodup_cons.1 hnd).1 hx
                rw [if_neg hxr]
                exact hm.1 (List.mem_cons_of_mem _ hx)
              · rintro ⟨hxn, hxv⟩
                by_cases hxr : x = root
                · rw [if_pos hxr] at hxv
                  exact absurd hxv (by simp)
                · rw [if_neg hxr] at hxv
                  rcases List.mem_cons.1 (hm.2 ⟨hxn, hxv⟩) with h1 | h1
                  · exact absurd h1 hxr
                  · exact h1
            father := h.father
            fpos := h.fpos }
      have hcont : ∀ r1 : Graph, r1.adjList.length = g0.adjList.length →
          ∃ res, (match primRelax root (inMST.set root true) (g.edgesOf root) g
              (heap.extractMin (VertexCompare g)).2 with
            | (.error err, g1, _) => some (.error err, g1, r1)
            | (.ok (), g1, h2) => primLoop fuel g1 h2 (inMST.set root true) r1) = some res ∧
            res.1 ≠ .error .runtime_error ∧ (g0.Positive → res.1 = .ok ()) := by
        intro r1 hr1
        obtain ⟨g1, h2, hr, hinv, hl⟩ := primRelax_inv g0 hwf root (inMST.set root true) r1 hrn
          (g.edgesOf root) g (heap.extractMin (VertexCompare g)).2
          (fun e he => by rw [← h.edges root]; exact he) (hnext r1 hr1)
        rw [hr]
        simp only
        refine ih g1 h2 _ r1 ?_ hinv
        rw [hl, hperm.length_eq]
        rw [hd] at hf
        simp only [List.length_cons] at hf
        omega
      cases hfa : g.fatherOf root with
      | none =>
        simp only
        exact hcont result h.rlen
      | some f =>
        simp only
        have hfn := h.father root f hfa
        by_cases hw : 0 < g.distanceOf root
        · have hadd := addEdge_ok result (f : Int) (root : Int) (g.distanceOf root)
            (by omega) (by unfold Graph.numVertices; rw [h.rlen]; omega) (by omega)
            (by unfold Graph.numVertices; rw [h.rlen]; omega) hw
          have hpair : result.addEdge (f : Int) (root : Int) (g.distanceOf root) =
              (.ok (), (result.addEdge (f : Int) (root : Int) (g.distanceOf root)).2) := by
            rw [hadd]
          rw [hpair]
          simp only
          exact hcont _ (by rw [length_addEdge]; exact h.rlen)
        · have hadd := addEdge_bad_weight result (f : Int) (root : Int) (g.distanceOf root)
            (by omega) (by unfold Graph.numVertices; rw [h.rlen]; omega) (by omega)
            (by unfold Graph.numVertices; rw [h.rlen]; omega) (by omega)
          rw [hadd]
          simp only
          refine ⟨_, rfl, by simp, ?_⟩
          intro hpos
          exact absurd (h.fpos hpos root f hfa) hw

/-- The run of `prim` on a graph with at least one vertex: it ends, never with the error of
the heap, and normally when all weights are positive. -/
theorem prim_run (g : Graph) (hwf : g.WellFormed) (hn : 0 < g.adjList.length) :
    ∃ res g', prim g = some (res, g') ∧ res ≠ .error .runtime_error ∧
      (g.Positive → ∃ r, res = .ok r) := by
  obtain ⟨hl1, he1, hd1, hf1⟩ := resetScratch_spec (List.range g.adjList.length) g
  have hord0 : MinHeap.HeapOrdered (VertexCompare (resetScratch g (List.range g.adjList.length)))
      (MinHeap.empty : MinHeap Nat).data_ := MinHeap.heapOrdered_nil _
  obtain ⟨hp2, -⟩ := insertAll_spec (resetScratch g (List.range g.adjList.length))
    (List.range g.adjList.length) MinHeap.empty hord0
  have hp2' : (insertAll (resetScratch g (List.range g.adjList.length))
      (List.range g.adjList.length) MinHeap.empty).data_.Perm (List.range g.adjList.length) := by
    simpa [MinHeap.empty] using hp2
  have hmem : 0 ∈ (insertAll (resetScratch g (List.range g.adjList.length))
      (List.range g.adjList.length) MinHeap.empty).data_ := by
    rw [hp2'.mem_iff, List.mem_range]
    exact hn
  have hperm3 := MinHeap.siftUp_perm
    (VertexCompare ((resetScratch g (List.range g.adjList.length)).setDistance 0 0))
    (insertAll (resetScratch g (List.range g.adjList.length))
      (List.range g.adjList.length) MinHeap.empty).data_
    ((insertAll (resetScratch g (List.range g.adjList.length))
      (List.range g.adjList.length) MinHeap.empty).data_.indexOf 0)
  have hdk := MinHeap.decreaseKey_of_mem
    (VertexCompare ((resetScratch g (List.range g.adjList.length)).setDistance 0 0)) _ 0 hmem
  have inv : PInv g ((resetScratch g (List.range g.adjList.length)).setDistance 0 0)
      ((insertAll (resetScratch g (List.range g.adjList.length))
        (List.range g.adjList.length) MinHeap.empty).decreaseKey
        (VertexCompare ((resetScratch g (List.range g.adjList.length)).setDistance 0 0))
        0).2.data_
      (List.replicate g.adjList.length false)
      ⟨(List.range g.adjList.length).map fun (i : Nat) => Vertex.new (i : Int)⟩ := by
    rw [hdk]
    exact
      { len := by rw [length_setDistance, hl1]
        edges := by
          intro i
          rw [edgesOf_setDistance, he1]
        mlen := by simp
        rlen := by simp
        nodup := hperm3.nodup_iff.2 (hp2'.nodup_iff.2 (List.nodup_range _))
        mem := by
          intro v
          simp only
          rw [hperm3.mem_iff, hp2'.mem_iff, List.mem_range, getD_replicate_false]
          simp
        father := by
          intro v p hp
          rw [fatherOf_setDistance] at hp
          by_cases hv : v < g.adjList.length
          · rw [hf1 v (List.mem_range.2 hv)] at hp
            exact absurd hp (by simp)
          · rw [fatherOf_of_le _ _ (by rw [hl1]; omega)] at hp
            exact absurd hp (by simp)
        fpos := by
          intro _ v p hp
          rw [fatherOf_setDistance] at hp
          by_cases hv : v < g.adjList.length
          · rw [hf1 v (List.mem_range.2 hv)] at hp
            exact absurd hp (by simp)
          · rw [fatherOf_of_le _ _ (by rw [hl1]; omega)] at hp
            exact absurd hp (by simp) }
  have hflen : ((insertAll (resetScratch g (List.range g.adjList.length))
        (List.range g.adjList.length) MinHeap.empty).decreaseKey
        (VertexCompare ((resetScratch g (List.range g.adjList.length)).setDistance 0 0))
        0).2.data_.length < g.adjList.length + 1 := by
    rw [hdk]
    simp only
    rw [hperm3.length_eq, hp2'.length_eq, List.length_range]
    omega
  obtain ⟨res, hloop, hne, hpos⟩ := primLoop_inv g hwf (g.adjList.length + 1) _ _ _ _ hflen inv
  have hsplit : (insertAll (resetScratch g (List.range g.adjList.length))
        (List.range g.adjList.length) MinHeap.empty).decreaseKey
        (VertexCompare ((resetScratch g (List.range g.adjList.length)).setDistance 0 0)) 0 =
      (.ok (), ((insertAll (resetScratch g (List.range g.adjList.length))
        (List.range g.adjList.length) MinHeap.empty).decreaseKey
        (VertexCompare ((resetScratch g (List.range g.adjList.length)).setDistance 0 0))
        0).2) := by
    rw [hdk]
  obtain ⟨r1, g3, r⟩ := res
  cases r1 with
  | error err =>
    have hprim : prim g = some (.error err, g3) := by
      unfold prim
      rw [if_neg (by omega)]
      simp only
      split
      · next err h heq =>
        rw [hsplit] at heq
        exact absurd (congrArg Prod.fst heq) (by simp)
      · next heap1 heq =>
        have h1 : heap1 = ((insertAll (resetScratch g (List.range g.adjList.length))
            (List.range g.adjList.length) MinHeap.empty).decreaseKey
            (VertexCompare ((resetScratch g (List.range g.adjList.length)).setDistance 0 0))
            0).2 := by
          rw [heq]
        subst h1
        simp only [new_ofNat, hloop]
    refine ⟨.error err, g3, hprim, ?_, ?_⟩
    · intro hc
      apply hne
      show Except.error err = Except.error Err.runtime_error
      rw [Except.error.inj hc]
    · intro hp
      exact absurd (hpos hp) (by simp)
  | ok u =>
    have hprim : prim g = some (.ok r, g3) := by
      unfold prim
      rw [if_neg (by omega)]
      simp only
      split
      · next err h heq =>
        rw [hsplit] at heq
        exact absurd (congrArg Prod.fst heq) (by simp)
      · next heap1 heq =>
        have h1 : heap1 = ((insertAll (resetScratch g (List.range g.adjList.length))
            (List.range g.adjList.length) MinHeap.empty).decreaseKey
            (VertexCompare ((resetScratch g (List.range g.adjList.length)).setDistance 0 0))
            0).2 := by
          rw [heq]
        subst h1
        simp only [new_ofNat, hloop]
    exact ⟨.ok r, g3, hprim, by simp, fun _ => ⟨r, rfl⟩⟩

end graph

namespace graph
open Graph

/-! ## The father pointers of `dijkstra` -/

/-- One relaxation keeps the description of the father pointers. -/
theorem relaxEdge_father (g0 : Graph) (s : Nat) (g : Graph) (heap : MinHeap Nat)
    (visited : List Bool) (u : Nat) (e : Edge) (es : List Edge)
    (hwf : g0.WellFormed) (hnn : g0.NonNegative) (hno : NoOverflow g0 s)
    (hu : visited.getD u false = true) (he : e ∈ g0.edgesOf u)
    (inv : DInv g0 s g heap.data_ visited u (e :: es)) (finv : FInv g0 s g visited) :
    FInv g0 s (relaxEdge g heap u e).2.1 visited := by
  have hvn : e.dest < g0.adjList.length := (mem_edgesOf_of_wellFormed g0 hwf u e he).1
  have hmin := inv.done u hu
  have hd0 := isMinDist_nonneg g0 hnn s u _ hmin
  have hw0 := weight_nonneg_of_mem g0 hnn u e he
  have hov := hno u _ hmin e he
  have halt : wrapInt (g.distanceOf u + e.weight) = g.distanceOf u + e.weight := by
    apply wrapInt_eq
    · omega
    · unfold INT_MAX at hov; omega
  unfold relaxEdge
  simp only [halt]
  by_cases hlt : g.distanceOf u + e.weight < g.distanceOf e.dest
  · rw [if_pos hlt]
    simp only
    have hvis : visited.getD e.dest false = false := by
      by_contra hc
      have hc1 : visited.getD e.dest false = true := by simpa using hc
      have := inv.last e.dest hc1
      omega
    have hvl : e.dest < g.adjList.length := by rw [inv.len]; exact hvn
    have hdist : ∀ x, ((g.setDistance e.dest (g.distanceOf u + e.weight)).setFather e.dest
        (some u)).distanceOf x = if x = e.dest then g.distanceOf u + e.weight
          else g.distanceOf x := by
      intro x
      rw [distanceOf_setFather]
      by_cases hx : x = e.dest
      · rw [if_pos hx, hx, distanceOf_setDistance_self _ _ _ hvl]
      · rw [if_neg hx, distanceOf_setDistance_ne _ _ _ _ hx]
    have hdvis : ∀ x, visited.getD x false = true →
        ((g.setDistance e.dest (g.distanceOf u + e.weight)).setFather e.dest
          (some u)).distanceOf x = g.distanceOf x := by
      intro x hx
      rw [hdist, if_neg]
      intro hxe
      rw [hxe, hvis] at hx
      exact absurd hx (by simp)
    have hse : s ≠ e.dest := by
      intro hse
      rw [← hse, inv.src] at hlt
      omega
    refine
      { link := ?_
        src := ?_
        has := ?_ }
    · intro v p hp
      by_cases hve : v = e.dest
      · rw [hve, fatherOf_setFather_self _ _ _ (by rw [length_setDistance]; exact hvl)] at hp
        injection hp with hp
        subst hp
        refine ⟨hu, e, he, hve.symm, ?_⟩
        rw [hdvis u hu, hdist, if_pos hve]
      · rw [fatherOf_setFather_ne _ _ _ _ hve, fatherOf_setDistance] at hp
        obtain ⟨hpv, e1, he1, hd1, hw1⟩ := finv.link v p hp
        refine ⟨hpv, e1, he1, hd1, ?_⟩
        rw [hdvis p hpv, hdist, if_neg hve]
        exact hw1
    · rw [fatherOf_setFather_ne _ _ _ _ hse, fatherOf_setDistance]
      exact finv.src
    · intro v hv hvs hd
      by_cases hve : v = e.dest
      · refine ⟨u, ?_⟩
        rw [hve, fatherOf_setFather_self _ _ _ (by rw [length_setDistance]; exact hvl)]
      · rw [fatherOf_setFather_ne _ _ _ _ hve, fatherOf_setDistance]
        rw [hdist, if_neg hve] at hd
        exact finv.has v hv hvs hd
  · rw [if_neg hlt]
    exact finv

/-- The relaxation loop over the records of the extracted vertex keeps both invariants. -/
theorem relaxAll_tree (g0 : Graph) (s : Nat) (visited : List Bool) (u : Nat)
    (hwf : g0.WellFormed) (hnn : g0.NonNegative) (hno : NoOverflow g0 s)
    (hu : visited.getD u false = true) (es : List Edge) (g : Graph) (heap : MinHeap Nat)
    (hsub : ∀ e ∈ es, e ∈ g0.edgesOf u)
    (inv : DInv g0 s g heap.data_ visited u es) (finv : FInv g0 s g visited) :
    ∃ g1 h1, relaxAll u es g heap = (.ok (), g1, h1) ∧ DInv g0 s g1 h1.data_ visited u [] ∧
      h1.data_.length = heap.data_.length ∧ FInv g0 s g1 visited := by
  induction es generalizing g heap with
  | nil => exact ⟨g, heap, rfl, inv, rfl, finv⟩
  | cons e t ih =>
    have hf1 := relaxEdge_father g0 s g heap visited u e t hwf hnn hno hu
      (hsub e (List.mem_cons_self _ _)) inv finv
    obtain ⟨g1, h1, hr, inv1, hl1⟩ := relaxEdge_inv g0 s g heap visited u e t hwf hnn hno hu
      (hsub e (List.mem_cons_self _ _)) inv
    rw [hr] at hf1
    obtain ⟨g2, h2, hr2, inv2, hl2, hf2⟩ :=
      ih g1 h1 (fun x hx => hsub x (List.mem_cons_of_mem _ hx)) inv1 hf1
    refine ⟨g2, h2, ?_, inv2, hl2.trans hl1, hf2⟩
    unfold relaxAll
    rw [hr]
    exact hr2

/-- Extracting the minimum `root` of the heap: `root` was not extracted before, its distance
is final, and the state in which its records are relaxed satisfies the invariant. -/
theorem dinv_extract (g0 : Graph) (s : Nat)
    (hwf : g0.WellFormed) (hnn : g0.NonNegative) (hno : NoOverflow g0 s)
    (hs : s < g0.adjList.length)
    (hreach : ∀ v, v < g0.adjList.length → ∃ p, g0.IsPath s v p)
    (g : Graph) (heap : MinHeap Nat) (visited : List Bool) (u0 root : Nat) (rest : List Nat)
    (hd : heap.data_ = root :: rest) (inv : DInv g0 s g heap.data_ visited u0 []) :
    heap.extractMin (VertexCompare g) = (.ok root, (heap.extractMin (VertexCompare g)).2) ∧
      (heap.extractMin (VertexCompare g)).2.data_.length = rest.length ∧
      root < g0.adjList.length ∧ visited.getD root false = false ∧
      DInv g0 s g (heap.extractMin (VertexCompare g)).2.data_ (visited.set root true) root
        (g0.edgesOf root) := by
  obtain ⟨hx1, hperm, -, hx2⟩ :=
    MinHeap.extractMin_cons g.distanceOf (VertexCompare g) (vertexCompare_eq g) heap root
      rest hd
  obtain ⟨hord1, hrootmin⟩ := hx2 inv.ord
  have hrootmem : root ∈ heap.data_ := by rw [hd]; exact List.mem_cons_self _ _
  obtain ⟨hrn, hrv⟩ := (inv.mem root).1 hrootmem
  have hnd : (root :: rest).Nodup := hd ▸ inv.nodup
  have hfr := frontier g0 s g heap.data_ visited u0 hwf hnn hs inv root hrootmin
  have hle : ∀ p, g0.IsPath s root p → g.distanceOf root ≤ pathWeight p := by
    intro p hp
    rcases hfr p root hp with h | h
    · rw [hrv] at h; exact absurd h (by simp)
    · exact h
  have hmd : IsMinDist g0 s root (g.distanceOf root) := by
    refine ⟨?_, hle⟩
    rcases inv.reach root hrn with h | h
    · obtain ⟨p, hp, hlt⟩ := exists_short_path g0 hnn s root hno (hreach root hrn)
      have := hle p hp
      omega
    · exact h
  have hvl : root < visited.length := by rw [inv.vlen]; exact hrn
  have hmem1 : ∀ x, x ∈ rest ↔
      (x < g0.adjList.length ∧ (visited.set root true).getD x false = false) := by
    intro x
    rw [getD_set_true _ _ _ hvl]
    have hm := inv.mem x
    rw [hd] at hm
    constructor
    · intro hx
      have hxr : x ≠ root := fun h => (List.nodup_cons.1 hnd).1 (h ▸ hx)
      rw [if_neg hxr]
      exact hm.1 (List.mem_cons_of_mem _ hx)
    · rintro ⟨hxn, hxv⟩
      by_cases hxr : x = root
      · rw [if_pos hxr] at hxv
        exact absurd hxv (by simp)
      · rw [if_neg hxr] at hxv
        rcases List.mem_cons.1 (hm.2 ⟨hxn, hxv⟩) with h | h
        · exact absurd h hxr
        · exact h
  refine ⟨by rw [← hx1], hperm.length_eq, hrn, hrv, ?_⟩
  exact
    { len := inv.len
      edges := inv.edges
      vlen := by rw [List.length_set]; exact inv.vlen
      nodup := hperm.nodup_iff.2 (List.nodup_cons.1 hnd).2
      mem := fun x => by rw [hperm.mem_iff]; exact hmem1 x
      ord := hord1
      src := inv.src
      reach := inv.reach
      done := by
        intro x hx
        rw [getD_set_true _ _ _ hvl] at hx
        by_cases hxr : x = root
        · rw [hxr]; exact hmd
        · rw [if_neg hxr] at hx
          exact inv.done x hx
      relaxed := by
        intro x hx e he1 hpend
        rw [getD_set_true _ _ _ hvl] at hx
        by_cases hxr : x = root
        · rw [hxr] at he1
          exact absurd he1 (hpend hxr)
        · rw [if_neg hxr] at hx
          exact inv.relaxed x hx e he1 (fun _ => by simp)
      mono := by
        intro x y hx hy hyv
        rw [getD_set_true _ _ _ hvl] at hx hyv
        by_cases hyr : y = root
        · rw [if_pos hyr] at hyv
          exact absurd hyv (by simp)
        · rw [if_neg hyr] at hyv
          by_cases hxr : x = root
          · rw [hxr]
            exact hrootmin y ((inv.mem y).2 ⟨hy, hyv⟩)
          · rw [if_neg hxr] at hx
            exact inv.mono x y hx hy hyv
      last := by
        intro x hx
        rw [getD_set_true _ _ _ hvl] at hx
        by_cases hxr : x = root
        · rw [hxr]
        · rw [if_neg hxr] at hx
          exact inv.mono x root hx hrn hrv
      father := inv.father }

/-- Flagging one more vertex keeps the description of the father pointers. -/
theorem finv_flag (g0 : Graph) (s : Nat) (g : Graph) (visited : List Bool) (root : Nat)
    (hvl : root < visited.length) (finv : FInv g0 s g visited) :
    FInv g0 s g (visited.set root true) :=
  { link := by
      intro v p hp
      obtain ⟨h1, h2⟩ := finv.link v p hp
      refine ⟨?_, h2⟩
      rw [getD_set_true _ _ _ hvl]
      split
      · rfl
      · exact h1
    src := finv.src
    has := finv.has }

/-- The main loop of `dijkstra` returns normally; afterwards every distance is a minimum path
weight and the father pointers are described by `FInv`. -/
theorem dijkstraLoop_tree (g0 : Graph) (s : Nat)
    (hwf : g0.WellFormed) (hnn : g0.NonNegative) (hno : NoOverflow g0 s)
    (hs : s < g0.adjList.length)
    (hreach : ∀ v, v < g0.adjList.length → ∃ p, g0.IsPath s v p)
    (fuel : Nat) (g : Graph) (heap : MinHeap Nat) (visited : List Bool) (u0 : Nat)
    (hf : heap.data_.length < fuel) (inv : DInv g0 s g heap.data_ visited u0 [])
    (finv : FInv g0 s g visited) :
    ∃ g1 visited1, dijkstraLoop fuel g heap visited = some (.ok (), g1) ∧
      (∀ v, v < g0.adjList.length → IsMinDist g0 s v (g1.distanceOf v)) ∧
      g1.adjList.length = g0.adjList.length ∧
      (∀ v p, g1.fatherOf v = some p → p < g0.adjList.length) ∧
      FInv g0 s g1 visited1 := by
  induction fuel generalizing g heap visited u0 with
  | zero => omega
  | succ f ih =>
    unfold dijkstraLoop
    cases hd : heap.data_ with
    | nil =>
      have he : heap.isEmpty = true := by simp [MinHeap.isEmpty, MinHeap.size, hd]
      rw [if_pos he]
      refine ⟨g, visited, rfl, ?_, inv.len, inv.father, finv⟩
      intro v hv
      apply inv.done
      by_contra hc
      have hc1 : visited.getD v false = false := by simpa using hc
      have := (inv.mem v).2 ⟨hv, hc1⟩
      rw [hd] at this
      exact absurd this (by simp)
    | cons root rest =>
      have he : ¬ heap.isEmpty = true := by simp [MinHeap.isEmpty, MinHeap.size, hd]
      rw [if_neg he]
      obtain ⟨hsplit, hlen1, hrn, hrv, inv1⟩ :=
        dinv_extract g0 s hwf hnn hno hs hreach g heap visited u0 root rest hd inv
      have hvl : root < visited.length := by rw [inv.vlen]; exact hrn
      have hu1 : (visited.set root true).getD root false = true := by
        rw [getD_set_true _ _ _ hvl, if_pos rfl]
      obtain ⟨g1, h2, hr, inv2, hl2, finv2⟩ :=
        relaxAll_tree g0 s (visited.set root true) root hwf hnn hno hu1 (g0.edgesOf root) g
          (heap.extractMin (VertexCompare g)).2 (fun _ h => h) inv1
          (finv_flag g0 s g visited root hvl finv)
      have hlen : h2.data_.length < f := by
        rw [hl2, hlen1]
        rw [hd] at hf
        simp at hf
        omega
      obtain ⟨g2, v2, hg2, hres⟩ := ih g1 h2 (visited.set root true) root hlen inv2 finv2
      refine ⟨g2, v2, ?_, hres⟩
      rw [hsplit]
      simp only
      rw [hrv, inv.edges root]
      simp only [Bool.false_eq_true, if_false]
      rw [hr]
      exact hg2

end graph

namespace graph
open Graph

/-! ## The result graph of `dijkstra` -/

/-- The last loop of `dijkstra` adds exactly the records `treeRecord g i` of the vertices `i`
it runs over, each to the adjacency list of its source. -/
theorem buildTree_records (g : Graph) (n : Nat) (hf : ∀ v p, g.fatherOf v = some p → p < n)
    (is : List Nat) (result : Graph) (his : ∀ i ∈ is, i < n)
    (hr : result.adjList.length = n)
    (hsrc : ∀ a, ∀ e ∈ result.edgesOf a, e.src = a) :
    ∃ r, buildTree g is result = (.ok (), r) ∧ r.adjList.length = n ∧
      r.records.Perm (is.filterMap (treeRecord g) ++ result.records) ∧
      ∀ a, ∀ e ∈ r.edgesOf a, e.src = a := by
  induction is generalizing result with
  | nil => exact ⟨result, rfl, hr, by simp, hsrc⟩
  | cons i t ih =>
    unfold buildTree
    cases hfi : g.fatherOf i with
    | none =>
      simp only
      obtain ⟨r, h1, h2, h3, h4⟩ :=
        ih result (fun x hx => his x (List.mem_cons_of_mem _ hx)) hr hsrc
      refine ⟨r, h1, h2, ?_, h4⟩
      have hnone : treeRecord g i = none := by
        unfold treeRecord
        rw [hfi]
        rfl
      rw [List.filterMap_cons_none hnone]
      exact h3
    | some p =>
      simp only
      have hp := hf i p hfi
      have hi := his i (List.mem_cons_self _ _)
      rw [addDirectedEdge_nat result p i _ (by omega) (by omega)]
      simp only
      have hsrc1 : ∀ a, ∀ e ∈ (result.setEdges p
          (⟨wrapInt (g.distanceOf i - g.distanceOf p), p, i⟩ :: result.edgesOf p)).edgesOf a,
          e.src = a := by
        intro a e he
        by_cases hap : a = p
        · rw [hap, edgesOf_setEdges_self _ _ _ (by omega)] at he
          rcases List.mem_cons.1 he with h | h
          · rw [h, hap]
          · rw [hap]
            exact hsrc p e h
        · rw [edgesOf_setEdges_ne _ _ _ _ hap] at he
          exact hsrc a e he
      obtain ⟨r, h1, h2, h3, h4⟩ :=
        ih _ (fun x hx => his x (List.mem_cons_of_mem _ hx))
          (by rw [length_setEdges]; exact hr) hsrc1
      refine ⟨r, h1, h2, ?_, h4⟩
      have hsome : treeRecord g i =
          some ⟨wrapInt (g.distanceOf i - g.distanceOf p), p, i⟩ := by
        unfold treeRecord
        rw [hfi]
        rfl
      rw [List.filterMap_cons_some hsome]
      refine h3.trans ?_
      refine (List.Perm.append_left _
        (records_setEdges_cons result p _ (by omega))).trans ?_
      exact List.perm_middle

theorem filterMap_dest_nil (f : Nat → Option Edge)
    (hdest : ∀ j r, f j = some r → r.dest = j) (l : List Nat) (i : Nat) (hi : i ∉ l) :
    (l.filterMap f).filter (fun x => decide (x.dest = i)) = [] := by
  rw [List.filter_eq_nil_iff]
  intro x hx
  rw [List.mem_filterMap] at hx
  obtain ⟨j, hj, hfj⟩ := hx
  have := hdest j x hfj
  simp only [decide_eq_true_eq]
  intro hc
  exact hi (by rw [← hc, this]; exact hj)

theorem filterMap_dest_single (f : Nat → Option Edge)
    (hdest : ∀ j r, f j = some r → r.dest = j) (i : Nat) (r : Edge) (hfi : f i = some r) :
    ∀ l : List Nat, l.Nodup → i ∈ l →
      (l.filterMap f).filter (fun x => decide (x.dest = i)) = [r] := by
  intro l
  induction l with
  | nil => intro _ h; exact absurd h (by simp)
  | cons a t ih =>
    intro hnd hm
    obtain ⟨hat, hnt⟩ := List.nodup_cons.1 hnd
    by_cases hai : a = i
    · rw [hai] at hat ⊢
      rw [List.filterMap_cons_some hfi, List.filter_cons_of_pos (by
        simp only [decide_eq_true_eq]
        exact hdest i r hfi), filterMap_dest_nil f hdest t i hat]
    · have hit : i ∈ t := by
        rcases List.mem_cons.1 hm with h | h
        · exact absurd h.symm hai
        · exact h
      cases hfa : f a with
      | none =>
        rw [List.filterMap_cons_none hfa]
        exact ih hnt hit
      | some x =>
        rw [List.filterMap_cons_some hfa, List.filter_cons_of_neg (by
          simp only [decide_eq_true_eq]
          rw [hdest a x hfa]
          exact hai)]
        exact ih hnt hit

theorem length_filterMap_all {β : Type} (f : Nat → Option β) (l : List Nat)
    (h : ∀ i ∈ l, ∃ r, f i = some r) : (l.filterMap f).length = l.length := by
  induction l with
  | nil => rfl
  | cons a t ih =>
    obtain ⟨r, hr⟩ := h a (List.mem_cons_self _ _)
    rw [List.filterMap_cons_some hr, List.length_cons, List.length_cons,
      ih (fun i hi => h i (List.mem_cons_of_mem _ hi))]

theorem length_filterMap_but_one {β : Type} (f : Nat → Option β) (s : Nat) (hfs : f s = none) :
    ∀ l : List Nat, l.Nodup → s ∈ l → (∀ i ∈ l, i ≠ s → ∃ r, f i = some r) →
      (l.filterMap f).length + 1 = l.length := by
  intro l
  induction l with
  | nil => intro _ h; exact absurd h (by simp)
  | cons a t ih =>
    intro hnd hm h
    obtain ⟨hat, hnt⟩ := List.nodup_cons.1 hnd
    by_cases has : a = s
    · rw [has] at hat ⊢
      rw [List.filterMap_cons_none hfs, List.length_cons,
        length_filterMap_all f t (fun i hi => h i (List.mem_cons_of_mem _ hi)
          (fun hc => hat (hc ▸ hi)))]
    · have hst : s ∈ t := by
        rcases List.mem_cons.1 hm with h1 | h1
        · exact absurd h1.symm has
        · exact h1
      obtain ⟨r, hr⟩ := h a (List.mem_cons_self _ _) has
      rw [List.filterMap_cons_some hr, List.length_cons, List.length_cons,
        ih hnt hst (fun i hi => h i (List.mem_cons_of_mem _ hi))]

/-- The state in which `dijkstra` enters its main loop. -/
theorem dijkstra_init (g : Graph) (s : Nat) (hsl : s < g.adjList.length) :
    (insertAll (resetScratch g (List.range g.adjList.length))
        (List.range g.adjList.length) MinHeap.empty).decreaseKey
        (VertexCompare ((resetScratch g (List.range g.adjList.length)).setDistance s 0)) s =
      (.ok (), ((insertAll (resetScratch g (List.range g.adjList.length))
        (List.range g.adjList.length) MinHeap.empty).decreaseKey
        (VertexCompare ((resetScratch g (List.range g.adjList.length)).setDistance s 0))
        s).2) ∧
    ((insertAll (resetScratch g (List.range g.adjList.length))
        (List.range g.adjList.length) MinHeap.empty).decreaseKey
        (VertexCompare ((resetScratch g (List.range g.adjList.length)).setDistance s 0))
        s).2.data_.length < g.adjList.length + 1 ∧
    DInv g s ((resetScratch g (List.range g.adjList.length)).setDistance s 0)
      ((insertAll (resetScratch g (List.range g.adjList.length))
        (List.range g.adjList.length) MinHeap.empty).decreaseKey
        (VertexCompare ((resetScratch g (List.range g.adjList.length)).setDistance s 0))
        s).2.data_
      (List.replicate g.adjList.length false) 0 [] ∧
    FInv g s ((resetScratch g (List.range g.adjList.length)).setDistance s 0)
      (List.replicate g.adjList.length false) := by
  obtain ⟨hl1, he1, hd1, hf1⟩ := resetScratch_spec (List.range g.adjList.length) g
  have hord0 : MinHeap.HeapOrdered (VertexCompare (resetScratch g (List.range g.adjList.length)))
      (MinHeap.empty : MinHeap Nat).data_ := by
    intro j x y _ hx
    exact absurd hx (by simp [MinHeap.empty])
  obtain ⟨hp2, ho2⟩ := insertAll_spec (resetScratch g (List.range g.adjList.length))
    (List.range g.adjList.length) MinHeap.empty hord0
  have hp2a : (insertAll (resetScratch g (List.range g.adjList.length))
      (List.range g.adjList.length) MinHeap.empty).data_.Perm (List.range g.adjList.length) := by
    simpa [MinHeap.empty] using hp2
  have hmem : s ∈ (insertAll (resetScratch g (List.range g.adjList.length))
      (List.range g.adjList.length) MinHeap.empty).data_ := by
    rw [hp2a.mem_iff, List.mem_range]
    exact hsl
  have hnd : (insertAll (resetScratch g (List.range g.adjList.length))
      (List.range g.adjList.length) MinHeap.empty).data_.Nodup :=
    hp2a.nodup_iff.2 (List.nodup_range _)
  have hsl1 : s < (resetScratch g (List.range g.adjList.length)).adjList.length := by
    rw [hl1]; exact hsl
  have hperm3 := MinHeap.siftUp_perm
    (VertexCompare ((resetScratch g (List.range g.adjList.length)).setDistance s 0))
    (insertAll (resetScratch g (List.range g.adjList.length))
      (List.range g.adjList.length) MinHeap.empty).data_
    ((insertAll (resetScratch g (List.range g.adjList.length))
      (List.range g.adjList.length) MinHeap.empty).data_.indexOf s)
  have hnofather : ∀ v,
      ((resetScratch g (List.range g.adjList.length)).setDistance s 0).fatherOf v = none := by
    intro v
    rw [fatherOf_setDistance]
    by_cases hv : v < g.adjList.length
    · exact hf1 v (List.mem_range.2 hv)
    · exact fatherOf_of_le _ _ (by rw [hl1]; omega)
  rw [MinHeap.decreaseKey_of_mem _ _ _ hmem]
  refine ⟨rfl, ?_, ?_, ?_⟩
  · simp only
    rw [hperm3.length_eq, hp2a.length_eq, List.length_range]
    omega
  · exact
      { len := by rw [length_setDistance, hl1]
        edges := by
          intro i
          rw [edgesOf_setDistance, he1]
        vlen := by simp
        nodup := hperm3.nodup_iff.2 hnd
        mem := by
          intro v
          simp only
          rw [hperm3.mem_iff, hp2a.mem_iff, List.mem_range, getD_replicate_false]
          simp
        ord := by
          apply MinHeap.siftUp_heapOrdered _ _ (vertexCompare_eq _) _ _
            (List.indexOf_lt_length.2 hmem)
          apply MinHeap.almostUp_of_key_decrease
            (resetScratch g (List.range g.adjList.length)).distanceOf _ _ _ hnd hmem
          · intro x hx
            rw [distanceOf_setDistance_ne _ _ _ _ hx]
          · rw [distanceOf_setDistance_self _ _ _ hsl1, hd1 _ hsl (List.mem_range.2 hsl)]
            decide
          · exact (MinHeap.heapOrdered_iff_ordAt _ _ (vertexCompare_eq _) _).1 ho2
        src := distanceOf_setDistance_self _ _ _ hsl1
        reach := by
          intro v hv
          by_cases hvs : v = s
          · right
            refine ⟨[], by simp [Graph.IsPath, hvs], ?_⟩
            rw [hvs, distanceOf_setDistance_self _ _ _ hsl1]
            rfl
          · left
            rw [distanceOf_setDistance_ne _ _ _ _ hvs]
            exact hd1 v hv (List.mem_range.2 hv)
        done := by
          intro x hx
          rw [getD_replicate_false] at hx
          exact absurd hx (by simp)
        relaxed := by
          intro x hx
          rw [getD_replicate_false] at hx
          exact absurd hx (by simp)
        mono := by
          intro x y hx
          rw [getD_replicate_false] at hx
          exact absurd hx (by simp)
        last := by
          intro x hx
          rw [getD_replicate_false] at hx
          exact absurd hx (by simp)
        father := by
          intro v p hp
          rw [hnofather v] at hp
          exact absurd hp (by simp) }
  · exact
      { link := by
          intro v p hp
          rw [hnofather v] at hp
          exact absurd hp (by simp)
        src := hnofather s
        has := by
          intro v hv hvs hd
          rw [distanceOf_setDistance_ne _ _ _ _ hvs] at hd
          exact absurd (hd1 v hv (List.mem_range.2 hv)) hd }

end graph

namespace graph
open Graph

/-- The run of `dijkstra` on a graph with non-negative weights in which every vertex is
reachable from the source and no relaxation sum reaches `INT_MAX`: it returns a graph `r`; the
distances are minimum path weights, the source has no father, every other vertex has a father
joined to it by a record of the input graph whose weight is the difference of the two
distances, and the records of `r` are the records `treeRecord` of the vertices. -/
theorem dijkstra_tree (g : Graph) (source : Int)
    (hs0 : 0 ≤ source) (hs : source < g.numVertices)
    (hwf : g.WellFormed) (hnn : g.NonNegative)
    (hreach : ∀ v, v < g.adjList.length → ∃ p, g.IsPath source.toNat v p)
    (hno : NoOverflow g source.toNat) :
    ∃ r g', dijkstra g source = some (.ok r, g') ∧
      (∀ v, v < g.adjList.length → IsMinDist g source.toNat v (g'.distanceOf v)) ∧
      g'.fatherOf source.toNat = none ∧
      (∀ i, i < g.adjList.length → i ≠ source.toNat → ∃ p e, g'.fatherOf i = some p ∧
        p < g.adjList.length ∧ e ∈ g.edgesOf p ∧ e.dest = i ∧
        g'.distanceOf i = g'.distanceOf p + e.weight) ∧
      r.adjList.length = g.adjList.length ∧
      r.records.Perm ((List.range g.adjList.length).filterMap (treeRecord g')) ∧
      ∀ a, ∀ e ∈ r.edgesOf a, e.src = a := by
  have hsl := toNat_lt_length g source hs0 hs
  obtain ⟨hdk, hflen, inv, finv⟩ := dijkstra_init g source.toNat hsl
  obtain ⟨g3, v3, hloop, hmin, hlen3, hfa3, finv3⟩ :=
    dijkstraLoop_tree g source.toNat hwf hnn hno hsl hreach (g.adjList.length + 1) _ _ _ 0
      hflen inv finv
  obtain ⟨r, hbt, hrl, hperm, hsrc⟩ :=
    buildTree_records g3 g.adjList.length hfa3 (List.range g.adjList.length)
      ⟨(List.range g.adjList.length).map fun (i : Nat) => Vertex.new (i : Int)⟩
      (fun i hi => List.mem_range.1 hi) (by simp)
      (by
        intro a e he
        rw [edgesOf_new _ _ (new_ofNat g.adjList.length) a] at he
        exact absurd he (List.not_mem_nil _))
  refine ⟨r, g3, ?_, hmin, finv3.src, ?_, hrl, ?_, hsrc⟩
  · unfold dijkstra
    rw [if_neg (by omega)]
    simp only
    rw [hdk]
    simp only
    rw [hloop]
    simp only
    rw [new_ofNat]
    simp only
    rw [hbt]
  · intro i hi his
    obtain ⟨q, hq, hlt⟩ := exists_short_path g hnn source.toNat i hno (hreach i hi)
    have hle := (hmin i hi).2 q hq
    obtain ⟨p, hp⟩ := finv3.has i hi his (by omega)
    obtain ⟨-, e, he, hd, hw⟩ := finv3.link i p hp
    exact ⟨p, e, hp, hfa3 i p hp, he, hd, hw⟩
  · rw [records_new, List.append_nil] at hperm
    exact hperm

theorem treeRecord_dest (g : Graph) (j : Nat) (r : Edge) (h : treeRecord g j = some r) :
    r.dest = j := by
  unfold treeRecord at h
  cases hf : g.fatherOf j with
  | none =>
    rw [hf] at h
    exact absurd h (by simp)
  | some p =>
    rw [hf] at h
    simp only [Option.map_some', Option.some.injEq] at h
    rw [← h]

theorem dijkstraTestGraph_reach (v : Nat) (hv : v < dijkstraTestGraph.adjList.length) :
    ∃ p, dijkstraTestGraph.IsPath (0 : Int).toNat v p ∧ pathWeight p ≤ 11 := by
  have hv4 : v < 4 := hv
  interval_cases v
  · exact ⟨[], rfl, by decide⟩
  · exact ⟨[⟨2, 0, 1⟩], by simp [Graph.IsPath, Graph.edgesOf, dijkstraTestGraph], by decide⟩
  · exact ⟨[⟨10, 0, 2⟩], by simp [Graph.IsPath, Graph.edgesOf, dijkstraTestGraph], by decide⟩
  · exact ⟨[⟨10, 0, 2⟩, ⟨1, 2, 3⟩],
      by simp [Graph.IsPath, Graph.edgesOf, dijkstraTestGraph], by decide⟩

theorem dijkstraTestGraph_noOverflow : NoOverflow dijkstraTestGraph (0 : Int).toNat :=
  noOverflow_of_bound dijkstraTestGraph _ 10 11 (by decide) dijkstraTestGraph_reach
    (by decide)

set_option maxRecDepth 100000 in
/-- `prim` and a tree edge of weight 0: the two-vertex graph with one edge of weight 0
between the vertices 0 and 1 (built by `addDirectedEdge(0, 1, 0)` and
`addDirectedEdge(1, 0, 0)`; `addEdge` itself rejects the weight 0). All weights are non-negative, yet `prim` does not return normally: the
relaxation gives vertex 1 the father 0 and the distance 0, and when vertex 1 is extracted
`result->addEdge(0, 1, 0)` throws `invalid_argument`. -/
theorem prim_zero_weight_edge_throws :
    (((Graph.mk [Vertex.new 0, Vertex.new 1]).addDirectedEdge 0 1 0).2.addDirectedEdge 1 0 0) =
      (.ok (), Graph.mk [⟨0, [⟨0, 0, 1⟩], none, 0⟩, ⟨1, [⟨0, 1, 0⟩], none, 0⟩]) ∧
    (∀ v ∈ [(⟨0, [⟨0, 0, 1⟩], none, 0⟩ : Vertex), ⟨1, [⟨0, 1, 0⟩], none, 0⟩],
      ∀ e ∈ v.edges, 0 ≤ e.weight) ∧
    (prim (Graph.mk [⟨0, [⟨0, 0, 1⟩], none, 0⟩, ⟨1, [⟨0, 1, 0⟩], none, 0⟩])).map
        (fun r => (r.1.map Graph.records, r.2.fatherOf 1, r.2.distanceOf 1)) =
      some (.error .invalid_argument, some 0, 0) := by
  decide

/-- Runs in which every `decreaseKey` call finds its target. `decreaseKey` raises the
not-found error (`runtime_error`) exactly when its target is not stored in the heap, and that
error ends the run, so a run that does not end with `runtime_error` made every `decreaseKey`
call on a stored vertex. For a graph whose records point to its vertices:
`dijkstra(g, source)` with a valid source returns a graph when the weights are non-negative,
every vertex is reachable from the source and `NoOverflow` holds (no relaxation sum reaches
`INT_MAX`); `prim(g)` on a graph with at least one vertex never ends with the not-found
error, and it returns a graph when all weights are positive. -/
theorem dijkstra_prim_decreaseKey_found (g : Graph) (hwf : g.WellFormed) :
    (∀ source : Int, 0 ≤ source → source < g.numVertices → g.NonNegative →
      (∀ v, v < g.adjList.length → ∃ p, g.IsPath source.toNat v p) →
      NoOverflow g source.toNat →
      ∃ r g', dijkstra g source = some (.ok r, g')) ∧
    (0 < g.adjList.length →
      ∃ res g', prim g = some (res, g') ∧ res ≠ .error .runtime_error ∧
        (g.Positive → ∃ r, res = .ok r)) := by
  constructor
  · intro source hs0 hs hnn hreach hno
    obtain ⟨r, g1, h, -⟩ := dijkstra_tree g source hs0 hs hwf hnn hreach hno
    exact ⟨r, g1, h⟩
  · intro hn
    exact prim_run g hwf hn

theorem dijkstra_prim_decreaseKey_found_witness :
    (∃ r g', dijkstra dijkstraTestGraph 0 = some (.ok r, g')) ∧
    (∃ res g', prim dijkstraTestGraph = some (res, g') ∧ res ≠ .error .runtime_error ∧
      ∃ r, res = .ok r) :=
  have h := dijkstra_prim_decreaseKey_found dijkstraTestGraph
    (by unfold Graph.WellFormed; decide)
  ⟨h.1 0 (by decide) (by decide) (by unfold Graph.NonNegative; decide)
      (fun v hv => (dijkstraTestGraph_reach v hv).imp fun _ hp => hp.1)
      dijkstraTestGraph_noOverflow,
    (h.2 (by decide)).imp fun _ h1 => h1.imp fun _ h2 =>
      ⟨h2.1, h2.2.1, h2.2.2 (by unfold Graph.Positive; decide)⟩⟩

set_option maxRecDepth 100000 in
/-- C25 (failing input): the two-vertex graph built by `addDirectedEdge(0, 1, 2147483647)`
(the weight is `INT_MAX`), source 0. The weight is non-negative and vertex 1 is reachable from
the source by that record, but the relaxation test `alt < v->distance` compares `INT_MAX` with
the initial distance `INT_MAX`: vertex 1 keeps a null father, and the returned graph has no
record at all instead of one record for vertex 1. -/
theorem dijkstra_int_max_edge_no_record :
    ((Graph.mk [Vertex.new 0, Vertex.new 1]).addDirectedEdge 0 1 2147483647) =
      (.ok (), Graph.mk [⟨0, [⟨2147483647, 0, 1⟩], none, 0⟩, ⟨1, [], none, 0⟩]) ∧
    (⟨2147483647, 0, 1⟩ : Edge) ∈
      (Graph.mk [⟨0, [⟨2147483647, 0, 1⟩], none, 0⟩, ⟨1, [], none, 0⟩]).edgesOf 0 ∧
    (dijkstra (Graph.mk [⟨0, [⟨2147483647, 0, 1⟩], none, 0⟩, ⟨1, [], none, 0⟩]) 0).map
        (fun r => (r.1.map Graph.records, r.2.fatherOf 1, r.2.distanceOf 1)) =
      some (.ok [], none, 2147483647) := by
  decide

/-- The result graph of `dijkstra` when no relaxation sum overflows: on a graph whose records
point to vertices of the graph and have non-negative weights, in which every vertex is
reachable from the source and `NoOverflow` holds (the minimum path weight of a vertex plus the
weight of any record that leaves it is below `INT_MAX`), `dijkstra(g, source)` with a valid
source returns a graph `r` with `n - 1` records, each leading to a vertex of the graph other than the source; for each vertex `i`
other than the source, with final father `p`, the records of `r` that lead to `i` are exactly
one record, it is stored with `p`, leads from `p` to `i`, and its weight
`distance(i) - distance(p)` is the weight of a record `p -> i` of the input graph. -/
theorem dijkstra_tree_records (g : Graph) (source : Int)
    (hs0 : 0 ≤ source) (hs : source < g.numVertices)
    (hwf : g.WellFormed) (hnn : g.NonNegative)
    (hreach : ∀ v, v < g.adjList.length → ∃ p, g.IsPath source.toNat v p)
    (hno : NoOverflow g source.toNat) :
    ∃ r g', dijkstra g source = some (.ok r, g') ∧
      r.records.length + 1 = g.adjList.length ∧
      (∀ x ∈ r.records, x.dest < g.adjList.length ∧ x.dest ≠ source.toNat) ∧
      ∀ i, i < g.adjList.length → i ≠ source.toNat →
        ∃ p e, g'.fatherOf i = some p ∧ e ∈ g.edgesOf p ∧ e.dest = i ∧
          e.weight = g'.distanceOf i - g'.distanceOf p ∧
          r.records.filter (fun x => decide (x.dest = i)) =
            [⟨g'.distanceOf i - g'.distanceOf p, p, i⟩] ∧
          (⟨g'.distanceOf i - g'.distanceOf p, p, i⟩ : Edge) ∈ r.edgesOf p := by
  have hsl := toNat_lt_length g source hs0 hs
  obtain ⟨r, g1, hrun, hmin, hsrc0, hfa, -, hperm, hsrc⟩ :=
    dijkstra_tree g source hs0 hs hwf hnn hreach hno
  have hnone : treeRecord g1 source.toNat = none := by
    unfold treeRecord
    rw [hsrc0]
    rfl
  have hrec : ∀ i, i < g.adjList.length → i ≠ source.toNat →
      ∃ p e, g1.fatherOf i = some p ∧ e ∈ g.edgesOf p ∧ e.dest = i ∧
        e.weight = g1.distanceOf i - g1.distanceOf p ∧
        treeRecord g1 i = some ⟨g1.distanceOf i - g1.distanceOf p, p, i⟩ := by
    intro i hi his
    obtain ⟨p, e, hp, hpn, he, hd, hw⟩ := hfa i hi his
    have hw0 := weight_nonneg_of_mem g hnn p e he
    have hp0 := isMinDist_nonneg g hnn _ p _ (hmin p hpn)
    have hov := hno p _ (hmin p hpn) e he
    refine ⟨p, e, hp, he, hd, by omega, ?_⟩
    unfold treeRecord
    rw [hp]
    simp only [Option.map_some']
    rw [wrapInt_eq _ (by omega) (by unfold INT_MAX at hov; omega)]
  refine ⟨r, g1, hrun, ?_, ?_, ?_⟩
  · rw [hperm.length_eq]
    have := length_filterMap_but_one (treeRecord g1) source.toNat hnone
      (List.range g.adjList.length) (List.nodup_range _) (List.mem_range.2 hsl)
      (fun i hi his => by
        obtain ⟨p, e, -, -, -, -, h⟩ := hrec i (List.mem_range.1 hi) his
        exact ⟨_, h⟩)
    rw [this, List.length_range]
  · intro x hx
    rw [hperm.mem_iff, List.mem_filterMap] at hx
    obtain ⟨j, hj, hfj⟩ := hx
    rw [treeRecord_dest g1 j x hfj]
    refine ⟨List.mem_range.1 hj, ?_⟩
    intro hc
    rw [hc, hnone] at hfj
    exact absurd hfj (by simp)
  · intro i hi his
    obtain ⟨p, e, hp, he, hd, hw, htr⟩ := hrec i hi his
    have hfil : r.records.filter (fun x => decide (x.dest = i)) =
        [⟨g1.distanceOf i - g1.distanceOf p, p, i⟩] := by
      have h1 := hperm.filter (fun x => decide (x.dest = i))
      rw [filterMap_dest_single (treeRecord g1) (treeRecord_dest g1) i _ htr
        (List.range g.adjList.length) (List.nodup_range _) (List.mem_range.2 hi)] at h1
      exact List.perm_singleton.1 h1
    refine ⟨p, e, hp, he, hd, hw, hfil, ?_⟩
    have hmem : (⟨g1.distanceOf i - g1.distanceOf p, p, i⟩ : Edge) ∈ r.records := by
      have : (⟨g1.distanceOf i - g1.distanceOf p, p, i⟩ : Edge) ∈
          r.records.filter (fun x => decide (x.dest = i)) := by
        rw [hfil]
        exact List.mem_singleton_self _
      exact (List.mem_filter.1 this).1
    obtain ⟨a, ha⟩ := (mem_records r _).1 hmem
    have hap := hsrc a _ ha
    have hap1 : p = a := hap
    rw [← hap1] at ha
    exact ha

set_option maxRecDepth 100000 in
theorem dijkstra_tree_records_witness :
    (∃ r g', dijkstra dijkstraTestGraph 0 = some (.ok r, g') ∧
      r.records.length + 1 = dijkstraTestGraph.adjList.length ∧
      (∀ x ∈ r.records, x.dest < dijkstraTestGraph.adjList.length ∧
        x.dest ≠ (0 : Int).toNat) ∧
      ∀ i, i < dijkstraTestGraph.adjList.length → i ≠ (0 : Int).toNat →
        ∃ p e, g'.fatherOf i = some p ∧ e ∈ dijkstraTestGraph.edgesOf p ∧ e.dest = i ∧
          e.weight = g'.distanceOf i - g'.distanceOf p ∧
          r.records.filter (fun x => decide (x.dest = i)) =
            [⟨g'.distanceOf i - g'.distanceOf p, p, i⟩] ∧
          (⟨g'.distanceOf i - g'.distanceOf p, p, i⟩ : Edge) ∈ r.edgesOf p) ∧
    (dijkstra dijkstraTestGraph 0).map
        (fun r => (r.1.map Graph.records, r.2.adjList.map Vertex.father)) =
      some (.ok [⟨2, 0, 1⟩, ⟨2, 1, 2⟩, ⟨1, 2, 3⟩], [none, some 0, some 1, some 2]) :=
  ⟨dijkstra_tree_records dijkstraTestGraph 0 (by decide) (by decide)
    (by unfold Graph.WellFormed; decide) (by unfold Graph.NonNegative; decide)
    (fun v hv => (dijkstraTestGraph_reach v hv).imp fun _ hp => hp.1)
    dijkstraTestGraph_noOverflow,
   by decide⟩

end graph

namespace graph
open Graph

/-! ## `dijkstra` where a relaxation sum overflows -/

/-- On the two-vertex graph with the records `0 -> 1` and `1 -> 0` of weight 2147483646 the
minimum path weights from vertex 0 are 0 and 2147483646. -/
theorem backEdgeGraph_minDist :
    IsMinDist (Graph.mk [⟨0, [⟨2147483646, 0, 1⟩], none, 0⟩,
                         ⟨1, [⟨2147483646, 1, 0⟩], none, 0⟩]) 0 0 0 ∧
    IsMinDist (Graph.mk [⟨0, [⟨2147483646, 0, 1⟩], none, 0⟩,
                         ⟨1, [⟨2147483646, 1, 0⟩], none, 0⟩]) 0 1 2147483646 := by
  have hnn : (Graph.mk [⟨0, [⟨2147483646, 0, 1⟩], none, 0⟩,
      ⟨1, [⟨2147483646, 1, 0⟩], none, 0⟩]).NonNegative := by
    unfold Graph.NonNegative
    decide
  refine ⟨⟨⟨[], rfl, rfl⟩, fun p hp => pathWeight_nonneg _ hnn 0 0 p hp⟩,
    ⟨⟨[⟨2147483646, 0, 1⟩], by simp [Graph.IsPath, Graph.edgesOf], rfl⟩, ?_⟩⟩
  intro p hp
  rcases List.eq_nil_or_concat p with rfl | ⟨q, e, rfl⟩
  · exact absurd hp (by simp [Graph.IsPath])
  · rw [List.concat_eq_append, isPath_snoc] at hp
    obtain ⟨m, hm, he, hd⟩ := hp
    have hq := pathWeight_nonneg _ hnn 0 m q hm
    rw [List.concat_eq_append, pathWeight_append, pathWeight_singleton]
    have hw : e.weight = 2147483646 := by
      rcases m with _ | _ | m
      · simp [Graph.edgesOf] at he
        rw [he]
      · simp [Graph.edgesOf] at he
        rw [he]
      · simp [Graph.edgesOf] at he
    omega

set_option maxRecDepth 100000 in
/-- C3 (failing input): the two-vertex graph built by `addEdge(0, 1, 2147483646)`, source 0.
The weights are non-negative, both vertices are reachable from the source and the minimum
path weights, 0 and 2147483646, are below `INT_MAX`. When vertex 1 is extracted, `relaxEdge`
adds the weight of the record `1 -> 0` to its distance: 2147483646 + 2147483646 wraps to -4,
which is below the distance 0 of the source, so the source gets the distance -4 and the
father 1, and `decreaseKey` is called for the source, which has left the heap: `dijkstra`
throws `runtime_error`, and the `distance` field of vertex 0 is -4 instead of 0. -/
theorem dijkstra_back_edge_overflow :
    ((Graph.mk [Vertex.new 0, Vertex.new 1]).addEdge 0 1 2147483646) =
      (.ok (), Graph.mk [⟨0, [⟨2147483646, 0, 1⟩], none, 0⟩,
                          ⟨1, [⟨2147483646, 1, 0⟩], none, 0⟩]) ∧
    (IsMinDist (Graph.mk [⟨0, [⟨2147483646, 0, 1⟩], none, 0⟩,
                          ⟨1, [⟨2147483646, 1, 0⟩], none, 0⟩]) 0 0 0 ∧
      IsMinDist (Graph.mk [⟨0, [⟨2147483646, 0, 1⟩], none, 0⟩,
                           ⟨1, [⟨2147483646, 1, 0⟩], none, 0⟩]) 0 1 2147483646) ∧
    (dijkstra (Graph.mk [⟨0, [⟨2147483646, 0, 1⟩], none, 0⟩,
                         ⟨1, [⟨2147483646, 1, 0⟩], none, 0⟩]) 0).map
        (fun r => (r.1.map Graph.records, r.2.adjList.map Vertex.distance,
          r.2.adjList.map Vertex.father)) =
      some (.error .runtime_error, [-4, 2147483646], [some 1, some 0]) :=
  ⟨by decide, backEdgeGraph_minDist, by decide⟩

set_option maxRecDepth 100000 in
/-- C22 (failing input): the three-vertex graph built by `addEdge(1, 2, 1)`, source 0; all
weights are positive and the source is valid. Vertex 2 is extracted with the distance
`INT_MAX`, and its record `2 -> 1` gives vertex 1 the father 2 (`INT_MAX + 1` wraps to
`INT_MIN`). Then vertex 1 is extracted, the heap is empty, and its record `1 -> 2` gives
vertex 2 the distance `INT_MIN + 1` and the father 1, after which `relaxEdge` calls
`decreaseKey` for vertex 2, which is no longer stored in the heap: the not-found error
`runtime_error` ends `dijkstra`. On the same graph `prim` returns normally. -/
theorem dijkstra_decreaseKey_on_extracted_vertex :
    ((Graph.mk [Vertex.new 0, Vertex.new 1, Vertex.new 2]).addEdge 1 2 1) =
      (.ok (), Graph.mk [⟨0, [], none, 0⟩, ⟨1, [⟨1, 1, 2⟩], none, 0⟩,
                          ⟨2, [⟨1, 2, 1⟩], none, 0⟩]) ∧
    (∀ v ∈ [(⟨0, [], none, 0⟩ : Vertex), ⟨1, [⟨1, 1, 2⟩], none, 0⟩, ⟨2, [⟨1, 2, 1⟩], none, 0⟩],
      ∀ e ∈ v.edges, 0 ≤ e.weight) ∧
    (dijkstra (Graph.mk [⟨0, [], none, 0⟩, ⟨1, [⟨1, 1, 2⟩], none, 0⟩,
                         ⟨2, [⟨1, 2, 1⟩], none, 0⟩]) 0).map
        (fun r => (r.1.map Graph.records, r.2.adjList.map Vertex.father,
          r.2.adjList.map Vertex.distance)) =
      some (.error .runtime_error, [none, some 2, some 1],
        [0, -2147483648, -2147483647]) ∧
    (prim (Graph.mk [⟨0, [], none, 0⟩, ⟨1, [⟨1, 1, 2⟩], none, 0⟩,
                     ⟨2, [⟨1, 2, 1⟩], none, 0⟩])).map (fun r => r.1.map Graph.records) =
      some (.ok [⟨1, 1, 2⟩, ⟨1, 2, 1⟩]) := by
  decide

end graph
